import Mathlib

/-!
# asspf — async-signal-safe print functions

Shallow embedding of `src/asspf/asspf.c`.  The generator of
`src/xoroshiro1024plusplus` and the bit set of `src/bitset` follow the
definitions of `asspf`, each in its own namespace.

Target platform of the embedding (the usual LP64 unix target of the source):
`CHAR_BIT = 8`, `unsigned short` has 16 bits, `int`/`unsigned int` have 32 bits,
`size_t`, `uintmax_t` and `intmax_t` have 64 bits, `uint_leastN_t` has exactly
`N` bits.  Unsigned machine integers are natural numbers reduced modulo `2^w`
where the source can wrap; `intmax_t` is an `Int` in `[-2^63, 2^63)`.

A C string is the list of its characters before the terminating NUL.
A `char` array is a `List Char`; out-of-bounds accesses are undefined in C and
excluded by the well-formedness hypotheses of the theorems.

Loops whose termination depends on the environment or on an argument
(`asspf_sys_write`, `printf_put_repchar`) take a `fuel` argument and return
`none` when it runs out; every other function is total.
-/

namespace Asspf

/-! ## Platform constants -/

/-- The `UINT_MAX` limit of a 32-bit `unsigned int`. -/
def UINT_MAX : Nat := 4294967295

/-- The `INT_MAX` limit of a 32-bit `int`. -/
def INT_MAX : Nat := 2147483647

/-- Number of values of an `unsigned int`. -/
def UINT_MOD : Nat := 4294967296

/-- Number of values of an `unsigned short`. -/
def USHRT_MOD : Nat := 65536

/-- Number of values of `size_t` / `uintmax_t`. -/
def UINTMAX_MOD : Nat := 18446744073709551616

/-- The `(size_t)` cast of an `int`. -/
def size_t_of_int (x : Int) : Nat := (x % (UINTMAX_MOD : Int)).toNat

/-! ## The operating system's `write` -/

/-- Outcome of one call of the system's `write(fd, buf, count)`:
`ok n` — `n` bytes were accepted (never more than `count`);
`again` — it failed with `errno` `EAGAIN` or `EINTR`;
`error` — it failed with any other `errno`. -/
inductive WriteResult where
  | ok (n : Nat)
  | again
  | error
deriving DecidableEq, Repr

/-- The environment: what the `k`-th call of `write`, offered `count` bytes,
answers.  Quantifying over it covers every behaviour of the system. -/
abbrev Os := Nat → Nat → WriteResult

/-- Observable state of the system: the number of `write` calls issued so far
and the bytes it accepted so far, each with the descriptor it went to. -/
structure Sys where
  ncalls : Nat
  out : List (Int × Char)
deriving DecidableEq, Repr

/-- Bytes `bs` as accepted on descriptor `fd`. -/
def on_fd (fd : Int) (bs : List Char) : List (Int × Char) := bs.map (Prod.mk fd)

/-! ## Output buffer -/

/-- The `struct ASSPF_WriteBuf`: `buf` is the caller's storage. -/
structure ASSPF_WriteBuf where
  buf : List Char
  limit : Nat
  nmemb : Nat
  fd : Int
deriving DecidableEq, Repr

/-- The `writebuf_get` constructor. -/
def writebuf_get (buf : List Char) (size : Nat) (fd : Int) : ASSPF_WriteBuf :=
  { buf := buf, limit := size, nmemb := 0, fd := fd }

/-- The `asspf_writebuf_autoinit` initialiser; the `int` returned is the second component. -/
def asspf_writebuf_autoinit (fd : Int) (buf : List Char) (limit : Nat) :
    ASSPF_WriteBuf × Int :=
  (writebuf_get buf limit fd, 0)

/-- The `memcpy(&dest[off], src, |src|)` call, in bounds. -/
def memcpy_at (dest : List Char) (off : Nat) (src : List Char) : List Char :=
  dest.take off ++ src ++ dest.drop (off + src.length)

/-- The `memmove(buf, &buf[from], n)` call, in bounds. -/
def memmove_front (buf : List Char) (src_off n : Nat) : List Char :=
  (buf.drop src_off).take n ++ buf.drop n

/-- The `try_again` loop of `asspf_sys_write`; `retval` is the running total. -/
def asspf_sys_write_loop (os : Os) :
    Nat → Sys → Int → List Char → Nat → Option (Sys × Nat)
  | 0, _, _, _, _ => none
  | fuel + 1, sys, fd, buf_c, retval =>
    match os sys.ncalls buf_c.length with
    | WriteResult.ok n =>
      let result := min n buf_c.length
      let sys1 : Sys := { ncalls := sys.ncalls + 1, out := sys.out ++ on_fd fd (buf_c.take result) }
      if result < buf_c.length then
        asspf_sys_write_loop os fuel sys1 fd (buf_c.drop result) (retval + result)
      else some (sys1, retval + result)
    | WriteResult.again =>
      asspf_sys_write_loop os fuel { ncalls := sys.ncalls + 1, out := sys.out } fd buf_c retval
    | WriteResult.error => some ({ ncalls := sys.ncalls + 1, out := sys.out }, retval)

/-- The `asspf_sys_write` function: returns the number of bytes written. -/
def asspf_sys_write (os : Os) (fuel : Nat) (sys : Sys) (fd : Int) (buf : List Char) :
    Option (Sys × Nat) :=
  asspf_sys_write_loop os fuel sys fd buf 0

/-- The `asspf_flush` function: returns the number of bytes left in the buffer. -/
def asspf_flush (os : Os) (fuel : Nat) (writebuf : ASSPF_WriteBuf) (sys : Sys) :
    Option (ASSPF_WriteBuf × Sys × Nat) :=
  match asspf_sys_write os fuel sys writebuf.fd (writebuf.buf.take writebuf.nmemb) with
  | none => none
  | some (sys1, nbytes_writ) =>
    let writ_diff := (writebuf.nmemb + UINTMAX_MOD - nbytes_writ) % UINTMAX_MOD
    let buf1 := if writ_diff ≠ 0 then memmove_front writebuf.buf nbytes_writ writ_diff
      else writebuf.buf
    some ({ writebuf with buf := buf1, nmemb := writ_diff % USHRT_MOD }, sys1,
      writ_diff % USHRT_MOD)

/-- The `asspf_write` function: returns the number of chars written to the buffer. -/
def asspf_write (os : Os) (fuel : Nat) (writebuf : ASSPF_WriteBuf) (sys : Sys)
    (src : List Char) : Option (ASSPF_WriteBuf × Sys × Nat) :=
  let size := src.length
  let flushed : Option (ASSPF_WriteBuf × Sys × Nat) :=
    if writebuf.nmemb ≠ 0 ∧
        size > size_t_of_int ((writebuf.limit : Int) - (writebuf.nmemb : Int)) then
      asspf_flush os fuel writebuf sys
    else some (writebuf, sys, 0)
  match flushed with
  | none => none
  | some (wb1, sys1, nmemb) =>
    if nmemb ≠ 0 then some (wb1, sys1, 0)
    else if size > wb1.limit then
      match asspf_sys_write os fuel sys1 wb1.fd src with
      | none => none
      | some (sys2, nbytes_writ) => some (wb1, sys2, nbytes_writ)
    else
      some ({ wb1 with buf := memcpy_at wb1.buf wb1.nmemb src,
                       nmemb := (wb1.nmemb + size % USHRT_MOD) % USHRT_MOD }, sys1, size)

/-- The `asspf_puts` function. -/
def asspf_puts (os : Os) (fuel : Nat) (writebuf : ASSPF_WriteBuf) (sys : Sys)
    (s : List Char) : Option (ASSPF_WriteBuf × Sys × Nat) :=
  asspf_write os fuel writebuf sys s

/-- The `asspf_putc` function. -/
def asspf_putc (os : Os) (fuel : Nat) (writebuf : ASSPF_WriteBuf) (sys : Sys)
    (c : Char) : Option (ASSPF_WriteBuf × Sys × Nat) :=
  asspf_write os fuel writebuf sys [c]

/-! ## Small helpers of the formatter -/

/-- The `ilog10p1` loop `while ((limit /= 10u) != 0) ++retval`; it runs at most
`limit` times, which is the bound the first argument counts down. -/
def ilog10p1_loop : Nat → Nat → Nat → Nat
  | 0, _, retval => retval
  | bound + 1, limit, retval =>
    if limit / 10 ≠ 0 then ilog10p1_loop bound (limit / 10) (retval + 1) else retval

/-- The `ilog10p1` function: the number of decimal digits of `limit`. -/
def ilog10p1 (limit : Nat) : Nat := ilog10p1_loop limit limit 1

/-- The `ascii_isdigit` test. -/
def ascii_isdigit (c : Char) : Bool := decide ('0' ≤ c) && decide (c ≤ '9')

/-- The digit-summing loop of `ascii_a2uint`, over `str[ndigits-1], ..., str[0]`
in that order, in `unsigned int` arithmetic. -/
def ascii_a2uint_sum : List Char → Nat → Nat → Nat
  | [], _, number => number
  | c :: cs, power, number =>
    let temp := (power * ((c.toNat - 48) % UINT_MOD)) % UINT_MOD
    if UINT_MAX - number < temp then UINT_MAX
    else ascii_a2uint_sum cs ((power * 10) % UINT_MOD) (number + temp)

/-- The `ascii_a2uint` function on the `limit` characters `str`: `none` is the
error return `0`, `some (number, ndigits)` sets `*dest = number` and returns
`ndigits`. -/
def ascii_a2uint (str : List Char) : Option (Nat × Nat) :=
  let ndigits_max := ilog10p1 UINT_MAX
  let ndigits := (str.takeWhile ascii_isdigit).length
  if ndigits = 0 ∨ ndigits > ndigits_max then none
  else some (ascii_a2uint_sum (str.take ndigits).reverse 1 0, ndigits)

/-! ## Format specifier -/

def FORMATFLAG_NONE : Nat := 0x00
def FORMATFLAG_ALTFORM_C : Nat := 0x01
def FORMATFLAG_ALTFORM_M : Nat := 0x02
def FORMATFLAG_ZERO_PAD : Nat := 0x04
def FORMATFLAG_LEFT_ADJUST : Nat := 0x08
def FORMATFLAG_BLANK_SIGN : Nat := 0x10
def FORMATFLAG_ALWAYS_SIGN : Nat := 0x20
def FORMATFLAG_ALTFORM_ALL : Nat := FORMATFLAG_ALTFORM_C ||| FORMATFLAG_ALTFORM_M

def FORMATFIELDWIDTH_UNSET : Nat := 0
def FORMATPRECISION_UNSET : Nat := 1
def FORMATPRECISION_NATURAL : Nat := 0

/-- The `enum FormatConvSpec_Int`. -/
inductive FormatConvSpec_Int where
  | UNSET
  | d
  | u
  | b
  | o
  | x
  | X
deriving DecidableEq, Repr

/-- The `struct ItemFormat_Int`. -/
structure ItemFormat_Int where
  flags : Nat
  fieldwidth : Nat
  precision : Nat
  convspec : FormatConvSpec_Int
deriving DecidableEq, Repr

/-- The `itemformat_int_get` constructor. -/
def itemformat_int_get (flags fieldwidth precision : Nat) (convspec : FormatConvSpec_Int) :
    ItemFormat_Int :=
  { flags := flags, fieldwidth := fieldwidth, precision := precision, convspec := convspec }

/-! ## Format scanner

Each phase gets the unread rest of the format (the pointer `&format[format_idx]`
with `format_len - format_idx`) and returns `none` for `SIZE_MAX`, else the
value stored through the out-pointer and the number of bytes processed. -/

/-- The flag a character selects in the `switch` of `format_scan_flags`. -/
def format_flag_of (c : Char) : Option Nat :=
  if c = '#' then some FORMATFLAG_ALTFORM_C
  else if c = '$' then some FORMATFLAG_ALTFORM_M
  else if c = '0' then some FORMATFLAG_ZERO_PAD
  else if c = '-' then some FORMATFLAG_LEFT_ADJUST
  else if c = ' ' then some FORMATFLAG_BLANK_SIGN
  else if c = '+' then some FORMATFLAG_ALWAYS_SIGN
  else none

/-- The `get_flag` loop of `format_scan_flags`. -/
def format_scan_flags_loop : List Char → Nat → Nat → Option (Nat × Nat)
  | [], _, _ => none
  | c :: rest, format_idx, format_flags =>
    match format_flag_of c with
    | some flag =>
      if format_flags &&& flag ≠ 0 then none
      else format_scan_flags_loop rest (format_idx + 1) (format_flags ||| flag)
    | none => some (format_flags, format_idx)

/-- The `format_scan_flags` phase. -/
def format_scan_flags (format : List Char) : Option (Nat × Nat) :=
  format_scan_flags_loop format 0 FORMATFLAG_NONE

/-- The `SET_FORMATFIELD_A2INT` step at `format_idx`: the field and the new index. -/
def set_formatfield_a2int (format : List Char) (format_idx : Nat) : Option (Nat × Nat) :=
  match ascii_a2uint (format.drop format_idx) with
  | none => none
  | some (field, ndigits) =>
    if field > INT_MAX then none else some (field, format_idx + ndigits)

/-- The `format_scan_fieldwidth` phase. -/
def format_scan_fieldwidth (format : List Char) : Option (Nat × Nat) :=
  match format with
  | [] => none
  | c :: _ =>
    if ascii_isdigit c then set_formatfield_a2int format 0
    else some (FORMATFIELDWIDTH_UNSET, 0)

/-- The `format_scan_precision` phase. -/
def format_scan_precision (format : List Char) : Option (Nat × Nat) :=
  match format with
  | [] => none
  | c :: rest =>
    if c = '.' then
      match rest with
      | [] => none
      | c1 :: _ =>
        if ascii_isdigit c1 then set_formatfield_a2int format 1 else none
    else some (FORMATPRECISION_UNSET, 0)

/-- The `format_scan_convspec_int` phase. -/
def format_scan_convspec_int (format : List Char) : Option (FormatConvSpec_Int × Nat) :=
  match format with
  | [] => none
  | c :: _ =>
    if c = 'd' then some (FormatConvSpec_Int.d, 1)
    else if c = 'u' then some (FormatConvSpec_Int.u, 1)
    else if c = 'b' then some (FormatConvSpec_Int.b, 1)
    else if c = 'o' then some (FormatConvSpec_Int.o, 1)
    else if c = 'x' then some (FormatConvSpec_Int.x, 1)
    else if c = 'X' then some (FormatConvSpec_Int.X, 1)
    else none

/-- The `format_scan_int` function: `none` is the error return `1`, `some`
carries the record stored in `*itemfmt` when it returns `0`. -/
def format_scan_int (format : List Char) : Option ItemFormat_Int :=
  let format_len := format.length
  match format_scan_flags format with
  | none => none
  | some (format_flags, n1) =>
    match format_scan_fieldwidth (format.drop n1) with
    | none => none
    | some (format_fieldwidth, n2) =>
      match format_scan_precision (format.drop (n1 + n2)) with
      | none => none
      | some (format_precision, n3) =>
        match format_scan_convspec_int (format.drop (n1 + n2 + n3)) with
        | none => none
        | some (format_convspec, n4) =>
          if n1 + n2 + n3 + n4 ≠ format_len then none
          else some (itemformat_int_get format_flags format_fieldwidth format_precision
            format_convspec)

/-! ## Integer renderer: arithmetic helpers -/

/-- The `(uintmax_t)` cast of an `intmax_t`. -/
def uintmax_of (x : Int) : Nat := (x % (UINTMAX_MOD : Int)).toNat

/-- The `(intmax_t)` cast of a `uintmax_t` (two's complement). -/
def intmax_of (u : Nat) : Int :=
  if u % UINTMAX_MOD < UINTMAX_MOD / 2 then ((u % UINTMAX_MOD : Nat) : Int)
  else ((u % UINTMAX_MOD : Nat) : Int) - (UINTMAX_MOD : Int)

/-- The `asr_imax` function; `has_asr` is the value of `HAS_ASR(intmax_t)` on the
target: the native arithmetic shift, or the portable expression. -/
def asr_imax (has_asr : Bool) (x : Int) (k : Nat) : Int :=
  if has_asr then x >>> k
  else if x < 0 then
    intmax_of (UINTMAX_MOD - 1 - ((UINTMAX_MOD - 1 - uintmax_of x) / 2 ^ k))
  else intmax_of (uintmax_of x / 2 ^ k)

/-- The `asl_imax` function. -/
def asl_imax (x : Int) (k : Nat) : Int :=
  intmax_of ((uintmax_of x * 2 ^ k) % UINTMAX_MOD)

/-- The `abs_imax` function. -/
def abs_imax (x : Int) : Nat :=
  if x < 0 then (UINTMAX_MOD - uintmax_of x) % UINTMAX_MOD else uintmax_of x

/-- The `printf_read_raw_d` function; `shift_cnt` is a `uint_fast8_t`. -/
def printf_read_raw_d (has_asr : Bool) (value value_size : Nat) : Int :=
  let shift_cnt := ((8 - value_size) * 8) % 256
  asr_imax has_asr (asl_imax (intmax_of value) shift_cnt) shift_cnt

/-! ## Integer renderer: digit generators

Each generator returns the characters it stored in `dest[dest_size - k .. dest_size)`
(`k` the number of characters written) and its return value. -/

/-- The `printf_w2b_u` generator: the first loop iteration stores the last digit. -/
def printf_w2b_u : Nat → Nat → List Char × Nat
  | 0, _ => ([], 0)
  | dest_size + 1, value =>
    let digit := (value % 10) % 256
    let r := printf_w2b_u dest_size (value / 10)
    (r.1 ++ [Char.ofNat (48 + digit)], r.2 + 1)

/-- The `printf_w2b_b_nibble` table lookup. -/
def printf_w2b_b_nibble (value : Nat) : List Char × Nat :=
  let str : List (List Char) := [
    ['0','0','0','0'], ['0','0','0','1'],
    ['0','0','1','0'], ['0','0','1','1'],
    ['0','1','0','0'], ['0','1','0','1'],
    ['0','1','1','0'], ['0','1','1','1'],
    ['1','0','0','0'], ['1','0','0','1'],
    ['1','0','1','0'], ['1','0','1','1'],
    ['1','1','0','0'], ['1','1','0','1'],
    ['1','1','1','0'], ['1','1','1','1']]
  (str.getD (value % 16) [], 4)

/-- The loop of `printf_w2b_b`, by the number of iterations left. -/
def printf_w2b_b_loop : Nat → Nat → List Char × Nat
  | 0, _ => ([], 0)
  | n + 1, value =>
    let nib := printf_w2b_b_nibble (value % 256)
    let r := printf_w2b_b_loop n (value / 16)
    (r.1 ++ nib.1, r.2 + nib.2)

/-- The `printf_w2b_b` generator: `i` runs over `4, 8, ...` while `i <= dest_size`. -/
def printf_w2b_b (dest_size value : Nat) : List Char × Nat :=
  printf_w2b_b_loop (dest_size / 4) value

/-- The `printf_w2b_o` generator. -/
def printf_w2b_o : Nat → Nat → List Char × Nat
  | 0, _ => ([], 0)
  | dest_size + 1, value =>
    let digit := (value % 8) % 256
    let r := printf_w2b_o dest_size (value / 8)
    (r.1 ++ [Char.ofNat (48 + digit)], r.2 + 1)

/-- The `printf_w2b_x_nibble` table lookup. -/
def printf_w2b_x_nibble (value : Nat) : List Char × Nat :=
  let c : List Char := "0123456789abcdef".toList
  ([c.getD (value % 16) '0'], 1)

/-- The `printf_w2b_x` generator. -/
def printf_w2b_x : Nat → Nat → List Char × Nat
  | 0, _ => ([], 0)
  | dest_size + 1, value =>
    let nib := printf_w2b_x_nibble (value % 256)
    let r := printf_w2b_x dest_size (value / 16)
    (r.1 ++ nib.1, r.2 + nib.2)

/-- The `printf_w2b_X_nibble` table lookup. -/
def printf_w2b_X_nibble (value : Nat) : List Char × Nat :=
  let c : List Char := "0123456789ABCDEF".toList
  ([c.getD (value % 16) '0'], 1)

/-- The `printf_w2b_X` generator. -/
def printf_w2b_X : Nat → Nat → List Char × Nat
  | 0, _ => ([], 0)
  | dest_size + 1, value =>
    let nib := printf_w2b_X_nibble (value % 256)
    let r := printf_w2b_X dest_size (value / 16)
    (r.1 ++ nib.1, r.2 + nib.2)

/-- The `printf_ndigits_max` function. -/
def printf_ndigits_max (value_size : Nat) (convspec : FormatConvSpec_Int) : Nat :=
  match convspec with
  | FormatConvSpec_Int.UNSET => 0
  | FormatConvSpec_Int.d =>
    if value_size ≤ 1 then ilog10p1 127
    else if value_size ≤ 2 then ilog10p1 32767
    else if value_size ≤ 4 then ilog10p1 2147483647
    else if value_size ≤ 8 then ilog10p1 9223372036854775807
    else ilog10p1 9223372036854775807
  | FormatConvSpec_Int.u =>
    if value_size ≤ 1 then ilog10p1 255
    else if value_size ≤ 2 then ilog10p1 65535
    else if value_size ≤ 4 then ilog10p1 4294967295
    else if value_size ≤ 8 then ilog10p1 18446744073709551615
    else ilog10p1 18446744073709551615
  | FormatConvSpec_Int.b => 8 * value_size
  | FormatConvSpec_Int.o => 3 * value_size
  | FormatConvSpec_Int.x => 2 * value_size
  | FormatConvSpec_Int.X => 2 * value_size

/-- The `printf_ndigits_base` function on `buf[0 .. buf_size)`. -/
def printf_ndigits_base (buf : List Char) (buf_size : Nat) : Nat :=
  let i := ((buf.take buf_size).takeWhile (fun c => c = '0')).length
  if i ≠ buf_size then buf_size - i else 1

/-! ## Integer renderer: sigil -/

/-- The `printf_flag_sigil_int_c` function: the bytes stored in `dest`; the
return value is their number. -/
def printf_flag_sigil_int_c (convspec : FormatConvSpec_Int) : List Char :=
  match convspec with
  | FormatConvSpec_Int.UNSET => []
  | FormatConvSpec_Int.d => []
  | FormatConvSpec_Int.u => []
  | FormatConvSpec_Int.b => ['0', 'b']
  | FormatConvSpec_Int.o => ['0']
  | FormatConvSpec_Int.x => ['0', 'x']
  | FormatConvSpec_Int.X => ['0', 'x']

/-- The `printf_flag_sigil_int_m` function: the bytes stored in `dest`; the
return value is their number. -/
def printf_flag_sigil_int_m (convspec : FormatConvSpec_Int) : List Char :=
  match convspec with
  | FormatConvSpec_Int.UNSET => []
  | FormatConvSpec_Int.d => ['#']
  | FormatConvSpec_Int.u => ['#']
  | FormatConvSpec_Int.b => ['%']
  | FormatConvSpec_Int.o => ['@']
  | FormatConvSpec_Int.x => ['$']
  | FormatConvSpec_Int.X => ['$']

/-- The `printf_flag_sigil_int` function. -/
def printf_flag_sigil_int (itemfmt : ItemFormat_Int) : List Char :=
  if itemfmt.flags &&& FORMATFLAG_ALTFORM_C ≠ 0 then
    printf_flag_sigil_int_c itemfmt.convspec
  else if itemfmt.flags &&& FORMATFLAG_ALTFORM_M ≠ 0 then
    printf_flag_sigil_int_m itemfmt.convspec
  else []

/-! ## Integer renderer: pad runs -/

/-- Running state of a formatting call: the buffer, the system, and `retval`. -/
abbrev PrintState := ASSPF_WriteBuf × Sys × Nat

/-- The statement `retval += asspf_write(writebuf, src, |src|)`. -/
def retval_add_write (os : Os) (fuel : Nat) (src : List Char) (st : PrintState) :
    Option PrintState :=
  match asspf_write os fuel st.1 st.2.1 src with
  | none => none
  | some (wb1, sys1, n) => some (wb1, sys1, st.2.2 + n)

/-- The inner `for ( ; count >= size; count -= size )` loop of
`printf_put_repchar`; returns the state and the remaining `count`. -/
def printf_put_repchar_for (os : Os) :
    Nat → Char → Nat → Nat → PrintState → Option (PrintState × Nat)
  | 0, _, _, _, _ => none
  | fuel + 1, c, size, count, st =>
    if count ≥ size then
      match retval_add_write os fuel (List.replicate size c) st with
      | none => none
      | some st1 => printf_put_repchar_for os fuel c size (count - size) st1
    else some (st, count)

/-- The outer `do ... while ( count != 0 )` loop of `printf_put_repchar`. -/
def printf_put_repchar_do (os : Os) :
    Nat → Char → Nat → Nat → PrintState → Option PrintState
  | 0, _, _, _, _ => none
  | fuel + 1, c, size, count, st =>
    let size1 := if count > size then size else count
    match printf_put_repchar_for os fuel c size1 count st with
    | none => none
    | some (st1, count1) =>
      if count1 ≠ 0 then printf_put_repchar_do os fuel c size1 count1 st1
      else some st1

/-- The `printf_put_repchar` function, with `cbuf` 64 copies of `c`. -/
def printf_put_repchar (os : Os) (fuel : Nat) (writebuf : ASSPF_WriteBuf) (sys : Sys)
    (c : Char) (count : Nat) : Option (ASSPF_WriteBuf × Sys × Nat) :=
  printf_put_repchar_do os fuel c 64 count (writebuf, sys, 0)

/-- The statement `retval += printf_put_repchar(writebuf, c, count)`. -/
def retval_add_repchar (os : Os) (fuel : Nat) (c : Char) (count : Nat) (st : PrintState) :
    Option PrintState :=
  match printf_put_repchar os fuel st.1 st.2.1 c count with
  | none => none
  | some (wb1, sys1, n) => some (wb1, sys1, st.2.2 + n)

/-! ## Integer renderer: `printf_int_body` -/

/-- The locals of `printf_int_body` when it starts to emit (source line 1358). -/
structure PrintfIntLocals where
  digit_buf : List Char
  ndigits_max : Nat
  ndigits : Nat
  sigil_buf : List Char
  sign_c : Char
  sign_size : Nat
  precision_pad : Nat
  printed_size : Nat
  adjust_type : Int
  adjust_size : Nat
  adjust_c : Char
deriving DecidableEq, Repr

/-- The `base number` switch of `printf_int_body`: the digit workspace
`digit_buf[0 .. ndigits_max)` and `sign_c` (NUL stands for the uninitialised
`sign_c` of the unsigned conversions, which no statement reads). -/
def printf_int_base (has_asr : Bool) (convspec : FormatConvSpec_Int) (ndigits_max : Nat)
    (value value_size : Nat) : List Char × Char :=
  match convspec with
  | FormatConvSpec_Int.UNSET => ([], '\x00')
  | FormatConvSpec_Int.d =>
    let value1 := uintmax_of (printf_read_raw_d has_asr value value_size)
    let sign_c := if intmax_of value1 < 0 then '-' else '+'
    let value2 := abs_imax (intmax_of value1)
    ((printf_w2b_u ndigits_max value2).1, sign_c)
  | FormatConvSpec_Int.u => ((printf_w2b_u ndigits_max value).1, '\x00')
  | FormatConvSpec_Int.b => ((printf_w2b_b ndigits_max value).1, '\x00')
  | FormatConvSpec_Int.o => ((printf_w2b_o ndigits_max value).1, '\x00')
  | FormatConvSpec_Int.x => ((printf_w2b_x ndigits_max value).1, '\x00')
  | FormatConvSpec_Int.X => ((printf_w2b_X ndigits_max value).1, '\x00')

/-- The `sign` switch of `printf_int_body`: the final `sign_c` and `sign_size`. -/
def printf_int_sign (itemfmt : ItemFormat_Int) (sign_c : Char) : Char × Nat :=
  if itemfmt.convspec = FormatConvSpec_Int.d then
    if sign_c = '-' then (sign_c, 1)
    else if sign_c = '+' then
      if itemfmt.flags &&& FORMATFLAG_ALWAYS_SIGN ≠ 0 then (sign_c, 1)
      else if itemfmt.flags &&& FORMATFLAG_BLANK_SIGN ≠ 0 then (' ', 1)
      else (sign_c, 0)
    else (sign_c, 0)
  else (sign_c, 0)

/-- The `precision calculation` of `printf_int_body`: `ndigits` and `precision_pad`. -/
def printf_int_precision (itemfmt : ItemFormat_Int) (digit_buf : List Char)
    (ndigits_max : Nat) : Nat × Nat :=
  let ndigits := printf_ndigits_base digit_buf ndigits_max % UINT_MOD
  if itemfmt.precision = FORMATPRECISION_NATURAL then (ndigits_max % UINT_MOD, 0)
  else if itemfmt.precision > ndigits then
    if itemfmt.precision > ndigits_max % UINT_MOD then
      (ndigits_max % UINT_MOD, itemfmt.precision - ndigits_max % UINT_MOD)
    else (itemfmt.precision, 0)
  else (ndigits, 0)

/-- The part of `printf_int_body` before the first write (source lines 1266-1356). -/
def printf_int_locals (has_asr : Bool) (itemfmt : ItemFormat_Int) (value value_size : Nat) :
    PrintfIntLocals :=
  let ndigits_max := printf_ndigits_max value_size itemfmt.convspec
  let base := printf_int_base has_asr itemfmt.convspec ndigits_max value value_size
  let sigil_buf := if itemfmt.flags &&& FORMATFLAG_ALTFORM_ALL ≠ 0 then
    printf_flag_sigil_int itemfmt else []
  let sign := printf_int_sign itemfmt base.2
  let prec := printf_int_precision itemfmt base.1 ndigits_max
  let printed_size := sigil_buf.length + sign.2 + prec.2 + prec.1
  let adjust := printed_size < itemfmt.fieldwidth
  { digit_buf := base.1
    ndigits_max := ndigits_max
    ndigits := prec.1
    sigil_buf := sigil_buf
    sign_c := sign.1
    sign_size := sign.2
    precision_pad := prec.2
    printed_size := printed_size
    adjust_type := if adjust then
        (if itemfmt.flags &&& FORMATFLAG_LEFT_ADJUST = 0 then 1 else -1) else 0
    adjust_size := if adjust then itemfmt.fieldwidth - printed_size else 0
    adjust_c := if adjust then
        (if itemfmt.flags &&& FORMATFLAG_ZERO_PAD = 0 then ' ' else '0') else '\x00' }

/-- The `PRINTFINT_WRITE_SIGIL` step. -/
def printfint_write_sigil (os : Os) (fuel : Nat) (l : PrintfIntLocals) (st : PrintState) :
    Option PrintState :=
  if l.sigil_buf.length ≠ 0 then retval_add_write os fuel l.sigil_buf st else some st

/-- The `PRINTFINT_WRITE_SIGN` step. -/
def printfint_write_sign (os : Os) (fuel : Nat) (itemfmt : ItemFormat_Int)
    (l : PrintfIntLocals) (st : PrintState) : Option PrintState :=
  if itemfmt.convspec = FormatConvSpec_Int.d ∧ l.sign_size ≠ 0 then
    retval_add_write os fuel [l.sign_c] st
  else some st

/-- The statements `sigil & sign 1`, `right adjustment`, `sigil & sign 2` of
`printf_int_body` (source lines 1360-1373). -/
def printf_int_emit_head (os : Os) (fuel : Nat) (itemfmt : ItemFormat_Int)
    (l : PrintfIntLocals) (st0 : PrintState) : Option PrintState :=
  -- sigil & sign 1
  (if l.adjust_type > 0 ∧ l.adjust_c = '0' then
    (printfint_write_sigil os fuel l st0).bind (printfint_write_sign os fuel itemfmt l)
   else some st0).bind fun st1 =>
  -- right adjustment
  (if l.adjust_type > 0 then retval_add_repchar os fuel l.adjust_c l.adjust_size st1
   else some st1).bind fun st2 =>
  -- sigil & sign 2
  if l.adjust_type ≤ 0 ∨ l.adjust_c = ' ' then
    (printfint_write_sigil os fuel l st2).bind (printfint_write_sign os fuel itemfmt l)
  else some st2

/-- The statements `precision padding` and `base` of `printf_int_body`
(source lines 1374-1383): the digit part. -/
def printf_int_emit_digits (os : Os) (fuel : Nat) (l : PrintfIntLocals)
    (st3 : PrintState) : Option PrintState :=
  -- precision padding
  (if l.precision_pad ≠ 0 then retval_add_repchar os fuel '0' l.precision_pad st3
   else some st3).bind fun st4 =>
  -- base
  retval_add_write os fuel
    ((l.digit_buf.drop (l.ndigits_max - l.ndigits)).take l.ndigits) st4

/-- The statement `left adjustment` of `printf_int_body` (source lines 1384-1387). -/
def printf_int_emit_tail (os : Os) (fuel : Nat) (l : PrintfIntLocals)
    (st5 : PrintState) : Option PrintState :=
  if l.adjust_type < 0 then retval_add_repchar os fuel ' ' l.adjust_size st5
  else some st5

/-- The emitting part of `printf_int_body` (source lines 1360-1389). -/
def printf_int_emit (os : Os) (fuel : Nat) (itemfmt : ItemFormat_Int) (l : PrintfIntLocals)
    (st0 : PrintState) : Option PrintState :=
  (printf_int_emit_head os fuel itemfmt l st0).bind fun st3 =>
  (printf_int_emit_digits os fuel l st3).bind fun st5 =>
  printf_int_emit_tail os fuel l st5

/-- The `printf_int_body` function. -/
def printf_int_body (has_asr : Bool) (os : Os) (fuel : Nat) (writebuf : ASSPF_WriteBuf)
    (sys : Sys) (itemfmt : ItemFormat_Int) (value value_size : Nat) :
    Option (ASSPF_WriteBuf × Sys × Nat) :=
  printf_int_emit os fuel itemfmt (printf_int_locals has_asr itemfmt value value_size)
    (writebuf, sys, 0)

/-- The `printf_int` function. -/
def printf_int (has_asr : Bool) (os : Os) (fuel : Nat) (writebuf : ASSPF_WriteBuf)
    (sys : Sys) (format : List Char) (value value_size : Nat) :
    Option (ASSPF_WriteBuf × Sys × Nat) :=
  match format_scan_int format with
  | none => some (writebuf, sys, 0)
  | some itemfmt =>
    match itemfmt.convspec with
    | FormatConvSpec_Int.UNSET => some (writebuf, sys, 0)
    | _ => printf_int_body has_asr os fuel writebuf sys itemfmt value value_size

/-! ## Per-width entry points (`value` is a `uint_leastN_t`) -/

/-- The `asspf_printf_int8least` entry point. -/
def asspf_printf_int8least (has_asr : Bool) (os : Os) (fuel : Nat)
    (writebuf : ASSPF_WriteBuf) (sys : Sys) (format : List Char) (value : Nat) :
    Option (ASSPF_WriteBuf × Sys × Nat) :=
  printf_int has_asr os fuel writebuf sys format (value % 2 ^ 8) 1

/-- The `asspf_printf_int16least` entry point. -/
def asspf_printf_int16least (has_asr : Bool) (os : Os) (fuel : Nat)
    (writebuf : ASSPF_WriteBuf) (sys : Sys) (format : List Char) (value : Nat) :
    Option (ASSPF_WriteBuf × Sys × Nat) :=
  printf_int has_asr os fuel writebuf sys format (value % 2 ^ 16) 2

/-- The `asspf_printf_int32least` entry point. -/
def asspf_printf_int32least (has_asr : Bool) (os : Os) (fuel : Nat)
    (writebuf : ASSPF_WriteBuf) (sys : Sys) (format : List Char) (value : Nat) :
    Option (ASSPF_WriteBuf × Sys × Nat) :=
  printf_int has_asr os fuel writebuf sys format (value % 2 ^ 32) 4

/-- The `asspf_printf_int64least` entry point. -/
def asspf_printf_int64least (has_asr : Bool) (os : Os) (fuel : Nat)
    (writebuf : ASSPF_WriteBuf) (sys : Sys) (format : List Char) (value : Nat) :
    Option (ASSPF_WriteBuf × Sys × Nat) :=
  printf_int has_asr os fuel writebuf sys format (value % 2 ^ 64) 8

/-! ## Notions used to state the properties -/

/-- The system on which every `write` accepts all the bytes it is offered. -/
def os_full : Os := fun _ count => WriteResult.ok count

/-- The bytes that have left the caller, in order: those the system accepted,
then those still waiting in the buffer. -/
def emitted (writebuf : ASSPF_WriteBuf) (sys : Sys) : List (Int × Char) :=
  sys.out ++ on_fd writebuf.fd (writebuf.buf.take writebuf.nmemb)

/-- Well-formed buffer: the storage has `limit` bytes, `limit` is an
`unsigned short`, and the buffered count is within the capacity. -/
def writebuf_wf (writebuf : ASSPF_WriteBuf) : Prop :=
  writebuf.buf.length = writebuf.limit ∧ writebuf.limit < USHRT_MOD ∧
    writebuf.nmemb ≤ writebuf.limit

instance (writebuf : ASSPF_WriteBuf) : Decidable (writebuf_wf writebuf) := by
  unfold writebuf_wf; infer_instance

/-- The sign glyph a call writes: `sign_c` when `PRINTFINT_WRITE_SIGN` fires. -/
def sign_bytes (itemfmt : ItemFormat_Int) (l : PrintfIntLocals) : List Char :=
  if itemfmt.convspec = FormatConvSpec_Int.d ∧ l.sign_size ≠ 0 then [l.sign_c] else []

/-- The digit sequence a call writes: `digit_buf[ndigits_max - ndigits .. ndigits_max)`. -/
def digit_bytes (l : PrintfIntLocals) : List Char :=
  (l.digit_buf.drop (l.ndigits_max - l.ndigits)).take l.ndigits

/-- The natural digit sequence of a value under a conversion: the digit
sequence written when the precision is unset. -/
def natural_digits (has_asr : Bool) (convspec : FormatConvSpec_Int) (value value_size : Nat) :
    List Char :=
  digit_bytes (printf_int_locals has_asr
    (itemformat_int_get FORMATFLAG_NONE FORMATFIELDWIDTH_UNSET FORMATPRECISION_UNSET convspec)
    value value_size)

/-- Content length `L` of a call: sigil, sign, precision zeros and digits. -/
def content_length (itemfmt : ItemFormat_Int) (l : PrintfIntLocals) : Nat :=
  l.sigil_buf.length + (sign_bytes itemfmt l).length + l.precision_pad +
    (digit_bytes l).length

/-- Value of an ASCII digit character (either case for hexadecimal). -/
def digit_value (c : Char) : Nat :=
  if '0' ≤ c ∧ c ≤ '9' then c.toNat - 48
  else if 'a' ≤ c ∧ c ≤ 'f' then c.toNat - 87
  else if 'A' ≤ c ∧ c ≤ 'F' then c.toNat - 55
  else 0

/-- Value of a digit string read in base `base`, most significant digit first. -/
def read_base (base : Nat) (digits : List Char) : Nat :=
  digits.foldl (fun acc c => acc * base + digit_value c) 0

/-- Base of a conversion. -/
def conv_base (convspec : FormatConvSpec_Int) : Nat :=
  match convspec with
  | FormatConvSpec_Int.UNSET => 0
  | FormatConvSpec_Int.d => 10
  | FormatConvSpec_Int.u => 10
  | FormatConvSpec_Int.b => 2
  | FormatConvSpec_Int.o => 8
  | FormatConvSpec_Int.x => 16
  | FormatConvSpec_Int.X => 16

/-! ## Further notions of the statements and proofs -/

/-- Relation between the states before and after a step that puts `bytes`:
the buffer stays well formed with the same capacity and descriptor, `bytes`
are appended to the emitted bytes, and `retval` grows by their number. -/
def Appends (st st1 : PrintState) (bytes : List Char) : Prop :=
  writebuf_wf st1.1 ∧ st1.1.limit = st.1.limit ∧ st1.1.fd = st.1.fd ∧
    emitted st1.1 st1.2.1 = emitted st.1 st.2.1 ++ on_fd st.1.fd bytes ∧
    st1.2.2 = st.2.2 + bytes.length

/-- Bytes of the sigil and the sign, in the order the two macros write them. -/
def sigil_sign_bytes (itemfmt : ItemFormat_Int) (l : PrintfIntLocals) : List Char :=
  l.sigil_buf ++ sign_bytes itemfmt l

/-- Bytes written by `printf_int_emit_head`. -/
def head_bytes (itemfmt : ItemFormat_Int) (l : PrintfIntLocals) : List Char :=
  (if l.adjust_type > 0 ∧ l.adjust_c = '0' then sigil_sign_bytes itemfmt l else []) ++
  (if l.adjust_type > 0 then List.replicate l.adjust_size l.adjust_c else []) ++
  (if l.adjust_type ≤ 0 ∨ l.adjust_c = ' ' then sigil_sign_bytes itemfmt l else [])

/-- Bytes written by `printf_int_emit_digits`: the digit part. -/
def digit_part (l : PrintfIntLocals) : List Char :=
  List.replicate l.precision_pad '0' ++ digit_bytes l

/-- Bytes written by `printf_int_emit_tail`. -/
def tail_bytes (l : PrintfIntLocals) : List Char :=
  if l.adjust_type < 0 then List.replicate l.adjust_size ' ' else []

/-- Digit alphabet of a conversion, in the order of the digit values. -/
def conv_digits (convspec : FormatConvSpec_Int) : List Char :=
  match convspec with
  | FormatConvSpec_Int.UNSET => []
  | FormatConvSpec_Int.d => "0123456789".toList
  | FormatConvSpec_Int.u => "0123456789".toList
  | FormatConvSpec_Int.b => "01".toList
  | FormatConvSpec_Int.o => "01234567".toList
  | FormatConvSpec_Int.x => "0123456789abcdef".toList
  | FormatConvSpec_Int.X => "0123456789ABCDEF".toList

/-- The raw writer completes on the system `os` within `fuel0` steps: from
every state of the system, `asspf_sys_write` returns, with any fuel from
`fuel0` on, having written every byte it was given. -/
def raw_writer_full (os : Os) (fuel0 : Nat) : Prop :=
  ∀ (fuel : Nat) (sys : Sys) (fd : Int) (buf : List Char), fuel0 ≤ fuel →
    ∃ sys1, asspf_sys_write os fuel sys fd buf = some (sys1, buf.length)

/-- A system whose `write` fails with `EAGAIN` on every even call and accepts
all the bytes offered on every odd call. -/
def os_retry : Os := fun k count =>
  if k % 2 = 0 then WriteResult.again else WriteResult.ok count

/-! ## Notions of the sign, sigil and scanner properties -/

/-- The sign glyph as the specification words it: `-` for a negative value
under `d`; for a non-negative one `+` with the force-sign flag, else a space
with the blank-sign flag, else nothing; nothing under any other conversion.
The value is the bit pattern of width `value_size`: it is negative when its
top bit is set. -/
def spec_sign_glyph (itemfmt : ItemFormat_Int) (value value_size : Nat) : List Char :=
  if itemfmt.convspec = FormatConvSpec_Int.d then
    if 2 ^ (8 * value_size - 1) ≤ value then ['-']
    else if itemfmt.flags &&& FORMATFLAG_ALWAYS_SIGN ≠ 0 then ['+']
    else if itemfmt.flags &&& FORMATFLAG_BLANK_SIGN ≠ 0 then [' ']
    else []
  else []

/-- The alternate-form sigil as the specification tables it: the conventional
prefix with the `#` flag, the one-character marker with the `$` flag alone,
nothing with neither. -/
def spec_sigil (itemfmt : ItemFormat_Int) : List Char :=
  if itemfmt.flags &&& FORMATFLAG_ALTFORM_C ≠ 0 then
    match itemfmt.convspec with
    | FormatConvSpec_Int.b => ['0', 'b']
    | FormatConvSpec_Int.o => ['0']
    | FormatConvSpec_Int.x => ['0', 'x']
    | FormatConvSpec_Int.X => ['0', 'x']
    | _ => []
  else if itemfmt.flags &&& FORMATFLAG_ALTFORM_M ≠ 0 then
    match itemfmt.convspec with
    | FormatConvSpec_Int.d => ['#']
    | FormatConvSpec_Int.u => ['#']
    | FormatConvSpec_Int.b => ['%']
    | FormatConvSpec_Int.o => ['@']
    | FormatConvSpec_Int.x => ['$']
    | FormatConvSpec_Int.X => ['$']
    | FormatConvSpec_Int.UNSET => []
  else []

/-- The six flag characters of the format language. -/
def flag_chars : List Char := ['#', '$', '0', '-', ' ', '+']

/-- The bit a flag character stands for (0 for any other character). -/
def flag_bit (c : Char) : Nat := (format_flag_of c).getD 0

/-- The flag set of a sequence of flag characters: the bits of its members. -/
def flags_of (F : List Char) : Nat := F.foldl (fun acc c => acc ||| flag_bit c) 0

/-- The conversion letters and the kind each names. -/
def conv_letters : List (Char × FormatConvSpec_Int) :=
  [('d', FormatConvSpec_Int.d), ('u', FormatConvSpec_Int.u), ('b', FormatConvSpec_Int.b),
   ('o', FormatConvSpec_Int.o), ('x', FormatConvSpec_Int.x), ('X', FormatConvSpec_Int.X)]

/-- The text of an optional precision: nothing, or `.` and its digits. -/
def precision_text (P : Option (List Char)) : List Char :=
  match P with
  | none => []
  | some D => '.' :: D

/-- The value of an optional precision: the unset sentinel, or the decimal
value of its digits. -/
def precision_value (P : Option (List Char)) : Nat :=
  match P with
  | none => FORMATPRECISION_UNSET
  | some D => read_base 10 D

/-- A digit run: one or more decimal digits. -/
def digit_run (D : List Char) : Prop := D ≠ [] ∧ ∀ c ∈ D, ascii_isdigit c = true

instance (D : List Char) : Decidable (digit_run D) := by
  unfold digit_run; infer_instance

/-- The grammar of the specification, `flags* width? ('.' digits)? conv`, on the
parts of a string: the flags are flag characters each at most once, the width
(empty when absent) and the precision digits are digit runs of at most 10
digits, the conversion is one of the six letters. -/
def spec_grammar (F W : List Char) (P : Option (List Char)) (c : Char) : Prop :=
  (∀ f ∈ F, f ∈ flag_chars) ∧ F.Nodup ∧
  (W = [] ∨ (digit_run W ∧ W.length ≤ 10)) ∧
  (∀ D, P = some D → digit_run D ∧ D.length ≤ 10) ∧
  c ∈ conv_letters.map Prod.fst

/-- Whether a character is one of the six flag characters. -/
def is_flag_char (c : Char) : Bool := (format_flag_of c).isSome

/-! ## Notions of the buffer properties -/

/-- A sequence of `asspf_write` calls on the same buffer, one per source, in
order; the result carries the value each call returned. -/
def asspf_write_seq (os : Os) (fuel : Nat) :
    ASSPF_WriteBuf → Sys → List (List Char) → Option (ASSPF_WriteBuf × Sys × List Nat)
  | writebuf, sys, [] => some (writebuf, sys, [])
  | writebuf, sys, src :: rest =>
    match asspf_write os fuel writebuf sys src with
    | none => none
    | some (wb1, sys1, n) =>
      match asspf_write_seq os fuel wb1 sys1 rest with
      | none => none
      | some (wb2, sys2, ns) => some (wb2, sys2, n :: ns)

/-- A system whose first `write` accepts one byte and whose later ones fail
with an error other than `EAGAIN` and `EINTR`. -/
def os_one_byte : Os := fun k _ => if k = 0 then WriteResult.ok 1 else WriteResult.error

/-- The OutputBuffer invariant: the buffered count is within the capacity,
which is an `unsigned short`. -/
def writebuf_inv (writebuf : ASSPF_WriteBuf) : Prop :=
  writebuf.nmemb ≤ writebuf.limit ∧ writebuf.limit < USHRT_MOD

instance (writebuf : ASSPF_WriteBuf) : Decidable (writebuf_inv writebuf) := by
  unfold writebuf_inv; infer_instance

/-! ## Notions of the hexadecimal and emission-order properties -/

/-- ASCII upper-casing of one character: a lower-case letter is moved to its
upper-case twin, any other character is kept. -/
def ascii_toupper (c : Char) : Char :=
  if 'a' ≤ c ∧ c ≤ 'z' then Char.ofNat (c.toNat - 32) else c

/-- The bytes of a padded right-adjusted value in the order in which the
specification lists them: with zero-fill the pad run, the sigil, the sign;
with space-fill the sigil, the sign, the pad run; then the precision zeros;
then the digits. -/
def spec_emission_order (itemfmt : ItemFormat_Int) (l : PrintfIntLocals) : List Char :=
  (if itemfmt.flags &&& FORMATFLAG_ZERO_PAD ≠ 0 then
    List.replicate l.adjust_size '0' ++ l.sigil_buf ++ sign_bytes itemfmt l
   else l.sigil_buf ++ sign_bytes itemfmt l ++ List.replicate l.adjust_size ' ') ++
  List.replicate l.precision_pad '0' ++ digit_bytes l

/-! ## Notions of the digit-count properties -/

/-- Number of digits of `n` written in base `base` (one digit for 0). -/
def base_digit_count (base n : Nat) : Nat := (Nat.toDigits base n).length

/-- The largest magnitude a value of `s` bytes can have under a conversion:
`2^(8s-1)`, the magnitude of the minimum, under `d`, and `2^(8s) - 1` under the
unsigned conversions. -/
def largest_magnitude (s : Nat) (convspec : FormatConvSpec_Int) : Nat :=
  match convspec with
  | FormatConvSpec_Int.UNSET => 0
  | FormatConvSpec_Int.d => 2 ^ (8 * s - 1)
  | _ => 2 ^ (8 * s) - 1

/-- The value `result` of the `base number` switch of `printf_int_body`: what
the generator of the conversion returns. -/
def printf_int_base_result (convspec : FormatConvSpec_Int) (ndigits_max value : Nat) : Nat :=
  match convspec with
  | FormatConvSpec_Int.UNSET => 0
  | FormatConvSpec_Int.d => (printf_w2b_u ndigits_max value).2
  | FormatConvSpec_Int.u => (printf_w2b_u ndigits_max value).2
  | FormatConvSpec_Int.b => (printf_w2b_b ndigits_max value).2
  | FormatConvSpec_Int.o => (printf_w2b_o ndigits_max value).2
  | FormatConvSpec_Int.x => (printf_w2b_x ndigits_max value).2
  | FormatConvSpec_Int.X => (printf_w2b_X ndigits_max value).2

/-! ## Notions of the stream-order and pad-run properties -/

/-- A call on a buffer: `asspf_write` of a source, or `asspf_flush`. -/
inductive BufferCall where
  | write (src : List Char)
  | flush
deriving DecidableEq, Repr

/-- A sequence of `asspf_write` and `asspf_flush` calls on one buffer, in
order; the result carries the value each call returned. -/
def run_calls (os : Os) (fuel : Nat) :
    ASSPF_WriteBuf → Sys → List BufferCall → Option (ASSPF_WriteBuf × Sys × List Nat)
  | writebuf, sys, [] => some (writebuf, sys, [])
  | writebuf, sys, BufferCall.write src :: rest =>
    match asspf_write os fuel writebuf sys src with
    | none => none
    | some (wb1, sys1, n) =>
      match run_calls os fuel wb1 sys1 rest with
      | none => none
      | some (wb2, sys2, ns) => some (wb2, sys2, n :: ns)
  | writebuf, sys, BufferCall.flush :: rest =>
    match asspf_flush os fuel writebuf sys with
    | none => none
    | some (wb1, sys1, n) =>
      match run_calls os fuel wb1 sys1 rest with
      | none => none
      | some (wb2, sys2, ns) => some (wb2, sys2, n :: ns)

/-- The bytes the calls took: the first `r` bytes of each written source, `r`
being the value its `asspf_write` returned, in call order. -/
def accepted_bytes : List BufferCall → List Nat → List Char
  | BufferCall.write src :: rest, r :: rs => src.take r ++ accepted_bytes rest rs
  | BufferCall.flush :: rest, _ :: rs => accepted_bytes rest rs
  | _, _ => []

/-- The raw writer returns on the system `os` within `fuel0` steps: from every
state of the system, `asspf_sys_write` returns with any fuel from `fuel0` on
(having written all, part or none of the bytes). -/
def raw_writer_returns (os : Os) (fuel0 : Nat) : Prop :=
  ∀ (fuel : Nat) (sys : Sys) (fd : Int) (buf : List Char), fuel0 ≤ fuel →
    ∃ res, asspf_sys_write os fuel sys fd buf = some res

/-- The buffered writes of `n` copies of `c`, one per size in the list, in
order, each adding what it returns to `retval`. -/
def write_all (os : Os) (fuel : Nat) (c : Char) : List Nat → PrintState → Option PrintState
  | [], st => some st
  | n :: ns, st => (retval_add_write os fuel (List.replicate n c) st).bind (write_all os fuel c ns)

/-- The sizes of the writes of a pad run of `count` characters: 64 as often as
it fits, then the rest. -/
def repchar_sizes (count : Nat) : List Nat :=
  List.replicate (count / 64) 64 ++ (if count % 64 ≠ 0 then [count % 64] else [])

/-! ## Notions of the layout of a call -/

/-- Number of pad spaces before the sigil: the adjustment size of a right
adjustment with spaces. -/
def pad_before (l : PrintfIntLocals) : Nat :=
  if l.adjust_type > 0 ∧ l.adjust_c = ' ' then l.adjust_size else 0

/-- Number of pad zeros after the sign: the adjustment size of a right
adjustment with zeros. -/
def pad_zeros (l : PrintfIntLocals) : Nat :=
  if l.adjust_type > 0 ∧ l.adjust_c = '0' then l.adjust_size else 0

/-- Number of pad spaces after the digits: the adjustment size of a left
adjustment. -/
def pad_after (l : PrintfIntLocals) : Nat :=
  if l.adjust_type < 0 then l.adjust_size else 0

/-- The bytes of a call with the given sigil and sign: leading pad spaces,
sigil, sign, pad zeros, precision zeros, digits, trailing pad spaces. -/
def call_layout (l : PrintfIntLocals) (sigil sign : List Char) : List Char :=
  List.replicate (pad_before l) ' ' ++ sigil ++ sign ++ List.replicate (pad_zeros l) '0' ++
    List.replicate l.precision_pad '0' ++ digit_bytes l ++ List.replicate (pad_after l) ' '

end Asspf

/-!
# xoroshiro1024plusplus — the generator

Shallow embedding of `src/xoroshiro1024plusplus/xoroshiro1024plusplus.c`
(`xoroshiro1024plusplus_seed`, `xoroshiro1024plusplus_next`,
`xoroshiro1024plusplus_jump`) and of the two `next` functions of `test_old.c`.
A `uint8_t` is a natural number below 256 and a `uint64_t` one below `2^64`;
`big_endian` is the byte order of the target, which fixes the object
representation of a `uint64_t`.  The loops of the jump take fuel.

The jump is compared with `2^512` steps through the polynomials over the field
of two elements: the state change is linear, its characteristic polynomial
annihilates it, and the polynomial of the array `jump` is `x^(2^512)` modulo the
characteristic polynomial.  Both facts about the constants are computed: the
first on the 1024 unit states side by side, the second by 512 squarings of
polynomials kept with one coefficient in each 16-bit slot of a number.
-/

namespace Xoroshiro1024PlusPlus

/-- The `struct X_Xoroshiro1024PlusPlus_Seed`: the 16 words `s` and `p`. -/
structure X_Xoroshiro1024PlusPlus_Seed where
  s : List Nat
  p : Nat
deriving DecidableEq, Repr

/-- The `struct X_Xoroshiro1024PlusPlus_SrcBuf`: the 128 bytes `buf`. -/
structure X_Xoroshiro1024PlusPlus_SrcBuf where
  buf : List Nat
deriving DecidableEq, Repr

/-- The object representation of a `uint64_t`: its 8 bytes in memory order. -/
def uint64_bytes (big_endian : Bool) (x : Nat) : List Nat :=
  let le := (List.range 8).map (fun k => x / 256 ^ k % 256)
  if big_endian then le.reverse else le

/-- The `uint64_t` whose object representation is the given bytes. -/
def uint64_of_bytes (big_endian : Bool) (bytes : List Nat) : Nat :=
  let le := if big_endian then bytes.reverse else bytes
  (le.foldr (fun b acc => b % 256 + 256 * acc) 0) % 2 ^ 64

/-- The `MEMCPY(dest->s, src->buf, sizeof dest->s)` call: word `i` of `s` gets
the bytes `buf[8i .. 8i + 8)`. -/
def memcpy_words (big_endian : Bool) (buf : List Nat) : List Nat :=
  (List.range 16).map (fun i => uint64_of_bytes big_endian ((buf.drop (8 * i)).take 8))

/-- The loop `for ( i = 0; i < sizeof src->buf; ++i )` of
`xoroshiro1024plusplus_seed`, by the number of iterations left: `true` when it
leaves by `goto valid_seed`, `false` when it runs to its end. -/
def xoroshiro1024plusplus_seed_loop (buf : List Nat) : Nat → Nat → Bool
  | 0, _ => false
  | n + 1, i =>
    if buf.getD i 0 ≠ 0 then true else xoroshiro1024plusplus_seed_loop buf n (i + 1)

/-- The `xoroshiro1024plusplus_seed` function: the destination afterwards and
the value returned. -/
def xoroshiro1024plusplus_seed (big_endian : Bool) (dest : X_Xoroshiro1024PlusPlus_Seed)
    (src : X_Xoroshiro1024PlusPlus_SrcBuf) : X_Xoroshiro1024PlusPlus_Seed × Int :=
  if xoroshiro1024plusplus_seed_loop src.buf 128 0 then
    (X_Xoroshiro1024PlusPlus_Seed.mk (memcpy_words big_endian src.buf) 0, 0)
  else (dest, 1)

/-- The object representation of the 16 words of a state: its 128 bytes. -/
def seed_bytes (big_endian : Bool) (seed : X_Xoroshiro1024PlusPlus_Seed) : List Nat :=
  seed.s.flatMap (uint64_bytes big_endian)

/-- The `rotl64` function.  `has_builtin` says whether the compiler has
`__builtin_rotateleft64`, which rotates by `k` modulo 64; the other branch
shifts left by `k` and right by `64 - k`. -/
def rotl64 (has_builtin : Bool) (x k : Nat) : Nat :=
  if has_builtin then ((x <<< (k % 64)) % 2 ^ 64) ||| (x >>> (64 - k % 64))
  else ((x <<< k) % 2 ^ 64) ||| (x >>> (64 - k))

/-- The `xoroshiro1024plusplus_next` function: the state afterwards and the
value returned.  A read outside the 16 words gives 0 and a store outside them
is dropped; the theorems are about states with `p <= 15` and 16 words. -/
def xoroshiro1024plusplus_next (has_builtin : Bool) (seed : X_Xoroshiro1024PlusPlus_Seed) :
    X_Xoroshiro1024PlusPlus_Seed × Nat :=
  let pF := seed.p
  let p0 := ((seed.p + 1) % 2 ^ 32) &&& 0xF
  let s0 := seed.s.getD p0 0
  let sF := seed.s.getD pF 0
  let sX := s0 ^^^ sF
  let s1 := seed.s.set pF (rotl64 has_builtin s0 25 ^^^ sX ^^^ ((sX <<< 27) % 2 ^ 64))
  let s2 := s1.set p0 (rotl64 has_builtin sX 36)
  (X_Xoroshiro1024PlusPlus_Seed.mk s2 p0, (rotl64 has_builtin ((s0 + sF) % 2 ^ 64) 23 + sF) % 2 ^ 64)

/-- The state that `xoroshiro1024plusplus_next` leaves. -/
def next_state (has_builtin : Bool) (seed : X_Xoroshiro1024PlusPlus_Seed) :
    X_Xoroshiro1024PlusPlus_Seed :=
  (xoroshiro1024plusplus_next has_builtin seed).1

/-- The `rotl` function of the original generator in `test_old.c`. -/
def original_rotl (x k : Nat) : Nat :=
  ((x <<< k) % 2 ^ 64) ||| (x >>> (64 - k))

/-- The original `next` function of `test_old.c` (the `#if 0` part), on the
file's state `p`, `s`: the state afterwards and the value returned. -/
def original_next (st : X_Xoroshiro1024PlusPlus_Seed) : X_Xoroshiro1024PlusPlus_Seed × Nat :=
  let q := st.p
  let p := (st.p + 1) &&& 15
  let s0 := st.s.getD p 0
  let s15 := st.s.getD q 0
  let result := (original_rotl ((s0 + s15) % 2 ^ 64) 23 + s15) % 2 ^ 64
  let s15 := s15 ^^^ s0
  let s1 := st.s.set q (original_rotl s0 25 ^^^ s15 ^^^ ((s15 <<< 27) % 2 ^ 64))
  let s2 := s1.set p (original_rotl s15 36)
  (X_Xoroshiro1024PlusPlus_Seed.mk s2 p, result)

/-- The `rotl` function of the modified generator in `test_old.c`. -/
def modified_rotl (x k : Nat) : Nat :=
  ((x <<< k) % 2 ^ 64) ||| (x >>> (64 - k))

/-- The modified `next` function of `test_old.c` (the `#else` part): it stores
`s[p0]` before `s[pF]`. -/
def modified_next (st : X_Xoroshiro1024PlusPlus_Seed) : X_Xoroshiro1024PlusPlus_Seed × Nat :=
  let pF := st.p
  let p0 := ((st.p + 1) % 2 ^ 32) &&& 0xF
  let s0 := st.s.getD p0 0
  let sF := st.s.getD pF 0
  let sX := s0 ^^^ sF
  let s1 := st.s.set p0 (modified_rotl sX 36)
  let s2 := s1.set pF (modified_rotl s0 25 ^^^ sX ^^^ ((sX <<< 27) % 2 ^ 64))
  (X_Xoroshiro1024PlusPlus_Seed.mk s2 p0, (modified_rotl ((s0 + sF) % 2 ^ 64) 23 + sF) % 2 ^ 64)

/-- The array `jump` of `xoroshiro1024plusplus_jump`. -/
def jump : List Nat :=
  [0x931197D8E3177F17, 0xB59422E0B9138C5F, 0xF06A6AFB49D668BB, 0xACB8A6412C8A1401,
   0x12304EC85F0B3468, 0xB7DFE7079209891E, 0x405B7EEC77D9EB14, 0x34EAD68280C44E4A,
   0xE0E4BA3E0AC9E366, 0x8F46EDA8348905B7, 0x328BF4DBAD90D6FF, 0xC8FD6FB31C9EFFC3,
   0xE899D452D4B67652, 0x45F387286ADE3205, 0x03864F454A8920BD, 0xA68FA28725B1B384]

/-- The loop `for ( j = 0; j < 16u; ++j )` of `xoroshiro1024plusplus_jump`, with
fuel: `tmp` afterwards. -/
def xoroshiro1024plusplus_jump_j (s : List Nat) (p : Nat) :
    Nat → Nat → List Nat → Option (List Nat)
  | 0, _, _ => none
  | fuel + 1, j, tmp =>
    if j < 16 then
      xoroshiro1024plusplus_jump_j s p fuel ((j + 1) % 2 ^ 32)
        (tmp.set j (tmp.getD j 0 ^^^ s.getD (((j + p) % 2 ^ 32) &&& 0xF) 0))
    else some tmp

/-- The loop `for ( bit = 0x1u; bit != 0; bit <<= 1u )` of
`xoroshiro1024plusplus_jump` on the word `jump[i]`, with fuel: the state and
`tmp` afterwards.  `fuel0` is the fuel of the loop inside. -/
def xoroshiro1024plusplus_jump_bit (has_builtin : Bool) (fuel0 word : Nat) :
    Nat → Nat → X_Xoroshiro1024PlusPlus_Seed × List Nat →
      Option (X_Xoroshiro1024PlusPlus_Seed × List Nat)
  | 0, _, _ => none
  | fuel + 1, bit, (seed, tmp) =>
    if bit ≠ 0 then
      ((if word &&& bit ≠ 0 then xoroshiro1024plusplus_jump_j seed.s seed.p fuel0 0 tmp
        else some tmp).bind fun tmp1 =>
      xoroshiro1024plusplus_jump_bit has_builtin fuel0 word fuel ((bit <<< 1) % 2 ^ 64)
        ((xoroshiro1024plusplus_next has_builtin seed).1, tmp1))
    else some (seed, tmp)

/-- The first loop `for ( i = 0; i < 16u; ++i )` of
`xoroshiro1024plusplus_jump`, with fuel. -/
def xoroshiro1024plusplus_jump_i (has_builtin : Bool) (fuel0 : Nat) :
    Nat → Nat → X_Xoroshiro1024PlusPlus_Seed × List Nat →
      Option (X_Xoroshiro1024PlusPlus_Seed × List Nat)
  | 0, _, _ => none
  | fuel + 1, i, (seed, tmp) =>
    if i < 16 then
      ((xoroshiro1024plusplus_jump_bit has_builtin fuel0 (jump.getD i 0) fuel0 0x1
        (seed, tmp)).bind fun st =>
      xoroshiro1024plusplus_jump_i has_builtin fuel0 fuel ((i + 1) % 2 ^ 32) (st.1, st.2))
    else some (seed, tmp)

/-- The last loop `for ( i = 0; i < 16u; ++i )` of `xoroshiro1024plusplus_jump`,
with fuel: the words `s` afterwards. -/
def xoroshiro1024plusplus_jump_store (p : Nat) (tmp : List Nat) :
    Nat → Nat → List Nat → Option (List Nat)
  | 0, _, _ => none
  | fuel + 1, i, s =>
    if i < 16 then
      xoroshiro1024plusplus_jump_store p tmp fuel ((i + 1) % 2 ^ 32)
        (s.set (((i + p) % 2 ^ 32) &&& 0xF) (tmp.getD i 0))
    else some s

/-- The `xoroshiro1024plusplus_jump` function, with fuel for its loops: the
state afterwards. -/
def xoroshiro1024plusplus_jump (has_builtin : Bool) (fuel : Nat)
    (seed : X_Xoroshiro1024PlusPlus_Seed) : Option X_Xoroshiro1024PlusPlus_Seed :=
  (xoroshiro1024plusplus_jump_i has_builtin fuel fuel 0 (seed, List.replicate 16 0)).bind
    fun st =>
  (xoroshiro1024plusplus_jump_store st.1.p st.2 fuel 0 st.1.s).bind fun s =>
  some (X_Xoroshiro1024PlusPlus_Seed.mk s st.1.p)

/-! ## The jump as a polynomial in the step -/

/-- Evaluation order: the value of `force x k` is `k x`, with `x` computed
first. -/
def force {α : Type} (x : Nat) (k : Nat → α) : α :=
  match x with
  | 0 => k 0
  | m + 1 => k (m + 1)

/-- The words of a state in the order of their use: word `j` is
`s[(j + p) & 0xF]`. -/
def logical_words (seed : X_Xoroshiro1024PlusPlus_Seed) : List Nat :=
  seed.s.rotate seed.p

/-- The number whose 64-bit words are the given ones, lowest first. -/
def pack : List Nat → Nat
  | [] => 0
  | w :: l => w + 2 ^ 64 * pack l

/-- The state change of `xoroshiro1024plusplus_next` on the words in the order
of their use. -/
def step_words (r : List Nat) : List Nat :=
  match r with
  | r0 :: r1 :: rest =>
    original_rotl (r1 ^^^ r0) 36 ::
      (rest ++ [original_rotl r1 25 ^^^ (r1 ^^^ r0) ^^^ (((r1 ^^^ r0) <<< 27) % 2 ^ 64)])
  | _ => r

/-- The state change on `L` packed states side by side, bit `i` of state `k`
being bit `L * i + k` of `V`; for `L = 1` it is the state change on one packed
state. -/
def stepL (L V : Nat) : Nat :=
  force (2 ^ (64 * L) - 1) fun m =>
  force ((V >>> (64 * L)) &&& m) fun s0 =>
  force (V &&& m) fun sF =>
  force (s0 ^^^ sF) fun sX =>
  force ((((s0 <<< (25 * L)) &&& m) ^^^ (s0 >>> (39 * L))) ^^^ sX ^^^
    ((sX <<< (27 * L)) &&& m)) fun w15 =>
  force (((sX <<< (36 * L)) &&& m) ^^^ (sX >>> (28 * L))) fun w0 =>
  ((((V >>> (128 * L)) &&& (2 ^ (896 * L) - 1)) <<< (64 * L)) ^^^ w0) ^^^ (w15 <<< (960 * L))

/-- The sum (exclusive or) of the states `stepL^i v` over the `i < n` with bit
`i` of `c` set, added to `acc`: what the first loop of the jump computes. -/
def evn (L : Nat) : Nat → Nat → Nat → Nat → Nat
  | 0, _, _, acc => acc
  | n + 1, c, v, acc =>
    force (if c % 2 = 1 then acc ^^^ v else acc) fun acc1 =>
    force (stepL L v) fun v1 =>
    force (c / 2) fun c1 => evn L n c1 v1 acc1

/-- The `n` states with one bit set, state `k` having bit `k`, side by side. -/
def basis : Nat → Nat
  | 0 => 0
  | n + 1 => force (basis n) fun w => w ||| 2 ^ (1025 * n)

/-- State `x` is state `k` of the 1024 states packed in `X`. -/
def Lane (k X x : Nat) : Prop := ∀ i, x.testBit i = X.testBit (1024 * i + k)

/-- The characteristic polynomial of the state change, bit `i` being the
coefficient of `x^i`. -/
def char_poly : Nat :=
  0x10000000000800081008040a0580158a1580d080b44b606a20710704d05683d63a46134526b83adc5abaf68c5fc3a0e4a6ca140c61889cddd955c84e105f609979bf0b669abd100f8a1d3b6ee079a7cc63689b412ef70de4829d373b5c5ed34597550223f68f98cac17d5100a20a0350eb73e379d035a06dd5cfeb8cc48ddb211

/-- The quotient of `x^2046` by the characteristic polynomial. -/
def barrett_mu : Nat :=
  0x40000000002000204020002816004620160b4202d50f8508d43c0c3b56005431b6132b5e63e81f6b27137c6258f2b69c5c32aca6daaaa7ba6673c9dc8d055dbba832ae66549a2e82e294d0de294f17a34c339bc19cdc856e574a26807689b3a7317c8553c6710622ffa1550b7c93d77bd0506a255b4ceba9a5a89e4518339de4

/-- The low `n` bits of `c`, lowest first. -/
def bitsL : Nat → Nat → List Nat
  | 0, _ => []
  | n + 1, c => c % 2 :: bitsL n (c / 2)

/-- The number with the given digits in base `2^16`, lowest first: a
polynomial with one coefficient in each 16-bit slot. -/
def ofD : List Nat → Nat
  | [] => 0
  | a :: l => force (ofD l) fun x => a + 65536 * x

/-- The number with `n` slots of value 1. -/
def mask (n : Nat) : Nat := (65536 ^ n - 1) / 65535

/-- The square modulo the characteristic polynomial of a polynomial of degree
below 1024 given in slots; `none` if the remainder found has a higher degree. -/
def sqmodS (PS MUS a : Nat) : Option Nat :=
  force ((a * a) &&& mask 2048) fun c2 =>
  force ((((c2 >>> (16 * 1024)) * MUS) >>> (16 * 1022)) &&& mask 1023) fun q =>
  force (c2 + q * PS) fun s =>
  if (s >>> (16 * 1024)) &&& mask 1024 = 0 then some (s &&& mask 1024) else none

/-- The polynomial `a^(2^n)` modulo the characteristic polynomial, in slots. -/
def chain (PS MUS : Nat) : Nat → Nat → Option Nat
  | 0, a => some a
  | n + 1, a =>
    match sqmodS PS MUS a with
    | none => none
    | some r => chain PS MUS n r

/-- The bits of the array `jump`, lowest first. -/
def jump_bits : List Nat := jump.flatMap (bitsL 64)

/-- The check that `x^(2^512)` modulo the characteristic polynomial is the
polynomial of the array `jump`. -/
def jump_check : Bool :=
  force (ofD (bitsL 1025 char_poly)) fun PS =>
  force (ofD (bitsL 1023 barrett_mu)) fun MUS =>
  force (ofD jump_bits) fun JS =>
  chain PS MUS 512 65536 == some JS

/-- Exclusive or of the states `f^i v` over the `i` with an odd entry `i` in
the list. -/
def evL (f : Nat → Nat) : List Nat → Nat → Nat
  | [], _ => 0
  | a :: l, v => (if a % 2 = 1 then v else 0) ^^^ evL f l (f v)

/-- Sum of two lists of coefficients. -/
def ladd : List Nat → List Nat → List Nat
  | [], y => y
  | x, [] => x
  | a :: x, b :: y => (a + b) :: ladd x y

/-- Product of two lists of coefficients. -/
def conv : List Nat → List Nat → List Nat
  | [], _ => []
  | a :: x, y => ladd (y.map (fun b => a * b)) (0 :: conv x y)

/-- The function distributes over exclusive or. -/
def XorLinear (f : Nat → Nat) : Prop := ∀ a b, f (a ^^^ b) = f a ^^^ f b

end Xoroshiro1024PlusPlus

/-!
# bitset — bit sets stored in bytes

Shallow embedding of `src/bitset/bitset_inline.h`.  A bit set is the list of
its bytes (`uint8_t`, each below 256); an index is a `size_t`.  The `int`
operands of the bit operators are given by their 32-bit patterns.  The search
functions read the bit set with bounds (`none` outside it) and take fuel for
their loops.
-/

namespace Bitset

/-- The 32-bit pattern of `~x` for an `int` `x` that is not negative. -/
def int_not (x : Nat) : Nat := 4294967295 - x

/-- The `bitset_get` function. -/
def bitset_get (bitset : List Nat) (index : Nat) : Int :=
  let byte_index := index >>> 3
  let bit_index := (index &&& 0x7) % 256
  let mask := (0x1 <<< bit_index) % 256
  if bitset.getD byte_index 0 &&& mask ≠ 0 then 1 else 0

/-- The `bitset_set_0` function: the new bit set and the value returned. -/
def bitset_set_0 (bitset : List Nat) (index : Nat) : List Nat × Int :=
  let byte_index := index >>> 3
  let bit_index := (index &&& 0x7) % 256
  let mask := (0x1 <<< bit_index) % 256
  (bitset.set byte_index ((bitset.getD byte_index 0 &&& int_not mask) % 256), 0)

/-- The `bitset_set_1` function: the new bit set and the value returned. -/
def bitset_set_1 (bitset : List Nat) (index : Nat) : List Nat × Int :=
  let byte_index := index >>> 3
  let bit_index := (index &&& 0x7) % 256
  let mask := (0x1 <<< bit_index) % 256
  (bitset.set byte_index ((bitset.getD byte_index 0 ||| mask) % 256), 1)

/-- The `bitset_set` function: the new bit set and the value returned. -/
def bitset_set (bitset : List Nat) (index : Nat) (value : Int) : List Nat × Int :=
  if value = 0 then bitset_set_0 bitset index else bitset_set_1 bitset index

/-- Bit `k` of byte `n` of a bit set, as 0 or 1. -/
def bit_of (bitset : List Nat) (n k : Nat) : Int :=
  if (bitset.getD n 0).testBit k then 1 else 0

/-- The count of `__builtin_ctz`, by the number of bits left to look at: the
bits of `x` are looked at from the lowest up to the first 1. -/
def builtin_ctz_loop : Nat → Nat → Nat → Nat
  | 0, _, n => n
  | fuel + 1, x, n => if x % 2 = 1 then n else builtin_ctz_loop fuel (x / 2) (n + 1)

/-- The compiler's `__builtin_ctz` on the 32-bit pattern `x` of an
`unsigned int`: the number of trailing 0-bits; the result for 0 is undefined
(`none`). -/
def builtin_ctz (x : Nat) : Option Nat :=
  if x % 2 ^ 32 = 0 then none else some (builtin_ctz_loop 32 (x % 2 ^ 32) 0)

/-- The loop `while ( bitset[byte_index] == UINT8_MAX )` of
`bitset_nextish_raw_0`, with fuel: the `byte_index` it ends with; a read
outside the bit set gives `none`. -/
def bitset_nextish_raw_0_loop (bitset : List Nat) : Nat → Nat → Option Nat
  | 0, _ => none
  | fuel + 1, byte_index =>
    bitset[byte_index]?.bind fun b =>
    if b = 255 then bitset_nextish_raw_0_loop bitset fuel ((byte_index + 1) % 2 ^ 64)
    else some byte_index

/-- The `bitset_nextish_raw_0` function, with fuel for its loop. -/
def bitset_nextish_raw_0 (fuel : Nat) (bitset : List Nat) (start : Nat) : Option Nat :=
  (bitset_nextish_raw_0_loop bitset fuel (start >>> 3)).bind fun byte_index =>
  bitset[byte_index]?.bind fun b =>
  (builtin_ctz (int_not b)).bind fun n =>
  let bit_index := n % 256
  some (((byte_index <<< 3) % 2 ^ 64) ||| bit_index)

/-- The loop `while ( bitset[byte_index] == 0 )` of `bitset_nextish_raw_1`, with
fuel: the `byte_index` it ends with; a read outside the bit set gives `none`. -/
def bitset_nextish_raw_1_loop (bitset : List Nat) : Nat → Nat → Option Nat
  | 0, _ => none
  | fuel + 1, byte_index =>
    bitset[byte_index]?.bind fun b =>
    if b = 0 then bitset_nextish_raw_1_loop bitset fuel ((byte_index + 1) % 2 ^ 64)
    else some byte_index

/-- The `bitset_nextish_raw_1` function, with fuel for its loop. -/
def bitset_nextish_raw_1 (fuel : Nat) (bitset : List Nat) (start : Nat) : Option Nat :=
  (bitset_nextish_raw_1_loop bitset fuel (start >>> 3)).bind fun byte_index =>
  bitset[byte_index]?.bind fun b =>
  (builtin_ctz b).bind fun n =>
  let bit_index := n % 256
  some (((byte_index <<< 3) % 2 ^ 64) ||| bit_index)

/-- The `bitset_next_raw_0` function, with fuel for the loop it may reach. -/
def bitset_next_raw_0 (fuel : Nat) (bitset : List Nat) (start : Nat) : Option Nat :=
  let byte_index := start >>> 3
  let bit_index := (start &&& 0x7) % 256
  bitset[byte_index]?.bind fun b =>
  (builtin_ctz ((0xFF00 ||| int_not b) >>> bit_index)).bind fun n =>
  let nbits := n % 256
  if nbits + bit_index < 8 then some ((nbits + start) % 2 ^ 64)
  else bitset_nextish_raw_0 fuel bitset ((start + 8) % 2 ^ 64)

/-- The `bitset_next_raw_1` function, with fuel for the loop it may reach. -/
def bitset_next_raw_1 (fuel : Nat) (bitset : List Nat) (start : Nat) : Option Nat :=
  let byte_index := start >>> 3
  let bit_index := (start &&& 0x7) % 256
  bitset[byte_index]?.bind fun b =>
  (builtin_ctz ((0xFF00 ||| b) >>> bit_index)).bind fun n =>
  let nbits := n % 256
  if nbits + bit_index < 8 then some ((nbits + start) % 2 ^ 64)
  else bitset_nextish_raw_1 fuel bitset ((start + 8) % 2 ^ 64)

/-- The `bitset_next_raw` function, with fuel for the loop it may reach. -/
def bitset_next_raw (fuel : Nat) (bitset : List Nat) (start : Nat) (value : Int) : Option Nat :=
  if value = 0 then bitset_next_raw_0 fuel bitset start
  else bitset_next_raw_1 fuel bitset start

end Bitset

namespace Asspf

/-! # Theorems -/

/-! ## The buffer when the raw writer completes -/

theorem on_fd_append (fd : Int) (a b : List Char) :
    on_fd fd (a ++ b) = on_fd fd a ++ on_fd fd b := by
  simp [on_fd]

theorem Appends.refl (st : PrintState) (h : writebuf_wf st.1) : Appends st st [] := by
  simp [Appends, h, on_fd]

theorem Appends.trans {st st1 st2 : PrintState} {a b : List Char}
    (h1 : Appends st st1 a) (h2 : Appends st1 st2 b) : Appends st st2 (a ++ b) := by
  obtain ⟨_, hl1, hf1, he1, hr1⟩ := h1
  obtain ⟨hw2, hl2, hf2, he2, hr2⟩ := h2
  refine ⟨hw2, hl2.trans hl1, hf2.trans hf1, ?_, ?_⟩
  · rw [he2, he1, hf1, on_fd_append, List.append_assoc]
  · rw [hr2, hr1, List.length_append, Nat.add_assoc]

/-- What `asspf_sys_write` returns is the length of a prefix of the bytes it was
given, and that prefix is what the system accepted. -/
theorem asspf_sys_write_loop_delivers (os : Os) (fd : Int) :
    ∀ (fuel : Nat) (sys : Sys) (buf : List Char) (retval : Nat) (sys1 : Sys) (n : Nat),
      asspf_sys_write_loop os fuel sys fd buf retval = some (sys1, n) →
      ∃ k, k ≤ buf.length ∧ n = retval + k ∧ sys1.out = sys.out ++ on_fd fd (buf.take k) := by
  intro fuel
  induction fuel with
  | zero => intro sys buf retval sys1 n h; simp [asspf_sys_write_loop] at h
  | succ fuel ih =>
    intro sys buf retval sys1 n h
    unfold asspf_sys_write_loop at h
    split at h
    · rename_i m _
      simp only at h
      split at h
      · rename_i hlt
        obtain ⟨k, hk, hn, hout⟩ := ih _ _ _ _ _ h
        simp only [List.length_drop] at hk
        refine ⟨min m buf.length + k, by omega, by omega, ?_⟩
        rw [hout, List.append_assoc, ← on_fd_append, List.take_add]
      · simp only [Option.some.injEq, Prod.mk.injEq] at h
        obtain ⟨hs, hn⟩ := h
        refine ⟨min m buf.length, by omega, hn.symm, ?_⟩
        rw [← hs]
    · obtain ⟨k, hk, hn, hout⟩ := ih _ _ _ _ _ h
      exact ⟨k, hk, hn, hout⟩
    · simp only [Option.some.injEq, Prod.mk.injEq] at h
      obtain ⟨hs, hn⟩ := h
      refine ⟨0, by omega, by omega, ?_⟩
      rw [← hs]
      simp [on_fd]

theorem asspf_sys_write_full (os : Os) (fuel0 : Nat) (hos : raw_writer_full os fuel0)
    (fuel : Nat) (hfuel : fuel0 ≤ fuel) (sys : Sys) (fd : Int) (buf : List Char) :
    ∃ sys1, asspf_sys_write os fuel sys fd buf = some (sys1, buf.length) ∧
      sys1.out = sys.out ++ on_fd fd buf := by
  obtain ⟨sys1, h⟩ := hos fuel sys fd buf hfuel
  refine ⟨sys1, h, ?_⟩
  obtain ⟨k, hk, hn, hout⟩ := asspf_sys_write_loop_delivers os fd fuel sys buf 0 sys1 _ h
  have hkl : k = buf.length := by omega
  rw [hout, hkl, List.take_length]

/-- The system on which every `write` accepts all the bytes it is offered lets
the raw writer complete in one step. -/
theorem os_full_raw_writer_full : raw_writer_full os_full 1 := by
  intro fuel sys fd buf hfuel
  obtain ⟨f, rfl⟩ : ∃ f, fuel = f + 1 := ⟨fuel - 1, by omega⟩
  exact ⟨{ ncalls := sys.ncalls + 1, out := sys.out ++ on_fd fd buf },
    by simp [asspf_sys_write, asspf_sys_write_loop, os_full]⟩

/-- The system that fails with `EAGAIN` on every other call lets the raw writer
complete in two steps. -/
theorem os_retry_raw_writer_full : raw_writer_full os_retry 2 := by
  intro fuel sys fd buf hfuel
  obtain ⟨f, rfl⟩ : ∃ f, fuel = f + 2 := ⟨fuel - 2, by omega⟩
  by_cases hk : sys.ncalls % 2 = 0
  · have hk1 : ¬ (sys.ncalls + 1) % 2 = 0 := by omega
    exact ⟨{ ncalls := sys.ncalls + 1 + 1, out := sys.out ++ on_fd fd buf },
      by simp [asspf_sys_write, asspf_sys_write_loop, os_retry, hk, hk1]⟩
  · exact ⟨{ ncalls := sys.ncalls + 1, out := sys.out ++ on_fd fd buf },
      by simp [asspf_sys_write, asspf_sys_write_loop, os_retry, hk]⟩

theorem asspf_flush_full (os : Os) (fuel0 : Nat) (hos : raw_writer_full os fuel0)
    (fuel : Nat) (hfuel : fuel0 ≤ fuel) (wb : ASSPF_WriteBuf) (sys : Sys) (hwf : writebuf_wf wb) :
    ∃ sys1, asspf_flush os fuel wb sys = some ({ wb with nmemb := 0 }, sys1, 0) ∧
      sys1.out = sys.out ++ on_fd wb.fd (wb.buf.take wb.nmemb) := by
  obtain ⟨hlen, hlim, hn⟩ := hwf
  have hlen2 : (wb.buf.take wb.nmemb).length = wb.nmemb := by
    rw [List.length_take]; omega
  obtain ⟨sys1, hw, hout⟩ := asspf_sys_write_full os fuel0 hos fuel hfuel sys wb.fd
    (wb.buf.take wb.nmemb)
  refine ⟨sys1, ?_, hout⟩
  simp only [asspf_flush, hw, hlen2]
  have h0 : (wb.nmemb + UINTMAX_MOD - wb.nmemb) % UINTMAX_MOD = 0 := by
    simp [UINTMAX_MOD]
  simp [h0, USHRT_MOD]

theorem size_t_of_int_sub (a b : Nat) (h : b ≤ a) (ha : a < USHRT_MOD) :
    size_t_of_int ((a : Int) - (b : Int)) = a - b := by
  unfold size_t_of_int UINTMAX_MOD
  unfold USHRT_MOD at ha
  omega

theorem asspf_write_full (os : Os) (fuel0 : Nat) (hos : raw_writer_full os fuel0)
    (fuel : Nat) (hfuel : fuel0 ≤ fuel) (wb : ASSPF_WriteBuf) (sys : Sys) (r : Nat)
    (src : List Char) (hwf : writebuf_wf wb) :
    ∃ wb1 sys1, asspf_write os fuel wb sys src = some (wb1, sys1, src.length) ∧
      Appends (wb, sys, r) (wb1, sys1, r + src.length) src := by
  obtain ⟨hlen, hlim, hn⟩ := hwf
  unfold asspf_write
  simp only [size_t_of_int_sub wb.limit wb.nmemb hn hlim]
  by_cases hc : wb.nmemb ≠ 0 ∧ src.length > wb.limit - wb.nmemb
  · -- the buffer is flushed first
    obtain ⟨sysf, hflush, hfout⟩ := asspf_flush_full os fuel0 hos fuel hfuel wb sys
      ⟨hlen, hlim, hn⟩
    rw [if_pos hc, hflush]
    simp only [ne_eq, not_true_eq_false, if_false]
    by_cases hbig : src.length > wb.limit
    · obtain ⟨sys1, hw, hout⟩ := asspf_sys_write_full os fuel0 hos fuel hfuel sysf wb.fd src
      simp only [hbig, if_true, hw]
      refine ⟨_, _, rfl, ?_⟩
      simp [Appends, writebuf_wf, emitted, hlen, hlim, on_fd, hout, hfout]
    · simp only [hbig, if_false]
      refine ⟨_, _, rfl, ?_⟩
      have hs : src.length ≤ wb.limit := by omega
      have hm : (0 + src.length % USHRT_MOD) % USHRT_MOD = src.length := by
        unfold USHRT_MOD at *; omega
      simp only [Appends, writebuf_wf, emitted, hm, memcpy_at]
      refine ⟨⟨?_, hlim, hs⟩, trivial, trivial, ?_, trivial⟩
      · simp; omega
      · simp [on_fd, hfout]
  · rw [if_neg hc]
    simp only [ne_eq, not_true_eq_false, if_false]
    by_cases hbig : src.length > wb.limit
    · have h0 : wb.nmemb = 0 := by
        by_contra h
        exact hc ⟨h, by omega⟩
      obtain ⟨sys1, hw, hout⟩ := asspf_sys_write_full os fuel0 hos fuel hfuel sys wb.fd src
      simp only [hbig, if_true, hw]
      refine ⟨_, _, rfl, ?_⟩
      simp [Appends, writebuf_wf, emitted, hlen, hlim, on_fd, h0, hout]
    · simp only [hbig, if_false]
      refine ⟨_, _, rfl, ?_⟩
      have hs : wb.nmemb + src.length ≤ wb.limit := by
        by_cases h0 : wb.nmemb = 0
        · omega
        · have := fun h => hc ⟨h0, h⟩
          omega
      have hm : (wb.nmemb + src.length % USHRT_MOD) % USHRT_MOD = wb.nmemb + src.length := by
        unfold USHRT_MOD at *; omega
      simp only [Appends, writebuf_wf, emitted, hm, memcpy_at]
      refine ⟨⟨?_, hlim, hs⟩, trivial, trivial, ?_, trivial⟩
      · simp; omega
      · have ht : (List.take wb.nmemb wb.buf).length = wb.nmemb := by
          rw [List.length_take]; omega
        rw [List.append_assoc, List.take_append_eq_append_take, List.take_of_length_le (by omega)]
        simp [ht, on_fd, List.append_assoc]

theorem retval_add_write_full (os : Os) (fuel0 : Nat) (hos : raw_writer_full os fuel0)
    (fuel : Nat) (hfuel : fuel0 ≤ fuel) (src : List Char) (st : PrintState)
    (hwf : writebuf_wf st.1) :
    ∃ st1, retval_add_write os fuel src st = some st1 ∧ Appends st st1 src := by
  obtain ⟨wb1, sys1, hw, ha⟩ := asspf_write_full os fuel0 hos fuel hfuel st.1 st.2.1 st.2.2 src hwf
  exact ⟨(wb1, sys1, st.2.2 + src.length), by simp [retval_add_write, hw], ha⟩

theorem printf_put_repchar_for_full (os : Os) (fuel0 : Nat) (hos : raw_writer_full os fuel0)
    (c : Char) (size : Nat) (hsize : 1 ≤ size) :
    ∀ (fuel count : Nat) (st : PrintState), count + 1 + fuel0 ≤ fuel → writebuf_wf st.1 →
      ∃ st1, printf_put_repchar_for os fuel c size count st = some (st1, count % size) ∧
        Appends st st1 (List.replicate (count - count % size) c) := by
  intro fuel
  induction fuel with
  | zero => intro count st h; omega
  | succ fuel ih =>
    intro count st hfuel hwf
    unfold printf_put_repchar_for
    by_cases hc : count ≥ size
    · rw [if_pos hc]
      obtain ⟨st1, hw, ha⟩ := retval_add_write_full os fuel0 hos fuel (by omega)
        (List.replicate size c) st hwf
      obtain ⟨st2, hr, hb⟩ := ih (count - size) st1 (by omega) ha.1
      rw [hw]
      refine ⟨st2, ?_, ?_⟩
      · simp only [hr]
        rw [← Nat.mod_eq_sub_mod hc]
      · have hab := Appends.trans ha hb
        rw [← List.replicate_add, ← Nat.mod_eq_sub_mod hc] at hab
        have hle : count % size ≤ count - size := by
          rw [Nat.mod_eq_sub_mod hc]; exact Nat.mod_le _ _
        have he : size + (count - size - count % size) = count - count % size := by omega
        rw [he] at hab
        exact hab
    · rw [if_neg hc]
      have hm : count % size = count := Nat.mod_eq_of_lt (by omega)
      refine ⟨st, by rw [hm], ?_⟩
      rw [hm, Nat.sub_self]
      exact Appends.refl st hwf

theorem printf_put_repchar_do_full (os : Os) (fuel0 : Nat) (hos : raw_writer_full os fuel0)
    (fuel : Nat) (c : Char) (size count : Nat) (hsize : 1 ≤ size) (hcount : 1 ≤ count)
    (hfuel : count + 3 + fuel0 ≤ fuel) (st : PrintState) (hwf : writebuf_wf st.1) :
    ∃ st1, printf_put_repchar_do os fuel c size count st = some st1 ∧
      Appends st st1 (List.replicate count c) := by
  obtain ⟨f, rfl⟩ : ∃ f, fuel = f + 1 := ⟨fuel - 1, by omega⟩
  unfold printf_put_repchar_do
  have hsize1 : 1 ≤ (if count > size then size else count) := by
    split <;> omega
  generalize (if count > size then size else count) = size1 at hsize1
  obtain ⟨st1, hr, ha⟩ := printf_put_repchar_for_full os fuel0 hos c size1 hsize1 f count st
    (by omega) hwf
  simp only [hr]
  by_cases h0 : count % size1 = 0
  · refine ⟨st1, by simp [h0], ?_⟩
    simpa [h0] using ha
  · obtain ⟨g, rfl⟩ : ∃ g, f = g + 1 := ⟨f - 1, by omega⟩
    have hlt : count % size1 < size1 := Nat.mod_lt _ (by omega)
    have hle : count % size1 ≤ count := Nat.mod_le _ _
    rw [if_pos h0]
    unfold printf_put_repchar_do
    have hs2 : (if count % size1 > size1 then size1 else count % size1) = count % size1 := by
      rw [if_neg (by omega)]
    rw [hs2]
    obtain ⟨st2, hr2, hb⟩ := printf_put_repchar_for_full os fuel0 hos c (count % size1) (by omega)
      g (count % size1) st1 (by omega) ha.1
    rw [Nat.mod_self] at hr2 hb
    simp only [hr2]
    refine ⟨st2, by simp, ?_⟩
    have hab := Appends.trans ha hb
    rw [← List.replicate_add] at hab
    have he : count - count % size1 + (count % size1 - 0) = count := by omega
    rw [he] at hab
    exact hab

theorem retval_add_repchar_full (os : Os) (fuel0 : Nat) (hos : raw_writer_full os fuel0)
    (fuel : Nat) (c : Char) (count : Nat) (hcount : 1 ≤ count)
    (hfuel : count + 3 + fuel0 ≤ fuel) (st : PrintState) (hwf : writebuf_wf st.1) :
    ∃ st1, retval_add_repchar os fuel c count st = some st1 ∧
      Appends st st1 (List.replicate count c) := by
  obtain ⟨st1, hr, ha⟩ := printf_put_repchar_do_full os fuel0 hos fuel c 64 count (by omega) hcount
    hfuel (st.1, st.2.1, 0) hwf
  refine ⟨(st1.1, st1.2.1, st.2.2 + st1.2.2), ?_, ?_⟩
  · simp [retval_add_repchar, printf_put_repchar, hr]
  · obtain ⟨h1, h2, h3, h4, h5⟩ := ha
    refine ⟨h1, h2, h3, h4, ?_⟩
    simp only at h5 ⊢
    omega

/-! ## The emitting part of `printf_int_body` -/

theorem option_bind_appends {x : Option PrintState} {g : PrintState → Option PrintState}
    {a b : List Char} {st : PrintState}
    (hf : ∃ st1, x = some st1 ∧ Appends st st1 a)
    (hg : ∀ st1, writebuf_wf st1.1 → ∃ st2, g st1 = some st2 ∧ Appends st1 st2 b) :
    ∃ st2, x.bind g = some st2 ∧ Appends st st2 (a ++ b) := by
  obtain ⟨st1, h1, ha⟩ := hf
  obtain ⟨st2, h2, hb⟩ := hg st1 ha.1
  exact ⟨st2, by simp [h1, h2], Appends.trans ha hb⟩

theorem printfint_write_sigil_full (os : Os) (fuel0 : Nat) (hos : raw_writer_full os fuel0)
    (fuel : Nat) (hfuel : fuel0 ≤ fuel) (l : PrintfIntLocals) (st : PrintState)
    (hwf : writebuf_wf st.1) :
    ∃ st1, printfint_write_sigil os fuel l st = some st1 ∧ Appends st st1 l.sigil_buf := by
  unfold printfint_write_sigil
  by_cases h : l.sigil_buf.length ≠ 0
  · rw [if_pos h]
    exact retval_add_write_full os fuel0 hos fuel hfuel _ st hwf
  · rw [if_neg h]
    have h0 : l.sigil_buf = [] := List.length_eq_zero.mp (by omega)
    rw [h0]
    exact ⟨st, rfl, Appends.refl st hwf⟩

theorem printfint_write_sign_full (os : Os) (fuel0 : Nat) (hos : raw_writer_full os fuel0)
    (fuel : Nat) (hfuel : fuel0 ≤ fuel) (itemfmt : ItemFormat_Int) (l : PrintfIntLocals)
    (st : PrintState) (hwf : writebuf_wf st.1) :
    ∃ st1, printfint_write_sign os fuel itemfmt l st = some st1 ∧
      Appends st st1 (sign_bytes itemfmt l) := by
  unfold printfint_write_sign sign_bytes
  by_cases h : itemfmt.convspec = FormatConvSpec_Int.d ∧ l.sign_size ≠ 0
  · rw [if_pos h, if_pos h]
    exact retval_add_write_full os fuel0 hos fuel hfuel _ st hwf
  · rw [if_neg h, if_neg h]
    exact ⟨st, rfl, Appends.refl st hwf⟩

theorem printfint_write_sigil_sign_full (os : Os) (fuel0 : Nat) (hos : raw_writer_full os fuel0)
    (fuel : Nat) (hfuel : fuel0 ≤ fuel) (itemfmt : ItemFormat_Int) (l : PrintfIntLocals)
    (st : PrintState) (hwf : writebuf_wf st.1) :
    ∃ st1, (printfint_write_sigil os fuel l st).bind (printfint_write_sign os fuel itemfmt l)
        = some st1 ∧ Appends st st1 (sigil_sign_bytes itemfmt l) :=
  option_bind_appends (printfint_write_sigil_full os fuel0 hos fuel hfuel l st hwf)
    (fun st1 h1 => printfint_write_sign_full os fuel0 hos fuel hfuel itemfmt l st1 h1)

theorem printf_int_emit_head_full (os : Os) (fuel0 : Nat) (hos : raw_writer_full os fuel0)
    (fuel : Nat) (itemfmt : ItemFormat_Int) (l : PrintfIntLocals)
    (hadj : l.adjust_type > 0 → 1 ≤ l.adjust_size) (hfuel : l.adjust_size + 3 + fuel0 ≤ fuel)
    (st : PrintState) (hwf : writebuf_wf st.1) :
    ∃ st1, printf_int_emit_head os fuel itemfmt l st = some st1 ∧
      Appends st st1 (head_bytes itemfmt l) := by
  unfold printf_int_emit_head head_bytes
  rw [List.append_assoc]
  refine option_bind_appends ?_ (fun st1 h1 => option_bind_appends ?_ (fun st2 h2 => ?_))
  · split
    · exact printfint_write_sigil_sign_full os fuel0 hos fuel (by omega) itemfmt l st hwf
    · exact ⟨st, rfl, Appends.refl st hwf⟩
  · split
    · rename_i h
      exact retval_add_repchar_full os fuel0 hos fuel _ _ (hadj h) hfuel st1 h1
    · exact ⟨st1, rfl, Appends.refl st1 h1⟩
  · split
    · exact printfint_write_sigil_sign_full os fuel0 hos fuel (by omega) itemfmt l st2 h2
    · exact ⟨st2, rfl, Appends.refl st2 h2⟩

theorem printf_int_emit_digits_full (os : Os) (fuel0 : Nat) (hos : raw_writer_full os fuel0)
    (fuel : Nat) (l : PrintfIntLocals) (hfuel : l.precision_pad + 3 + fuel0 ≤ fuel)
    (st : PrintState) (hwf : writebuf_wf st.1) :
    ∃ st1, printf_int_emit_digits os fuel l st = some st1 ∧
      Appends st st1 (digit_part l) := by
  unfold printf_int_emit_digits digit_part digit_bytes
  refine option_bind_appends ?_ (fun st1 h1 => ?_)
  · split
    · rename_i h
      exact retval_add_repchar_full os fuel0 hos fuel _ _ (by omega) hfuel st hwf
    · rename_i h
      have h0 : l.precision_pad = 0 := by omega
      rw [h0]
      exact ⟨st, rfl, Appends.refl st hwf⟩
  · exact retval_add_write_full os fuel0 hos fuel (by omega) _ st1 h1

theorem printf_int_emit_tail_full (os : Os) (fuel0 : Nat) (hos : raw_writer_full os fuel0)
    (fuel : Nat) (l : PrintfIntLocals)
    (hadj : l.adjust_type < 0 → 1 ≤ l.adjust_size) (hfuel : l.adjust_size + 3 + fuel0 ≤ fuel)
    (st : PrintState) (hwf : writebuf_wf st.1) :
    ∃ st1, printf_int_emit_tail os fuel l st = some st1 ∧
      Appends st st1 (tail_bytes l) := by
  unfold printf_int_emit_tail tail_bytes
  split
  · rename_i h
    exact retval_add_repchar_full os fuel0 hos fuel _ _ (hadj h) hfuel st hwf
  · exact ⟨st, rfl, Appends.refl st hwf⟩

theorem printf_int_emit_full (os : Os) (fuel0 : Nat) (hos : raw_writer_full os fuel0)
    (fuel : Nat) (itemfmt : ItemFormat_Int) (l : PrintfIntLocals)
    (hadj : l.adjust_type ≠ 0 → 1 ≤ l.adjust_size)
    (hfuel : l.adjust_size + l.precision_pad + 3 + fuel0 ≤ fuel)
    (st : PrintState) (hwf : writebuf_wf st.1) :
    ∃ st1, printf_int_emit os fuel itemfmt l st = some st1 ∧
      Appends st st1 (head_bytes itemfmt l ++ digit_part l ++ tail_bytes l) := by
  unfold printf_int_emit
  rw [List.append_assoc]
  refine option_bind_appends ?_ (fun st1 h1 => option_bind_appends ?_ (fun st2 h2 => ?_))
  · exact printf_int_emit_head_full os fuel0 hos fuel itemfmt l (fun h => hadj (by omega))
      (by omega) st hwf
  · exact printf_int_emit_digits_full os fuel0 hos fuel l (by omega) st1 h1
  · exact printf_int_emit_tail_full os fuel0 hos fuel l (fun h => hadj (by omega)) (by omega) st2 h2

/-! ## The locals of `printf_int_body` -/

theorem ilog10p1_values :
    ilog10p1 127 = 3 ∧ ilog10p1 32767 = 5 ∧ ilog10p1 2147483647 = 10 ∧
    ilog10p1 9223372036854775807 = 19 ∧ ilog10p1 255 = 3 ∧ ilog10p1 65535 = 5 ∧
    ilog10p1 4294967295 = 10 ∧ ilog10p1 18446744073709551615 = 20 := by
  refine ⟨?_, ?_, ?_, ?_, ?_, ?_, ?_, ?_⟩ <;> decide

theorem printf_w2b_u_length : ∀ n v : Nat, (printf_w2b_u n v).1.length = n := by
  intro n
  induction n with
  | zero => intro v; rfl
  | succ n ih => intro v; simp [printf_w2b_u, ih]

theorem printf_w2b_o_length : ∀ n v : Nat, (printf_w2b_o n v).1.length = n := by
  intro n
  induction n with
  | zero => intro v; rfl
  | succ n ih => intro v; simp [printf_w2b_o, ih]

theorem printf_w2b_x_length : ∀ n v : Nat, (printf_w2b_x n v).1.length = n := by
  intro n
  induction n with
  | zero => intro v; rfl
  | succ n ih => intro v; simp [printf_w2b_x, printf_w2b_x_nibble, ih]

theorem printf_w2b_X_length : ∀ n v : Nat, (printf_w2b_X n v).1.length = n := by
  intro n
  induction n with
  | zero => intro v; rfl
  | succ n ih => intro v; simp [printf_w2b_X, printf_w2b_X_nibble, ih]

theorem printf_w2b_b_nibble_length (v : Nat) : (printf_w2b_b_nibble v).1.length = 4 := by
  have h : v % 16 < 16 := Nat.mod_lt _ (by norm_num)
  unfold printf_w2b_b_nibble
  generalize v % 16 = k at h
  interval_cases k <;> rfl

theorem printf_w2b_b_loop_length : ∀ n v : Nat, (printf_w2b_b_loop n v).1.length = 4 * n := by
  intro n
  induction n with
  | zero => intro v; rfl
  | succ n ih =>
    intro v
    simp only [printf_w2b_b_loop, List.length_append, ih, printf_w2b_b_nibble_length]
    omega

theorem printf_ndigits_max_bounds (value_size : Nat) (convspec : FormatConvSpec_Int)
    (hconv : convspec ≠ FormatConvSpec_Int.UNSET) (h1 : 1 ≤ value_size) (h8 : value_size ≤ 8) :
    1 ≤ printf_ndigits_max value_size convspec ∧ printf_ndigits_max value_size convspec ≤ 64 := by
  obtain ⟨a1, a2, a3, a4, a5, a6, a7, a8⟩ := ilog10p1_values
  cases convspec <;> simp only [printf_ndigits_max, a1, a2, a3, a4, a5, a6, a7, a8]
  · exact absurd rfl hconv
  all_goals (try split_ifs) <;> omega

theorem printf_int_base_length (has_asr : Bool) (convspec : FormatConvSpec_Int)
    (value value_size : Nat) (hconv : convspec ≠ FormatConvSpec_Int.UNSET) :
    (printf_int_base has_asr convspec (printf_ndigits_max value_size convspec)
      value value_size).1.length = printf_ndigits_max value_size convspec := by
  cases convspec <;>
    simp only [printf_int_base, printf_w2b_u_length, printf_w2b_o_length, printf_w2b_x_length,
      printf_w2b_X_length, printf_w2b_b, printf_w2b_b_loop_length]
  · exact absurd rfl hconv
  · simp only [printf_ndigits_max]; omega

theorem printf_ndigits_base_bounds (buf : List Char) (buf_size : Nat) (h : 1 ≤ buf_size) :
    1 ≤ printf_ndigits_base buf buf_size ∧ printf_ndigits_base buf buf_size ≤ buf_size := by
  unfold printf_ndigits_base
  have h1 : ((buf.take buf_size).takeWhile (fun c => c = '0')).length ≤ buf_size := by
    refine le_trans (List.Sublist.length_le (List.takeWhile_sublist _)) ?_
    rw [List.length_take]; omega
  simp only
  split_ifs <;> omega

theorem printf_int_precision_bounds (itemfmt : ItemFormat_Int) (buf : List Char)
    (ndigits_max : Nat) (h1 : 1 ≤ ndigits_max) (h64 : ndigits_max ≤ 64) :
    1 ≤ (printf_int_precision itemfmt buf ndigits_max).1 ∧
    (printf_int_precision itemfmt buf ndigits_max).1 ≤ ndigits_max ∧
    (printf_int_precision itemfmt buf ndigits_max).2 ≤ itemfmt.precision := by
  obtain ⟨hb1, hb2⟩ := printf_ndigits_base_bounds buf ndigits_max h1
  have hm : ndigits_max % UINT_MOD = ndigits_max := Nat.mod_eq_of_lt (by unfold UINT_MOD; omega)
  have hn : printf_ndigits_base buf ndigits_max % UINT_MOD = printf_ndigits_base buf ndigits_max :=
    Nat.mod_eq_of_lt (by unfold UINT_MOD; omega)
  unfold printf_int_precision
  simp only [hm, hn]
  split_ifs <;> simp only <;> omega

theorem printf_int_sign_size (itemfmt : ItemFormat_Int) (sign_c : Char) :
    ((printf_int_sign itemfmt sign_c).2 = 0 ∨
      (itemfmt.convspec = FormatConvSpec_Int.d ∧ (printf_int_sign itemfmt sign_c).2 = 1)) := by
  unfold printf_int_sign
  split_ifs <;> simp_all

theorem printf_int_locals_facts (has_asr : Bool) (itemfmt : ItemFormat_Int)
    (value value_size : Nat) (hconv : itemfmt.convspec ≠ FormatConvSpec_Int.UNSET)
    (h1 : 1 ≤ value_size) (h8 : value_size ≤ 8) :
    (printf_int_locals has_asr itemfmt value value_size).digit_buf.length
      = (printf_int_locals has_asr itemfmt value value_size).ndigits_max ∧
    1 ≤ (printf_int_locals has_asr itemfmt value value_size).ndigits ∧
    (printf_int_locals has_asr itemfmt value value_size).ndigits
      ≤ (printf_int_locals has_asr itemfmt value value_size).ndigits_max ∧
    (printf_int_locals has_asr itemfmt value value_size).precision_pad ≤ itemfmt.precision ∧
    (digit_bytes (printf_int_locals has_asr itemfmt value value_size)).length
      = (printf_int_locals has_asr itemfmt value value_size).ndigits ∧
    content_length itemfmt (printf_int_locals has_asr itemfmt value value_size)
      = (printf_int_locals has_asr itemfmt value value_size).printed_size := by
  obtain ⟨hm1, hm64⟩ := printf_ndigits_max_bounds value_size itemfmt.convspec hconv h1 h8
  have hlen := printf_int_base_length has_asr itemfmt.convspec value value_size hconv
  obtain ⟨hp1, hp2, hp3⟩ := printf_int_precision_bounds itemfmt
    (printf_int_base has_asr itemfmt.convspec (printf_ndigits_max value_size itemfmt.convspec)
      value value_size).1 (printf_ndigits_max value_size itemfmt.convspec) hm1 hm64
  have hsign := printf_int_sign_size itemfmt
    (printf_int_base has_asr itemfmt.convspec (printf_ndigits_max value_size itemfmt.convspec)
      value value_size).2
  have hdl : (digit_bytes (printf_int_locals has_asr itemfmt value value_size)).length
      = (printf_int_locals has_asr itemfmt value value_size).ndigits := by
    simp only [digit_bytes, printf_int_locals, List.length_take, List.length_drop, hlen]
    omega
  refine ⟨hlen, hp1, hp2, hp3, hdl, ?_⟩
  rw [content_length, hdl]
  simp only [printf_int_locals, sign_bytes]
  rcases hsign with h0 | ⟨hd, hs1⟩
  · simp [h0]
  · rw [hs1]
    simp [hd]

theorem printf_int_locals_adjust (has_asr : Bool) (itemfmt : ItemFormat_Int)
    (value value_size : Nat) :
    ((printf_int_locals has_asr itemfmt value value_size).printed_size < itemfmt.fieldwidth →
      (printf_int_locals has_asr itemfmt value value_size).adjust_type
        = (if itemfmt.flags &&& FORMATFLAG_LEFT_ADJUST = 0 then 1 else -1) ∧
      (printf_int_locals has_asr itemfmt value value_size).adjust_size
        = itemfmt.fieldwidth - (printf_int_locals has_asr itemfmt value value_size).printed_size ∧
      (printf_int_locals has_asr itemfmt value value_size).adjust_c
        = (if itemfmt.flags &&& FORMATFLAG_ZERO_PAD = 0 then ' ' else '0')) ∧
    (¬ (printf_int_locals has_asr itemfmt value value_size).printed_size < itemfmt.fieldwidth →
      (printf_int_locals has_asr itemfmt value value_size).adjust_type = 0 ∧
      (printf_int_locals has_asr itemfmt value value_size).adjust_size = 0) := by
  constructor
  · intro h
    simp only [printf_int_locals] at h ⊢
    simp only [h, if_true, decide_True, and_self]
  · intro h
    simp only [printf_int_locals] at h ⊢
    simp only [h, if_false, decide_False, and_self]

theorem format_scan_int_convspec (format : List Char) (itemfmt : ItemFormat_Int)
    (h : format_scan_int format = some itemfmt) :
    itemfmt.convspec ≠ FormatConvSpec_Int.UNSET := by
  unfold format_scan_int at h
  simp only at h
  split at h
  · exact absurd h (by simp)
  · split at h
    · exact absurd h (by simp)
    · split at h
      · exact absurd h (by simp)
      · split at h
        · exact absurd h (by simp)
        · rename_i hc
          split at h
          · exact absurd h (by simp)
          · simp only [Option.some.injEq] at h
            subst h
            simp only [itemformat_int_get]
            unfold format_scan_convspec_int at hc
            split at hc
            · exact absurd hc (by simp)
            · split_ifs at hc <;>
                (simp only [Option.some.injEq, Prod.mk.injEq] at hc
                 rw [← hc.1]
                 simp)

/-- Rendering law when the raw writer always completes: an accepted format makes
`printf_int` return, having appended the head, the digit part and the tail. -/
theorem printf_int_full (has_asr : Bool) (os : Os) (fuel0 : Nat) (hos : raw_writer_full os fuel0)
    (fuel : Nat) (wb : ASSPF_WriteBuf) (sys : Sys) (format : List Char)
    (itemfmt : ItemFormat_Int) (value value_size : Nat)
    (hscan : format_scan_int format = some itemfmt) (hwf : writebuf_wf wb)
    (h1 : 1 ≤ value_size) (h8 : value_size ≤ 8)
    (hfuel : itemfmt.fieldwidth + itemfmt.precision + 3 + fuel0 ≤ fuel) :
    ∃ st1, printf_int has_asr os fuel wb sys format value value_size = some st1 ∧
      Appends (wb, sys, 0) st1
        (head_bytes itemfmt (printf_int_locals has_asr itemfmt value value_size) ++
          digit_part (printf_int_locals has_asr itemfmt value value_size) ++
          tail_bytes (printf_int_locals has_asr itemfmt value value_size)) := by
  have hconv := format_scan_int_convspec format itemfmt hscan
  obtain ⟨_, _, _, hpp, _, _⟩ := printf_int_locals_facts has_asr itemfmt value value_size
    hconv h1 h8
  obtain ⟨hadj1, hadj0⟩ := printf_int_locals_adjust has_asr itemfmt value value_size
  have hbody : printf_int has_asr os fuel wb sys format value value_size
      = printf_int_emit os fuel itemfmt (printf_int_locals has_asr itemfmt value value_size)
          (wb, sys, 0) := by
    unfold printf_int
    rw [hscan]
    simp only
    cases hcv : itemfmt.convspec <;> first | exact absurd hcv hconv | rfl
  rw [hbody]
  by_cases hlt : (printf_int_locals has_asr itemfmt value value_size).printed_size
      < itemfmt.fieldwidth
  · obtain ⟨_, hsz, _⟩ := hadj1 hlt
    exact printf_int_emit_full os fuel0 hos fuel itemfmt _ (fun _ => by omega) (by omega) _ hwf
  · obtain ⟨hty, hsz⟩ := hadj0 hlt
    exact printf_int_emit_full os fuel0 hos fuel itemfmt _ (fun h => absurd hty h) (by omega) _ hwf

/-! ## Digit generators read back -/

theorem read_base_append (base : Nat) (a b : List Char) :
    read_base base (a ++ b) = read_base base a * base ^ b.length + read_base base b := by
  induction b using List.reverseRecOn with
  | nil => simp [read_base]
  | append_singleton b c ih =>
    have hs : ∀ l : List Char, read_base base (l ++ [c]) = read_base base l * base + digit_value c := by
      intro l; simp [read_base, List.foldl_append]
    rw [← List.append_assoc, hs, hs, ih, List.length_append, List.length_singleton, pow_succ]
    ring

theorem read_base_zeros (base k : Nat) (ds : List Char) :
    read_base base (List.replicate k '0' ++ ds) = read_base base ds := by
  have hz : ∀ k : Nat, read_base base (List.replicate k '0') = 0 := by
    intro k
    induction k with
    | zero => rfl
    | succ k ih =>
      rw [List.replicate_succ', read_base_append, ih]
      simp [read_base, digit_value]
  rw [read_base_append, hz]
  simp

theorem decimal_digit_char (k : Nat) (h : k < 10) :
    digit_value (Char.ofNat (48 + k % 256)) = k ∧
      Char.ofNat (48 + k % 256) ∈ conv_digits FormatConvSpec_Int.u := by
  interval_cases k <;> decide

theorem octal_digit_char (k : Nat) (h : k < 8) :
    digit_value (Char.ofNat (48 + k % 256)) = k ∧
      Char.ofNat (48 + k % 256) ∈ conv_digits FormatConvSpec_Int.o := by
  interval_cases k <;> decide

theorem printf_w2b_x_nibble_chars (k : Nat) (h : k < 16) :
    read_base 16 (printf_w2b_x_nibble k).1 = k ∧ (printf_w2b_x_nibble k).1.length = 1 ∧
      ∀ c ∈ (printf_w2b_x_nibble k).1, c ∈ conv_digits FormatConvSpec_Int.x := by
  interval_cases k <;> decide

theorem printf_w2b_X_nibble_chars (k : Nat) (h : k < 16) :
    read_base 16 (printf_w2b_X_nibble k).1 = k ∧ (printf_w2b_X_nibble k).1.length = 1 ∧
      ∀ c ∈ (printf_w2b_X_nibble k).1, c ∈ conv_digits FormatConvSpec_Int.X := by
  interval_cases k <;> decide

theorem binary_nibble_chars (k : Nat) (h : k < 16) :
    read_base 2 (printf_w2b_b_nibble k).1 = k ∧
      ∀ c ∈ (printf_w2b_b_nibble k).1, c ∈ conv_digits FormatConvSpec_Int.b := by
  interval_cases k <;> decide

theorem printf_w2b_u_spec : ∀ n v : Nat,
    read_base 10 (printf_w2b_u n v).1 = v % 10 ^ n ∧
      ∀ c ∈ (printf_w2b_u n v).1, c ∈ conv_digits FormatConvSpec_Int.u := by
  intro n
  induction n with
  | zero => intro v; simp [printf_w2b_u, read_base, Nat.mod_one]
  | succ n ih =>
    intro v
    obtain ⟨hd, hm⟩ := decimal_digit_char (v % 10) (Nat.mod_lt _ (by norm_num))
    obtain ⟨hr, ha⟩ := ih (v / 10)
    simp only [printf_w2b_u]
    constructor
    · rw [read_base_append, hr, pow_succ', Nat.mod_mul]
      simp only [List.length_singleton, pow_one, read_base, List.foldl_cons, List.foldl_nil,
        zero_mul, zero_add, hd]
      ring
    · intro c hc
      rcases List.mem_append.mp hc with h | h
      · exact ha c h
      · rw [List.mem_singleton] at h
        rw [h]; exact hm

theorem printf_w2b_o_spec : ∀ n v : Nat,
    read_base 8 (printf_w2b_o n v).1 = v % 8 ^ n ∧
      ∀ c ∈ (printf_w2b_o n v).1, c ∈ conv_digits FormatConvSpec_Int.o := by
  intro n
  induction n with
  | zero => intro v; simp [printf_w2b_o, read_base, Nat.mod_one]
  | succ n ih =>
    intro v
    obtain ⟨hd, hm⟩ := octal_digit_char (v % 8) (Nat.mod_lt _ (by norm_num))
    obtain ⟨hr, ha⟩ := ih (v / 8)
    simp only [printf_w2b_o]
    constructor
    · rw [read_base_append, hr, pow_succ', Nat.mod_mul]
      simp only [List.length_singleton, pow_one, read_base, List.foldl_cons, List.foldl_nil,
        zero_mul, zero_add, hd]
      ring
    · intro c hc
      rcases List.mem_append.mp hc with h | h
      · exact ha c h
      · rw [List.mem_singleton] at h
        rw [h]; exact hm

theorem printf_w2b_x_spec : ∀ n v : Nat,
    read_base 16 (printf_w2b_x n v).1 = v % 16 ^ n ∧
      ∀ c ∈ (printf_w2b_x n v).1, c ∈ conv_digits FormatConvSpec_Int.x := by
  intro n
  induction n with
  | zero => intro v; simp [printf_w2b_x, read_base, Nat.mod_one]
  | succ n ih =>
    intro v
    have hk : v % 256 % 16 = v % 16 := by omega
    obtain ⟨hd, hl, hm⟩ := printf_w2b_x_nibble_chars (v % 16) (Nat.mod_lt _ (by norm_num))
    obtain ⟨hr, ha⟩ := ih (v / 16)
    have hnib : printf_w2b_x_nibble (v % 256) = printf_w2b_x_nibble (v % 16) := by
      simp only [printf_w2b_x_nibble, hk, Nat.mod_mod]
    simp only [printf_w2b_x, hnib]
    constructor
    · rw [read_base_append, hr, pow_succ', Nat.mod_mul, hl, hd]
      ring
    · intro c hc
      rcases List.mem_append.mp hc with h | h
      · exact ha c h
      · exact hm c h

theorem printf_w2b_X_spec : ∀ n v : Nat,
    read_base 16 (printf_w2b_X n v).1 = v % 16 ^ n ∧
      ∀ c ∈ (printf_w2b_X n v).1, c ∈ conv_digits FormatConvSpec_Int.X := by
  intro n
  induction n with
  | zero => intro v; simp [printf_w2b_X, read_base, Nat.mod_one]
  | succ n ih =>
    intro v
    have hk : v % 256 % 16 = v % 16 := by omega
    obtain ⟨hd, hl, hm⟩ := printf_w2b_X_nibble_chars (v % 16) (Nat.mod_lt _ (by norm_num))
    obtain ⟨hr, ha⟩ := ih (v / 16)
    have hnib : printf_w2b_X_nibble (v % 256) = printf_w2b_X_nibble (v % 16) := by
      simp only [printf_w2b_X_nibble, hk, Nat.mod_mod]
    simp only [printf_w2b_X, hnib]
    constructor
    · rw [read_base_append, hr, pow_succ', Nat.mod_mul, hl, hd]
      ring
    · intro c hc
      rcases List.mem_append.mp hc with h | h
      · exact ha c h
      · exact hm c h

theorem printf_w2b_b_loop_spec : ∀ n v : Nat,
    read_base 2 (printf_w2b_b_loop n v).1 = v % 16 ^ n ∧
      ∀ c ∈ (printf_w2b_b_loop n v).1, c ∈ conv_digits FormatConvSpec_Int.b := by
  intro n
  induction n with
  | zero => intro v; simp [printf_w2b_b_loop, read_base, Nat.mod_one]
  | succ n ih =>
    intro v
    have hk : v % 256 % 16 = v % 16 := by omega
    obtain ⟨hd, hm⟩ := binary_nibble_chars (v % 16) (Nat.mod_lt _ (by norm_num))
    obtain ⟨hr, ha⟩ := ih (v / 16)
    have hnib : printf_w2b_b_nibble (v % 256) = printf_w2b_b_nibble (v % 16) := by
      simp only [printf_w2b_b_nibble, hk, Nat.mod_mod]
    simp only [printf_w2b_b_loop, hnib]
    constructor
    · rw [read_base_append, hr, pow_succ', Nat.mod_mul, printf_w2b_b_nibble_length, hd]
      ring
    · intro c hc
      rcases List.mem_append.mp hc with h | h
      · exact ha c h
      · exact hm c h

/-! ## Leading zeros -/

theorem takeWhile_zero_eq_replicate (buf : List Char) :
    buf.takeWhile (fun c => decide (c = '0'))
      = List.replicate (buf.takeWhile (fun c => decide (c = '0'))).length '0' := by
  rw [List.eq_replicate_iff]
  refine ⟨rfl, fun c hc => ?_⟩
  simpa using List.mem_takeWhile_imp hc

theorem printf_ndigits_base_strip (buf : List Char) (n : Nat) (hlen : buf.length = n)
    (hn : 1 ≤ n) :
    buf = List.replicate (n - printf_ndigits_base buf n) '0'
        ++ buf.drop (n - printf_ndigits_base buf n) ∧
      (buf.drop (n - printf_ndigits_base buf n) = ['0'] ∨
        (buf.drop (n - printf_ndigits_base buf n)).head? ≠ some '0') := by
  have hsplit := List.takeWhile_append_dropWhile (fun c => decide (c = '0')) buf
  have hz := takeWhile_zero_eq_replicate buf
  have htake : buf.take n = buf := List.take_of_length_le (by omega)
  have hnb : printf_ndigits_base buf n
      = if (buf.takeWhile (fun c => decide (c = '0'))).length ≠ n
        then n - (buf.takeWhile (fun c => decide (c = '0'))).length else 1 := by
    simp only [printf_ndigits_base, htake]
  generalize hi : (buf.takeWhile (fun c => decide (c = '0'))).length = i at hz hnb
  have hle : i ≤ n := by
    rw [← hi, ← hlen]
    exact List.Sublist.length_le (List.takeWhile_sublist _)
  by_cases hin : i = n
  · -- every digit is a zero
    have hall : buf = List.replicate n '0' := by
      have h1 : buf.takeWhile (fun c => decide (c = '0')) = buf := by
        refine List.IsPrefix.eq_of_length ( List.takeWhile_prefix _) ?_
        rw [hi, hin, hlen]
      rw [h1, hin] at hz
      exact hz
    have hb : printf_ndigits_base buf n = 1 := by rw [hnb, if_neg (by simpa using hin)]
    rw [hb]
    have hd : buf.drop (n - 1) = ['0'] := by
      rw [hall, List.drop_replicate]
      have : n - (n - 1) = 1 := by omega
      rw [this]; rfl
    refine ⟨?_, Or.inl hd⟩
    rw [hd]
    have : ['0'] = List.replicate 1 '0' := rfl
    rw [this, ← List.replicate_add]
    have : n - 1 + 1 = n := by omega
    rw [this]; exact hall
  · have hb : printf_ndigits_base buf n = n - i := by rw [hnb, if_pos hin]
    have hni : n - (n - i) = i := by omega
    rw [hb, hni]
    have hdrop : buf.drop i = buf.dropWhile (fun c => decide (c = '0')) := by
      conv_lhs => rw [← hsplit]
      exact List.drop_left' hi
    refine ⟨?_, Or.inr ?_⟩
    · rw [hdrop, ← hz]; exact hsplit.symm
    · rw [hdrop]
      intro hh
      have := List.head?_dropWhile_not (fun c => decide (c = '0')) buf
      rw [hh] at this
      simp at this

/-! ## Precision -/

theorem drop_zeros_append (k j : Nat) (ds : List Char) (hj : j ≤ k) :
    (List.replicate k '0' ++ ds).drop j = List.replicate (k - j) '0' ++ ds := by
  rw [List.drop_append_of_le_length (by simpa using hj), List.drop_replicate]

theorem natural_digits_eq (has_asr : Bool) (convspec : FormatConvSpec_Int)
    (value value_size : Nat) (hconv : convspec ≠ FormatConvSpec_Int.UNSET)
    (h1 : 1 ≤ value_size) (h8 : value_size ≤ 8) :
    natural_digits has_asr convspec value value_size
      = (printf_int_base has_asr convspec (printf_ndigits_max value_size convspec)
          value value_size).1.drop
        (printf_ndigits_max value_size convspec -
          printf_ndigits_base (printf_int_base has_asr convspec
            (printf_ndigits_max value_size convspec) value value_size).1
            (printf_ndigits_max value_size convspec)) := by
  obtain ⟨hm1, hm64⟩ := printf_ndigits_max_bounds value_size convspec hconv h1 h8
  have hlen := printf_int_base_length has_asr convspec value value_size hconv
  obtain ⟨hb1, hb2⟩ := printf_ndigits_base_bounds
    (printf_int_base has_asr convspec (printf_ndigits_max value_size convspec)
      value value_size).1 (printf_ndigits_max value_size convspec) hm1
  have hn : printf_ndigits_base (printf_int_base has_asr convspec
      (printf_ndigits_max value_size convspec) value value_size).1
      (printf_ndigits_max value_size convspec) % UINT_MOD
      = printf_ndigits_base (printf_int_base has_asr convspec
      (printf_ndigits_max value_size convspec) value value_size).1
      (printf_ndigits_max value_size convspec) :=
    Nat.mod_eq_of_lt (by unfold UINT_MOD; omega)
  simp only [natural_digits, digit_bytes, printf_int_locals, itemformat_int_get,
    printf_int_precision, hn, FORMATPRECISION_UNSET, FORMATPRECISION_NATURAL]
  rw [if_neg (by norm_num), if_neg (by omega)]
  exact List.take_of_length_le (by rw [List.length_drop, hlen]; omega)

theorem printf_int_locals_digits (has_asr : Bool) (itemfmt : ItemFormat_Int)
    (value value_size : Nat) (hconv : itemfmt.convspec ≠ FormatConvSpec_Int.UNSET)
    (h1 : 1 ≤ value_size) (h8 : value_size ≤ 8) :
    (natural_digits has_asr itemfmt.convspec value value_size).length
        ≤ printf_ndigits_max value_size itemfmt.convspec ∧
    (itemfmt.precision = FORMATPRECISION_NATURAL →
      (printf_int_locals has_asr itemfmt value value_size).precision_pad = 0 ∧
      digit_bytes (printf_int_locals has_asr itemfmt value value_size)
        = List.replicate (printf_ndigits_max value_size itemfmt.convspec
            - (natural_digits has_asr itemfmt.convspec value value_size).length) '0'
          ++ natural_digits has_asr itemfmt.convspec value value_size) ∧
    (1 ≤ itemfmt.precision →
      digit_part (printf_int_locals has_asr itemfmt value value_size)
        = List.replicate (max (natural_digits has_asr itemfmt.convspec value value_size).length
              itemfmt.precision
            - (natural_digits has_asr itemfmt.convspec value value_size).length) '0'
          ++ natural_digits has_asr itemfmt.convspec value value_size) := by
  obtain ⟨hm1, hm64⟩ := printf_ndigits_max_bounds value_size itemfmt.convspec hconv h1 h8
  have hlen := printf_int_base_length has_asr itemfmt.convspec value value_size hconv
  have hnat := natural_digits_eq has_asr itemfmt.convspec value value_size hconv h1 h8
  generalize natural_digits has_asr itemfmt.convspec value value_size = nat at hnat ⊢
  simp only [digit_part, digit_bytes, printf_int_locals, printf_int_precision,
    FORMATPRECISION_NATURAL]
  generalize (printf_int_base has_asr itemfmt.convspec
    (printf_ndigits_max value_size itemfmt.convspec) value value_size).1 = buf at hlen hnat ⊢
  generalize printf_ndigits_max value_size itemfmt.convspec = m at hm1 hm64 hlen hnat ⊢
  obtain ⟨hb1, hb2⟩ := printf_ndigits_base_bounds buf m hm1
  obtain ⟨hstrip, _⟩ := printf_ndigits_base_strip buf m hlen hm1
  rw [← hnat] at hstrip
  have hnl : nat.length = printf_ndigits_base buf m := by
    rw [hnat, List.length_drop, hlen]; omega
  rw [← hnl] at hstrip hb1 hb2
  have hmm : m % UINT_MOD = m := Nat.mod_eq_of_lt (by unfold UINT_MOD; omega)
  have hnm : printf_ndigits_base buf m % UINT_MOD = nat.length := by
    rw [← hnl]; exact Nat.mod_eq_of_lt (by unfold UINT_MOD; omega)
  have hbl : (List.replicate (m - nat.length) '0' ++ nat).length = m := by
    rw [← hstrip]; exact hlen
  simp only [hmm, hnm]
  refine ⟨hb2, ?_, ?_⟩
  · intro hp
    rw [if_pos hp]
    refine ⟨rfl, ?_⟩
    simp only [Nat.sub_self, List.drop_zero]
    rw [List.take_of_length_le (by omega)]
    exact hstrip
  · intro hp
    rw [if_neg (by omega)]
    by_cases hgt : itemfmt.precision > nat.length
    · rw [if_pos hgt]
      have hmax : max nat.length itemfmt.precision = itemfmt.precision := by omega
      rw [hmax]
      by_cases hbig : itemfmt.precision > m
      · rw [if_pos hbig]
        simp only [Nat.sub_self, List.drop_zero]
        rw [List.take_of_length_le (by omega)]
        conv_lhs => rw [hstrip]
        rw [← List.append_assoc, ← List.replicate_add]
        have : itemfmt.precision - m + (m - nat.length) = itemfmt.precision - nat.length := by
          omega
        rw [this]
      · rw [if_neg hbig]
        simp only [List.replicate_zero, List.nil_append]
        rw [List.take_of_length_le (by rw [List.length_drop]; omega)]
        conv_lhs => rw [hstrip]
        rw [drop_zeros_append _ _ _ (by omega)]
        have : m - nat.length - (m - itemfmt.precision) = itemfmt.precision - nat.length := by
          omega
        rw [this]
    · rw [if_neg hgt]
      have hmax : max nat.length itemfmt.precision = nat.length := by omega
      rw [hmax]
      simp only [Nat.sub_self, List.replicate_zero, List.nil_append]
      rw [List.take_of_length_le (by rw [List.length_drop]; omega), hnl]
      exact hnat.symm

/-! ## Layout of a rendered value -/

theorem rendered_no_pad (has_asr : Bool) (itemfmt : ItemFormat_Int) (value value_size : Nat)
    (h : ¬ (printf_int_locals has_asr itemfmt value value_size).printed_size
      < itemfmt.fieldwidth) :
    head_bytes itemfmt (printf_int_locals has_asr itemfmt value value_size) ++
        digit_part (printf_int_locals has_asr itemfmt value value_size) ++
        tail_bytes (printf_int_locals has_asr itemfmt value value_size)
      = (printf_int_locals has_asr itemfmt value value_size).sigil_buf ++
        sign_bytes itemfmt (printf_int_locals has_asr itemfmt value value_size) ++
        List.replicate (printf_int_locals has_asr itemfmt value value_size).precision_pad '0' ++
        digit_bytes (printf_int_locals has_asr itemfmt value value_size) := by
  obtain ⟨hty, _⟩ := (printf_int_locals_adjust has_asr itemfmt value value_size).2 h
  simp [head_bytes, tail_bytes, digit_part, sigil_sign_bytes, hty]

theorem rendered_right_zero (has_asr : Bool) (itemfmt : ItemFormat_Int)
    (value value_size : Nat)
    (h : (printf_int_locals has_asr itemfmt value value_size).printed_size
      < itemfmt.fieldwidth)
    (hleft : itemfmt.flags &&& FORMATFLAG_LEFT_ADJUST = 0)
    (hzero : itemfmt.flags &&& FORMATFLAG_ZERO_PAD ≠ 0) :
    head_bytes itemfmt (printf_int_locals has_asr itemfmt value value_size) ++
        digit_part (printf_int_locals has_asr itemfmt value value_size) ++
        tail_bytes (printf_int_locals has_asr itemfmt value value_size)
      = (printf_int_locals has_asr itemfmt value value_size).sigil_buf ++
        sign_bytes itemfmt (printf_int_locals has_asr itemfmt value value_size) ++
        List.replicate (itemfmt.fieldwidth -
          (printf_int_locals has_asr itemfmt value value_size).printed_size) '0' ++
        List.replicate (printf_int_locals has_asr itemfmt value value_size).precision_pad '0' ++
        digit_bytes (printf_int_locals has_asr itemfmt value value_size) := by
  obtain ⟨hty, hsz, hc⟩ := (printf_int_locals_adjust has_asr itemfmt value value_size).1 h
  rw [if_pos hleft] at hty
  rw [if_neg hzero] at hc
  simp [head_bytes, tail_bytes, digit_part, sigil_sign_bytes, hty, hsz, hc,
    -List.append_replicate_replicate]

theorem rendered_right_space (has_asr : Bool) (itemfmt : ItemFormat_Int)
    (value value_size : Nat)
    (h : (printf_int_locals has_asr itemfmt value value_size).printed_size
      < itemfmt.fieldwidth)
    (hleft : itemfmt.flags &&& FORMATFLAG_LEFT_ADJUST = 0)
    (hzero : itemfmt.flags &&& FORMATFLAG_ZERO_PAD = 0) :
    head_bytes itemfmt (printf_int_locals has_asr itemfmt value value_size) ++
        digit_part (printf_int_locals has_asr itemfmt value value_size) ++
        tail_bytes (printf_int_locals has_asr itemfmt value value_size)
      = List.replicate (itemfmt.fieldwidth -
          (printf_int_locals has_asr itemfmt value value_size).printed_size) ' ' ++
        (printf_int_locals has_asr itemfmt value value_size).sigil_buf ++
        sign_bytes itemfmt (printf_int_locals has_asr itemfmt value value_size) ++
        List.replicate (printf_int_locals has_asr itemfmt value value_size).precision_pad '0' ++
        digit_bytes (printf_int_locals has_asr itemfmt value value_size) := by
  obtain ⟨hty, hsz, hc⟩ := (printf_int_locals_adjust has_asr itemfmt value value_size).1 h
  rw [if_pos hleft] at hty
  rw [if_pos hzero] at hc
  simp [head_bytes, tail_bytes, digit_part, sigil_sign_bytes, hty, hsz, hc]

theorem rendered_left (has_asr : Bool) (itemfmt : ItemFormat_Int)
    (value value_size : Nat)
    (h : (printf_int_locals has_asr itemfmt value value_size).printed_size
      < itemfmt.fieldwidth)
    (hleft : itemfmt.flags &&& FORMATFLAG_LEFT_ADJUST ≠ 0) :
    head_bytes itemfmt (printf_int_locals has_asr itemfmt value value_size) ++
        digit_part (printf_int_locals has_asr itemfmt value value_size) ++
        tail_bytes (printf_int_locals has_asr itemfmt value value_size)
      = (printf_int_locals has_asr itemfmt value value_size).sigil_buf ++
        sign_bytes itemfmt (printf_int_locals has_asr itemfmt value value_size) ++
        List.replicate (printf_int_locals has_asr itemfmt value value_size).precision_pad '0' ++
        digit_bytes (printf_int_locals has_asr itemfmt value value_size) ++
        List.replicate (itemfmt.fieldwidth -
          (printf_int_locals has_asr itemfmt value value_size).printed_size) ' ' := by
  obtain ⟨hty, hsz, hc⟩ := (printf_int_locals_adjust has_asr itemfmt value value_size).1 h
  rw [if_neg hleft] at hty
  simp [head_bytes, tail_bytes, digit_part, sigil_sign_bytes, hty, hsz]

theorem value_size_bounds (value_size : Nat) (h : value_size ∈ [1, 2, 4, 8]) :
    1 ≤ value_size ∧ value_size ≤ 8 := by
  simp only [List.mem_cons, List.mem_singleton, List.not_mem_nil, or_false] at h
  omega

/-- Rendering law with the bytes named: when the raw writer always completes,
`printf_int` returns their number and has emitted exactly them. -/
theorem printf_int_emits (has_asr : Bool) (os : Os) (fuel0 : Nat) (hos : raw_writer_full os fuel0)
    (fuel : Nat) (wb : ASSPF_WriteBuf) (sys : Sys) (format : List Char)
    (itemfmt : ItemFormat_Int) (value value_size : Nat)
    (hscan : format_scan_int format = some itemfmt) (hwf : writebuf_wf wb)
    (hsize : value_size ∈ [1, 2, 4, 8])
    (hfuel : itemfmt.fieldwidth + itemfmt.precision + 3 + fuel0 ≤ fuel) (bytes : List Char)
    (hbytes : head_bytes itemfmt (printf_int_locals has_asr itemfmt value value_size) ++
          digit_part (printf_int_locals has_asr itemfmt value value_size) ++
          tail_bytes (printf_int_locals has_asr itemfmt value value_size) = bytes) :
    ∃ wb1 sys1, printf_int has_asr os fuel wb sys format value value_size
        = some (wb1, sys1, bytes.length) ∧
      emitted wb1 sys1 = emitted wb sys ++ on_fd wb.fd bytes ∧ writebuf_wf wb1 := by
  obtain ⟨h1, h8⟩ := value_size_bounds value_size hsize
  obtain ⟨st1, hrun, hwf1, _, _, hem, hret⟩ := printf_int_full has_asr os fuel0 hos fuel wb sys format
    itemfmt value value_size hscan hwf h1 h8 hfuel
  rw [hbytes] at hem hret
  refine ⟨st1.1, st1.2.1, ?_, hem, hwf1⟩
  rw [hrun]
  simp only [zero_add] at hret
  rw [← hret]

/-! ## Natural digits of the unsigned conversions -/

theorem rendered_plain (has_asr : Bool) (convspec : FormatConvSpec_Int) (precision : Nat)
    (value value_size : Nat) :
    head_bytes (itemformat_int_get FORMATFLAG_NONE FORMATFIELDWIDTH_UNSET precision convspec)
        (printf_int_locals has_asr
          (itemformat_int_get FORMATFLAG_NONE FORMATFIELDWIDTH_UNSET precision convspec)
          value value_size) ++
      digit_part (printf_int_locals has_asr
          (itemformat_int_get FORMATFLAG_NONE FORMATFIELDWIDTH_UNSET precision convspec)
          value value_size) ++
      tail_bytes (printf_int_locals has_asr
          (itemformat_int_get FORMATFLAG_NONE FORMATFIELDWIDTH_UNSET precision convspec)
          value value_size)
      = sign_bytes (itemformat_int_get FORMATFLAG_NONE FORMATFIELDWIDTH_UNSET precision convspec)
          (printf_int_locals has_asr
            (itemformat_int_get FORMATFLAG_NONE FORMATFIELDWIDTH_UNSET precision convspec)
            value value_size) ++
        digit_part (printf_int_locals has_asr
          (itemformat_int_get FORMATFLAG_NONE FORMATFIELDWIDTH_UNSET precision convspec)
          value value_size) := by
  have hw : ¬ (printf_int_locals has_asr
      (itemformat_int_get FORMATFLAG_NONE FORMATFIELDWIDTH_UNSET precision convspec)
      value value_size).printed_size
      < (itemformat_int_get FORMATFLAG_NONE FORMATFIELDWIDTH_UNSET precision
          convspec).fieldwidth := by
    simp [itemformat_int_get, FORMATFIELDWIDTH_UNSET]
  rw [rendered_no_pad has_asr _ value value_size hw]
  have hs : (printf_int_locals has_asr
      (itemformat_int_get FORMATFLAG_NONE FORMATFIELDWIDTH_UNSET precision convspec)
      value value_size).sigil_buf = [] := by
    simp [printf_int_locals, itemformat_int_get, FORMATFLAG_NONE]
  rw [hs, digit_part]
  simp

theorem unsigned_base_spec (has_asr : Bool) (convspec : FormatConvSpec_Int)
    (value value_size : Nat)
    (hconv : convspec ∈ [FormatConvSpec_Int.u, FormatConvSpec_Int.b, FormatConvSpec_Int.o,
      FormatConvSpec_Int.x, FormatConvSpec_Int.X])
    (hsize : value_size ∈ [1, 2, 4, 8]) (hvalue : value < 2 ^ (8 * value_size)) :
    read_base (conv_base convspec)
        (printf_int_base has_asr convspec (printf_ndigits_max value_size convspec)
          value value_size).1 = value ∧
      ∀ c ∈ (printf_int_base has_asr convspec (printf_ndigits_max value_size convspec)
          value value_size).1, c ∈ conv_digits convspec := by
  obtain ⟨a1, a2, a3, a4, a5, a6, a7, a8⟩ := ilog10p1_values
  simp only [List.mem_cons, List.mem_singleton, List.not_mem_nil, or_false] at hconv hsize
  rcases hconv with rfl | rfl | rfl | rfl | rfl
  · -- u
    have key : ∀ m, value < 10 ^ m →
        read_base 10 (printf_w2b_u m value).1 = value ∧
          ∀ c ∈ (printf_w2b_u m value).1, c ∈ conv_digits FormatConvSpec_Int.u := by
      intro m hm
      obtain ⟨hr, ha⟩ := printf_w2b_u_spec m value
      exact ⟨by rw [hr, Nat.mod_eq_of_lt hm], ha⟩
    rcases hsize with rfl | rfl | rfl | rfl <;>
      simp only [printf_int_base, printf_ndigits_max, conv_base, a5, a6, a7, a8] <;>
      norm_num <;> apply key <;> norm_num at hvalue ⊢ <;> omega
  · -- b
    have key : ∀ m, value < 16 ^ m →
        read_base 2 (printf_w2b_b_loop m value).1 = value ∧
          ∀ c ∈ (printf_w2b_b_loop m value).1, c ∈ conv_digits FormatConvSpec_Int.b := by
      intro m hm
      obtain ⟨hr, ha⟩ := printf_w2b_b_loop_spec m value
      exact ⟨by rw [hr, Nat.mod_eq_of_lt hm], ha⟩
    rcases hsize with rfl | rfl | rfl | rfl <;>
      simp only [printf_int_base, printf_ndigits_max, conv_base, printf_w2b_b] <;>
      norm_num <;> apply key <;> norm_num at hvalue ⊢ <;> omega
  · -- o
    have key : ∀ m, value < 8 ^ m →
        read_base 8 (printf_w2b_o m value).1 = value ∧
          ∀ c ∈ (printf_w2b_o m value).1, c ∈ conv_digits FormatConvSpec_Int.o := by
      intro m hm
      obtain ⟨hr, ha⟩ := printf_w2b_o_spec m value
      exact ⟨by rw [hr, Nat.mod_eq_of_lt hm], ha⟩
    rcases hsize with rfl | rfl | rfl | rfl <;>
      simp only [printf_int_base, printf_ndigits_max, conv_base] <;>
      norm_num <;> apply key <;> norm_num at hvalue ⊢ <;> omega
  · -- x
    have key : ∀ m, value < 16 ^ m →
        read_base 16 (printf_w2b_x m value).1 = value ∧
          ∀ c ∈ (printf_w2b_x m value).1, c ∈ conv_digits FormatConvSpec_Int.x := by
      intro m hm
      obtain ⟨hr, ha⟩ := printf_w2b_x_spec m value
      exact ⟨by rw [hr, Nat.mod_eq_of_lt hm], ha⟩
    rcases hsize with rfl | rfl | rfl | rfl <;>
      simp only [printf_int_base, printf_ndigits_max, conv_base] <;>
      norm_num <;> apply key <;> norm_num at hvalue ⊢ <;> omega
  · -- X
    have key : ∀ m, value < 16 ^ m →
        read_base 16 (printf_w2b_X m value).1 = value ∧
          ∀ c ∈ (printf_w2b_X m value).1, c ∈ conv_digits FormatConvSpec_Int.X := by
      intro m hm
      obtain ⟨hr, ha⟩ := printf_w2b_X_spec m value
      exact ⟨by rw [hr, Nat.mod_eq_of_lt hm], ha⟩
    rcases hsize with rfl | rfl | rfl | rfl <;>
      simp only [printf_int_base, printf_ndigits_max, conv_base] <;>
      norm_num <;> apply key <;> norm_num at hvalue ⊢ <;> omega

/-! ## Sign extension -/

theorem intmax_of_small (u : Nat) (h : u < 9223372036854775808) :
    intmax_of u = (u : Int) := by
  unfold intmax_of UINTMAX_MOD
  split_ifs <;> omega

theorem intmax_of_big (u : Nat) (h1 : 9223372036854775808 ≤ u)
    (h2 : u < 18446744073709551616) :
    intmax_of u = (u : Int) - 18446744073709551616 := by
  unfold intmax_of UINTMAX_MOD
  split_ifs <;> omega

theorem uintmax_of_natCast (u : Nat) (h : u < 18446744073709551616) :
    uintmax_of (u : Int) = u := by
  unfold uintmax_of UINTMAX_MOD
  omega

theorem uintmax_of_sub (u : Nat) (h1 : 9223372036854775808 ≤ u)
    (h2 : u < 18446744073709551616) :
    uintmax_of ((u : Int) - 18446744073709551616) = u := by
  unfold uintmax_of UINTMAX_MOD
  omega

theorem printf_read_raw_d_size1 (has_asr : Bool) (value : Nat) (hvalue : value < 256) :
    printf_read_raw_d has_asr value 1
      = if value < 128 then (value : Int) else (value : Int) - 256 := by
  have hk : ((8 - 1) * 8) % 256 = 56 := by norm_num
  have hK : (2 : Nat) ^ 56 = 72057594037927936 := by norm_num
  have hKi : (2 : Int) ^ 56 = 72057594037927936 := by norm_num
  have h1 : intmax_of value = (value : Int) := intmax_of_small value (by omega)
  have h2 : uintmax_of (value : Int) = value := uintmax_of_natCast value (by omega)
  have h3 : value * 72057594037927936 % UINTMAX_MOD = value * 72057594037927936 := by unfold UINTMAX_MOD; omega
  simp only [printf_read_raw_d, asl_imax, hk, h1, h2, hK, h3]
  by_cases hlt : value < 128
  · rw [if_pos hlt]
    have h4 : intmax_of (value * 72057594037927936) = ((value * 72057594037927936 : Nat) : Int) :=
      intmax_of_small _ (by omega)
    have h5 : uintmax_of ((value * 72057594037927936 : Nat) : Int) = value * 72057594037927936 :=
      uintmax_of_natCast _ (by omega)
    have h6 : intmax_of (value * 72057594037927936 / 72057594037927936) = ((value * 72057594037927936 / 72057594037927936 : Nat) : Int) :=
      intmax_of_small _ (by omega)
    rw [h4]
    cases has_asr
    · simp only [asr_imax, Bool.false_eq_true, if_false, h5, hK, h6]
      rw [if_neg (by omega)]
      omega
    · simp only [asr_imax, if_true, Int.shiftRight_eq_div_pow, hKi]
      omega
  · rw [if_neg hlt]
    have h4 : intmax_of (value * 72057594037927936) = ((value * 72057594037927936 : Nat) : Int) - 18446744073709551616 :=
      intmax_of_big _ (by omega) (by omega)
    have h5 : uintmax_of (((value * 72057594037927936 : Nat) : Int) - 18446744073709551616) = value * 72057594037927936 :=
      uintmax_of_sub _ (by omega) (by omega)
    rw [h4]
    cases has_asr
    · simp only [asr_imax, Bool.false_eq_true, if_false, h5, hK]
      rw [if_pos (by omega)]
      have h7 : UINTMAX_MOD - 1 - (UINTMAX_MOD - 1 - value * 72057594037927936) / 72057594037927936
          = 18446744073709551616 - 256 + value := by unfold UINTMAX_MOD; omega
      rw [h7, intmax_of_big _ (by omega) (by omega)]
      omega
    · simp only [asr_imax, if_true, Int.shiftRight_eq_div_pow, hKi]
      omega

theorem printf_read_raw_d_size2 (has_asr : Bool) (value : Nat) (hvalue : value < 65536) :
    printf_read_raw_d has_asr value 2
      = if value < 32768 then (value : Int) else (value : Int) - 65536 := by
  have hk : ((8 - 2) * 8) % 256 = 48 := by norm_num
  have hK : (2 : Nat) ^ 48 = 281474976710656 := by norm_num
  have hKi : (2 : Int) ^ 48 = 281474976710656 := by norm_num
  have h1 : intmax_of value = (value : Int) := intmax_of_small value (by omega)
  have h2 : uintmax_of (value : Int) = value := uintmax_of_natCast value (by omega)
  have h3 : value * 281474976710656 % UINTMAX_MOD = value * 281474976710656 := by unfold UINTMAX_MOD; omega
  simp only [printf_read_raw_d, asl_imax, hk, h1, h2, hK, h3]
  by_cases hlt : value < 32768
  · rw [if_pos hlt]
    have h4 : intmax_of (value * 281474976710656) = ((value * 281474976710656 : Nat) : Int) :=
      intmax_of_small _ (by omega)
    have h5 : uintmax_of ((value * 281474976710656 : Nat) : Int) = value * 281474976710656 :=
      uintmax_of_natCast _ (by omega)
    have h6 : intmax_of (value * 281474976710656 / 281474976710656) = ((value * 281474976710656 / 281474976710656 : Nat) : Int) :=
      intmax_of_small _ (by omega)
    rw [h4]
    cases has_asr
    · simp only [asr_imax, Bool.false_eq_true, if_false, h5, hK, h6]
      rw [if_neg (by omega)]
      omega
    · simp only [asr_imax, if_true, Int.shiftRight_eq_div_pow, hKi]
      omega
  · rw [if_neg hlt]
    have h4 : intmax_of (value * 281474976710656) = ((value * 281474976710656 : Nat) : Int) - 18446744073709551616 :=
      intmax_of_big _ (by omega) (by omega)
    have h5 : uintmax_of (((value * 281474976710656 : Nat) : Int) - 18446744073709551616) = value * 281474976710656 :=
      uintmax_of_sub _ (by omega) (by omega)
    rw [h4]
    cases has_asr
    · simp only [asr_imax, Bool.false_eq_true, if_false, h5, hK]
      rw [if_pos (by omega)]
      have h7 : UINTMAX_MOD - 1 - (UINTMAX_MOD - 1 - value * 281474976710656) / 281474976710656
          = 18446744073709551616 - 65536 + value := by unfold UINTMAX_MOD; omega
      rw [h7, intmax_of_big _ (by omega) (by omega)]
      omega
    · simp only [asr_imax, if_true, Int.shiftRight_eq_div_pow, hKi]
      omega

theorem printf_read_raw_d_size4 (has_asr : Bool) (value : Nat) (hvalue : value < 4294967296) :
    printf_read_raw_d has_asr value 4
      = if value < 2147483648 then (value : Int) else (value : Int) - 4294967296 := by
  have hk : ((8 - 4) * 8) % 256 = 32 := by norm_num
  have hK : (2 : Nat) ^ 32 = 4294967296 := by norm_num
  have hKi : (2 : Int) ^ 32 = 4294967296 := by norm_num
  have h1 : intmax_of value = (value : Int) := intmax_of_small value (by omega)
  have h2 : uintmax_of (value : Int) = value := uintmax_of_natCast value (by omega)
  have h3 : value * 4294967296 % UINTMAX_MOD = value * 4294967296 := by unfold UINTMAX_MOD; omega
  simp only [printf_read_raw_d, asl_imax, hk, h1, h2, hK, h3]
  by_cases hlt : value < 2147483648
  · rw [if_pos hlt]
    have h4 : intmax_of (value * 4294967296) = ((value * 4294967296 : Nat) : Int) :=
      intmax_of_small _ (by omega)
    have h5 : uintmax_of ((value * 4294967296 : Nat) : Int) = value * 4294967296 :=
      uintmax_of_natCast _ (by omega)
    have h6 : intmax_of (value * 4294967296 / 4294967296) = ((value * 4294967296 / 4294967296 : Nat) : Int) :=
      intmax_of_small _ (by omega)
    rw [h4]
    cases has_asr
    · simp only [asr_imax, Bool.false_eq_true, if_false, h5, hK, h6]
      rw [if_neg (by omega)]
      omega
    · simp only [asr_imax, if_true, Int.shiftRight_eq_div_pow, hKi]
      omega
  · rw [if_neg hlt]
    have h4 : intmax_of (value * 4294967296) = ((value * 4294967296 : Nat) : Int) - 18446744073709551616 :=
      intmax_of_big _ (by omega) (by omega)
    have h5 : uintmax_of (((value * 4294967296 : Nat) : Int) - 18446744073709551616) = value * 4294967296 :=
      uintmax_of_sub _ (by omega) (by omega)
    rw [h4]
    cases has_asr
    · simp only [asr_imax, Bool.false_eq_true, if_false, h5, hK]
      rw [if_pos (by omega)]
      have h7 : UINTMAX_MOD - 1 - (UINTMAX_MOD - 1 - value * 4294967296) / 4294967296
          = 18446744073709551616 - 4294967296 + value := by unfold UINTMAX_MOD; omega
      rw [h7, intmax_of_big _ (by omega) (by omega)]
      omega
    · simp only [asr_imax, if_true, Int.shiftRight_eq_div_pow, hKi]
      omega

theorem printf_read_raw_d_size8 (has_asr : Bool) (value : Nat) (hvalue : value < 18446744073709551616) :
    printf_read_raw_d has_asr value 8
      = if value < 9223372036854775808 then (value : Int) else (value : Int) - 18446744073709551616 := by
  have hk : ((8 - 8) * 8) % 256 = 0 := by norm_num
  have h3 : value * 1 % UINTMAX_MOD = value := by unfold UINTMAX_MOD; omega
  simp only [printf_read_raw_d, asl_imax, hk, pow_zero]
  by_cases hlt : value < 9223372036854775808
  · rw [if_pos hlt]
    have h1 : intmax_of value = (value : Int) := intmax_of_small value hlt
    have h2 : uintmax_of (value : Int) = value := uintmax_of_natCast value hvalue
    rw [h1, h2, h3, h1]
    cases has_asr
    · simp only [asr_imax, Bool.false_eq_true, if_false, h2, pow_zero, Nat.div_one]
      rw [if_neg (by omega), h1]
    · simp only [asr_imax, if_true, Int.shiftRight_eq_div_pow, pow_zero]
      omega
  · rw [if_neg hlt]
    have h1 : intmax_of value = (value : Int) - 18446744073709551616 :=
      intmax_of_big value (by omega) hvalue
    have h2 : uintmax_of ((value : Int) - 18446744073709551616) = value :=
      uintmax_of_sub value (by omega) hvalue
    rw [h1, h2, h3, h1]
    cases has_asr
    · simp only [asr_imax, Bool.false_eq_true, if_false, h2, pow_zero, Nat.div_one]
      rw [if_pos (by omega)]
      have h7 : UINTMAX_MOD - 1 - (UINTMAX_MOD - 1 - value) = value := by
        unfold UINTMAX_MOD; omega
      rw [h7, h1]
    · simp only [asr_imax, if_true, Int.shiftRight_eq_div_pow, pow_zero]
      omega

/-! ## Flag tests -/

theorem land_mod_64 (x m : Nat) (h : m &&& 63 = m) : x &&& m = (x % 64) &&& m := by
  have h63 : (63 : Nat) = 2 ^ 6 - 1 := by norm_num
  have h64 : (64 : Nat) = 2 ^ 6 := by norm_num
  rw [h64, ← Nat.and_pow_two_sub_one_eq_mod, ← h63, Nat.and_assoc, Nat.and_comm 63 m, h]

theorem altform_all_iff (flags : Nat) :
    flags &&& FORMATFLAG_ALTFORM_ALL ≠ 0 ↔
      (flags &&& FORMATFLAG_ALTFORM_C ≠ 0 ∨ flags &&& FORMATFLAG_ALTFORM_M ≠ 0) := by
  rw [land_mod_64 flags FORMATFLAG_ALTFORM_ALL (by decide),
    land_mod_64 flags FORMATFLAG_ALTFORM_C (by decide),
    land_mod_64 flags FORMATFLAG_ALTFORM_M (by decide)]
  have h : flags % 64 < 64 := Nat.mod_lt _ (by norm_num)
  generalize flags % 64 = r at h
  interval_cases r <;> decide

/-! ## Sign and sigil -/

theorem intmax_of_uintmax_of (x : Int) (h1 : -9223372036854775808 ≤ x)
    (h2 : x < 9223372036854775808) : intmax_of (uintmax_of x) = x := by
  unfold intmax_of uintmax_of UINTMAX_MOD
  split_ifs <;> omega

theorem printf_int_base_sign (has_asr : Bool) (ndigits_max value value_size : Nat)
    (hsize : value_size ∈ [1, 2, 4, 8]) (hvalue : value < 2 ^ (8 * value_size)) :
    (printf_int_base has_asr FormatConvSpec_Int.d ndigits_max value value_size).2
      = if 2 ^ (8 * value_size - 1) ≤ value then '-' else '+' := by
  simp only [List.mem_cons, List.mem_singleton, List.not_mem_nil, or_false] at hsize
  simp only [printf_int_base]
  rcases hsize with rfl | rfl | rfl | rfl
  · norm_num at hvalue ⊢
    rw [printf_read_raw_d_size1 has_asr value hvalue]
    split_ifs <;> first | rfl | (rw [intmax_of_uintmax_of _ (by omega) (by omega)] at *; omega)
  · norm_num at hvalue ⊢
    rw [printf_read_raw_d_size2 has_asr value hvalue]
    split_ifs <;> first | rfl | (rw [intmax_of_uintmax_of _ (by omega) (by omega)] at *; omega)
  · norm_num at hvalue ⊢
    rw [printf_read_raw_d_size4 has_asr value hvalue]
    split_ifs <;> first | rfl | (rw [intmax_of_uintmax_of _ (by omega) (by omega)] at *; omega)
  · norm_num at hvalue ⊢
    rw [printf_read_raw_d_size8 has_asr value hvalue]
    split_ifs <;> first | rfl | (rw [intmax_of_uintmax_of _ (by omega) (by omega)] at *; omega)

theorem sign_bytes_eq_spec (has_asr : Bool) (itemfmt : ItemFormat_Int) (value value_size : Nat)
    (hsize : value_size ∈ [1, 2, 4, 8]) (hvalue : value < 2 ^ (8 * value_size)) :
    sign_bytes itemfmt (printf_int_locals has_asr itemfmt value value_size)
      = spec_sign_glyph itemfmt value value_size := by
  by_cases hd : itemfmt.convspec = FormatConvSpec_Int.d
  · have hs := printf_int_base_sign has_asr (printf_ndigits_max value_size itemfmt.convspec)
      value value_size hsize hvalue
    simp only [sign_bytes, spec_sign_glyph, printf_int_locals, printf_int_sign, hd, if_true,
      true_and] at hs ⊢
    rw [hs]
    by_cases hneg : 2 ^ (8 * value_size - 1) ≤ value
    · simp [hneg]
    · simp only [hneg, if_false]
      have hpm : ('+' : Char) ≠ '-' := by decide
      simp only [hpm, if_false, if_true]
      split_ifs <;> simp_all
  · simp [sign_bytes, spec_sign_glyph, hd]

theorem sigil_buf_eq_spec (has_asr : Bool) (itemfmt : ItemFormat_Int) (value value_size : Nat)
    (hconv : itemfmt.convspec ≠ FormatConvSpec_Int.UNSET) :
    (printf_int_locals has_asr itemfmt value value_size).sigil_buf = spec_sigil itemfmt := by
  simp only [printf_int_locals, spec_sigil, printf_flag_sigil_int]
  by_cases hc : itemfmt.flags &&& FORMATFLAG_ALTFORM_C ≠ 0
  · rw [if_pos ((altform_all_iff _).2 (Or.inl hc)), if_pos hc, if_pos hc]
    cases hcv : itemfmt.convspec <;> first | exact absurd hcv hconv | rfl
  · by_cases hm : itemfmt.flags &&& FORMATFLAG_ALTFORM_M ≠ 0
    · rw [if_pos ((altform_all_iff _).2 (Or.inr hm)), if_neg hc, if_pos hm, if_neg hc, if_pos hm]
      cases hcv : itemfmt.convspec <;> first | exact absurd hcv hconv | rfl
    · have hall : ¬ itemfmt.flags &&& FORMATFLAG_ALTFORM_ALL ≠ 0 := by
        intro h
        rcases (altform_all_iff _).1 h with h | h
        · exact hc h
        · exact hm h
      rw [if_neg hall, if_neg hc, if_neg hm]

/-! ## The digits of zero -/

theorem natural_digits_zero (has_asr : Bool) (convspec : FormatConvSpec_Int) (value_size : Nat)
    (hconv : convspec ≠ FormatConvSpec_Int.UNSET) (hsize : value_size ∈ [1, 2, 4, 8]) :
    natural_digits has_asr convspec 0 value_size = ['0'] := by
  simp only [List.mem_cons, List.mem_singleton, List.not_mem_nil, or_false] at hsize
  rcases hsize with rfl | rfl | rfl | rfl <;> cases has_asr <;> cases convspec <;>
    first
    | exact absurd rfl hconv
    | decide

/-! ## Digit runs of the format -/

theorem ascii_isdigit_bounds (c : Char) (h : ascii_isdigit c = true) :
    48 ≤ c.toNat ∧ c.toNat ≤ 57 := by
  simp only [ascii_isdigit, Bool.and_eq_true, decide_eq_true_eq] at h
  obtain ⟨h1, h2⟩ := h
  have h1n : ('0' : Char).toNat ≤ c.toNat := h1
  have h2n : c.toNat ≤ ('9' : Char).toNat := h2
  have e1 : ('0' : Char).toNat = 48 := rfl
  have e2 : ('9' : Char).toNat = 57 := rfl
  omega

theorem digit_value_of_isdigit (c : Char) (h : ascii_isdigit c = true) :
    digit_value c = c.toNat - 48 := by
  simp only [ascii_isdigit, Bool.and_eq_true, decide_eq_true_eq] at h
  simp only [digit_value, h, and_self, if_true]

theorem read_base_snoc (base : Nat) (ds : List Char) (c : Char) :
    read_base base (ds ++ [c]) = read_base base ds * base + digit_value c := by
  simp [read_base, List.foldl_append]

/-- The summing loop of `ascii_a2uint` computes the decimal value of the run
when that value fits an `unsigned int`. -/
theorem ascii_a2uint_sum_exact :
    ∀ (r : List Char) (j number : Nat), (∀ c ∈ r, ascii_isdigit c = true) →
      number + 10 ^ j * read_base 10 r.reverse ≤ UINT_MAX →
      ascii_a2uint_sum r (10 ^ j % UINT_MOD) number
        = number + 10 ^ j * read_base 10 r.reverse := by
  intro r
  induction r with
  | nil => intro j number _ _; simp [ascii_a2uint_sum, read_base]
  | cons c cs ih =>
    intro j number hdig hle
    have hc := hdig c (List.mem_cons_self _ _)
    obtain ⟨hb1, hb2⟩ := ascii_isdigit_bounds c hc
    have hdv := digit_value_of_isdigit c hc
    rw [List.reverse_cons, read_base_snoc, hdv] at hle ⊢
    have hexp : 10 ^ j * (read_base 10 cs.reverse * 10 + (c.toNat - 48))
        = 10 ^ (j + 1) * read_base 10 cs.reverse + 10 ^ j * (c.toNat - 48) := by
      rw [pow_succ]; ring
    rw [hexp] at hle ⊢
    have hsmall : 10 ^ j * (c.toNat - 48) ≤ UINT_MAX := by omega
    have hd : (c.toNat - 48) % UINT_MOD = c.toNat - 48 :=
      Nat.mod_eq_of_lt (by unfold UINT_MOD; omega)
    have htemp : (10 ^ j % UINT_MOD * ((c.toNat - 48) % UINT_MOD)) % UINT_MOD
        = 10 ^ j * (c.toNat - 48) := by
      rw [← Nat.mul_mod]
      exact Nat.mod_eq_of_lt (by unfold UINT_MOD UINT_MAX at *; omega)
    have hpow : (10 ^ j % UINT_MOD * 10) % UINT_MOD = 10 ^ (j + 1) % UINT_MOD := by
      rw [pow_succ, Nat.mul_mod, Nat.mod_mod, ← Nat.mul_mod]
    unfold ascii_a2uint_sum
    simp only [htemp, hpow]
    rw [if_neg (by omega)]
    rw [ih (j + 1) (number + 10 ^ j * (c.toNat - 48))
      (fun x hx => hdig x (List.mem_cons_of_mem _ hx)) (by omega)]
    omega

theorem takeWhile_append_stop {p : Char → Bool} (ds rest : List Char)
    (hds : ∀ c ∈ ds, p c = true) (hrest : ∀ c, rest.head? = some c → p c = false) :
    (ds ++ rest).takeWhile p = ds := by
  induction ds with
  | nil =>
    cases rest with
    | nil => rfl
    | cons c t =>
      have hc := hrest c rfl
      rw [List.nil_append, List.takeWhile_cons_of_neg (by simp [hc])]
  | cons d ds ih =>
    have hd := hds d (List.mem_cons_self _ _)
    rw [List.cons_append, List.takeWhile_cons_of_pos hd,
      ih (fun c hc => hds c (List.mem_cons_of_mem _ hc))]

/-- The `ascii_a2uint` function on a run of 1 to 10 digits whose value fits an
`unsigned int`, followed by a non-digit or by the end: it returns the length
of the run and stores its decimal value. -/
theorem ascii_a2uint_run (ds rest : List Char) (hne : ds ≠ [])
    (hds : ∀ c ∈ ds, ascii_isdigit c = true) (hlen : ds.length ≤ 10)
    (hval : read_base 10 ds ≤ UINT_MAX)
    (hrest : ∀ c, rest.head? = some c → ascii_isdigit c = false) :
    ascii_a2uint (ds ++ rest) = some (read_base 10 ds, ds.length) := by
  have htw := takeWhile_append_stop ds rest hds hrest
  have hpos : 0 < ds.length := List.length_pos.mpr hne
  have h10 : ilog10p1 UINT_MAX = 10 := by decide
  unfold ascii_a2uint
  simp only [htw, h10]
  rw [if_neg (by omega)]
  rw [List.take_left]
  have hsum := ascii_a2uint_sum_exact ds.reverse 0 0
    (fun c hc => hds c (List.mem_reverse.mp hc))
    (by rw [List.reverse_reverse]; simpa using hval)
  rw [List.reverse_reverse] at hsum
  have h1 : (10 : Nat) ^ 0 % UINT_MOD = 1 := by decide
  rw [h1] at hsum
  rw [hsum]
  simp

/-! ## The flags phase -/

theorem flag_bits_table :
    ∀ acc < 64, ∀ c ∈ flag_chars, ∀ ch ∈ flag_chars,
      format_flag_of c = some (flag_bit c) ∧ (acc ||| flag_bit c) < 64 ∧
      ((acc ||| flag_bit c) &&& flag_bit ch ≠ 0 ↔ (acc &&& flag_bit ch ≠ 0 ∨ c = ch)) := by
  decide

theorem format_flag_of_none_of_not_mem (c : Char) (h : c ∉ flag_chars) :
    format_flag_of c = none := by
  simp only [flag_chars, List.mem_cons, List.mem_singleton, List.not_mem_nil, or_false,
    not_or] at h
  obtain ⟨h1, h2, h3, h4, h5, h6⟩ := h
  simp [format_flag_of, h1, h2, h3, h4, h5, h6]

theorem format_flag_of_some_mem (c : Char) (b : Nat) (h : format_flag_of c = some b) :
    c ∈ flag_chars := by
  by_contra hc
  rw [format_flag_of_none_of_not_mem c hc] at h
  exact absurd h (by simp)

theorem foldl_flag_bit_lt (F : List Char) (hF : ∀ f ∈ F, f ∈ flag_chars) :
    ∀ acc < 64, F.foldl (fun a c => a ||| flag_bit c) acc < 64 := by
  induction F with
  | nil => intro acc h; exact h
  | cons c F ih =>
    intro acc h
    have hc := hF c (List.mem_cons_self _ _)
    exact ih (fun f hf => hF f (List.mem_cons_of_mem _ hf)) _
      (flag_bits_table acc h c hc c hc).2.1

theorem foldl_flag_bit_test (F : List Char) (hF : ∀ f ∈ F, f ∈ flag_chars) (ch : Char)
    (hch : ch ∈ flag_chars) :
    ∀ acc < 64, (F.foldl (fun a c => a ||| flag_bit c) acc &&& flag_bit ch ≠ 0 ↔
      (acc &&& flag_bit ch ≠ 0 ∨ ch ∈ F)) := by
  induction F with
  | nil => intro acc _; simp
  | cons c F ih =>
    intro acc h
    have hc := hF c (List.mem_cons_self _ _)
    obtain ⟨_, hlt, htest⟩ := flag_bits_table acc h c hc ch hch
    rw [List.foldl_cons, ih (fun f hf => hF f (List.mem_cons_of_mem _ hf)) _ hlt, htest,
      List.mem_cons]
    constructor
    · rintro ((h1 | h1) | h1)
      · exact Or.inl h1
      · exact Or.inr (Or.inl h1.symm)
      · exact Or.inr (Or.inr h1)
    · rintro (h1 | h1 | h1)
      · exact Or.inl (Or.inl h1)
      · exact Or.inl (Or.inr h1.symm)
      · exact Or.inr h1

/-- The flags loop on pairwise distinct flag characters none of which is set
yet, followed by a character that is not a flag: it consumes exactly them. -/
theorem format_scan_flags_loop_run (rest : List Char) (r : Char) (t : List Char)
    (hrest : rest = r :: t) (hr : format_flag_of r = none) :
    ∀ (F : List Char) (idx acc : Nat), acc < 64 → (∀ f ∈ F, f ∈ flag_chars) → F.Nodup →
      (∀ f ∈ F, acc &&& flag_bit f = 0) →
      format_scan_flags_loop (F ++ rest) idx acc
        = some (F.foldl (fun a c => a ||| flag_bit c) acc, idx + F.length) := by
  intro F
  induction F with
  | nil =>
    intro idx acc _ _ _ _
    rw [List.nil_append, hrest]
    simp [format_scan_flags_loop, hr]
  | cons c F ih =>
    intro idx acc hacc hF hnd hclear
    have hc := hF c (List.mem_cons_self _ _)
    obtain ⟨hsome, hlt, _⟩ := flag_bits_table acc hacc c hc c hc
    have hc0 := hclear c (List.mem_cons_self _ _)
    rw [List.cons_append]
    unfold format_scan_flags_loop
    simp only [hsome]
    rw [if_neg (by simpa using hc0)]
    rw [List.nodup_cons] at hnd
    rw [ih (idx + 1) (acc ||| flag_bit c) hlt (fun f hf => hF f (List.mem_cons_of_mem _ hf))
      hnd.2 ?_]
    · simp only [List.foldl_cons, List.length_cons]
      congr 2
      omega
    · intro f hf
      have hfm := hF f (List.mem_cons_of_mem _ hf)
      have h0 := hclear f (List.mem_cons_of_mem _ hf)
      by_contra hne
      rcases ((flag_bits_table acc hacc c hc f hfm).2.2).1 hne with h1 | h1
      · exact h1 h0
      · exact hnd.1 (h1 ▸ hf)

/-- The flags loop fails on a run of flag characters in which one is repeated
or already set, whatever follows. -/
theorem format_scan_flags_loop_repeat (rest : List Char) :
    ∀ (F : List Char) (idx acc : Nat), acc < 64 → (∀ f ∈ F, f ∈ flag_chars) →
      (¬ F.Nodup ∨ ∃ f ∈ F, acc &&& flag_bit f ≠ 0) →
      format_scan_flags_loop (F ++ rest) idx acc = none := by
  intro F
  induction F with
  | nil =>
    intro idx acc _ _ h
    rcases h with h | ⟨f, hf, _⟩
    · exact absurd List.nodup_nil h
    · simp at hf
  | cons c F ih =>
    intro idx acc hacc hF h
    have hc := hF c (List.mem_cons_self _ _)
    obtain ⟨hsome, hlt, _⟩ := flag_bits_table acc hacc c hc c hc
    rw [List.cons_append]
    unfold format_scan_flags_loop
    simp only [hsome]
    by_cases hc0 : acc &&& flag_bit c ≠ 0
    · rw [if_pos hc0]
    · rw [if_neg hc0]
      apply ih (idx + 1) (acc ||| flag_bit c) hlt (fun f hf => hF f (List.mem_cons_of_mem _ hf))
      rcases h with h | ⟨f, hf, hfset⟩
      · rw [List.nodup_cons, not_and_or, not_not] at h
        rcases h with h | h
        · exact Or.inr ⟨c, h, ((flag_bits_table acc hacc c hc c hc).2.2).2 (Or.inr rfl)⟩
        · exact Or.inl h
      · rcases List.mem_cons.mp hf with h1 | h1
        · rw [h1] at hfset; exact absurd hfset hc0
        · exact Or.inr ⟨f, h1,
            ((flag_bits_table acc hacc c hc f (hF f hf)).2.2).2 (Or.inl hfset)⟩

/-! ## The scanner on a well-formed specifier -/

theorem read_base_cons (c : Char) (ds : List Char) :
    read_base 10 (c :: ds) = digit_value c * 10 ^ ds.length + read_base 10 ds := by
  have h := read_base_append 10 [c] ds
  have h1 : read_base 10 [c] = digit_value c := by simp [read_base]
  rw [h1] at h
  exact h

theorem char_eq_of_toNat (c : Char) (n : Nat) (h : c.toNat = n) : c = Char.ofNat n := by
  rw [← h, Char.ofNat_toNat]

theorem nonzero_digit_toNat (c : Char) (hc : ascii_isdigit c = true) (h0 : c ≠ '0') :
    49 ≤ c.toNat ∧ c.toNat ≤ 57 := by
  obtain ⟨hb1, hb2⟩ := ascii_isdigit_bounds c hc
  have hne : c.toNat ≠ 48 := fun h => h0 (char_eq_of_toNat c 48 h)
  omega

theorem digit_not_flag (c : Char) (hc : ascii_isdigit c = true) (h0 : c ≠ '0') :
    format_flag_of c = none := by
  obtain ⟨hb1, hb2⟩ := nonzero_digit_toNat c hc h0
  apply format_flag_of_none_of_not_mem
  intro hmem
  simp only [flag_chars, List.mem_cons, List.mem_singleton, List.not_mem_nil, or_false] at hmem
  rcases hmem with h | h | h | h | h | h <;> subst h <;> revert hb1 hb2 <;> decide

/-- A digit run that does not start with `0` and whose value is at most
`INT_MAX` has at most 10 digits. -/
theorem digit_run_length_le (W : List Char) (hW : ∀ c ∈ W, ascii_isdigit c = true)
    (h0 : W.head? ≠ some '0') (hval : read_base 10 W ≤ INT_MAX) : W.length ≤ 10 := by
  cases W with
  | nil => simp
  | cons c ds =>
    have hc := hW c (List.mem_cons_self _ _)
    have hne : c ≠ '0' := fun h => h0 (by rw [h]; rfl)
    obtain ⟨hb1, hb2⟩ := nonzero_digit_toNat c hc hne
    rw [read_base_cons, digit_value_of_isdigit c hc] at hval
    by_contra hlen
    have hlen2 : 10 ≤ ds.length := by simp only [List.length_cons] at hlen; omega
    have hpow : 10 ^ 10 ≤ 10 ^ ds.length := Nat.pow_le_pow_right (by decide) hlen2
    have hmul : 10 ^ ds.length ≤ (c.toNat - 48) * 10 ^ ds.length :=
      Nat.le_mul_of_pos_left _ (by omega)
    have h10 : (10 : Nat) ^ 10 = 10000000000 := by norm_num
    unfold INT_MAX at hval
    omega

theorem set_formatfield_a2int_run (pre D rest : List Char) (hne : D ≠ [])
    (hD : ∀ c ∈ D, ascii_isdigit c = true) (hlen : D.length ≤ 10)
    (hval : read_base 10 D ≤ INT_MAX)
    (hrest : ∀ c, rest.head? = some c → ascii_isdigit c = false) :
    set_formatfield_a2int (pre ++ (D ++ rest)) pre.length
      = some (read_base 10 D, pre.length + D.length) := by
  unfold set_formatfield_a2int
  rw [List.drop_left, ascii_a2uint_run D rest hne hD hlen
    (by unfold INT_MAX at hval; unfold UINT_MAX; omega) hrest]
  simp only
  rw [if_neg (by omega)]

/-- The field-width phase on an optional digit run followed by a non-digit. -/
theorem format_scan_fieldwidth_run (W rest : List Char) (r : Char) (t : List Char)
    (hrest : rest = r :: t) (hr : ascii_isdigit r = false)
    (hW : ∀ c ∈ W, ascii_isdigit c = true) (hlen : W.length ≤ 10)
    (hval : read_base 10 W ≤ INT_MAX) :
    format_scan_fieldwidth (W ++ rest) = some (read_base 10 W, W.length) := by
  cases W with
  | nil =>
    rw [List.nil_append, hrest]
    simp [format_scan_fieldwidth, hr, read_base, FORMATFIELDWIDTH_UNSET]
  | cons c ds =>
    have hc := hW c (List.mem_cons_self _ _)
    have h := set_formatfield_a2int_run [] (c :: ds) rest (by simp) hW hlen hval
      (by intro x hx; rw [hrest] at hx; simp at hx; rw [← hx]; exact hr)
    simp only [List.nil_append, List.length_nil, Nat.zero_add] at h
    rw [List.cons_append] at h ⊢
    unfold format_scan_fieldwidth
    simp only [hc, if_true]
    exact h

/-- The precision phase on an optional `.digits` followed by a character that
is neither `.` nor a digit. -/
theorem format_scan_precision_run (P : Option (List Char)) (rest : List Char) (r : Char)
    (t : List Char) (hrest : rest = r :: t) (hr : ascii_isdigit r = false) (hdot : r ≠ '.')
    (hP : ∀ D, P = some D → digit_run D ∧ D.length ≤ 10 ∧ read_base 10 D ≤ INT_MAX) :
    format_scan_precision (precision_text P ++ rest)
      = some (precision_value P, (precision_text P).length) := by
  cases P with
  | none =>
    rw [hrest]
    simp [precision_text, precision_value, format_scan_precision, hdot]
  | some D =>
    obtain ⟨⟨hne, hD⟩, hlen, hval⟩ := hP D rfl
    have h := set_formatfield_a2int_run ['.'] D rest hne hD hlen hval
      (by intro x hx; rw [hrest] at hx; simp at hx; rw [← hx]; exact hr)
    cases D with
    | nil => exact absurd rfl hne
    | cons c ds =>
      have hc := hD c (List.mem_cons_self _ _)
      simp only [precision_text, precision_value, List.cons_append, List.length_cons]
      simp only [List.singleton_append, List.length_singleton, List.cons_append,
        List.length_cons, List.nil_append, List.length_nil, Nat.zero_add] at h
      unfold format_scan_precision
      simp only [if_true, hc]
      rw [h]
      congr 2
      omega

theorem conv_letters_facts : ∀ p ∈ conv_letters,
    format_flag_of p.1 = none ∧ ascii_isdigit p.1 = false ∧ p.1 ≠ '.' ∧
      format_scan_convspec_int [p.1] = some (p.2, 1) := by
  decide

/-- The scanner on flags, optional width, optional precision and conversion
letter: it succeeds with the record these parts denote. -/
theorem format_scan_int_parts (F W : List Char) (P : Option (List Char)) (c : Char)
    (k : FormatConvSpec_Int) (hF : ∀ f ∈ F, f ∈ flag_chars) (hnd : F.Nodup)
    (hW : ∀ x ∈ W, ascii_isdigit x = true) (h0 : W.head? ≠ some '0')
    (hWv : read_base 10 W ≤ INT_MAX)
    (hP : ∀ D, P = some D → digit_run D ∧ D.length ≤ 10 ∧ read_base 10 D ≤ INT_MAX)
    (hc : (c, k) ∈ conv_letters) :
    format_scan_int (F ++ W ++ precision_text P ++ [c])
      = some (itemformat_int_get (flags_of F) (read_base 10 W) (precision_value P) k) := by
  obtain ⟨hcf, hcd, hcdot, hcconv⟩ := conv_letters_facts (c, k) hc
  simp only at hcf hcd hcdot hcconv
  have hWlen := digit_run_length_le W hW h0 hWv
  -- the text after the precision
  -- the text after the width starts with a non-digit
  obtain ⟨r2, t2, hr2, hr2d, hr2f⟩ : ∃ r t, precision_text P ++ [c] = r :: t ∧
      ascii_isdigit r = false ∧ format_flag_of r = none := by
    cases P with
    | none => exact ⟨c, [], rfl, hcd, hcf⟩
    | some D => exact ⟨'.', D ++ [c], rfl, by decide, by decide⟩
  -- the text after the flags starts with a character that is no flag
  obtain ⟨r1, t1, hr1, hr1f⟩ : ∃ r t, W ++ (precision_text P ++ [c]) = r :: t ∧
      format_flag_of r = none := by
    cases W with
    | nil => exact ⟨r2, t2, hr2, hr2f⟩
    | cons w ws =>
      exact ⟨w, ws ++ (precision_text P ++ [c]), rfl,
        digit_not_flag w (hW w (List.mem_cons_self _ _)) (fun h => h0 (by rw [h]; rfl))⟩
  have h1 : format_scan_flags (F ++ (W ++ (precision_text P ++ [c])))
      = some (flags_of F, F.length) := by
    have h := format_scan_flags_loop_run _ r1 t1 hr1 hr1f F 0 0 (by decide) hF hnd
      (fun f _ => Nat.zero_and _)
    simpa [format_scan_flags, flags_of, FORMATFLAG_NONE] using h
  have h2 := format_scan_fieldwidth_run W _ r2 t2 hr2 hr2d hW hWlen hWv
  have h3 := format_scan_precision_run P [c] c [] rfl hcd hcdot hP
  have hd1 : (F ++ (W ++ (precision_text P ++ [c]))).drop F.length
      = W ++ (precision_text P ++ [c]) := List.drop_left _ _
  have hd2 : (F ++ (W ++ (precision_text P ++ [c]))).drop (F.length + W.length)
      = precision_text P ++ [c] := by
    rw [← List.drop_drop, hd1, List.drop_left]
  have hd3 : (F ++ (W ++ (precision_text P ++ [c]))).drop
      (F.length + W.length + (precision_text P).length) = [c] := by
    rw [← List.drop_drop, hd2, List.drop_left]
  simp only [List.append_assoc]
  unfold format_scan_int
  simp only [h1, hd1, h2, hd2, h3, hd3, hcconv]
  rw [if_neg (by simp only [List.length_append, List.length_singleton]; omega)]

theorem flags_of_lt (F : List Char) (hF : ∀ f ∈ F, f ∈ flag_chars) : flags_of F < 64 :=
  foldl_flag_bit_lt F hF 0 (by decide)

theorem flags_of_test (F : List Char) (hF : ∀ f ∈ F, f ∈ flag_chars) (ch : Char)
    (hch : ch ∈ flag_chars) : flags_of F &&& flag_bit ch ≠ 0 ↔ ch ∈ F := by
  have h := foldl_flag_bit_test F hF ch hch 0 (by decide)
  simpa [flags_of] using h

/-! ## Where each phase of the scanner stops -/

theorem drop_length_takeWhile (p : Char → Bool) (l : List Char) :
    l.drop (l.takeWhile p).length = l.dropWhile p := by
  induction l with
  | nil => rfl
  | cons a l ih =>
    by_cases h : p a = true
    · rw [List.takeWhile_cons_of_pos h, List.dropWhile_cons_of_pos h]
      simpa using ih
    · rw [List.takeWhile_cons_of_neg h, List.dropWhile_cons_of_neg h]
      rfl

theorem takeWhile_append_of_dropWhile_ne (p : Char → Bool) (l e : List Char)
    (h : l.dropWhile p ≠ []) : (l ++ e).takeWhile p = l.takeWhile p := by
  induction l with
  | nil => exact absurd rfl h
  | cons a l ih =>
    by_cases ha : p a = true
    · rw [List.dropWhile_cons_of_pos ha] at h
      rw [List.cons_append, List.takeWhile_cons_of_pos ha, List.takeWhile_cons_of_pos ha, ih h]
    · rw [List.cons_append, List.takeWhile_cons_of_neg ha, List.takeWhile_cons_of_neg ha]

theorem takeWhile_length_append_ge (p : Char → Bool) (D rest : List Char)
    (hD : ∀ c ∈ D, p c = true) : D.length ≤ ((D ++ rest).takeWhile p).length := by
  induction D with
  | nil => exact Nat.zero_le _
  | cons d ds ih =>
    rw [List.cons_append, List.takeWhile_cons_of_pos (hD d (List.mem_cons_self _ _))]
    simp only [List.length_cons]
    exact Nat.succ_le_succ (ih (fun c hc => hD c (List.mem_cons_of_mem _ hc)))

/-- The flags loop stops at the first character that is not a flag, and there
is such a character. -/
theorem format_scan_flags_loop_pos : ∀ (s : List Char) (idx acc fl k : Nat),
    format_scan_flags_loop s idx acc = some (fl, k) →
    k = idx + (s.takeWhile is_flag_char).length ∧ s.dropWhile is_flag_char ≠ [] := by
  intro s
  induction s with
  | nil => intro idx acc fl k h; simp [format_scan_flags_loop] at h
  | cons c t ih =>
    intro idx acc fl k h
    unfold format_scan_flags_loop at h
    cases hf : format_flag_of c with
    | none =>
      have hc : ¬ is_flag_char c = true := by simp [is_flag_char, hf]
      simp only [hf, Option.some.injEq, Prod.mk.injEq] at h
      rw [List.takeWhile_cons_of_neg hc, List.dropWhile_cons_of_neg hc]
      exact ⟨by simp [h.2], by simp⟩
    | some flag =>
      have hc : is_flag_char c = true := by simp [is_flag_char, hf]
      simp only [hf] at h
      split_ifs at h
      obtain ⟨h1, h2⟩ := ih _ _ _ _ h
      rw [List.takeWhile_cons_of_pos hc, List.dropWhile_cons_of_pos hc]
      exact ⟨by simp only [List.length_cons]; omega, h2⟩

theorem format_scan_flags_pos (s : List Char) (fl n1 : Nat)
    (h : format_scan_flags s = some (fl, n1)) :
    n1 = (s.takeWhile is_flag_char).length ∧ s.drop n1 = s.dropWhile is_flag_char ∧
      s.dropWhile is_flag_char ≠ [] := by
  obtain ⟨h1, h2⟩ := format_scan_flags_loop_pos s 0 _ fl n1 h
  rw [Nat.zero_add] at h1
  exact ⟨h1, by rw [h1, drop_length_takeWhile], h2⟩

theorem ascii_a2uint_some (s : List Char) (v nd : Nat) (h : ascii_a2uint s = some (v, nd)) :
    nd = (s.takeWhile ascii_isdigit).length ∧ 1 ≤ nd ∧ nd ≤ 10 := by
  have h10 : ilog10p1 UINT_MAX = 10 := by decide
  unfold ascii_a2uint at h
  simp only [h10] at h
  split_ifs at h with hc
  simp only [Option.some.injEq, Prod.mk.injEq] at h
  omega

theorem ascii_a2uint_long (s : List Char) (h : 10 < (s.takeWhile ascii_isdigit).length) :
    ascii_a2uint s = none := by
  have h10 : ilog10p1 UINT_MAX = 10 := by decide
  unfold ascii_a2uint
  simp only [h10]
  rw [if_pos (Or.inr h)]

theorem set_formatfield_a2int_some (s : List Char) (i v n : Nat)
    (h : set_formatfield_a2int s i = some (v, n)) :
    n = i + ((s.drop i).takeWhile ascii_isdigit).length ∧
      1 ≤ ((s.drop i).takeWhile ascii_isdigit).length ∧
      ((s.drop i).takeWhile ascii_isdigit).length ≤ 10 ∧ v ≤ INT_MAX := by
  unfold set_formatfield_a2int at h
  cases ha : ascii_a2uint (s.drop i) with
  | none => simp [ha] at h
  | some r =>
    obtain ⟨field, nd⟩ := r
    obtain ⟨e1, e2, e3⟩ := ascii_a2uint_some _ _ _ ha
    simp only [ha] at h
    split_ifs at h with hc
    simp only [Option.some.injEq, Prod.mk.injEq] at h
    refine ⟨by omega, by omega, by omega, by omega⟩

/-- The field-width phase consumes the maximal digit run at its cursor. -/
theorem format_scan_fieldwidth_pos (s : List Char) (w n : Nat)
    (h : format_scan_fieldwidth s = some (w, n)) :
    n = (s.takeWhile ascii_isdigit).length ∧ n ≤ 10 ∧ w ≤ INT_MAX ∧ s ≠ [] := by
  cases s with
  | nil => simp [format_scan_fieldwidth] at h
  | cons c t =>
    unfold format_scan_fieldwidth at h
    by_cases hc : ascii_isdigit c = true
    · simp only [hc, if_true] at h
      obtain ⟨e1, _, e3, e4⟩ := set_formatfield_a2int_some _ _ _ _ h
      simp only [List.drop_zero, Nat.zero_add] at e1 e3
      exact ⟨e1, by omega, e4, by simp⟩
    · have hc2 : ascii_isdigit c = false := by simpa using hc
      simp only [hc2, Bool.false_eq_true, if_false, Option.some.injEq, Prod.mk.injEq] at h
      rw [List.takeWhile_cons_of_neg hc]
      exact ⟨by simp [h.2], by omega, by rw [← h.1]; decide, by simp⟩

/-- The precision phase consumes nothing when its cursor is not at a `.`, and
the `.` with the maximal digit run after it otherwise. -/
theorem format_scan_precision_pos (s : List Char) (p n : Nat)
    (h : format_scan_precision s = some (p, n)) :
    (∃ c t, s = c :: t ∧ c ≠ '.' ∧ n = 0 ∧ p = FORMATPRECISION_UNSET) ∨
    (∃ t, s = '.' :: t ∧ n = 1 + (t.takeWhile ascii_isdigit).length ∧
      1 ≤ (t.takeWhile ascii_isdigit).length ∧ (t.takeWhile ascii_isdigit).length ≤ 10 ∧
      p ≤ INT_MAX) := by
  cases s with
  | nil => simp [format_scan_precision] at h
  | cons c t =>
    unfold format_scan_precision at h
    by_cases hc : c = '.'
    · subst hc
      simp only [if_true] at h
      cases t with
      | nil => simp at h
      | cons c1 t1 =>
        simp only at h
        split_ifs at h with hd
        obtain ⟨e1, e2, e3, e4⟩ := set_formatfield_a2int_some _ _ _ _ h
        simp only [List.drop_succ_cons, List.drop_zero] at e1 e2 e3
        exact Or.inr ⟨_, rfl, e1, e2, e3, e4⟩
    · simp only [hc, if_false, Option.some.injEq, Prod.mk.injEq] at h
      exact Or.inl ⟨c, t, rfl, hc, h.2.symm, h.1.symm⟩

theorem format_scan_convspec_int_some (s : List Char) (k : FormatConvSpec_Int) (n : Nat)
    (h : format_scan_convspec_int s = some (k, n)) :
    ∃ c t, s = c :: t ∧ (c, k) ∈ conv_letters ∧ n = 1 := by
  cases s with
  | nil => simp [format_scan_convspec_int] at h
  | cons c t =>
    unfold format_scan_convspec_int at h
    simp only at h
    refine ⟨c, t, rfl, ?_⟩
    split_ifs at h with h1 h2 h3 h4 h5 h6 <;>
      simp only [Option.some.injEq, Prod.mk.injEq] at h <;>
      obtain ⟨hk, hn⟩ := h <;> subst hk <;> subst hn <;> simp_all [conv_letters]

/-- An accepted format, phase by phase: the four phases succeed in turn and
the conversion phase finds exactly one character, a conversion letter. -/
theorem format_scan_int_some (s : List Char) (itemfmt : ItemFormat_Int)
    (h : format_scan_int s = some itemfmt) :
    ∃ fl n1 w n2 p n3 c,
      format_scan_flags s = some (fl, n1) ∧
      format_scan_fieldwidth (s.drop n1) = some (w, n2) ∧
      format_scan_precision (s.drop (n1 + n2)) = some (p, n3) ∧
      s.drop (n1 + n2 + n3) = [c] ∧ (c, itemfmt.convspec) ∈ conv_letters ∧
      itemfmt = itemformat_int_get fl w p itemfmt.convspec ∧
      n1 + n2 + n3 + 1 = s.length := by
  unfold format_scan_int at h
  simp only at h
  cases h1 : format_scan_flags s with
  | none => simp [h1] at h
  | some r1 =>
    obtain ⟨fl, n1⟩ := r1
    simp only [h1] at h
    cases h2 : format_scan_fieldwidth (s.drop n1) with
    | none => simp [h2] at h
    | some r2 =>
      obtain ⟨w, n2⟩ := r2
      simp only [h2] at h
      cases h3 : format_scan_precision (s.drop (n1 + n2)) with
      | none => simp [h3] at h
      | some r3 =>
        obtain ⟨p, n3⟩ := r3
        simp only [h3] at h
        cases h4 : format_scan_convspec_int (s.drop (n1 + n2 + n3)) with
        | none => simp [h4] at h
        | some r4 =>
          obtain ⟨k, n4⟩ := r4
          simp only [h4] at h
          split_ifs at h with hlen
          simp only [Option.some.injEq] at h
          obtain ⟨c, t, hs, hck, hn4⟩ := format_scan_convspec_int_some _ _ _ h4
          subst hn4
          have hl : (s.drop (n1 + n2 + n3)).length = t.length + 1 := by rw [hs]; rfl
          rw [List.length_drop] at hl
          have ht : t = [] := List.length_eq_zero.mp (by omega)
          subst ht
          have hk : itemfmt.convspec = k := by rw [← h]; rfl
          refine ⟨fl, n1, w, n2, p, n3, c, rfl, h2, h3, hs, by rw [hk]; exact hck,
            by rw [hk]; exact h.symm, by omega⟩

theorem is_flag_char_of_mem (f : Char) (hf : f ∈ flag_chars) : is_flag_char f = true := by
  have h := (flag_bits_table 0 (by decide) f hf f hf).1
  simp [is_flag_char, h]

/-- Dropping the leading flag characters of flag characters, digits and a
text that does not start with a flag character leaves digits and that text. -/
theorem dropWhile_flags_digits (F W x : List Char) (hF : ∀ f ∈ F, f ∈ flag_chars)
    (hW : ∀ c ∈ W, ascii_isdigit c = true)
    (hx : ∀ c, x.head? = some c → is_flag_char c = false) :
    ∃ W1, (∀ c ∈ W1, ascii_isdigit c = true) ∧
      (F ++ W ++ x).dropWhile is_flag_char = W1 ++ x := by
  induction F with
  | nil =>
    rw [List.nil_append]
    induction W with
    | nil =>
      refine ⟨[], by simp, ?_⟩
      cases x with
      | nil => rfl
      | cons c t =>
        have hc := hx c rfl
        rw [List.nil_append, List.dropWhile_cons_of_neg (by simp [hc])]
    | cons w ws ih =>
      by_cases hw : is_flag_char w = true
      · obtain ⟨W1, h1, h2⟩ := ih (fun c hc => hW c (List.mem_cons_of_mem _ hc))
        exact ⟨W1, h1, by rw [List.cons_append, List.dropWhile_cons_of_pos hw, h2]⟩
      · exact ⟨w :: ws, hW, by rw [List.cons_append, List.dropWhile_cons_of_neg hw]⟩
  | cons f F ih =>
    obtain ⟨W1, h1, h2⟩ := ih (fun c hc => hF c (List.mem_cons_of_mem _ hc))
    have hf := is_flag_char_of_mem f (hF f (List.mem_cons_self _ _))
    exact ⟨W1, h1, by
      rw [List.cons_append, List.cons_append, List.dropWhile_cons_of_pos hf, h2]⟩

/-- A format made of flag characters, digits and a `.` at which the precision
phase fails is rejected. -/
theorem format_scan_int_at_dot (F W tail : List Char) (hF : ∀ f ∈ F, f ∈ flag_chars)
    (hW : ∀ c ∈ W, ascii_isdigit c = true)
    (htail : format_scan_precision ('.' :: tail) = none) :
    format_scan_int (F ++ W ++ '.' :: tail) = none := by
  by_contra hne
  obtain ⟨itemfmt, hs⟩ := Option.ne_none_iff_exists'.mp hne
  obtain ⟨fl, n1, w, n2, p, n3, c, h1, h2, h3, _⟩ := format_scan_int_some _ _ hs
  obtain ⟨_, hd1, _⟩ := format_scan_flags_pos _ _ _ h1
  obtain ⟨W1, hW1, hdw⟩ := dropWhile_flags_digits F W ('.' :: tail) hF hW
    (by intro x hx; simp at hx; rw [← hx]; decide)
  have hrun : ((W1 ++ '.' :: tail).takeWhile ascii_isdigit) = W1 :=
    takeWhile_append_stop W1 ('.' :: tail) hW1
      (by intro x hx; simp at hx; rw [← hx]; decide)
  rw [← List.drop_drop, hd1, hdw] at h3
  rw [hd1, hdw] at h2
  obtain ⟨hn2, _⟩ := format_scan_fieldwidth_pos _ _ _ h2
  rw [hrun] at hn2
  rw [hn2, List.drop_left, htail] at h3
  exact absurd h3 (by simp)

theorem format_scan_precision_bare (tail : List Char)
    (h : ∀ c, tail.head? = some c → ascii_isdigit c = false) :
    format_scan_precision ('.' :: tail) = none := by
  cases tail with
  | nil => simp [format_scan_precision]
  | cons c t =>
    have hc := h c rfl
    simp [format_scan_precision, hc]

theorem format_scan_precision_long (D rest : List Char)
    (hD : ∀ c ∈ D, ascii_isdigit c = true) (hlen : 10 < D.length) :
    format_scan_precision ('.' :: (D ++ rest)) = none := by
  by_contra hne
  obtain ⟨r, hs⟩ := Option.ne_none_iff_exists'.mp hne
  obtain ⟨p, n⟩ := r
  have hge := takeWhile_length_append_ge ascii_isdigit D rest hD
  rcases format_scan_precision_pos _ _ _ hs with ⟨c, t, e, hc, _⟩ | ⟨t, e, _, _, hle, _⟩
  · simp only [List.cons.injEq] at e
    exact hc e.1.symm
  · simp only [List.cons.injEq, true_and] at e
    rw [← e] at hle
    omega

theorem format_scan_int_long_width (s : List Char)
    (h : 10 < ((s.dropWhile is_flag_char).takeWhile ascii_isdigit).length) :
    format_scan_int s = none := by
  by_contra hne
  obtain ⟨itemfmt, hs⟩ := Option.ne_none_iff_exists'.mp hne
  obtain ⟨fl, n1, w, n2, p, n3, c, h1, h2, _⟩ := format_scan_int_some _ _ hs
  obtain ⟨_, hd1, _⟩ := format_scan_flags_pos _ _ _ h1
  rw [hd1] at h2
  obtain ⟨hn2, hle, _⟩ := format_scan_fieldwidth_pos _ _ _ h2
  omega

theorem dropWhile_ne_nil_of_lt (p : Char → Bool) (l : List Char)
    (h : (l.takeWhile p).length < l.length) : l.dropWhile p ≠ [] := by
  rw [← drop_length_takeWhile]
  intro h0
  have hl := congrArg List.length h0
  rw [List.length_drop] at hl
  simp only [List.length_nil] at hl
  omega

/-- An accepted format followed by anything more is rejected. -/
theorem format_scan_int_extend (s e : List Char) (itemfmt : ItemFormat_Int)
    (h : format_scan_int s = some itemfmt) (he : e ≠ []) :
    format_scan_int (s ++ e) = none := by
  by_contra hne
  obtain ⟨it2, hs2⟩ := Option.ne_none_iff_exists'.mp hne
  obtain ⟨fl, n1, w, n2, p, n3, c, h1, h2, h3, _, _, _, hlen⟩ := format_scan_int_some _ _ h
  obtain ⟨gl, m1, v, m2, q, m3, d, g1, g2, g3, _, _, _, glen⟩ := format_scan_int_some _ _ hs2
  have hepos : 0 < e.length := List.length_pos.mpr he
  rw [List.length_append] at glen
  -- the flags phase stops at the same place
  obtain ⟨hn1, _, hne1⟩ := format_scan_flags_pos _ _ _ h1
  obtain ⟨hm1, _, _⟩ := format_scan_flags_pos _ _ _ g1
  rw [takeWhile_append_of_dropWhile_ne _ _ _ hne1] at hm1
  have e1 : m1 = n1 := by omega
  subst e1
  -- the field-width phase stops at the same place
  rw [List.drop_append_of_le_length (by omega)] at g2
  obtain ⟨hn2, _⟩ := format_scan_fieldwidth_pos _ _ _ h2
  obtain ⟨hm2, _⟩ := format_scan_fieldwidth_pos _ _ _ g2
  have hl1 : (s.drop m1).length = s.length - m1 := List.length_drop _ _
  rw [takeWhile_append_of_dropWhile_ne _ _ _
    (dropWhile_ne_nil_of_lt _ _ (by omega))] at hm2
  have e2 : m2 = n2 := by omega
  subst e2
  -- the precision phase stops at the same place
  rw [List.drop_append_of_le_length (by omega)] at g3
  have hl2 : (s.drop (m1 + m2)).length = s.length - (m1 + m2) := List.length_drop _ _
  rcases format_scan_precision_pos _ _ _ h3 with ⟨c0, t, hu, hc0, hn3, _⟩ | ⟨t, hu, hn3, _⟩
  · rcases format_scan_precision_pos _ _ _ g3 with ⟨c1, t1, gu, _, hm3, _⟩ | ⟨t1, gu, _⟩
    · omega
    · rw [hu, List.cons_append] at gu
      simp only [List.cons.injEq] at gu
      exact hc0 gu.1
  · rcases format_scan_precision_pos _ _ _ g3 with ⟨c1, t1, gu, hc1, _⟩ | ⟨t1, gu, hm3, _⟩
    · rw [hu, List.cons_append] at gu
      simp only [List.cons.injEq] at gu
      exact hc1 gu.1.symm
    · rw [hu, List.cons_append] at gu
      simp only [List.cons.injEq, true_and] at gu
      rw [hu, List.length_cons] at hl2
      rw [← gu, takeWhile_append_of_dropWhile_ne _ _ _
        (dropWhile_ne_nil_of_lt _ _ (by omega))] at hm3
      omega

/-! ## The buffer on any system -/

theorem memcpy_at_length (dest src : List Char) (off : Nat)
    (h : off + src.length ≤ dest.length) : (memcpy_at dest off src).length = dest.length := by
  simp only [memcpy_at, List.length_append, List.length_take, List.length_drop]
  omega

theorem memcpy_at_take (dest src : List Char) (off : Nat) (h : off ≤ dest.length) :
    (memcpy_at dest off src).take off = dest.take off := by
  unfold memcpy_at
  rw [List.append_assoc, List.take_append_eq_append_take, List.length_take,
    Nat.min_eq_left h, Nat.sub_self, List.take_zero, List.append_nil, List.take_take,
    Nat.min_self]

theorem memcpy_at_drop (dest src : List Char) (off : Nat) (h : off ≤ dest.length) :
    (memcpy_at dest off src).drop off = src ++ dest.drop (off + src.length) := by
  unfold memcpy_at
  have hl : (dest.take off).length = off := by rw [List.length_take]; omega
  have h1 := List.drop_left (dest.take off) (src ++ dest.drop (off + src.length))
  rw [hl] at h1
  rw [List.append_assoc]
  exact h1

theorem memmove_front_length (buf : List Char) (w d : Nat) (h : w + d ≤ buf.length) :
    (memmove_front buf w d).length = buf.length := by
  simp only [memmove_front, List.length_append, List.length_take, List.length_drop]
  omega

theorem memmove_front_take (buf : List Char) (w d : Nat) (h : w + d ≤ buf.length) :
    (memmove_front buf w d).take d = (buf.drop w).take d := by
  unfold memmove_front
  have hl : ((buf.drop w).take d).length = d := by
    rw [List.length_take, List.length_drop]; omega
  have h1 := List.take_left ((buf.drop w).take d) (buf.drop d)
  rw [hl] at h1
  exact h1

/-- The `asspf_write` function on a source that fits in the free capacity: it
copies the source behind the buffered bytes and touches nothing else. -/
theorem asspf_write_fits (os : Os) (fuel : Nat) (wb : ASSPF_WriteBuf) (sys : Sys)
    (src : List Char) (hwf : writebuf_wf wb) (hfit : src.length ≤ wb.limit - wb.nmemb) :
    asspf_write os fuel wb sys src
      = some ({ wb with buf := memcpy_at wb.buf wb.nmemb src,
                        nmemb := wb.nmemb + src.length }, sys, src.length) := by
  obtain ⟨hlen, hlim, hn⟩ := hwf
  unfold asspf_write
  simp only [size_t_of_int_sub wb.limit wb.nmemb hn hlim]
  rw [if_neg (by omega)]
  simp only [ne_eq, not_true_eq_false, if_false]
  rw [if_neg (by omega)]
  have hm : (wb.nmemb + src.length % USHRT_MOD) % USHRT_MOD = wb.nmemb + src.length := by
    unfold USHRT_MOD at *; omega
  rw [hm]

/-- The `asspf_flush` function, given what the raw writer returns. -/
theorem asspf_flush_eq (os : Os) (fuel : Nat) (wb : ASSPF_WriteBuf) (sys sys1 : Sys) (w : Nat)
    (hlim : wb.limit < USHRT_MOD) (hn : wb.nmemb ≤ wb.limit)
    (hw : asspf_sys_write os fuel sys wb.fd (wb.buf.take wb.nmemb) = some (sys1, w)) :
    w ≤ wb.nmemb ∧ w ≤ wb.buf.length ∧
    asspf_flush os fuel wb sys
      = some ({ wb with buf := if wb.nmemb - w ≠ 0 then memmove_front wb.buf w (wb.nmemb - w)
                                else wb.buf,
                         nmemb := wb.nmemb - w }, sys1, wb.nmemb - w) ∧
    sys1.out = sys.out ++ on_fd wb.fd (wb.buf.take w) := by
  obtain ⟨k, hk, hwk, hout⟩ := asspf_sys_write_loop_delivers os wb.fd fuel sys _ 0 sys1 w hw
  rw [Nat.zero_add] at hwk
  subst hwk
  rw [List.length_take] at hk
  have hk1 : w ≤ wb.nmemb := by omega
  have hk2 : w ≤ wb.buf.length := by omega
  refine ⟨hk1, hk2, ?_, ?_⟩
  · unfold asspf_flush
    rw [hw]
    have hd : (wb.nmemb + UINTMAX_MOD - w) % UINTMAX_MOD = wb.nmemb - w := by
      unfold UINTMAX_MOD; unfold USHRT_MOD at hlim; omega
    have hs : (wb.nmemb - w) % USHRT_MOD = wb.nmemb - w := by
      unfold USHRT_MOD at *; omega
    simp only [hd, hs]
  · rw [hout, List.take_take, Nat.min_eq_left hk1]

theorem asspf_flush_none (os : Os) (fuel : Nat) (wb : ASSPF_WriteBuf) (sys : Sys)
    (hw : asspf_sys_write os fuel sys wb.fd (wb.buf.take wb.nmemb) = none) :
    asspf_flush os fuel wb sys = none := by
  unfold asspf_flush
  rw [hw]

/-- What `asspf_flush` returns: the remainder, compacted to the front. -/
theorem asspf_flush_some (os : Os) (fuel : Nat) (wb wbf : ASSPF_WriteBuf) (sys sysf : Sys)
    (r : Nat) (hwf : writebuf_wf wb) (hf : asspf_flush os fuel wb sys = some (wbf, sysf, r)) :
    ∃ w, w + r = wb.nmemb ∧ wbf.nmemb = r ∧ wbf.limit = wb.limit ∧ wbf.fd = wb.fd ∧
      wbf.buf.length = wb.buf.length ∧ (r = 0 → wbf.buf = wb.buf) ∧
      wbf.buf.take r = (wb.buf.drop w).take r ∧
      asspf_sys_write os fuel sys wb.fd (wb.buf.take wb.nmemb) = some (sysf, w) ∧
      sysf.out = sys.out ++ on_fd wb.fd (wb.buf.take w) := by
  obtain ⟨hlen, hlim, hn⟩ := hwf
  cases hw : asspf_sys_write os fuel sys wb.fd (wb.buf.take wb.nmemb) with
  | none => rw [asspf_flush_none os fuel wb sys hw] at hf; exact absurd hf (by simp)
  | some res =>
    obtain ⟨sys1, w⟩ := res
    obtain ⟨h1, h2, heq, hout⟩ := asspf_flush_eq os fuel wb sys sys1 w hlim hn hw
    rw [heq] at hf
    simp only [Option.some.injEq, Prod.mk.injEq] at hf
    obtain ⟨hwb, hsys, hr⟩ := hf
    subst hwb hsys hr
    refine ⟨w, by omega, rfl, rfl, rfl, ?_, ?_, ?_, rfl, hout⟩
    · simp only
      split_ifs
      · exact memmove_front_length _ _ _ (by omega)
      · rfl
    · intro h0
      simp only [h0, ne_eq, not_true_eq_false, if_false]
    · simp only
      split_ifs with h0
      · exact memmove_front_take _ _ _ (by omega)
      · have h00 : wb.nmemb - w = 0 := by omega
        rw [h00]; simp

theorem asspf_write_flush_fails (os : Os) (fuel : Nat) (wb wbf : ASSPF_WriteBuf)
    (sys sysf : Sys) (src : List Char) (r : Nat) (hwf : writebuf_wf wb) (hne : wb.nmemb ≠ 0)
    (hbig : src.length > wb.limit - wb.nmemb)
    (hf : asspf_flush os fuel wb sys = some (wbf, sysf, r)) (hr : r ≠ 0) :
    asspf_write os fuel wb sys src = some (wbf, sysf, 0) := by
  obtain ⟨hlen, hlim, hn⟩ := hwf
  unfold asspf_write
  simp only [size_t_of_int_sub wb.limit wb.nmemb hn hlim]
  rw [if_pos ⟨hne, hbig⟩, hf]
  simp only
  rw [if_pos hr]

theorem asspf_write_bypass_empty (os : Os) (fuel : Nat) (wb : ASSPF_WriteBuf) (sys : Sys)
    (src : List Char) (h0 : wb.nmemb = 0) (hbig : src.length > wb.limit) :
    asspf_write os fuel wb sys src
      = (asspf_sys_write os fuel sys wb.fd src).map (fun res => (wb, res.1, res.2)) := by
  unfold asspf_write
  simp only [h0, ne_eq, not_true_eq_false, false_and, if_false]
  rw [if_pos hbig]
  cases asspf_sys_write os fuel sys wb.fd src <;> rfl

theorem asspf_write_bypass_flushed (os : Os) (fuel : Nat) (wb wbf : ASSPF_WriteBuf)
    (sys sysf : Sys) (src : List Char) (hwf : writebuf_wf wb) (hne : wb.nmemb ≠ 0)
    (hbig : src.length > wb.limit)
    (hf : asspf_flush os fuel wb sys = some (wbf, sysf, 0)) :
    asspf_write os fuel wb sys src
      = (asspf_sys_write os fuel sysf wb.fd src).map (fun res => (wbf, res.1, res.2)) := by
  obtain ⟨w, _, _, hl, hfd, _⟩ := asspf_flush_some os fuel wb wbf sys sysf 0 hwf hf
  obtain ⟨hlen, hlim, hn⟩ := hwf
  unfold asspf_write
  simp only [size_t_of_int_sub wb.limit wb.nmemb hn hlim]
  rw [if_pos ⟨hne, by omega⟩, hf]
  simp only [ne_eq, not_true_eq_false, if_false, hl, hfd]
  rw [if_pos hbig]
  cases asspf_sys_write os fuel sysf wb.fd src <;> rfl

/-- The `asspf_flush` function keeps the buffered count within the capacity. -/
theorem asspf_flush_inv (os : Os) (fuel : Nat) (wb wb1 : ASSPF_WriteBuf) (sys sys1 : Sys)
    (r : Nat) (hlim : wb.limit < USHRT_MOD) (hn : wb.nmemb ≤ wb.limit)
    (hf : asspf_flush os fuel wb sys = some (wb1, sys1, r)) :
    wb1.nmemb ≤ wb1.limit ∧ wb1.limit = wb.limit ∧ wb1.fd = wb.fd ∧ wb1.nmemb = r ∧
      r ≤ wb.nmemb := by
  cases hw : asspf_sys_write os fuel sys wb.fd (wb.buf.take wb.nmemb) with
  | none => rw [asspf_flush_none os fuel wb sys hw] at hf; exact absurd hf (by simp)
  | some res =>
    obtain ⟨sysw, w⟩ := res
    obtain ⟨h1, _, heq, _⟩ := asspf_flush_eq os fuel wb sys sysw w hlim hn hw
    rw [heq] at hf
    simp only [Option.some.injEq, Prod.mk.injEq] at hf
    obtain ⟨hwb, _, hr⟩ := hf
    subst hwb hr
    exact ⟨by simp only; omega, rfl, rfl, rfl, by omega⟩

/-- The `asspf_write` function keeps the buffered count within the capacity. -/
theorem asspf_write_inv (os : Os) (fuel : Nat) (wb wb1 : ASSPF_WriteBuf) (sys sys1 : Sys)
    (src : List Char) (n : Nat) (hlim : wb.limit < USHRT_MOD) (hn : wb.nmemb ≤ wb.limit)
    (hw : asspf_write os fuel wb sys src = some (wb1, sys1, n)) :
    wb1.nmemb ≤ wb1.limit ∧ wb1.limit = wb.limit ∧ wb1.fd = wb.fd := by
  unfold asspf_write at hw
  simp only [size_t_of_int_sub wb.limit wb.nmemb hn hlim] at hw
  -- the state after the optional flush
  have key : ∀ (wbf : ASSPF_WriteBuf) (sysf : Sys) (r : Nat),
      wbf.nmemb ≤ wbf.limit → wbf.limit = wb.limit → wbf.fd = wb.fd →
      (r = 0 → wbf.nmemb = 0 ∨ src.length ≤ wbf.limit - wbf.nmemb) →
      (if r ≠ 0 then some (wbf, sysf, 0)
        else if src.length > wbf.limit then
          match asspf_sys_write os fuel sysf wbf.fd src with
          | none => none
          | some (sys2, nbytes_writ) => some (wbf, sys2, nbytes_writ)
        else some ({ wbf with buf := memcpy_at wbf.buf wbf.nmemb src,
                              nmemb := (wbf.nmemb + src.length % USHRT_MOD) % USHRT_MOD },
              sysf, src.length)) = some (wb1, sys1, n) →
      wb1.nmemb ≤ wb1.limit ∧ wb1.limit = wb.limit ∧ wb1.fd = wb.fd := by
    intro wbf sysf r h1 h2 h3 h4 h
    split_ifs at h with hr hbig
    · simp only [Option.some.injEq, Prod.mk.injEq] at h
      rw [← h.1]; exact ⟨h1, h2, h3⟩
    · cases hs : asspf_sys_write os fuel sysf wbf.fd src with
      | none => rw [hs] at h; exact absurd h (by simp)
      | some res =>
        rw [hs] at h
        simp only [Option.some.injEq, Prod.mk.injEq] at h
        rw [← h.1]; exact ⟨h1, h2, h3⟩
    · simp only [Option.some.injEq, Prod.mk.injEq] at h
      rw [← h.1]
      have hr0 : r = 0 := by omega
      have hfit := h4 hr0
      refine ⟨?_, h2, h3⟩
      simp only
      unfold USHRT_MOD at *
      rcases hfit with h0 | h0 <;> omega
  by_cases hc : wb.nmemb ≠ 0 ∧ src.length > wb.limit - wb.nmemb
  · rw [if_pos hc] at hw
    cases hf : asspf_flush os fuel wb sys with
    | none => rw [hf] at hw; exact absurd hw (by simp)
    | some res =>
      obtain ⟨wbf, sysf, r⟩ := res
      rw [hf] at hw
      obtain ⟨i1, i2, i3, i4, _⟩ := asspf_flush_inv os fuel wb wbf sys sysf r hlim hn hf
      exact key wbf sysf r i1 i2 i3 (fun h0 => Or.inl (by omega)) hw
  · rw [if_neg hc] at hw
    refine key wb sys 0 hn rfl rfl (fun _ => ?_) hw
    by_cases h0 : wb.nmemb = 0
    · exact Or.inl h0
    · exact Or.inr (by
        have := fun h => hc ⟨h0, h⟩
        omega)

/-! ## The buffer invariant through a formatting call -/

theorem asspf_write_keeps (os : Os) (fuel : Nat) (wb wb1 : ASSPF_WriteBuf) (sys sys1 : Sys)
    (src : List Char) (n : Nat) (hinv : writebuf_inv wb)
    (hw : asspf_write os fuel wb sys src = some (wb1, sys1, n)) : writebuf_inv wb1 := by
  obtain ⟨h1, h2, _⟩ := asspf_write_inv os fuel wb wb1 sys sys1 src n hinv.2 hinv.1 hw
  exact ⟨h1, by rw [h2]; exact hinv.2⟩

theorem asspf_flush_keeps (os : Os) (fuel : Nat) (wb wb1 : ASSPF_WriteBuf) (sys sys1 : Sys)
    (r : Nat) (hinv : writebuf_inv wb)
    (hf : asspf_flush os fuel wb sys = some (wb1, sys1, r)) : writebuf_inv wb1 := by
  obtain ⟨h1, h2, _⟩ := asspf_flush_inv os fuel wb wb1 sys sys1 r hinv.2 hinv.1 hf
  exact ⟨h1, by rw [h2]; exact hinv.2⟩

theorem option_bind_keeps {x : Option PrintState} {g : PrintState → Option PrintState}
    {st2 : PrintState} (h : x.bind g = some st2)
    (hx : ∀ st1, x = some st1 → writebuf_inv st1.1)
    (hg : ∀ st1 st, writebuf_inv st1.1 → g st1 = some st → writebuf_inv st.1) :
    writebuf_inv st2.1 := by
  cases x with
  | none => simp at h
  | some st1 => exact hg st1 st2 (hx st1 rfl) (by simpa using h)

theorem retval_add_write_keeps (os : Os) (fuel : Nat) (src : List Char) (st st1 : PrintState)
    (hinv : writebuf_inv st.1) (h : retval_add_write os fuel src st = some st1) :
    writebuf_inv st1.1 := by
  unfold retval_add_write at h
  cases hw : asspf_write os fuel st.1 st.2.1 src with
  | none => rw [hw] at h; exact absurd h (by simp)
  | some res =>
    obtain ⟨wb1, sys1, n⟩ := res
    rw [hw] at h
    simp only [Option.some.injEq] at h
    rw [← h]
    exact asspf_write_keeps os fuel st.1 wb1 st.2.1 sys1 src n hinv hw

theorem printf_put_repchar_for_keeps (os : Os) (c : Char) :
    ∀ (fuel size count : Nat) (st st1 : PrintState) (r : Nat), writebuf_inv st.1 →
      printf_put_repchar_for os fuel c size count st = some (st1, r) → writebuf_inv st1.1 := by
  intro fuel
  induction fuel with
  | zero => intro size count st st1 r _ h; simp [printf_put_repchar_for] at h
  | succ fuel ih =>
    intro size count st st1 r hinv h
    unfold printf_put_repchar_for at h
    split_ifs at h with hc
    · cases hw : retval_add_write os fuel (List.replicate size c) st with
      | none => rw [hw] at h; exact absurd h (by simp)
      | some st2 =>
        rw [hw] at h
        exact ih _ _ st2 st1 r (retval_add_write_keeps os fuel _ st st2 hinv hw) h
    · simp only [Option.some.injEq, Prod.mk.injEq] at h
      rw [← h.1]; exact hinv

theorem printf_put_repchar_do_keeps (os : Os) (c : Char) :
    ∀ (fuel size count : Nat) (st st1 : PrintState), writebuf_inv st.1 →
      printf_put_repchar_do os fuel c size count st = some st1 → writebuf_inv st1.1 := by
  intro fuel
  induction fuel with
  | zero => intro size count st st1 _ h; simp [printf_put_repchar_do] at h
  | succ fuel ih =>
    intro size count st st1 hinv h
    unfold printf_put_repchar_do at h
    simp only at h
    generalize (if count > size then size else count) = size1 at h
    cases hf : printf_put_repchar_for os fuel c size1 count st with
    | none => rw [hf] at h; exact absurd h (by simp)
    | some res =>
      obtain ⟨st2, count1⟩ := res
      rw [hf] at h
      have h2 := printf_put_repchar_for_keeps os c fuel _ count st st2 count1 hinv hf
      simp only at h
      split_ifs at h with hc
      · exact ih _ _ st2 st1 h2 h
      · simp only [Option.some.injEq] at h
        rw [← h]; exact h2

theorem retval_add_repchar_keeps (os : Os) (fuel : Nat) (c : Char) (count : Nat)
    (st st1 : PrintState) (hinv : writebuf_inv st.1)
    (h : retval_add_repchar os fuel c count st = some st1) : writebuf_inv st1.1 := by
  unfold retval_add_repchar printf_put_repchar at h
  cases hd : printf_put_repchar_do os fuel c 64 count (st.1, st.2.1, 0) with
  | none => rw [hd] at h; exact absurd h (by simp)
  | some res =>
    obtain ⟨wb1, sys1, n⟩ := res
    rw [hd] at h
    simp only [Option.some.injEq] at h
    rw [← h]
    exact printf_put_repchar_do_keeps os c fuel 64 count (st.1, st.2.1, 0) (wb1, sys1, n) hinv hd

theorem printfint_write_sigil_keeps (os : Os) (fuel : Nat) (l : PrintfIntLocals)
    (st st1 : PrintState) (hinv : writebuf_inv st.1)
    (h : printfint_write_sigil os fuel l st = some st1) : writebuf_inv st1.1 := by
  unfold printfint_write_sigil at h
  split_ifs at h
  · exact retval_add_write_keeps os fuel _ st st1 hinv h
  · simp only [Option.some.injEq] at h
    rw [← h]; exact hinv

theorem printfint_write_sign_keeps (os : Os) (fuel : Nat) (itemfmt : ItemFormat_Int)
    (l : PrintfIntLocals) (st st1 : PrintState) (hinv : writebuf_inv st.1)
    (h : printfint_write_sign os fuel itemfmt l st = some st1) : writebuf_inv st1.1 := by
  unfold printfint_write_sign at h
  split_ifs at h
  · exact retval_add_write_keeps os fuel _ st st1 hinv h
  · simp only [Option.some.injEq] at h
    rw [← h]; exact hinv

theorem printfint_write_sigil_sign_keeps (os : Os) (fuel : Nat) (itemfmt : ItemFormat_Int)
    (l : PrintfIntLocals) (st st1 : PrintState) (hinv : writebuf_inv st.1)
    (h : (printfint_write_sigil os fuel l st).bind (printfint_write_sign os fuel itemfmt l)
      = some st1) : writebuf_inv st1.1 :=
  option_bind_keeps h (fun s hs => printfint_write_sigil_keeps os fuel l st s hinv hs)
    (fun s t hs ht => printfint_write_sign_keeps os fuel itemfmt l s t hs ht)

theorem printf_int_emit_keeps (os : Os) (fuel : Nat) (itemfmt : ItemFormat_Int)
    (l : PrintfIntLocals) (st st1 : PrintState) (hinv : writebuf_inv st.1)
    (h : printf_int_emit os fuel itemfmt l st = some st1) : writebuf_inv st1.1 := by
  unfold printf_int_emit at h
  refine option_bind_keeps h ?_ ?_
  · intro s hs
    unfold printf_int_emit_head at hs
    refine option_bind_keeps hs ?_ ?_
    · intro a ha
      split_ifs at ha
      · exact printfint_write_sigil_sign_keeps os fuel itemfmt l st a hinv ha
      · simp only [Option.some.injEq] at ha
        rw [← ha]; exact hinv
    · intro a b ha hb
      refine option_bind_keeps hb ?_ ?_
      · intro c hc
        split_ifs at hc
        · exact retval_add_repchar_keeps os fuel _ _ a c ha hc
        · simp only [Option.some.injEq] at hc
          rw [← hc]; exact ha
      · intro c d hc hd
        split_ifs at hd
        · exact printfint_write_sigil_sign_keeps os fuel itemfmt l c d hc hd
        · simp only [Option.some.injEq] at hd
          rw [← hd]; exact hc
  · intro s t hs ht
    refine option_bind_keeps ht ?_ ?_
    · intro a ha
      unfold printf_int_emit_digits at ha
      refine option_bind_keeps ha ?_ ?_
      · intro b hb
        split_ifs at hb
        · exact retval_add_repchar_keeps os fuel _ _ s b hs hb
        · simp only [Option.some.injEq] at hb
          rw [← hb]; exact hs
      · intro b c hb hc
        exact retval_add_write_keeps os fuel _ b c hb hc
    · intro a b ha hb
      unfold printf_int_emit_tail at hb
      split_ifs at hb
      · exact retval_add_repchar_keeps os fuel _ _ a b ha hb
      · simp only [Option.some.injEq] at hb
        rw [← hb]; exact ha

/-- The `printf_int` function keeps the buffer invariant, on every system,
for every format and value. -/
theorem printf_int_keeps (has_asr : Bool) (os : Os) (fuel : Nat) (wb wb1 : ASSPF_WriteBuf)
    (sys sys1 : Sys) (format : List Char) (value value_size n : Nat) (hinv : writebuf_inv wb)
    (h : printf_int has_asr os fuel wb sys format value value_size = some (wb1, sys1, n)) :
    writebuf_inv wb1 := by
  unfold printf_int at h
  cases hs : format_scan_int format with
  | none =>
    rw [hs] at h
    simp only [Option.some.injEq, Prod.mk.injEq] at h
    rw [← h.1]; exact hinv
  | some itemfmt =>
    rw [hs] at h
    simp only at h
    cases hc : itemfmt.convspec <;> rw [hc] at h <;> simp only at h
    case UNSET =>
      simp only [Option.some.injEq, Prod.mk.injEq] at h
      rw [← h.1]; exact hinv
    all_goals
      exact printf_int_emit_keeps os fuel itemfmt _ (wb, sys, 0) (wb1, sys1, n) hinv h

/-! ## Sequences of buffered writes -/

theorem memcpy_at_take_end (dest src : List Char) (off : Nat) (h : off ≤ dest.length) :
    (memcpy_at dest off src).take (off + src.length) = dest.take off ++ src := by
  unfold memcpy_at
  have hl : (dest.take off ++ src).length = off + src.length := by
    rw [List.length_append, List.length_take]; omega
  have h1 := List.take_left (dest.take off ++ src) (dest.drop (off + src.length))
  rw [hl] at h1
  exact h1

/-- A sequence of writes whose total fits in the free capacity is buffered
whole: no system call, every call returns its size, the sources are appended
in order. -/
theorem asspf_write_seq_fits (os : Os) (fuel : Nat) (sys : Sys) :
    ∀ (srcs : List (List Char)) (wb : ASSPF_WriteBuf), writebuf_wf wb →
      (srcs.map List.length).sum ≤ wb.limit - wb.nmemb →
      ∃ wb1, asspf_write_seq os fuel wb sys srcs = some (wb1, sys, srcs.map List.length) ∧
        wb1.nmemb = wb.nmemb + (srcs.map List.length).sum ∧
        wb1.buf.take wb1.nmemb = wb.buf.take wb.nmemb ++ srcs.flatten ∧
        wb1.limit = wb.limit ∧ wb1.fd = wb.fd := by
  intro srcs
  induction srcs with
  | nil =>
    intro wb _ _
    exact ⟨wb, rfl, by simp, by simp, rfl, rfl⟩
  | cons src rest ih =>
    intro wb hwf hsum
    simp only [List.map_cons, List.sum_cons] at hsum
    obtain ⟨hlen, hlim, hn⟩ := hwf
    have hw := asspf_write_fits os fuel wb sys src ⟨hlen, hlim, hn⟩ (by omega)
    have hwf1 : writebuf_wf (ASSPF_WriteBuf.mk (memcpy_at wb.buf wb.nmemb src) wb.limit
        (wb.nmemb + src.length) wb.fd) :=
      ⟨by simp only; rw [memcpy_at_length _ _ _ (by omega)]; exact hlen, hlim,
        by simp only; omega⟩
    obtain ⟨wb1, hseq, hn1, hbuf1, hl1, hf1⟩ := ih _ hwf1 (by simp only; omega)
    refine ⟨wb1, ?_, ?_, ?_, hl1, hf1⟩
    · unfold asspf_write_seq
      rw [hw]
      simp only [hseq, List.map_cons]
    · rw [hn1]
      simp only [List.map_cons, List.sum_cons]
      omega
    · rw [hbuf1]
      simp only [List.flatten_cons]
      rw [memcpy_at_take_end _ _ _ (by omega), List.append_assoc]

/-! ## The two hexadecimal generators -/

theorem printf_w2b_x_nibble_upper (k : Nat) (h : k < 16) :
    (printf_w2b_x_nibble k).1.map ascii_toupper = (printf_w2b_X_nibble k).1 := by
  interval_cases k <;> decide

theorem printf_w2b_x_upper : ∀ n v : Nat,
    (printf_w2b_x n v).1.map ascii_toupper = (printf_w2b_X n v).1 ∧
      (printf_w2b_x n v).2 = n ∧ (printf_w2b_X n v).2 = n := by
  intro n
  induction n with
  | zero => intro v; exact ⟨rfl, rfl, rfl⟩
  | succ n ih =>
    intro v
    obtain ⟨h1, h2, h3⟩ := ih (v / 16)
    have hk : v % 256 % 16 < 16 := Nat.mod_lt _ (by norm_num)
    have hx : printf_w2b_x_nibble (v % 256) = printf_w2b_x_nibble (v % 256 % 16) := by
      simp [printf_w2b_x_nibble]
    have hX : printf_w2b_X_nibble (v % 256) = printf_w2b_X_nibble (v % 256 % 16) := by
      simp [printf_w2b_X_nibble]
    have hn := printf_w2b_x_nibble_upper (v % 256 % 16) hk
    refine ⟨?_, ?_, ?_⟩
    · simp only [printf_w2b_x, printf_w2b_X, List.map_append, h1, hx, hX, hn]
    · simp only [printf_w2b_x, h2]; rfl
    · simp only [printf_w2b_X, h3]; rfl

/-! ## Sign extension at the other widths -/

theorem printf_read_raw_d_size3 (has_asr : Bool) (value : Nat) (hvalue : value < 16777216) :
    printf_read_raw_d has_asr value 3
      = if value < 8388608 then (value : Int) else (value : Int) - 16777216 := by
  have hk : ((8 - 3) * 8) % 256 = 40 := by norm_num
  have hK : (2 : Nat) ^ 40 = 1099511627776 := by norm_num
  have hKi : (2 : Int) ^ 40 = 1099511627776 := by norm_num
  have h1 : intmax_of value = (value : Int) := intmax_of_small value (by omega)
  have h2 : uintmax_of (value : Int) = value := uintmax_of_natCast value (by omega)
  have h3 : value * 1099511627776 % UINTMAX_MOD = value * 1099511627776 := by unfold UINTMAX_MOD; omega
  simp only [printf_read_raw_d, asl_imax, hk, h1, h2, hK, h3]
  by_cases hlt : value < 8388608
  · rw [if_pos hlt]
    have h4 : intmax_of (value * 1099511627776) = ((value * 1099511627776 : Nat) : Int) :=
      intmax_of_small _ (by omega)
    have h5 : uintmax_of ((value * 1099511627776 : Nat) : Int) = value * 1099511627776 :=
      uintmax_of_natCast _ (by omega)
    have h6 : intmax_of (value * 1099511627776 / 1099511627776) = ((value * 1099511627776 / 1099511627776 : Nat) : Int) :=
      intmax_of_small _ (by omega)
    rw [h4]
    cases has_asr
    · simp only [asr_imax, Bool.false_eq_true, if_false, h5, hK, h6]
      rw [if_neg (by omega)]
      omega
    · simp only [asr_imax, if_true, Int.shiftRight_eq_div_pow, hKi]
      omega
  · rw [if_neg hlt]
    have h4 : intmax_of (value * 1099511627776) = ((value * 1099511627776 : Nat) : Int) - 18446744073709551616 :=
      intmax_of_big _ (by omega) (by omega)
    have h5 : uintmax_of (((value * 1099511627776 : Nat) : Int) - 18446744073709551616) = value * 1099511627776 :=
      uintmax_of_sub _ (by omega) (by omega)
    rw [h4]
    cases has_asr
    · simp only [asr_imax, Bool.false_eq_true, if_false, h5, hK]
      rw [if_pos (by omega)]
      have h7 : UINTMAX_MOD - 1 - (UINTMAX_MOD - 1 - value * 1099511627776) / 1099511627776
          = 18446744073709551616 - 16777216 + value := by unfold UINTMAX_MOD; omega
      rw [h7, intmax_of_big _ (by omega) (by omega)]
      omega
    · simp only [asr_imax, if_true, Int.shiftRight_eq_div_pow, hKi]
      omega

theorem printf_read_raw_d_size5 (has_asr : Bool) (value : Nat) (hvalue : value < 1099511627776) :
    printf_read_raw_d has_asr value 5
      = if value < 549755813888 then (value : Int) else (value : Int) - 1099511627776 := by
  have hk : ((8 - 5) * 8) % 256 = 24 := by norm_num
  have hK : (2 : Nat) ^ 24 = 16777216 := by norm_num
  have hKi : (2 : Int) ^ 24 = 16777216 := by norm_num
  have h1 : intmax_of value = (value : Int) := intmax_of_small value (by omega)
  have h2 : uintmax_of (value : Int) = value := uintmax_of_natCast value (by omega)
  have h3 : value * 16777216 % UINTMAX_MOD = value * 16777216 := by unfold UINTMAX_MOD; omega
  simp only [printf_read_raw_d, asl_imax, hk, h1, h2, hK, h3]
  by_cases hlt : value < 549755813888
  · rw [if_pos hlt]
    have h4 : intmax_of (value * 16777216) = ((value * 16777216 : Nat) : Int) :=
      intmax_of_small _ (by omega)
    have h5 : uintmax_of ((value * 16777216 : Nat) : Int) = value * 16777216 :=
      uintmax_of_natCast _ (by omega)
    have h6 : intmax_of (value * 16777216 / 16777216) = ((value * 16777216 / 16777216 : Nat) : Int) :=
      intmax_of_small _ (by omega)
    rw [h4]
    cases has_asr
    · simp only [asr_imax, Bool.false_eq_true, if_false, h5, hK, h6]
      rw [if_neg (by omega)]
      omega
    · simp only [asr_imax, if_true, Int.shiftRight_eq_div_pow, hKi]
      omega
  · rw [if_neg hlt]
    have h4 : intmax_of (value * 16777216) = ((value * 16777216 : Nat) : Int) - 18446744073709551616 :=
      intmax_of_big _ (by omega) (by omega)
    have h5 : uintmax_of (((value * 16777216 : Nat) : Int) - 18446744073709551616) = value * 16777216 :=
      uintmax_of_sub _ (by omega) (by omega)
    rw [h4]
    cases has_asr
    · simp only [asr_imax, Bool.false_eq_true, if_false, h5, hK]
      rw [if_pos (by omega)]
      have h7 : UINTMAX_MOD - 1 - (UINTMAX_MOD - 1 - value * 16777216) / 16777216
          = 18446744073709551616 - 1099511627776 + value := by unfold UINTMAX_MOD; omega
      rw [h7, intmax_of_big _ (by omega) (by omega)]
      omega
    · simp only [asr_imax, if_true, Int.shiftRight_eq_div_pow, hKi]
      omega

theorem printf_read_raw_d_size6 (has_asr : Bool) (value : Nat) (hvalue : value < 281474976710656) :
    printf_read_raw_d has_asr value 6
      = if value < 140737488355328 then (value : Int) else (value : Int) - 281474976710656 := by
  have hk : ((8 - 6) * 8) % 256 = 16 := by norm_num
  have hK : (2 : Nat) ^ 16 = 65536 := by norm_num
  have hKi : (2 : Int) ^ 16 = 65536 := by norm_num
  have h1 : intmax_of value = (value : Int) := intmax_of_small value (by omega)
  have h2 : uintmax_of (value : Int) = value := uintmax_of_natCast value (by omega)
  have h3 : value * 65536 % UINTMAX_MOD = value * 65536 := by unfold UINTMAX_MOD; omega
  simp only [printf_read_raw_d, asl_imax, hk, h1, h2, hK, h3]
  by_cases hlt : value < 140737488355328
  · rw [if_pos hlt]
    have h4 : intmax_of (value * 65536) = ((value * 65536 : Nat) : Int) :=
      intmax_of_small _ (by omega)
    have h5 : uintmax_of ((value * 65536 : Nat) : Int) = value * 65536 :=
      uintmax_of_natCast _ (by omega)
    have h6 : intmax_of (value * 65536 / 65536) = ((value * 65536 / 65536 : Nat) : Int) :=
      intmax_of_small _ (by omega)
    rw [h4]
    cases has_asr
    · simp only [asr_imax, Bool.false_eq_true, if_false, h5, hK, h6]
      rw [if_neg (by omega)]
      omega
    · simp only [asr_imax, if_true, Int.shiftRight_eq_div_pow, hKi]
      omega
  · rw [if_neg hlt]
    have h4 : intmax_of (value * 65536) = ((value * 65536 : Nat) : Int) - 18446744073709551616 :=
      intmax_of_big _ (by omega) (by omega)
    have h5 : uintmax_of (((value * 65536 : Nat) : Int) - 18446744073709551616) = value * 65536 :=
      uintmax_of_sub _ (by omega) (by omega)
    rw [h4]
    cases has_asr
    · simp only [asr_imax, Bool.false_eq_true, if_false, h5, hK]
      rw [if_pos (by omega)]
      have h7 : UINTMAX_MOD - 1 - (UINTMAX_MOD - 1 - value * 65536) / 65536
          = 18446744073709551616 - 281474976710656 + value := by unfold UINTMAX_MOD; omega
      rw [h7, intmax_of_big _ (by omega) (by omega)]
      omega
    · simp only [asr_imax, if_true, Int.shiftRight_eq_div_pow, hKi]
      omega

theorem printf_read_raw_d_size7 (has_asr : Bool) (value : Nat) (hvalue : value < 72057594037927936) :
    printf_read_raw_d has_asr value 7
      = if value < 36028797018963968 then (value : Int) else (value : Int) - 72057594037927936 := by
  have hk : ((8 - 7) * 8) % 256 = 8 := by norm_num
  have hK : (2 : Nat) ^ 8 = 256 := by norm_num
  have hKi : (2 : Int) ^ 8 = 256 := by norm_num
  have h1 : intmax_of value = (value : Int) := intmax_of_small value (by omega)
  have h2 : uintmax_of (value : Int) = value := uintmax_of_natCast value (by omega)
  have h3 : value * 256 % UINTMAX_MOD = value * 256 := by unfold UINTMAX_MOD; omega
  simp only [printf_read_raw_d, asl_imax, hk, h1, h2, hK, h3]
  by_cases hlt : value < 36028797018963968
  · rw [if_pos hlt]
    have h4 : intmax_of (value * 256) = ((value * 256 : Nat) : Int) :=
      intmax_of_small _ (by omega)
    have h5 : uintmax_of ((value * 256 : Nat) : Int) = value * 256 :=
      uintmax_of_natCast _ (by omega)
    have h6 : intmax_of (value * 256 / 256) = ((value * 256 / 256 : Nat) : Int) :=
      intmax_of_small _ (by omega)
    rw [h4]
    cases has_asr
    · simp only [asr_imax, Bool.false_eq_true, if_false, h5, hK, h6]
      rw [if_neg (by omega)]
      omega
    · simp only [asr_imax, if_true, Int.shiftRight_eq_div_pow, hKi]
      omega
  · rw [if_neg hlt]
    have h4 : intmax_of (value * 256) = ((value * 256 : Nat) : Int) - 18446744073709551616 :=
      intmax_of_big _ (by omega) (by omega)
    have h5 : uintmax_of (((value * 256 : Nat) : Int) - 18446744073709551616) = value * 256 :=
      uintmax_of_sub _ (by omega) (by omega)
    rw [h4]
    cases has_asr
    · simp only [asr_imax, Bool.false_eq_true, if_false, h5, hK]
      rw [if_pos (by omega)]
      have h7 : UINTMAX_MOD - 1 - (UINTMAX_MOD - 1 - value * 256) / 256
          = 18446744073709551616 - 72057594037927936 + value := by unfold UINTMAX_MOD; omega
      rw [h7, intmax_of_big _ (by omega) (by omega)]
      omega
    · simp only [asr_imax, if_true, Int.shiftRight_eq_div_pow, hKi]
      omega


theorem uintmax_of_intmax_of (v : Nat) (h : v < 18446744073709551616) :
    uintmax_of (intmax_of v) = v := by
  unfold uintmax_of intmax_of UINTMAX_MOD
  split_ifs <;> omega

/-- The bits of the value above the stated width do not enter
`printf_read_raw_d`: the left shift drops them. -/
theorem printf_read_raw_d_mod (has_asr : Bool) (v s : Nat) (h1 : 1 ≤ s) (h8 : s ≤ 8)
    (hv : v < 18446744073709551616) :
    printf_read_raw_d has_asr v s = printf_read_raw_d has_asr (v % 2 ^ (8 * s)) s := by
  have hm : v % 2 ^ (8 * s) < 18446744073709551616 :=
    lt_of_le_of_lt (Nat.mod_le _ _) hv
  have key : asl_imax (intmax_of v) (((8 - s) * 8) % 256)
      = asl_imax (intmax_of (v % 2 ^ (8 * s))) (((8 - s) * 8) % 256) := by
    unfold asl_imax
    rw [uintmax_of_intmax_of v hv, uintmax_of_intmax_of _ hm]
    congr 1
    unfold UINTMAX_MOD
    interval_cases s <;> norm_num <;> omega
  unfold printf_read_raw_d
  simp only [key]

/-- The `printf_read_raw_d` function reads the low `8s` bits of the value as a
two's-complement number, with either branch of `asr_imax`. -/
theorem printf_read_raw_d_spec (has_asr : Bool) (v s : Nat) (h1 : 1 ≤ s) (h8 : s ≤ 8)
    (hv : v < 18446744073709551616) :
    printf_read_raw_d has_asr v s
      = if v % 2 ^ (8 * s) < 2 ^ (8 * s - 1) then ((v % 2 ^ (8 * s) : Nat) : Int)
        else ((v % 2 ^ (8 * s) : Nat) : Int) - ((2 ^ (8 * s) : Nat) : Int) := by
  rw [printf_read_raw_d_mod has_asr v s h1 h8 hv]
  interval_cases s
  · have hlt : v % 2 ^ (8 * 1) < 256 := Nat.mod_lt _ (by norm_num)
    rw [printf_read_raw_d_size1 has_asr _ hlt]
    norm_num
  · have hlt : v % 2 ^ (8 * 2) < 65536 := Nat.mod_lt _ (by norm_num)
    rw [printf_read_raw_d_size2 has_asr _ hlt]
    norm_num
  · have hlt : v % 2 ^ (8 * 3) < 16777216 := Nat.mod_lt _ (by norm_num)
    rw [printf_read_raw_d_size3 has_asr _ hlt]
    norm_num
  · have hlt : v % 2 ^ (8 * 4) < 4294967296 := Nat.mod_lt _ (by norm_num)
    rw [printf_read_raw_d_size4 has_asr _ hlt]
    norm_num
  · have hlt : v % 2 ^ (8 * 5) < 1099511627776 := Nat.mod_lt _ (by norm_num)
    rw [printf_read_raw_d_size5 has_asr _ hlt]
    norm_num
  · have hlt : v % 2 ^ (8 * 6) < 281474976710656 := Nat.mod_lt _ (by norm_num)
    rw [printf_read_raw_d_size6 has_asr _ hlt]
    norm_num
  · have hlt : v % 2 ^ (8 * 7) < 72057594037927936 := Nat.mod_lt _ (by norm_num)
    rw [printf_read_raw_d_size7 has_asr _ hlt]
    norm_num
  · have hlt : v % 2 ^ (8 * 8) < 18446744073709551616 := Nat.mod_lt _ (by norm_num)
    rw [printf_read_raw_d_size8 has_asr _ hlt]
    norm_num

/-! ## The characters of a rendered value -/

theorem printf_int_base_chars (has_asr : Bool) (convspec : FormatConvSpec_Int)
    (ndigits_max value value_size : Nat) :
    ∀ c ∈ (printf_int_base has_asr convspec ndigits_max value value_size).1,
      c ∈ conv_digits convspec := by
  cases convspec <;> simp only [printf_int_base]
  · intro c hc; simp at hc
  · exact (printf_w2b_u_spec _ _).2
  · exact (printf_w2b_u_spec _ _).2
  · exact (printf_w2b_b_loop_spec _ _).2
  · exact (printf_w2b_o_spec _ _).2
  · exact (printf_w2b_x_spec _ _).2
  · exact (printf_w2b_X_spec _ _).2

theorem printf_int_sign_chars (itemfmt : ItemFormat_Int) (sign_c : Char)
    (h : sign_c = '-' ∨ sign_c = '+' ∨ sign_c = '\x00') :
    (printf_int_sign itemfmt sign_c).1 ∈ ['-', '+', ' ', '\x00'] := by
  unfold printf_int_sign
  rcases h with h | h | h <;> subst h <;> split_ifs <;> simp_all

theorem printf_int_base_sign_chars (has_asr : Bool) (convspec : FormatConvSpec_Int)
    (ndigits_max value value_size : Nat) :
    (printf_int_base has_asr convspec ndigits_max value value_size).2 = '-' ∨
    (printf_int_base has_asr convspec ndigits_max value value_size).2 = '+' ∨
    (printf_int_base has_asr convspec ndigits_max value value_size).2 = '\x00' := by
  cases convspec
  case d =>
    simp only [printf_int_base]
    split_ifs
    · exact Or.inl rfl
    · exact Or.inr (Or.inl rfl)
  all_goals exact Or.inr (Or.inr rfl)

/-- The characters a call can write besides its sigil: signs, pad characters
and the digits of the conversion. -/
theorem rendered_chars (has_asr : Bool) (itemfmt : ItemFormat_Int) (value value_size : Nat) :
    ∀ c ∈ head_bytes itemfmt (printf_int_locals has_asr itemfmt value value_size) ++
        digit_part (printf_int_locals has_asr itemfmt value value_size) ++
        tail_bytes (printf_int_locals has_asr itemfmt value value_size),
      c ∈ (printf_int_locals has_asr itemfmt value value_size).sigil_buf ∨
      c ∈ ['-', '+', ' ', '\x00', '0'] ∨ c ∈ conv_digits itemfmt.convspec := by
  intro c hc
  have hsign : ∀ x ∈ sign_bytes itemfmt (printf_int_locals has_asr itemfmt value value_size),
      x ∈ ['-', '+', ' ', '\x00', '0'] := by
    intro x hx
    unfold sign_bytes at hx
    split_ifs at hx
    · simp only [List.mem_singleton] at hx
      have h := printf_int_sign_chars itemfmt _
        (printf_int_base_sign_chars has_asr itemfmt.convspec
          (printf_ndigits_max value_size itemfmt.convspec) value value_size)
      have hx2 : x = (printf_int_sign itemfmt (printf_int_base has_asr itemfmt.convspec
          (printf_ndigits_max value_size itemfmt.convspec) value value_size).2).1 := hx
      rw [hx2]
      simp only [List.mem_cons, List.mem_singleton, List.not_mem_nil, or_false] at h ⊢
      tauto
    · simp at hx
  have hadj : (printf_int_locals has_asr itemfmt value value_size).adjust_c
      ∈ ['-', '+', ' ', '\x00', '0'] := by
    simp only [printf_int_locals]
    split_ifs <;> simp
  have hdig : ∀ x ∈ digit_bytes (printf_int_locals has_asr itemfmt value value_size),
      x ∈ conv_digits itemfmt.convspec := by
    intro x hx
    unfold digit_bytes at hx
    exact printf_int_base_chars has_asr itemfmt.convspec _ value value_size x
      (List.mem_of_mem_drop (List.mem_of_mem_take hx))
  have hss : ∀ x ∈ sigil_sign_bytes itemfmt (printf_int_locals has_asr itemfmt value value_size),
      x ∈ (printf_int_locals has_asr itemfmt value value_size).sigil_buf ∨
      x ∈ ['-', '+', ' ', '\x00', '0'] := by
    intro x hx
    unfold sigil_sign_bytes at hx
    rcases List.mem_append.mp hx with h | h
    · exact Or.inl h
    · exact Or.inr (hsign x h)
  simp only [List.mem_append] at hc
  rcases hc with (hc | hc) | hc
  · unfold head_bytes at hc
    simp only [List.mem_append] at hc
    rcases hc with (hc | hc) | hc
    · split_ifs at hc
      · rcases hss c hc with h | h
        · exact Or.inl h
        · exact Or.inr (Or.inl h)
      · simp at hc
    · split_ifs at hc
      · rw [List.eq_of_mem_replicate hc]
        exact Or.inr (Or.inl hadj)
      · simp at hc
    · split_ifs at hc
      · rcases hss c hc with h | h
        · exact Or.inl h
        · exact Or.inr (Or.inl h)
      · simp at hc
  · unfold digit_part at hc
    rcases List.mem_append.mp hc with h | h
    · rw [List.eq_of_mem_replicate h]
      exact Or.inr (Or.inl (by simp))
    · exact Or.inr (Or.inr (hdig c h))
  · unfold tail_bytes at hc
    split_ifs at hc
    · rw [List.eq_of_mem_replicate hc]
      exact Or.inr (Or.inl (by simp))
    · simp at hc

theorem marker_not_written : ∀ convspec : FormatConvSpec_Int,
    ∀ m ∈ printf_flag_sigil_int_m convspec,
      m ∉ printf_flag_sigil_int_c convspec ∧ m ∉ ['-', '+', ' ', '\x00', '0'] ∧
      m ∉ conv_digits convspec := by
  intro convspec
  cases convspec <;> decide

theorem sigil_buf_c_style (has_asr : Bool) (itemfmt : ItemFormat_Int) (value value_size : Nat)
    (hC : itemfmt.flags &&& FORMATFLAG_ALTFORM_C ≠ 0) :
    (printf_int_locals has_asr itemfmt value value_size).sigil_buf
      = printf_flag_sigil_int_c itemfmt.convspec := by
  simp only [printf_int_locals, printf_flag_sigil_int]
  rw [if_pos ((altform_all_iff _).2 (Or.inl hC)), if_pos hC]

/-! ## What the generators return -/

theorem printf_w2b_u_result : ∀ n v : Nat, (printf_w2b_u n v).2 = n := by
  intro n
  induction n with
  | zero => intro v; rfl
  | succ n ih => intro v; simp only [printf_w2b_u, ih]

theorem printf_w2b_o_result : ∀ n v : Nat, (printf_w2b_o n v).2 = n := by
  intro n
  induction n with
  | zero => intro v; rfl
  | succ n ih => intro v; simp only [printf_w2b_o, ih]

theorem printf_w2b_b_loop_result : ∀ n v : Nat, (printf_w2b_b_loop n v).2 = 4 * n := by
  intro n
  induction n with
  | zero => intro v; rfl
  | succ n ih =>
    intro v
    simp only [printf_w2b_b_loop, ih, printf_w2b_b_nibble]
    omega

theorem printf_int_base_result_eq (convspec : FormatConvSpec_Int) (s value : Nat)
    (hconv : convspec ≠ FormatConvSpec_Int.UNSET) :
    printf_int_base_result convspec (printf_ndigits_max s convspec) value
      = printf_ndigits_max s convspec := by
  cases convspec <;> simp only [printf_int_base_result]
  · exact absurd rfl hconv
  · exact printf_w2b_u_result _ _
  · exact printf_w2b_u_result _ _
  · simp only [printf_w2b_b, printf_w2b_b_loop_result, printf_ndigits_max]
    omega
  · exact printf_w2b_o_result _ _
  · exact (printf_w2b_x_upper _ _).2.1
  · exact (printf_w2b_x_upper _ _).2.2

/-! ## The emitted bytes on any system -/

theorem asspf_write_no_flush (os : Os) (fuel : Nat) (wb wb1 : ASSPF_WriteBuf) (sys sys1 : Sys)
    (src : List Char) (r : Nat) (hwf : writebuf_wf wb)
    (hc : wb.nmemb = 0 ∨ src.length ≤ wb.limit - wb.nmemb)
    (hw : asspf_write os fuel wb sys src = some (wb1, sys1, r)) :
    writebuf_wf wb1 ∧ wb1.limit = wb.limit ∧ wb1.fd = wb.fd ∧ r ≤ src.length ∧
      emitted wb1 sys1 = emitted wb sys ++ on_fd wb.fd (src.take r) := by
  by_cases hbig : src.length > wb.limit
  · have h0 : wb.nmemb = 0 := by
      rcases hc with h | h
      · exact h
      · omega
    rw [asspf_write_bypass_empty os fuel wb sys src h0 hbig] at hw
    cases hs : asspf_sys_write os fuel sys wb.fd src with
    | none => rw [hs] at hw; exact absurd hw (by simp)
    | some res =>
      obtain ⟨sys2, k⟩ := res
      rw [hs] at hw
      simp only [Option.map_some', Option.some.injEq, Prod.mk.injEq] at hw
      obtain ⟨e1, e2, e3⟩ := hw
      subst e1 e2 e3
      obtain ⟨j, hj, hk, hout⟩ := asspf_sys_write_loop_delivers os wb.fd fuel sys src 0 sys2 k hs
      rw [Nat.zero_add] at hk
      subst hk
      refine ⟨hwf, rfl, rfl, hj, ?_⟩
      simp [emitted, h0, hout, on_fd]
  · have hfit : src.length ≤ wb.limit - wb.nmemb := by
      rcases hc with h | h
      · omega
      · exact h
    rw [asspf_write_fits os fuel wb sys src hwf hfit] at hw
    simp only [Option.some.injEq, Prod.mk.injEq] at hw
    obtain ⟨e1, e2, e3⟩ := hw
    subst e1 e2 e3
    obtain ⟨hlen, hlim, hn⟩ := hwf
    refine ⟨⟨?_, hlim, ?_⟩, rfl, rfl, Nat.le_refl _, ?_⟩
    · simp only
      rw [memcpy_at_length _ _ _ (by omega)]
      exact hlen
    · simp only
      omega
    · simp only [emitted, List.take_length]
      rw [memcpy_at_take_end _ _ _ (by omega), on_fd_append, List.append_assoc]

theorem asspf_flush_emitted (os : Os) (fuel : Nat) (wb wbf : ASSPF_WriteBuf) (sys sysf : Sys)
    (r : Nat) (hwf : writebuf_wf wb) (hf : asspf_flush os fuel wb sys = some (wbf, sysf, r)) :
    writebuf_wf wbf ∧ wbf.limit = wb.limit ∧ wbf.fd = wb.fd ∧ wbf.nmemb = r ∧
      emitted wbf sysf = emitted wb sys := by
  obtain ⟨w, hwr, hnm, hl, hfd, hlen, _, hbuf, _, hout⟩ :=
    asspf_flush_some os fuel wb wbf sys sysf r hwf hf
  obtain ⟨h1, h2, h3⟩ := hwf
  refine ⟨⟨by rw [hlen, hl]; exact h1, by rw [hl]; exact h2, by rw [hnm, hl]; omega⟩,
    hl, hfd, hnm, ?_⟩
  unfold emitted
  rw [hout, hnm, hbuf, hfd, List.append_assoc, ← on_fd_append, ← List.take_add, hwr]

theorem asspf_write_after_flush (os : Os) (fuel : Nat) (wb wbf : ASSPF_WriteBuf)
    (sys sysf : Sys) (src : List Char) (hwf : writebuf_wf wb) (hne : wb.nmemb ≠ 0)
    (hbig : src.length > wb.limit - wb.nmemb)
    (hf : asspf_flush os fuel wb sys = some (wbf, sysf, 0)) :
    asspf_write os fuel wb sys src = asspf_write os fuel wbf sysf src := by
  obtain ⟨_, _, _, hnm, _⟩ := asspf_flush_emitted os fuel wb wbf sys sysf 0 hwf hf
  obtain ⟨hlen, hlim, hn⟩ := hwf
  unfold asspf_write
  simp only [size_t_of_int_sub wb.limit wb.nmemb hn hlim]
  rw [if_pos ⟨hne, hbig⟩, hf]
  simp only [hnm, ne_eq, not_true_eq_false, false_and, if_false]

/-- What `asspf_write` does to the emitted bytes, on any system: it appends
the first `r` bytes of the source, `r` being the value it returns. -/
theorem asspf_write_emitted (os : Os) (fuel : Nat) (wb wb1 : ASSPF_WriteBuf) (sys sys1 : Sys)
    (src : List Char) (r : Nat) (hwf : writebuf_wf wb)
    (hw : asspf_write os fuel wb sys src = some (wb1, sys1, r)) :
    writebuf_wf wb1 ∧ wb1.limit = wb.limit ∧ wb1.fd = wb.fd ∧ r ≤ src.length ∧
      emitted wb1 sys1 = emitted wb sys ++ on_fd wb.fd (src.take r) := by
  by_cases hc : wb.nmemb ≠ 0 ∧ src.length > wb.limit - wb.nmemb
  · cases hf : asspf_flush os fuel wb sys with
    | none =>
      exfalso
      obtain ⟨hlen, hlim, hn⟩ := hwf
      unfold asspf_write at hw
      simp only [size_t_of_int_sub wb.limit wb.nmemb hn hlim] at hw
      rw [if_pos hc, hf] at hw
      exact absurd hw (by simp)
    | some res =>
      obtain ⟨wbf, sysf, r0⟩ := res
      obtain ⟨f1, f2, f3, f4, f5⟩ := asspf_flush_emitted os fuel wb wbf sys sysf r0 hwf hf
      by_cases hr0 : r0 = 0
      · subst hr0
        rw [asspf_write_after_flush os fuel wb wbf sys sysf src hwf hc.1 hc.2 hf] at hw
        obtain ⟨g1, g2, g3, g4, g5⟩ := asspf_write_no_flush os fuel wbf wb1 sysf sys1 src r f1
          (Or.inl f4) hw
        exact ⟨g1, g2.trans f2, g3.trans f3, g4, by rw [g5, f5, f3]⟩
      · rw [asspf_write_flush_fails os fuel wb wbf sys sysf src r0 hwf hc.1 hc.2 hf hr0] at hw
        simp only [Option.some.injEq, Prod.mk.injEq] at hw
        obtain ⟨e1, e2, e3⟩ := hw
        subst e1 e2 e3
        exact ⟨f1, f2, f3, Nat.zero_le _, by rw [f5]; simp [on_fd]⟩
  · refine asspf_write_no_flush os fuel wb wb1 sys sys1 src r hwf ?_ hw
    by_cases h0 : wb.nmemb = 0
    · exact Or.inl h0
    · exact Or.inr (by
        have := fun h => hc ⟨h0, h⟩
        omega)

/-- The emitted bytes after a sequence of calls. -/
theorem run_calls_emitted (os : Os) (fuel : Nat) :
    ∀ (calls : List BufferCall) (wb wb1 : ASSPF_WriteBuf) (sys sys1 : Sys) (rets : List Nat),
      writebuf_wf wb → run_calls os fuel wb sys calls = some (wb1, sys1, rets) →
      writebuf_wf wb1 ∧ wb1.limit = wb.limit ∧ wb1.fd = wb.fd ∧ rets.length = calls.length ∧
        emitted wb1 sys1 = emitted wb sys ++ on_fd wb.fd (accepted_bytes calls rets) := by
  intro calls
  induction calls with
  | nil =>
    intro wb wb1 sys sys1 rets hwf h
    simp only [run_calls, Option.some.injEq, Prod.mk.injEq] at h
    obtain ⟨e1, e2, e3⟩ := h
    subst e1 e2 e3
    exact ⟨hwf, rfl, rfl, rfl, by simp [accepted_bytes, on_fd]⟩
  | cons call rest ih =>
    intro wb wb1 sys sys1 rets hwf h
    cases call with
    | write src =>
      unfold run_calls at h
      cases hw : asspf_write os fuel wb sys src with
      | none => rw [hw] at h; exact absurd h (by simp)
      | some res =>
        obtain ⟨wb2, sys2, n⟩ := res
        rw [hw] at h
        simp only at h
        cases hr : run_calls os fuel wb2 sys2 rest with
        | none => rw [hr] at h; exact absurd h (by simp)
        | some res2 =>
          obtain ⟨wb3, sys3, ns⟩ := res2
          rw [hr] at h
          simp only [Option.some.injEq, Prod.mk.injEq] at h
          obtain ⟨e1, e2, e3⟩ := h
          subst e1 e2 e3
          obtain ⟨w1, w2, w3, _, w5⟩ := asspf_write_emitted os fuel wb wb2 sys sys2 src n hwf hw
          obtain ⟨i1, i2, i3, i4, i5⟩ := ih wb2 wb3 sys2 sys3 ns w1 hr
          refine ⟨i1, i2.trans w2, i3.trans w3, by simp [i4], ?_⟩
          rw [i5, w5, w3]
          simp [accepted_bytes, on_fd_append, List.append_assoc]
    | flush =>
      unfold run_calls at h
      cases hw : asspf_flush os fuel wb sys with
      | none => rw [hw] at h; exact absurd h (by simp)
      | some res =>
        obtain ⟨wb2, sys2, n⟩ := res
        rw [hw] at h
        simp only at h
        cases hr : run_calls os fuel wb2 sys2 rest with
        | none => rw [hr] at h; exact absurd h (by simp)
        | some res2 =>
          obtain ⟨wb3, sys3, ns⟩ := res2
          rw [hr] at h
          simp only [Option.some.injEq, Prod.mk.injEq] at h
          obtain ⟨e1, e2, e3⟩ := h
          subst e1 e2 e3
          obtain ⟨w1, w2, w3, _, w5⟩ := asspf_flush_emitted os fuel wb wb2 sys sys2 n hwf hw
          obtain ⟨i1, i2, i3, i4, i5⟩ := ih wb2 wb3 sys2 sys3 ns w1 hr
          refine ⟨i1, i2.trans w2, i3.trans w3, by simp [i4], ?_⟩
          rw [i5, w5, w3]
          simp [accepted_bytes]

/-! ## The pad run on a system whose raw writer returns -/

theorem asspf_sys_write_loop_mono (os : Os) (fd : Int) :
    ∀ (fuel : Nat) (sys : Sys) (buf : List Char) (retval : Nat) (res : Sys × Nat),
      asspf_sys_write_loop os fuel sys fd buf retval = some res →
      ∀ fuel1, fuel ≤ fuel1 → asspf_sys_write_loop os fuel1 sys fd buf retval = some res := by
  intro fuel
  induction fuel with
  | zero => intro sys buf retval res h; simp [asspf_sys_write_loop] at h
  | succ fuel ih =>
    intro sys buf retval res h fuel1 hle
    obtain ⟨f, rfl⟩ : ∃ f, fuel1 = f + 1 := ⟨fuel1 - 1, by omega⟩
    unfold asspf_sys_write_loop at h ⊢
    cases hos : os sys.ncalls buf.length with
    | ok n =>
      rw [hos] at h
      simp only at h ⊢
      split_ifs at h ⊢ with hlt
      · exact ih _ _ _ _ h f (by omega)
      · exact h
    | again =>
      rw [hos] at h
      simp only at h ⊢
      exact ih _ _ _ _ h f (by omega)
    | error =>
      rw [hos] at h
      exact h

theorem asspf_sys_write_stable (os : Os) (fuel0 : Nat) (hos : raw_writer_returns os fuel0)
    (f1 f2 : Nat) (h1 : fuel0 ≤ f1) (h2 : fuel0 ≤ f2) (sys : Sys) (fd : Int) (buf : List Char) :
    asspf_sys_write os f1 sys fd buf = asspf_sys_write os f2 sys fd buf := by
  obtain ⟨res, hr⟩ := hos fuel0 sys fd buf (Nat.le_refl _)
  unfold asspf_sys_write at hr ⊢
  rw [asspf_sys_write_loop_mono os fd fuel0 sys buf 0 res hr f1 h1,
    asspf_sys_write_loop_mono os fd fuel0 sys buf 0 res hr f2 h2]

theorem retval_add_write_stable (os : Os) (fuel0 : Nat) (hos : raw_writer_returns os fuel0)
    (f1 f2 : Nat) (h1 : fuel0 ≤ f1) (h2 : fuel0 ≤ f2) (src : List Char) (st : PrintState) :
    retval_add_write os f1 src st = retval_add_write os f2 src st := by
  have h := asspf_sys_write_stable os fuel0 hos f1 f2 h1 h2
  unfold retval_add_write asspf_write asspf_flush
  simp only [h]

theorem asspf_flush_returns (os : Os) (fuel0 : Nat) (hos : raw_writer_returns os fuel0)
    (fuel : Nat) (hfuel : fuel0 ≤ fuel) (wb : ASSPF_WriteBuf) (sys : Sys) :
    ∃ res, asspf_flush os fuel wb sys = some res := by
  obtain ⟨r1, h1⟩ := hos fuel sys wb.fd (wb.buf.take wb.nmemb) hfuel
  unfold asspf_flush
  rw [h1]
  exact ⟨_, rfl⟩

theorem asspf_write_returns (os : Os) (fuel0 : Nat) (hos : raw_writer_returns os fuel0)
    (fuel : Nat) (hfuel : fuel0 ≤ fuel) (wb : ASSPF_WriteBuf) (sys : Sys) (src : List Char) :
    ∃ res, asspf_write os fuel wb sys src = some res := by
  have hfl : ∃ res, (if wb.nmemb ≠ 0 ∧
      src.length > size_t_of_int ((wb.limit : Int) - (wb.nmemb : Int)) then
        asspf_flush os fuel wb sys else some (wb, sys, 0)) = some res := by
    split_ifs
    · exact asspf_flush_returns os fuel0 hos fuel hfuel wb sys
    · exact ⟨_, rfl⟩
  obtain ⟨⟨wb1, sys1, n⟩, h⟩ := hfl
  unfold asspf_write
  simp only
  rw [h]
  simp only
  split_ifs
  · exact ⟨_, rfl⟩
  · obtain ⟨r2, h2⟩ := hos fuel sys1 wb1.fd src hfuel
    rw [h2]
    exact ⟨_, rfl⟩
  · exact ⟨_, rfl⟩

theorem retval_add_write_returns (os : Os) (fuel0 : Nat) (hos : raw_writer_returns os fuel0)
    (fuel : Nat) (hfuel : fuel0 ≤ fuel) (src : List Char) (st : PrintState) :
    ∃ st1, retval_add_write os fuel src st = some st1 := by
  obtain ⟨res, h⟩ := asspf_write_returns os fuel0 hos fuel hfuel st.1 st.2.1 src
  unfold retval_add_write
  rw [h]
  exact ⟨_, rfl⟩

theorem write_all_returns (os : Os) (fuel0 : Nat) (hos : raw_writer_returns os fuel0)
    (fuel : Nat) (hfuel : fuel0 ≤ fuel) (c : Char) :
    ∀ (sizes : List Nat) (st : PrintState), ∃ st1, write_all os fuel c sizes st = some st1 := by
  intro sizes
  induction sizes with
  | nil => intro st; exact ⟨st, rfl⟩
  | cons n ns ih =>
    intro st
    obtain ⟨st1, h1⟩ := retval_add_write_returns os fuel0 hos fuel hfuel (List.replicate n c) st
    obtain ⟨st2, h2⟩ := ih st1
    exact ⟨st2, by simp [write_all, h1, h2]⟩

theorem write_all_append (os : Os) (fuel : Nat) (c : Char) :
    ∀ (a b : List Nat) (st : PrintState),
      write_all os fuel c (a ++ b) st = (write_all os fuel c a st).bind (write_all os fuel c b) := by
  intro a
  induction a with
  | nil => intro b st; rfl
  | cons n ns ih =>
    intro b st
    simp only [List.cons_append, write_all]
    cases retval_add_write os fuel (List.replicate n c) st with
    | none => rfl
    | some st1 => simp only [Option.some_bind]; exact ih b st1

/-- The inner loop of `printf_put_repchar` writes `size` characters as often as
`size` fits into `count`. -/
theorem printf_put_repchar_for_eq (os : Os) (fuel0 : Nat) (hos : raw_writer_returns os fuel0)
    (top : Nat) (htop : fuel0 ≤ top) (c : Char) (size : Nat) (hsize : 1 ≤ size) :
    ∀ (fuel count : Nat) (st : PrintState), count + 1 + fuel0 ≤ fuel →
      printf_put_repchar_for os fuel c size count st
        = (write_all os top c (List.replicate (count / size) size) st).map
            (fun st1 => (st1, count % size)) := by
  intro fuel
  induction fuel with
  | zero => intro count st h; omega
  | succ fuel ih =>
    intro count st hfuel
    unfold printf_put_repchar_for
    by_cases hc : count ≥ size
    · rw [if_pos hc]
      have hdiv : count / size = (count - size) / size + 1 := by
        rw [Nat.div_eq_sub_div (by omega) hc]
      have hmod : count % size = (count - size) % size := Nat.mod_eq_sub_mod hc
      rw [hdiv, List.replicate_succ, write_all,
        retval_add_write_stable os fuel0 hos fuel top (by omega) htop]
      cases hw : retval_add_write os top (List.replicate size c) st with
      | none => rfl
      | some st1 =>
        simp only [Option.some_bind]
        rw [ih (count - size) st1 (by omega), hmod]
    · rw [if_neg hc]
      have hdiv : count / size = 0 := Nat.div_eq_of_lt (by omega)
      have hmod : count % size = count := Nat.mod_eq_of_lt (by omega)
      rw [hdiv, hmod]
      rfl

theorem repchar_sizes_facts (count : Nat) :
    (∀ n ∈ repchar_sizes count, 1 ≤ n ∧ n ≤ 64) ∧ (repchar_sizes count).sum = count := by
  unfold repchar_sizes
  have hlt : count % 64 < 64 := Nat.mod_lt _ (by norm_num)
  constructor
  · intro n hn
    rcases List.mem_append.mp hn with h | h
    · rw [List.eq_of_mem_replicate h]; omega
    · split_ifs at h with h0
      · simp only [List.mem_singleton] at h
        omega
      · simp at h
  · rw [List.sum_append, List.sum_replicate]
    split_ifs with h0
    · simp only [List.sum_cons, List.sum_nil, smul_eq_mul]
      omega
    · simp only [List.sum_nil, smul_eq_mul]
      omega

/-- The `printf_put_repchar` loops on a count of at least 1: they return,
having made the writes of `repchar_sizes count`, in this order. -/
theorem printf_put_repchar_do_eq (os : Os) (fuel0 : Nat) (hos : raw_writer_returns os fuel0)
    (fuel : Nat) (c : Char) (count : Nat) (hcount : 1 ≤ count)
    (hfuel : count + 3 + fuel0 ≤ fuel) (st : PrintState) :
    printf_put_repchar_do os fuel c 64 count st
      = write_all os fuel c (repchar_sizes count) st := by
  obtain ⟨f, rfl⟩ : ∃ f, fuel = f + 1 := ⟨fuel - 1, by omega⟩
  have htop : fuel0 ≤ f + 1 := by omega
  unfold printf_put_repchar_do
  simp only
  by_cases hbig : count > 64
  · rw [if_pos hbig,
      printf_put_repchar_for_eq os fuel0 hos (f + 1) htop c 64 (by omega) f count st (by omega)]
    unfold repchar_sizes
    rw [write_all_append]
    cases hw : write_all os (f + 1) c (List.replicate (count / 64) 64) st with
    | none => rfl
    | some st1 =>
      simp only [Option.map_some', Option.some_bind]
      have hlt : count % 64 < 64 := Nat.mod_lt _ (by norm_num)
      by_cases h0 : count % 64 = 0
      · rw [if_neg (by omega), if_neg (by omega)]
        rfl
      · rw [if_pos h0, if_pos h0]
        obtain ⟨g, rfl⟩ : ∃ g, f = g + 1 := ⟨f - 1, by omega⟩
        unfold printf_put_repchar_do
        simp only
        rw [if_neg (by omega),
          printf_put_repchar_for_eq os fuel0 hos (g + 1 + 1) htop c (count % 64) (by omega) g
            (count % 64) st1 (by omega)]
        rw [Nat.div_self (by omega), Nat.mod_self]
        simp only [List.replicate_one, write_all]
        cases retval_add_write os (g + 1 + 1) (List.replicate (count % 64) c) st1 with
        | none => rfl
        | some st2 => rfl
  · rw [if_neg hbig,
      printf_put_repchar_for_eq os fuel0 hos (f + 1) htop c count hcount f count st (by omega)]
    rw [Nat.div_self (by omega), Nat.mod_self]
    have hs : repchar_sizes count = [count] := by
      unfold repchar_sizes
      by_cases h64 : count = 64
      · subst h64; rfl
      · have hd : count / 64 = 0 := Nat.div_eq_of_lt (by omega)
        have hm : count % 64 = count := Nat.mod_eq_of_lt (by omega)
        rw [hd, hm, if_pos (by omega)]
        rfl
    rw [hs]
    simp only [List.replicate_one, write_all]
    cases retval_add_write os (f + 1) (List.replicate count c) st with
    | none => rfl
    | some st2 => rfl

/-- On a count of 0 the loops of `printf_put_repchar` do not return. -/
theorem printf_put_repchar_for_zero (os : Os) (c : Char) :
    ∀ (fuel : Nat) (st : PrintState), printf_put_repchar_for os fuel c 0 0 st = none := by
  intro fuel
  induction fuel with
  | zero => intro st; rfl
  | succ fuel ih =>
    intro st
    unfold printf_put_repchar_for
    rw [if_pos (Nat.le_refl _)]
    cases retval_add_write os fuel (List.replicate 0 c) st with
    | none => rfl
    | some st1 => exact ih st1

theorem printf_put_repchar_do_zero (os : Os) (c : Char) (fuel size : Nat) (st : PrintState) :
    printf_put_repchar_do os fuel c size 0 st = none := by
  cases fuel with
  | zero => rfl
  | succ fuel =>
    unfold printf_put_repchar_do
    simp only [gt_iff_lt, Nat.not_lt_zero, if_false, printf_put_repchar_for_zero]


/-! ## The layout of a call -/

/-- The bytes of the head, the digit part and the tail of a call are its
layout with the sigil and the sign it computed. -/
theorem rendered_layout (has_asr : Bool) (itemfmt : ItemFormat_Int) (value value_size : Nat) :
    head_bytes itemfmt (printf_int_locals has_asr itemfmt value value_size) ++
        digit_part (printf_int_locals has_asr itemfmt value value_size) ++
        tail_bytes (printf_int_locals has_asr itemfmt value value_size)
      = call_layout (printf_int_locals has_asr itemfmt value value_size)
          (printf_int_locals has_asr itemfmt value value_size).sigil_buf
          (sign_bytes itemfmt (printf_int_locals has_asr itemfmt value value_size)) := by
  obtain ⟨hadj1, hadj0⟩ := printf_int_locals_adjust has_asr itemfmt value value_size
  by_cases hlt : (printf_int_locals has_asr itemfmt value value_size).printed_size
      < itemfmt.fieldwidth
  · obtain ⟨hty, hsz, hc⟩ := hadj1 hlt
    by_cases hleft : itemfmt.flags &&& FORMATFLAG_LEFT_ADJUST = 0
    · rw [if_pos hleft] at hty
      by_cases hzero : itemfmt.flags &&& FORMATFLAG_ZERO_PAD = 0
      · rw [if_pos hzero] at hc
        simp [head_bytes, tail_bytes, digit_part, sigil_sign_bytes, call_layout, pad_before,
          pad_zeros, pad_after, hty, hc]
      · rw [if_neg hzero] at hc
        simp [head_bytes, tail_bytes, digit_part, sigil_sign_bytes, call_layout, pad_before,
          pad_zeros, pad_after, hty, hc, -List.append_replicate_replicate]
    · rw [if_neg hleft] at hty
      simp [head_bytes, tail_bytes, digit_part, sigil_sign_bytes, call_layout, pad_before,
        pad_zeros, pad_after, hty]
  · obtain ⟨hty, _⟩ := hadj0 hlt
    simp [head_bytes, tail_bytes, digit_part, sigil_sign_bytes, call_layout, pad_before,
      pad_zeros, pad_after, hty]

theorem sign_chars_table : ∀ convspec : FormatConvSpec_Int,
    ∀ m ∈ printf_flag_sigil_int_c convspec ++ printf_flag_sigil_int_m convspec ++
        conv_digits convspec, m ≠ '-' ∧ m ≠ '+' := by
  intro convspec
  cases convspec <;> decide

/-- Neither the sigil nor the digits of a call hold a `-` or a `+`. -/
theorem sign_chars_elsewhere (has_asr : Bool) (itemfmt : ItemFormat_Int)
    (value value_size : Nat) :
    ∀ m, (m ∈ (printf_int_locals has_asr itemfmt value value_size).sigil_buf ∨
        m ∈ digit_bytes (printf_int_locals has_asr itemfmt value value_size)) →
      m ≠ '-' ∧ m ≠ '+' := by
  intro m hm
  apply sign_chars_table itemfmt.convspec m
  simp only [List.mem_append]
  rcases hm with h | h
  · simp only [printf_int_locals, printf_flag_sigil_int] at h
    split_ifs at h
    · exact Or.inl (Or.inl h)
    · exact Or.inl (Or.inr h)
    · simp at h
    · simp at h
  · unfold digit_bytes at h
    exact Or.inr (printf_int_base_chars has_asr itemfmt.convspec _ value value_size m
      (List.mem_of_mem_drop (List.mem_of_mem_take h)))

/-- In the layout of a call a character that is no pad character and occurs
neither in the sigil nor in the digits occurs as often as in the sign. -/
theorem call_layout_count (l : PrintfIntLocals) (sigil sign : List Char) (ch : Char)
    (hsp : ch ≠ ' ') (hz : ch ≠ '0') (hsig : ch ∉ sigil) (hdig : ch ∉ digit_bytes l) :
    (call_layout l sigil sign).count ch = sign.count ch := by
  have h1 : ¬ (' ' : Char) = ch := fun e => hsp e.symm
  have h2 : ¬ ('0' : Char) = ch := fun e => hz e.symm
  simp [call_layout, List.count_append, List.count_replicate, h1, h2,
    List.count_eq_zero_of_not_mem hsig, List.count_eq_zero_of_not_mem hdig]

/-! ## The renderer returns -/

theorem raw_writer_full_returns (os : Os) (fuel0 : Nat) (h : raw_writer_full os fuel0) :
    raw_writer_returns os fuel0 :=
  fun fuel sys fd buf hf => (h fuel sys fd buf hf).elim fun s hs => ⟨(s, buf.length), hs⟩

theorem option_bind_returns {x : Option PrintState} {g : PrintState → Option PrintState}
    (hx : ∃ a, x = some a) (hg : ∀ a, ∃ b, g a = some b) : ∃ b, x.bind g = some b := by
  obtain ⟨a, ha⟩ := hx
  obtain ⟨b, hb⟩ := hg a
  exact ⟨b, by rw [ha, Option.some_bind, hb]⟩

theorem retval_add_repchar_returns (os : Os) (fuel0 : Nat) (hos : raw_writer_returns os fuel0)
    (fuel : Nat) (c : Char) (count : Nat) (hcount : 1 ≤ count)
    (hfuel : count + 3 + fuel0 ≤ fuel) (st : PrintState) :
    ∃ st1, retval_add_repchar os fuel c count st = some st1 := by
  obtain ⟨res, hres⟩ := write_all_returns os fuel0 hos fuel (by omega) c (repchar_sizes count)
    (st.1, st.2.1, 0)
  unfold retval_add_repchar printf_put_repchar
  rw [printf_put_repchar_do_eq os fuel0 hos fuel c count hcount hfuel, hres]
  exact ⟨_, rfl⟩

theorem printfint_write_sigil_sign_returns (os : Os) (fuel0 : Nat)
    (hos : raw_writer_returns os fuel0) (fuel : Nat) (hfuel : fuel0 ≤ fuel)
    (itemfmt : ItemFormat_Int) (l : PrintfIntLocals) (st : PrintState) :
    ∃ st1, (printfint_write_sigil os fuel l st).bind (printfint_write_sign os fuel itemfmt l)
      = some st1 := by
  apply option_bind_returns
  · unfold printfint_write_sigil
    split_ifs
    · exact retval_add_write_returns os fuel0 hos fuel hfuel _ st
    · exact ⟨st, rfl⟩
  · intro st1
    unfold printfint_write_sign
    split_ifs
    · exact retval_add_write_returns os fuel0 hos fuel hfuel _ st1
    · exact ⟨st1, rfl⟩

theorem printf_int_emit_head_returns (os : Os) (fuel0 : Nat)
    (hos : raw_writer_returns os fuel0) (fuel : Nat) (itemfmt : ItemFormat_Int)
    (l : PrintfIntLocals) (hadj : l.adjust_type > 0 → 1 ≤ l.adjust_size)
    (hfuel : l.adjust_size + 3 + fuel0 ≤ fuel) (st : PrintState) :
    ∃ st1, printf_int_emit_head os fuel itemfmt l st = some st1 := by
  unfold printf_int_emit_head
  refine option_bind_returns ?_ (fun st1 => option_bind_returns ?_ (fun st2 => ?_))
  · split
    · exact printfint_write_sigil_sign_returns os fuel0 hos fuel (by omega) itemfmt l st
    · exact ⟨st, rfl⟩
  · split
    · rename_i h
      exact retval_add_repchar_returns os fuel0 hos fuel _ _ (hadj h) hfuel st1
    · exact ⟨st1, rfl⟩
  · split
    · exact printfint_write_sigil_sign_returns os fuel0 hos fuel (by omega) itemfmt l st2
    · exact ⟨st2, rfl⟩

theorem printf_int_emit_digits_returns (os : Os) (fuel0 : Nat)
    (hos : raw_writer_returns os fuel0) (fuel : Nat) (l : PrintfIntLocals)
    (hfuel : l.precision_pad + 3 + fuel0 ≤ fuel) (st : PrintState) :
    ∃ st1, printf_int_emit_digits os fuel l st = some st1 := by
  unfold printf_int_emit_digits
  refine option_bind_returns ?_ (fun st1 => ?_)
  · split
    · exact retval_add_repchar_returns os fuel0 hos fuel _ _ (by omega) hfuel st
    · exact ⟨st, rfl⟩
  · exact retval_add_write_returns os fuel0 hos fuel (by omega) _ st1

theorem printf_int_emit_tail_returns (os : Os) (fuel0 : Nat)
    (hos : raw_writer_returns os fuel0) (fuel : Nat) (l : PrintfIntLocals)
    (hadj : l.adjust_type < 0 → 1 ≤ l.adjust_size)
    (hfuel : l.adjust_size + 3 + fuel0 ≤ fuel) (st : PrintState) :
    ∃ st1, printf_int_emit_tail os fuel l st = some st1 := by
  unfold printf_int_emit_tail
  split
  · rename_i h
    exact retval_add_repchar_returns os fuel0 hos fuel _ _ (hadj h) hfuel st
  · exact ⟨st, rfl⟩

/-- The body of the renderer returns on every system whose raw writer
returns: each of its pad runs is started with a count of at least 1. -/
theorem printf_int_body_returns (has_asr : Bool) (os : Os) (fuel0 : Nat)
    (hos : raw_writer_returns os fuel0) (fuel : Nat) (wb : ASSPF_WriteBuf) (sys : Sys)
    (itemfmt : ItemFormat_Int) (value value_size : Nat)
    (hconv : itemfmt.convspec ≠ FormatConvSpec_Int.UNSET)
    (h1 : 1 ≤ value_size) (h8 : value_size ≤ 8)
    (hfuel : itemfmt.fieldwidth + itemfmt.precision + 3 + fuel0 ≤ fuel) :
    ∃ res, printf_int_body has_asr os fuel wb sys itemfmt value value_size = some res := by
  obtain ⟨_, _, _, hpp, _, _⟩ := printf_int_locals_facts has_asr itemfmt value value_size
    hconv h1 h8
  obtain ⟨hadj1, hadj0⟩ := printf_int_locals_adjust has_asr itemfmt value value_size
  have hadj : ((printf_int_locals has_asr itemfmt value value_size).adjust_type ≠ 0 →
      1 ≤ (printf_int_locals has_asr itemfmt value value_size).adjust_size) ∧
      (printf_int_locals has_asr itemfmt value value_size).adjust_size ≤ itemfmt.fieldwidth := by
    by_cases hlt : (printf_int_locals has_asr itemfmt value value_size).printed_size
        < itemfmt.fieldwidth
    · obtain ⟨_, hsz, _⟩ := hadj1 hlt
      exact ⟨fun _ => by omega, by omega⟩
    · obtain ⟨hty, hsz⟩ := hadj0 hlt
      exact ⟨fun h => absurd hty h, by omega⟩
  unfold printf_int_body printf_int_emit
  refine option_bind_returns ?_ (fun st1 => option_bind_returns ?_ (fun st2 => ?_))
  · exact printf_int_emit_head_returns os fuel0 hos fuel itemfmt _
      (fun h => hadj.1 (by omega)) (by omega) _
  · exact printf_int_emit_digits_returns os fuel0 hos fuel _ (by omega) st1
  · exact printf_int_emit_tail_returns os fuel0 hos fuel _ (fun h => hadj.1 (by omega))
      (by omega) st2

/-! # The claims -/

/-! ## Field width -/

/-- C1. Field-width law: on a system where the raw writer always completes (every
buffered write succeeds in full), for every format accepted by
`format_scan_int`, every value and every value width in 1, 2, 4, 8,
`printf_int` returns; the count it returns is the number of bytes it emitted,
and that number is `max L W`, with `W` the parsed field width and `L` the
length of sigil, sign, precision zeros and digits. -/
theorem field_width_law (has_asr : Bool) (os : Os) (fuel0 fuel : Nat) (wb : ASSPF_WriteBuf)
    (sys : Sys) (format : List Char) (itemfmt : ItemFormat_Int) (value value_size : Nat)
    (hos : raw_writer_full os fuel0) (hwf : writebuf_wf wb)
    (hscan : format_scan_int format = some itemfmt) (hsize : value_size ∈ [1, 2, 4, 8])
    (hfuel : itemfmt.fieldwidth + itemfmt.precision + 3 + fuel0 ≤ fuel) :
    ∃ wb1 sys1 bytes,
      printf_int has_asr os fuel wb sys format value value_size
        = some (wb1, sys1, bytes.length) ∧
      emitted wb1 sys1 = emitted wb sys ++ on_fd wb.fd bytes ∧
      bytes.length = max
        (content_length itemfmt (printf_int_locals has_asr itemfmt value value_size))
        itemfmt.fieldwidth := by
  obtain ⟨h1, h8⟩ := value_size_bounds value_size hsize
  obtain ⟨_, _, _, _, _, hL⟩ := printf_int_locals_facts has_asr itemfmt value value_size
    (format_scan_int_convspec format itemfmt hscan) h1 h8
  have hcl := hL
  unfold content_length at hcl
  by_cases hlt : (printf_int_locals has_asr itemfmt value value_size).printed_size
      < itemfmt.fieldwidth
  · by_cases hleft : itemfmt.flags &&& FORMATFLAG_LEFT_ADJUST = 0
    · by_cases hzero : itemfmt.flags &&& FORMATFLAG_ZERO_PAD = 0
      · obtain ⟨wb1, sys1, hrun, hem, _⟩ := printf_int_emits has_asr os fuel0 hos fuel wb sys format
          itemfmt value value_size hscan hwf hsize hfuel _
          (rendered_right_space has_asr itemfmt value value_size hlt hleft hzero)
        refine ⟨wb1, sys1, _, hrun, hem, ?_⟩
        rw [hL]
        simp only [List.length_append, List.length_replicate]
        omega
      · obtain ⟨wb1, sys1, hrun, hem, _⟩ := printf_int_emits has_asr os fuel0 hos fuel wb sys format
          itemfmt value value_size hscan hwf hsize hfuel _
          (rendered_right_zero has_asr itemfmt value value_size hlt hleft hzero)
        refine ⟨wb1, sys1, _, hrun, hem, ?_⟩
        rw [hL]
        simp only [List.length_append, List.length_replicate]
        omega
    · obtain ⟨wb1, sys1, hrun, hem, _⟩ := printf_int_emits has_asr os fuel0 hos fuel wb sys format
        itemfmt value value_size hscan hwf hsize hfuel _
        (rendered_left has_asr itemfmt value value_size hlt hleft)
      refine ⟨wb1, sys1, _, hrun, hem, ?_⟩
      rw [hL]
      simp only [List.length_append, List.length_replicate]
      omega
  · obtain ⟨wb1, sys1, hrun, hem, _⟩ := printf_int_emits has_asr os fuel0 hos fuel wb sys format
      itemfmt value value_size hscan hwf hsize hfuel _
      (rendered_no_pad has_asr itemfmt value value_size hlt)
    refine ⟨wb1, sys1, _, hrun, hem, ?_⟩
    rw [hL]
    simp only [List.length_append, List.length_replicate]
    omega

/-- Witness of C1: format `#08x`, the 32-bit value 0xAB, a buffer of 4 bytes
holding one byte already, on a system that fails with `EAGAIN` on every other
`write`. -/
theorem field_width_law_witness :
    ∃ wb1 sys1 bytes,
      printf_int true os_retry 14 (ASSPF_WriteBuf.mk ['a', 'z', 'z', 'z'] 4 1 2) (Sys.mk 0 [])
          ['#', '0', '8', 'x'] 171 4
        = some (wb1, sys1, bytes.length) ∧
      emitted wb1 sys1
        = emitted (ASSPF_WriteBuf.mk ['a', 'z', 'z', 'z'] 4 1 2) (Sys.mk 0 []) ++ on_fd 2 bytes ∧
      bytes.length = max
        (content_length (itemformat_int_get 5 8 1 FormatConvSpec_Int.x)
          (printf_int_locals true (itemformat_int_get 5 8 1 FormatConvSpec_Int.x) 171 4))
        8 :=
  field_width_law true os_retry 2 14 (ASSPF_WriteBuf.mk ['a', 'z', 'z', 'z'] 4 1 2)
    (Sys.mk 0 []) ['#', '0', '8', 'x'] (itemformat_int_get 5 8 1 FormatConvSpec_Int.x) 171 4
    os_retry_raw_writer_full (by decide) (by decide) (by decide) (by decide)

/-- C2. A format on which `format_scan_int` fails makes `printf_int`, and so
each per-width entry point, return 0 with the buffer and the system exactly as
they were: no byte is buffered and no `write` is issued, whatever the system,
the fuel, the value and its width. -/
theorem parse_error_emits_nothing (has_asr : Bool) (os : Os) (fuel : Nat)
    (wb : ASSPF_WriteBuf) (sys : Sys) (format : List Char) (value value_size : Nat)
    (hscan : format_scan_int format = none) :
    printf_int has_asr os fuel wb sys format value value_size = some (wb, sys, 0) ∧
    asspf_printf_int8least has_asr os fuel wb sys format value = some (wb, sys, 0) ∧
    asspf_printf_int16least has_asr os fuel wb sys format value = some (wb, sys, 0) ∧
    asspf_printf_int32least has_asr os fuel wb sys format value = some (wb, sys, 0) ∧
    asspf_printf_int64least has_asr os fuel wb sys format value = some (wb, sys, 0) := by
  have h : ∀ v s, printf_int has_asr os fuel wb sys format v s = some (wb, sys, 0) := by
    intro v s
    unfold printf_int
    rw [hscan]
  exact ⟨h _ _, h _ _, h _ _, h _ _, h _ _⟩

/-- Witness of C2: the format `5.d`, whose precision has no digit, on a
system that refuses every write and with no fuel at all. -/
theorem parse_error_emits_nothing_witness :
    format_scan_int ['5', '.', 'd'] = none ∧
    printf_int false (fun _ _ => WriteResult.error) 0
        (ASSPF_WriteBuf.mk ['a', 'b', 'z', 'z'] 4 2 1)
        (Sys.mk 7 [(1, 'q')]) ['5', '.', 'd'] 255 1
      = some ((ASSPF_WriteBuf.mk ['a', 'b', 'z', 'z'] 4 2 1),
          (Sys.mk 7 [(1, 'q')]), 0) :=
  ⟨by decide,
   (parse_error_emits_nothing false (fun _ _ => WriteResult.error) 0
      (ASSPF_WriteBuf.mk ['a', 'b', 'z', 'z'] 4 2 1)
      (Sys.mk 7 [(1, 'q')]) ['5', '.', 'd'] 255 1 (by decide)).1⟩

/-- C4. Right-adjust with zero-fill: on a system where the raw writer always
completes, for every accepted specifier with the zero-pad flag, without the
left-adjust flag and with content length `L` below the field width `W`,
`printf_int` returns `W` having emitted the sigil, the sign, `W - L`
characters `0`, the precision zeros and the digits, in this order.  In
particular `#08x` on the 32-bit value 0xAB emits `0x0000ab` and returns 8. -/
theorem right_adjust_zero_fill :
    (∀ (has_asr : Bool) (os : Os) (fuel0 fuel : Nat) (wb : ASSPF_WriteBuf)
      (sys : Sys) (format : List Char) (itemfmt : ItemFormat_Int) (value value_size : Nat),
      raw_writer_full os fuel0 → writebuf_wf wb →
      format_scan_int format = some itemfmt → value_size ∈ [1, 2, 4, 8] →
      itemfmt.fieldwidth + itemfmt.precision + 3 + fuel0 ≤ fuel →
      itemfmt.flags &&& FORMATFLAG_ZERO_PAD ≠ 0 →
      itemfmt.flags &&& FORMATFLAG_LEFT_ADJUST = 0 →
      content_length itemfmt (printf_int_locals has_asr itemfmt value value_size)
        < itemfmt.fieldwidth →
      ∃ wb1 sys1,
        printf_int has_asr os fuel wb sys format value value_size
          = some (wb1, sys1, itemfmt.fieldwidth) ∧
        emitted wb1 sys1 = emitted wb sys ++ on_fd wb.fd
          ((printf_int_locals has_asr itemfmt value value_size).sigil_buf ++
            sign_bytes itemfmt (printf_int_locals has_asr itemfmt value value_size) ++
            List.replicate (itemfmt.fieldwidth
              - content_length itemfmt (printf_int_locals has_asr itemfmt value value_size))
              '0' ++
            List.replicate (printf_int_locals has_asr itemfmt value value_size).precision_pad '0' ++
            digit_bytes (printf_int_locals has_asr itemfmt value value_size))) ∧
    (∀ (has_asr : Bool) (os : Os) (fuel0 fuel : Nat) (wb : ASSPF_WriteBuf) (sys : Sys),
      raw_writer_full os fuel0 → writebuf_wf wb → 12 + fuel0 ≤ fuel →
      ∃ wb1 sys1,
        printf_int has_asr os fuel wb sys ['#', '0', '8', 'x'] 0xAB 4 = some (wb1, sys1, 8) ∧
        emitted wb1 sys1
          = emitted wb sys ++ on_fd wb.fd ['0', 'x', '0', '0', '0', '0', 'a', 'b']) := by
  constructor
  ·
    intro has_asr os fuel0 fuel wb sys format itemfmt value value_size hos hwf hscan hsize hfuel
    intro hzero hleft hlt
    obtain ⟨h1, h8⟩ := value_size_bounds value_size hsize
    obtain ⟨_, _, _, _, _, hL⟩ := printf_int_locals_facts has_asr itemfmt value value_size
      (format_scan_int_convspec format itemfmt hscan) h1 h8
    have hcl := hL
    unfold content_length at hcl
    obtain ⟨wb1, sys1, hrun, hem, _⟩ := printf_int_emits has_asr os fuel0 hos fuel wb sys format
      itemfmt value value_size hscan hwf hsize hfuel _
      (rendered_right_zero has_asr itemfmt value value_size (by omega) hleft hzero)
    rw [← hL] at hrun hem
    refine ⟨wb1, sys1, ?_, hem⟩
    rw [hrun]
    simp only [List.length_append, List.length_replicate]
    congr 3
    omega
  · intro has_asr os fuel0 fuel wb sys hos hwf hfuel
    exact printf_int_emits has_asr os fuel0 hos fuel wb sys ['#', '0', '8', 'x']
      (itemformat_int_get 5 8 1 FormatConvSpec_Int.x) 0xAB 4 (by decide) hwf (by decide)
      hfuel ['0', 'x', '0', '0', '0', '0', 'a', 'b'] (by cases has_asr <;> decide)
      |>.imp fun wb1 h => h.imp fun sys1 h2 => ⟨h2.1, h2.2.1⟩

/-- Witness of C4: format `#08x`, the 32-bit value 0xAB, an empty buffer of 16 bytes. -/
theorem right_adjust_zero_fill_witness :
    ∃ wb1 sys1,
      printf_int true os_full 13 (writebuf_get (List.replicate 16 'z') 16 1) (Sys.mk 0 [])
          ['#', '0', '8', 'x'] 0xAB 4 = some (wb1, sys1, 8) ∧
      emitted wb1 sys1
        = emitted (writebuf_get (List.replicate 16 'z') 16 1) (Sys.mk 0 []) ++
          on_fd 1 ['0', 'x', '0', '0', '0', '0', 'a', 'b'] := by
  obtain ⟨wb1, sys1, hrun, hem⟩ := right_adjust_zero_fill.1 true os_full 1 13
    (writebuf_get (List.replicate 16 'z') 16 1) (Sys.mk 0 []) ['#', '0', '8', 'x']
    (itemformat_int_get 5 8 1 FormatConvSpec_Int.x) 0xAB 4
    os_full_raw_writer_full (by decide) (by decide)
    (by decide) (by decide) (by decide) (by decide) (by decide)
  refine ⟨wb1, sys1, hrun, ?_⟩
  rw [hem]
  decide

/-- C5. Right-adjust with space-fill: on a system where the raw writer always
completes, for every accepted specifier with neither the zero-pad nor the
left-adjust flag and with content length `L` below the field width `W`,
`printf_int` returns `W` having emitted `W - L` spaces, then the sigil, the
sign, the precision zeros and the digits.  In particular `$+5d` on the 8-bit
pattern 0xFD emits two spaces, `#`, `-`, `3` and returns 5. -/
theorem right_adjust_space_fill :
    (∀ (has_asr : Bool) (os : Os) (fuel0 fuel : Nat) (wb : ASSPF_WriteBuf)
      (sys : Sys) (format : List Char) (itemfmt : ItemFormat_Int) (value value_size : Nat),
      raw_writer_full os fuel0 → writebuf_wf wb →
      format_scan_int format = some itemfmt → value_size ∈ [1, 2, 4, 8] →
      itemfmt.fieldwidth + itemfmt.precision + 3 + fuel0 ≤ fuel →
      itemfmt.flags &&& FORMATFLAG_ZERO_PAD = 0 →
      itemfmt.flags &&& FORMATFLAG_LEFT_ADJUST = 0 →
      content_length itemfmt (printf_int_locals has_asr itemfmt value value_size)
        < itemfmt.fieldwidth →
      ∃ wb1 sys1,
        printf_int has_asr os fuel wb sys format value value_size
          = some (wb1, sys1, itemfmt.fieldwidth) ∧
        emitted wb1 sys1 = emitted wb sys ++ on_fd wb.fd
          (List.replicate (itemfmt.fieldwidth
              - content_length itemfmt (printf_int_locals has_asr itemfmt value value_size))
              ' ' ++
            (printf_int_locals has_asr itemfmt value value_size).sigil_buf ++
            sign_bytes itemfmt (printf_int_locals has_asr itemfmt value value_size) ++
            List.replicate (printf_int_locals has_asr itemfmt value value_size).precision_pad '0' ++
            digit_bytes (printf_int_locals has_asr itemfmt value value_size))) ∧
    (∀ (has_asr : Bool) (os : Os) (fuel0 fuel : Nat) (wb : ASSPF_WriteBuf) (sys : Sys),
      raw_writer_full os fuel0 → writebuf_wf wb → 9 + fuel0 ≤ fuel →
      ∃ wb1 sys1,
        printf_int has_asr os fuel wb sys ['$', '+', '5', 'd'] 0xFD 1 = some (wb1, sys1, 5) ∧
        emitted wb1 sys1
          = emitted wb sys ++ on_fd wb.fd [' ', ' ', '#', '-', '3']) := by
  constructor
  ·
    intro has_asr os fuel0 fuel wb sys format itemfmt value value_size hos hwf hscan hsize hfuel
    intro hzero hleft hlt
    obtain ⟨h1, h8⟩ := value_size_bounds value_size hsize
    obtain ⟨_, _, _, _, _, hL⟩ := printf_int_locals_facts has_asr itemfmt value value_size
      (format_scan_int_convspec format itemfmt hscan) h1 h8
    have hcl := hL
    unfold content_length at hcl
    obtain ⟨wb1, sys1, hrun, hem, _⟩ := printf_int_emits has_asr os fuel0 hos fuel wb sys format
      itemfmt value value_size hscan hwf hsize hfuel _
      (rendered_right_space has_asr itemfmt value value_size (by omega) hleft hzero)
    rw [← hL] at hrun hem
    refine ⟨wb1, sys1, ?_, hem⟩
    rw [hrun]
    simp only [List.length_append, List.length_replicate]
    congr 3
    omega
  · intro has_asr os fuel0 fuel wb sys hos hwf hfuel
    exact printf_int_emits has_asr os fuel0 hos fuel wb sys ['$', '+', '5', 'd']
      (itemformat_int_get 34 5 1 FormatConvSpec_Int.d) 0xFD 1 (by decide) hwf (by decide)
      hfuel [' ', ' ', '#', '-', '3'] (by cases has_asr <;> decide)
      |>.imp fun wb1 h => h.imp fun sys1 h2 => ⟨h2.1, h2.2.1⟩

/-- Witness of C5: format `$+5d`, the 8-bit pattern 0xFD, a buffer of 3 bytes holding one. -/
theorem right_adjust_space_fill_witness :
    ∃ wb1 sys1,
      printf_int false os_full 10 (ASSPF_WriteBuf.mk ['q', 'z', 'z'] 3 1 2) (Sys.mk 0 [])
          ['$', '+', '5', 'd'] 0xFD 1 = some (wb1, sys1, 5) ∧
      emitted wb1 sys1
        = emitted (ASSPF_WriteBuf.mk ['q', 'z', 'z'] 3 1 2) (Sys.mk 0 []) ++
          on_fd 2 [' ', ' ', '#', '-', '3'] := by
  obtain ⟨wb1, sys1, hrun, hem⟩ := right_adjust_space_fill.1 false os_full 1 10
    (ASSPF_WriteBuf.mk ['q', 'z', 'z'] 3 1 2) (Sys.mk 0 []) ['$', '+', '5', 'd']
    (itemformat_int_get 34 5 1 FormatConvSpec_Int.d) 0xFD 1
    os_full_raw_writer_full (by decide) (by decide)
    (by decide) (by decide) (by decide) (by decide) (by decide)
  refine ⟨wb1, sys1, hrun, ?_⟩
  rw [hem]
  decide

/-- C6. Left-adjust: on a system where the raw writer always completes, for every
accepted specifier with the left-adjust flag and content length `L` below the
field width `W`, `printf_int` returns `W` having emitted the sigil, the sign,
the precision zeros, the digits and then `W - L` spaces; the zero-pad flag
does not enter: the pad run is made of spaces with it too. -/
theorem left_adjust_space_pad (has_asr : Bool) (os : Os) (fuel0 fuel : Nat) (wb : ASSPF_WriteBuf)
    (sys : Sys) (format : List Char) (itemfmt : ItemFormat_Int) (value value_size : Nat)
    (hos : raw_writer_full os fuel0) (hwf : writebuf_wf wb)
    (hscan : format_scan_int format = some itemfmt) (hsize : value_size ∈ [1, 2, 4, 8])
    (hfuel : itemfmt.fieldwidth + itemfmt.precision + 3 + fuel0 ≤ fuel)
    (hleft : itemfmt.flags &&& FORMATFLAG_LEFT_ADJUST ≠ 0)
    (hlt : content_length itemfmt (printf_int_locals has_asr itemfmt value value_size)
      < itemfmt.fieldwidth) :
    ∃ wb1 sys1,
      printf_int has_asr os fuel wb sys format value value_size
        = some (wb1, sys1, itemfmt.fieldwidth) ∧
      emitted wb1 sys1 = emitted wb sys ++ on_fd wb.fd
        ((printf_int_locals has_asr itemfmt value value_size).sigil_buf ++
        sign_bytes itemfmt (printf_int_locals has_asr itemfmt value value_size) ++
        List.replicate (printf_int_locals has_asr itemfmt value value_size).precision_pad '0' ++
        digit_bytes (printf_int_locals has_asr itemfmt value value_size) ++
        List.replicate (itemfmt.fieldwidth - content_length itemfmt (printf_int_locals has_asr itemfmt value value_size)) ' ') := by
  obtain ⟨h1, h8⟩ := value_size_bounds value_size hsize
  obtain ⟨_, _, _, _, _, hL⟩ := printf_int_locals_facts has_asr itemfmt value value_size
    (format_scan_int_convspec format itemfmt hscan) h1 h8
  have hcl := hL
  unfold content_length at hcl
  obtain ⟨wb1, sys1, hrun, hem, _⟩ := printf_int_emits has_asr os fuel0 hos fuel wb sys format
    itemfmt value value_size hscan hwf hsize hfuel _
    (rendered_left has_asr itemfmt value value_size (by omega) hleft)
  rw [← hL] at hrun hem
  refine ⟨wb1, sys1, ?_, hem⟩
  rw [hrun]
  simp only [List.length_append, List.length_replicate]
  congr 3
  omega

/-- Witness of C6: format `-06d` (left-adjust and zero-pad), the 16-bit pattern 0xFFFE. -/
theorem left_adjust_space_pad_witness :
    ∃ wb1 sys1,
      printf_int true os_full 11 (writebuf_get (List.replicate 16 'z') 16 1) (Sys.mk 0 [])
          ['-', '0', '6', 'd'] 0xFFFE 2 = some (wb1, sys1, 6) ∧
      emitted wb1 sys1
        = emitted (writebuf_get (List.replicate 16 'z') 16 1) (Sys.mk 0 []) ++
          on_fd 1 ['-', '2', ' ', ' ', ' ', ' '] := by
  obtain ⟨wb1, sys1, hrun, hem⟩ := left_adjust_space_pad true os_full 1 11
    (writebuf_get (List.replicate 16 'z') 16 1) (Sys.mk 0 []) ['-', '0', '6', 'd']
    (itemformat_int_get 12 6 1 FormatConvSpec_Int.d) 0xFFFE 2
    os_full_raw_writer_full (by decide) (by decide)
    (by decide) (by decide) (by decide) (by decide)
  refine ⟨wb1, sys1, hrun, ?_⟩
  rw [hem]
  decide

/-- C7. The field width never truncates: on a system where the raw writer always
completes, for every accepted specifier whose content length `L` is at least
the field width `W` (an absent width is 0), `printf_int` returns `L` having
emitted exactly the sigil, the sign, the precision zeros and the digits: no
pad character, no content byte dropped. -/
theorem field_width_never_truncates (has_asr : Bool) (os : Os) (fuel0 fuel : Nat)
    (wb : ASSPF_WriteBuf) (sys : Sys) (format : List Char) (itemfmt : ItemFormat_Int) (value value_size : Nat)
    (hos : raw_writer_full os fuel0) (hwf : writebuf_wf wb)
    (hscan : format_scan_int format = some itemfmt) (hsize : value_size ∈ [1, 2, 4, 8])
    (hfuel : itemfmt.fieldwidth + itemfmt.precision + 3 + fuel0 ≤ fuel)
    (hge : itemfmt.fieldwidth
      ≤ content_length itemfmt (printf_int_locals has_asr itemfmt value value_size)) :
    ∃ wb1 sys1,
      printf_int has_asr os fuel wb sys format value value_size
        = some (wb1, sys1,
            content_length itemfmt (printf_int_locals has_asr itemfmt value value_size)) ∧
      emitted wb1 sys1 = emitted wb sys ++ on_fd wb.fd
        ((printf_int_locals has_asr itemfmt value value_size).sigil_buf ++
        sign_bytes itemfmt (printf_int_locals has_asr itemfmt value value_size) ++
        List.replicate (printf_int_locals has_asr itemfmt value value_size).precision_pad '0' ++
        digit_bytes (printf_int_locals has_asr itemfmt value value_size)) := by
  obtain ⟨h1, h8⟩ := value_size_bounds value_size hsize
  obtain ⟨_, _, _, _, _, hL⟩ := printf_int_locals_facts has_asr itemfmt value value_size
    (format_scan_int_convspec format itemfmt hscan) h1 h8
  have hcl := hL
  unfold content_length at hcl
  obtain ⟨wb1, sys1, hrun, hem, _⟩ := printf_int_emits has_asr os fuel0 hos fuel wb sys format
    itemfmt value value_size hscan hwf hsize hfuel _
    (rendered_no_pad has_asr itemfmt value value_size (by omega))
  refine ⟨wb1, sys1, ?_, hem⟩
  rw [hrun]
  simp only [List.length_append, List.length_replicate]
  rfl

/-- Witness of C7: format `#2X`, the 16-bit value 0xABC: five bytes for a width of 2. -/
theorem field_width_never_truncates_witness :
    ∃ wb1 sys1,
      printf_int true os_full 7 (writebuf_get (List.replicate 16 'z') 16 1) (Sys.mk 0 [])
          ['#', '2', 'X'] 0xABC 2 = some (wb1, sys1, 5) ∧
      emitted wb1 sys1
        = emitted (writebuf_get (List.replicate 16 'z') 16 1) (Sys.mk 0 []) ++
          on_fd 1 ['0', 'x', 'A', 'B', 'C'] := by
  obtain ⟨wb1, sys1, hrun, hem⟩ := field_width_never_truncates true os_full 1 7
    (writebuf_get (List.replicate 16 'z') 16 1) (Sys.mk 0 []) ['#', '2', 'X']
    (itemformat_int_get 1 2 1 FormatConvSpec_Int.X) 0xABC 2
    os_full_raw_writer_full (by decide) (by decide)
    (by decide) (by decide) (by decide)
  refine ⟨wb1, sys1, hrun, ?_⟩
  rw [hem]
  decide

/-! ## Digits -/

/-- C3. Canonical numerals: for each conversion letter `u`, `b`, `o`, `x`, `X`
used alone as the format (no flag, no width, unset precision), each value
width `s` in 1, 2, 4, 8 and each value below `2^(8s)`, on a system where the
raw writer always completes, `printf_int` emits a digit string over the digit
alphabet of the conversion that is not empty, starts with `0` only when it is
exactly `0`, and reads back in the base of the conversion as the value. -/
theorem canonical_numeral (has_asr : Bool) (os : Os) (fuel0 fuel : Nat) (wb : ASSPF_WriteBuf)
    (sys : Sys) (c : Char) (convspec : FormatConvSpec_Int) (value value_size : Nat)
    (hos : raw_writer_full os fuel0) (hwf : writebuf_wf wb)
    (hconv : (c, convspec) ∈ [('u', FormatConvSpec_Int.u), ('b', FormatConvSpec_Int.b),
      ('o', FormatConvSpec_Int.o), ('x', FormatConvSpec_Int.x), ('X', FormatConvSpec_Int.X)])
    (hsize : value_size ∈ [1, 2, 4, 8]) (hvalue : value < 2 ^ (8 * value_size))
    (hfuel : 4 + fuel0 ≤ fuel) :
    ∃ wb1 sys1 ds,
      printf_int has_asr os fuel wb sys [c] value value_size = some (wb1, sys1, ds.length) ∧
      emitted wb1 sys1 = emitted wb sys ++ on_fd wb.fd ds ∧
      (∀ ch ∈ ds, ch ∈ conv_digits convspec) ∧
      ds ≠ [] ∧ (ds.head? = some '0' → ds = ['0']) ∧
      read_base (conv_base convspec) ds = value := by
  obtain ⟨h1, h8⟩ := value_size_bounds value_size hsize
  have hscan : format_scan_int [c]
      = some (itemformat_int_get FORMATFLAG_NONE FORMATFIELDWIDTH_UNSET FORMATPRECISION_UNSET
          convspec) := by
    simp only [List.mem_cons, List.mem_singleton, List.not_mem_nil, or_false,
      Prod.mk.injEq] at hconv
    rcases hconv with ⟨rfl, rfl⟩ | ⟨rfl, rfl⟩ | ⟨rfl, rfl⟩ | ⟨rfl, rfl⟩ | ⟨rfl, rfl⟩ <;> decide
  have hmem : convspec ∈ [FormatConvSpec_Int.u, FormatConvSpec_Int.b, FormatConvSpec_Int.o,
      FormatConvSpec_Int.x, FormatConvSpec_Int.X] := by
    simp only [List.mem_cons, List.mem_singleton, List.not_mem_nil, or_false,
      Prod.mk.injEq] at hconv ⊢
    rcases hconv with ⟨_, h⟩ | ⟨_, h⟩ | ⟨_, h⟩ | ⟨_, h⟩ | ⟨_, h⟩ <;> simp [h]
  have hne : convspec ≠ FormatConvSpec_Int.UNSET := by
    intro h; rw [h] at hmem; simp at hmem
  have hnd : convspec ≠ FormatConvSpec_Int.d := by
    intro h; rw [h] at hmem; simp at hmem
  -- the digit part of the call is the natural digit sequence
  obtain ⟨_, _, hprec⟩ := printf_int_locals_digits has_asr
    (itemformat_int_get FORMATFLAG_NONE FORMATFIELDWIDTH_UNSET FORMATPRECISION_UNSET convspec)
    value value_size hne h1 h8
  -- what the natural digits are
  have hnat := natural_digits_eq has_asr convspec value value_size hne h1 h8
  obtain ⟨hm1, _⟩ := printf_ndigits_max_bounds value_size convspec hne h1 h8
  have hlen := printf_int_base_length has_asr convspec value value_size hne
  obtain ⟨hstrip, hhead⟩ := printf_ndigits_base_strip _ _ hlen hm1
  obtain ⟨hb1, hb2⟩ := printf_ndigits_base_bounds
    (printf_int_base has_asr convspec (printf_ndigits_max value_size convspec)
      value value_size).1 (printf_ndigits_max value_size convspec) hm1
  obtain ⟨hread, halpha⟩ := unsigned_base_spec has_asr convspec value value_size hmem hsize
    hvalue
  rw [← hnat] at hstrip hhead
  have hnl : 1 ≤ (natural_digits has_asr convspec value value_size).length := by
    rw [hnat, List.length_drop, hlen]; omega
  have hdp : digit_part (printf_int_locals has_asr
      (itemformat_int_get FORMATFLAG_NONE FORMATFIELDWIDTH_UNSET FORMATPRECISION_UNSET convspec)
      value value_size) = natural_digits has_asr convspec value value_size := by
    have h := hprec (Nat.le_refl 1)
    change digit_part _
      = List.replicate (max (natural_digits has_asr convspec value value_size).length 1
          - (natural_digits has_asr convspec value value_size).length) '0'
        ++ natural_digits has_asr convspec value value_size at h
    have hmax : max (natural_digits has_asr convspec value value_size).length 1
        - (natural_digits has_asr convspec value value_size).length = 0 := by omega
    rw [h, hmax, List.replicate_zero, List.nil_append]
  have hsign : sign_bytes
      (itemformat_int_get FORMATFLAG_NONE FORMATFIELDWIDTH_UNSET FORMATPRECISION_UNSET convspec)
      (printf_int_locals has_asr
        (itemformat_int_get FORMATFLAG_NONE FORMATFIELDWIDTH_UNSET FORMATPRECISION_UNSET
          convspec) value value_size) = [] := by
    simp [sign_bytes, itemformat_int_get, hnd]
  have hbytes := (rendered_plain has_asr convspec FORMATPRECISION_UNSET value value_size).trans
    (by rw [hsign, List.nil_append, hdp])
  obtain ⟨wb1, sys1, hrun, hem, _⟩ := printf_int_emits has_asr os fuel0 hos fuel wb sys [c] _
    value value_size hscan hwf hsize
    (by simp only [itemformat_int_get, FORMATFIELDWIDTH_UNSET, FORMATPRECISION_UNSET]; omega)
    _ hbytes
  refine ⟨wb1, sys1, natural_digits has_asr convspec value value_size, hrun, hem,
    ?_, ?_, ?_, ?_⟩
  · intro ch hch
    rw [hnat] at hch
    exact halpha ch (List.mem_of_mem_drop hch)
  · intro h0
    rw [h0] at hnl
    simp at hnl
  · intro h0
    rcases hhead with h | h
    · exact h
    · exact absurd h0 h
  · refine Eq.trans ?_ hread
    conv_rhs => rw [hstrip]
    rw [read_base_zeros]

/-- Witness of C3: the 8-bit value 171 under `x`. -/
theorem canonical_numeral_witness :
    ∃ wb1 sys1 ds,
      printf_int true os_full 5 (writebuf_get (List.replicate 16 'z') 16 1) (Sys.mk 0 [])
        ['x'] 171 1 = some (wb1, sys1, ds.length) ∧
      emitted wb1 sys1
        = emitted (writebuf_get (List.replicate 16 'z') 16 1) (Sys.mk 0 []) ++ on_fd 1 ds ∧
      (∀ ch ∈ ds, ch ∈ conv_digits FormatConvSpec_Int.x) ∧
      ds ≠ [] ∧ (ds.head? = some '0' → ds = ['0']) ∧
      read_base 16 ds = 171 :=
  canonical_numeral true os_full 1 5 (writebuf_get (List.replicate 16 'z') 16 1) (Sys.mk 0 [])
    'x' FormatConvSpec_Int.x 171 1 os_full_raw_writer_full (by decide) (by decide) (by decide)
    (by decide) (by decide)

/-- C8. Explicit precision: for every accepted specifier whose precision `p` is
at least 1, every value and every value width in 1, 2, 4, 8, on a system where
the raw writer always completes, the digit part of `printf_int_body` (its
statements `precision padding` and `base`) emits the natural digit sequence
left-padded with `0` to length `max n p`, `n` being the natural digit count,
also when `p` exceeds the digit capacity of the width; the whole call emits it
between the head (sigil, sign, right pad) and the tail (left pad).  In
particular `.3u` on the 8-bit value 5 emits `005`. -/
theorem explicit_precision :
    (∀ (has_asr : Bool) (os : Os) (fuel0 fuel : Nat) (format : List Char) (itemfmt : ItemFormat_Int)
      (value value_size : Nat) (st : PrintState),
      raw_writer_full os fuel0 → writebuf_wf st.1 →
      format_scan_int format = some itemfmt → value_size ∈ [1, 2, 4, 8] →
      1 ≤ itemfmt.precision → itemfmt.precision + 3 + fuel0 ≤ fuel →
      ∃ st1,
        printf_int_emit_digits os fuel (printf_int_locals has_asr itemfmt value value_size) st
          = some st1 ∧
        emitted st1.1 st1.2.1 = emitted st.1 st.2.1 ++ on_fd st.1.fd
          (List.replicate
              (max (natural_digits has_asr itemfmt.convspec value value_size).length
                  itemfmt.precision
                - (natural_digits has_asr itemfmt.convspec value value_size).length) '0'
            ++ natural_digits has_asr itemfmt.convspec value value_size) ∧
        st1.2.2 = st.2.2 +
          max (natural_digits has_asr itemfmt.convspec value value_size).length
            itemfmt.precision) ∧
    (∀ (has_asr : Bool) (os : Os) (fuel0 fuel : Nat) (wb : ASSPF_WriteBuf) (sys : Sys)
      (format : List Char) (itemfmt : ItemFormat_Int) (value value_size : Nat),
      raw_writer_full os fuel0 → writebuf_wf wb →
      format_scan_int format = some itemfmt → value_size ∈ [1, 2, 4, 8] →
      1 ≤ itemfmt.precision → itemfmt.fieldwidth + itemfmt.precision + 3 + fuel0 ≤ fuel →
      ∃ wb1 sys1 n,
        printf_int has_asr os fuel wb sys format value value_size = some (wb1, sys1, n) ∧
        emitted wb1 sys1 = emitted wb sys ++ on_fd wb.fd
          (head_bytes itemfmt (printf_int_locals has_asr itemfmt value value_size) ++
            (List.replicate
              (max (natural_digits has_asr itemfmt.convspec value value_size).length
                  itemfmt.precision
                - (natural_digits has_asr itemfmt.convspec value value_size).length) '0'
              ++ natural_digits has_asr itemfmt.convspec value value_size) ++
            tail_bytes (printf_int_locals has_asr itemfmt value value_size))) ∧
    (∀ (has_asr : Bool) (os : Os) (fuel0 fuel : Nat) (wb : ASSPF_WriteBuf) (sys : Sys),
      raw_writer_full os fuel0 → writebuf_wf wb → 6 + fuel0 ≤ fuel →
      ∃ wb1 sys1,
        printf_int has_asr os fuel wb sys ['.', '3', 'u'] 5 1 = some (wb1, sys1, 3) ∧
        emitted wb1 sys1 = emitted wb sys ++ on_fd wb.fd ['0', '0', '5']) := by
  refine ⟨?_, ?_, ?_⟩
  · intro has_asr os fuel0 fuel format itemfmt value value_size st hos hwf hscan hsize hp hfuel
    obtain ⟨h1, h8⟩ := value_size_bounds value_size hsize
    have hconv := format_scan_int_convspec format itemfmt hscan
    obtain ⟨_, _, _, hpad, _, _⟩ := printf_int_locals_facts has_asr itemfmt value value_size
      hconv h1 h8
    obtain ⟨_, _, hprec⟩ := printf_int_locals_digits has_asr itemfmt value value_size hconv h1 h8
    obtain ⟨st1, hrun, _, _, _, hem, hret⟩ := printf_int_emit_digits_full os fuel0 hos fuel
      (printf_int_locals has_asr itemfmt value value_size) (by omega) st hwf
    rw [hprec hp] at hem hret
    refine ⟨st1, hrun, hem, ?_⟩
    rw [hret, List.length_append, List.length_replicate]
    omega
  · intro has_asr os fuel0 fuel wb sys format itemfmt value value_size hos hwf hscan hsize hp hfuel
    obtain ⟨h1, h8⟩ := value_size_bounds value_size hsize
    have hconv := format_scan_int_convspec format itemfmt hscan
    obtain ⟨_, _, hprec⟩ := printf_int_locals_digits has_asr itemfmt value value_size hconv h1 h8
    obtain ⟨wb1, sys1, hrun, hem, _⟩ := printf_int_emits has_asr os fuel0 hos fuel wb sys format
      itemfmt value value_size hscan hwf hsize hfuel _ rfl
    rw [hprec hp] at hem
    exact ⟨wb1, sys1, _, hrun, hem⟩
  · intro has_asr os fuel0 fuel wb sys hos hwf hfuel
    exact printf_int_emits has_asr os fuel0 hos fuel wb sys ['.', '3', 'u']
      (itemformat_int_get 0 0 3 FormatConvSpec_Int.u) 5 1 (by decide) hwf (by decide)
      hfuel ['0', '0', '5'] (by cases has_asr <;> decide)
      |>.imp fun wb1 h => h.imp fun sys1 h2 => ⟨h2.1, h2.2.1⟩

/-- Witness of C8: the digit part for precision 70 under `b` of the 8-bit value
5, beyond the 8 digits of the width: 67 zeros and `101`. -/
theorem explicit_precision_witness :
    ∃ st1,
      printf_int_emit_digits os_full 74
          (printf_int_locals true (itemformat_int_get 0 0 70 FormatConvSpec_Int.b) 5 1)
          (writebuf_get (List.replicate 16 'z') 16 1, Sys.mk 0 [], 0) = some st1 ∧
      emitted st1.1 st1.2.1
        = emitted (writebuf_get (List.replicate 16 'z') 16 1) (Sys.mk 0 []) ++
          on_fd 1 (List.replicate 67 '0' ++ ['1', '0', '1']) ∧
      st1.2.2 = 70 := by
  obtain ⟨st1, hrun, hem, hret⟩ := explicit_precision.1 true os_full 1 74 ['.', '7', '0', 'b']
    (itemformat_int_get 0 0 70 FormatConvSpec_Int.b) 5 1
    (writebuf_get (List.replicate 16 'z') 16 1, Sys.mk 0 [], 0)
    os_full_raw_writer_full (by decide) (by decide) (by decide) (by decide) (by decide)
  refine ⟨st1, hrun, ?_, ?_⟩
  · rw [hem]; decide
  · rw [hret]; decide

/-- C9. Natural precision: for every accepted specifier whose precision is the
natural sentinel 0 (written `.0`), every value and every value width in
1, 2, 4, 8, the extra precision padding is 0 and, on a system where the raw
writer always completes, the digit part of `printf_int_body` emits exactly
`printf_ndigits_max` digits: the natural digit sequence zero-extended on the
left to the digit capacity of the width.  In particular `.0u` on the 8-bit
values 5 and 255 emits `005` and `255`. -/
theorem natural_precision :
    (∀ (has_asr : Bool) (os : Os) (fuel0 fuel : Nat) (format : List Char) (itemfmt : ItemFormat_Int)
      (value value_size : Nat) (st : PrintState),
      raw_writer_full os fuel0 → writebuf_wf st.1 →
      format_scan_int format = some itemfmt → value_size ∈ [1, 2, 4, 8] →
      itemfmt.precision = FORMATPRECISION_NATURAL → 3 + fuel0 ≤ fuel →
      (printf_int_locals has_asr itemfmt value value_size).precision_pad = 0 ∧
      ∃ st1,
        printf_int_emit_digits os fuel (printf_int_locals has_asr itemfmt value value_size) st
          = some st1 ∧
        emitted st1.1 st1.2.1 = emitted st.1 st.2.1 ++ on_fd st.1.fd
          (List.replicate
              (printf_ndigits_max value_size itemfmt.convspec
                - (natural_digits has_asr itemfmt.convspec value value_size).length) '0'
            ++ natural_digits has_asr itemfmt.convspec value value_size) ∧
        st1.2.2 = st.2.2 + printf_ndigits_max value_size itemfmt.convspec) ∧
    (∀ (has_asr : Bool) (os : Os) (fuel0 fuel : Nat) (wb : ASSPF_WriteBuf) (sys : Sys),
      raw_writer_full os fuel0 → writebuf_wf wb → 3 + fuel0 ≤ fuel →
      (∃ wb1 sys1,
        printf_int has_asr os fuel wb sys ['.', '0', 'u'] 5 1 = some (wb1, sys1, 3) ∧
        emitted wb1 sys1 = emitted wb sys ++ on_fd wb.fd ['0', '0', '5']) ∧
      (∃ wb1 sys1,
        printf_int has_asr os fuel wb sys ['.', '0', 'u'] 255 1 = some (wb1, sys1, 3) ∧
        emitted wb1 sys1 = emitted wb sys ++ on_fd wb.fd ['2', '5', '5'])) := by
  refine ⟨?_, ?_⟩
  · intro has_asr os fuel0 fuel format itemfmt value value_size st hos hwf hscan hsize hp hfuel
    obtain ⟨h1, h8⟩ := value_size_bounds value_size hsize
    have hconv := format_scan_int_convspec format itemfmt hscan
    obtain ⟨hnl, hnat, _⟩ := printf_int_locals_digits has_asr itemfmt value value_size hconv
      h1 h8
    obtain ⟨hpad, hdig⟩ := hnat hp
    obtain ⟨st1, hrun, _, _, _, hem, hret⟩ := printf_int_emit_digits_full os fuel0 hos fuel
      (printf_int_locals has_asr itemfmt value value_size) (by omega) st hwf
    have hdp : digit_part (printf_int_locals has_asr itemfmt value value_size)
        = List.replicate
              (printf_ndigits_max value_size itemfmt.convspec
                - (natural_digits has_asr itemfmt.convspec value value_size).length) '0'
            ++ natural_digits has_asr itemfmt.convspec value value_size := by
      rw [digit_part, hpad, hdig]; rfl
    rw [hdp] at hem hret
    refine ⟨hpad, st1, hrun, hem, ?_⟩
    rw [hret, List.length_append, List.length_replicate]
    omega
  · intro has_asr os fuel0 fuel wb sys hos hwf hfuel
    constructor
    · exact printf_int_emits has_asr os fuel0 hos fuel wb sys ['.', '0', 'u']
        (itemformat_int_get 0 0 0 FormatConvSpec_Int.u) 5 1 (by decide) hwf (by decide)
        hfuel ['0', '0', '5'] (by cases has_asr <;> decide)
        |>.imp fun wb1 h => h.imp fun sys1 h2 => ⟨h2.1, h2.2.1⟩
    · exact printf_int_emits has_asr os fuel0 hos fuel wb sys ['.', '0', 'u']
        (itemformat_int_get 0 0 0 FormatConvSpec_Int.u) 255 1 (by decide) hwf (by decide)
        hfuel ['2', '5', '5'] (by cases has_asr <;> decide)
        |>.imp fun wb1 h => h.imp fun sys1 h2 => ⟨h2.1, h2.2.1⟩

/-- Witness of C9: the digit part for `.0d` of the 16-bit pattern 0xFFF9
(the value -7): five digits, `00007`. -/
theorem natural_precision_witness :
    (printf_int_locals false (itemformat_int_get 0 0 0 FormatConvSpec_Int.d) 0xFFF9 2).precision_pad
        = 0 ∧
    ∃ st1,
      printf_int_emit_digits os_full 4
          (printf_int_locals false (itemformat_int_get 0 0 0 FormatConvSpec_Int.d) 0xFFF9 2)
          (writebuf_get (List.replicate 16 'z') 16 1, Sys.mk 0 [], 0) = some st1 ∧
      emitted st1.1 st1.2.1
        = emitted (writebuf_get (List.replicate 16 'z') 16 1) (Sys.mk 0 []) ++
          on_fd 1 ['0', '0', '0', '0', '7'] ∧
      st1.2.2 = 5 := by
  obtain ⟨hpad, st1, hrun, hem, hret⟩ := natural_precision.1 false os_full 1 4 ['.', '0', 'd']
    (itemformat_int_get 0 0 0 FormatConvSpec_Int.d) 0xFFF9 2
    (writebuf_get (List.replicate 16 'z') 16 1, Sys.mk 0 [], 0)
    os_full_raw_writer_full (by decide) (by decide) (by decide) (by decide) (by decide)
  refine ⟨hpad, st1, hrun, ?_, ?_⟩
  · rw [hem]; decide
  · rw [hret]; decide

/-- C10. Minimum signed value: for each value width `s` in 1, 2, 4, 8, on a
system where the raw writer always completes, `d` alone as the format applied
to the bit pattern `2^(8s-1)` emits `-` followed by exactly the decimal digits
of `2^(8s-1)`, with either implementation of the arithmetic right shift; the
magnitude does not overflow for `s = 8` either. -/
theorem signed_minimum (has_asr : Bool) (os : Os) (fuel0 fuel : Nat) (wb : ASSPF_WriteBuf)
    (sys : Sys) (value_size : Nat)
    (hos : raw_writer_full os fuel0) (hwf : writebuf_wf wb)
    (hsize : value_size ∈ [1, 2, 4, 8]) (hfuel : 4 + fuel0 ≤ fuel) :
    ∃ wb1 sys1,
      printf_int has_asr os fuel wb sys ['d'] (2 ^ (8 * value_size - 1)) value_size
        = some (wb1, sys1, 1 + (Nat.toDigits 10 (2 ^ (8 * value_size - 1))).length) ∧
      emitted wb1 sys1
        = emitted wb sys ++ on_fd wb.fd ('-' :: Nat.toDigits 10 (2 ^ (8 * value_size - 1))) := by
  have key : ∀ (s : Nat) (ds : List Char), s ∈ [1, 2, 4, 8] →
      Nat.toDigits 10 (2 ^ (8 * s - 1)) = ds →
      head_bytes (itemformat_int_get 0 0 1 FormatConvSpec_Int.d)
          (printf_int_locals has_asr (itemformat_int_get 0 0 1 FormatConvSpec_Int.d)
            (2 ^ (8 * s - 1)) s) ++
        digit_part (printf_int_locals has_asr (itemformat_int_get 0 0 1 FormatConvSpec_Int.d)
            (2 ^ (8 * s - 1)) s) ++
        tail_bytes (printf_int_locals has_asr (itemformat_int_get 0 0 1 FormatConvSpec_Int.d)
            (2 ^ (8 * s - 1)) s) = '-' :: ds →
      ∃ wb1 sys1,
        printf_int has_asr os fuel wb sys ['d'] (2 ^ (8 * s - 1)) s
          = some (wb1, sys1, 1 + (Nat.toDigits 10 (2 ^ (8 * s - 1))).length) ∧
        emitted wb1 sys1
          = emitted wb sys ++ on_fd wb.fd ('-' :: Nat.toDigits 10 (2 ^ (8 * s - 1))) := by
    intro s ds hs hds hbytes
    obtain ⟨wb1, sys1, hrun, hem, _⟩ := printf_int_emits has_asr os fuel0 hos fuel wb sys ['d']
      (itemformat_int_get 0 0 1 FormatConvSpec_Int.d) (2 ^ (8 * s - 1)) s (by decide) hwf hs
      (by simp only [itemformat_int_get]; omega) _ hbytes
    rw [hds]
    refine ⟨wb1, sys1, ?_, hem⟩
    rw [hrun, List.length_cons, Nat.add_comm]
  simp only [List.mem_cons, List.mem_singleton, List.not_mem_nil, or_false] at hsize
  rcases hsize with rfl | rfl | rfl | rfl
  · exact key 1 ['1', '2', '8'] (by decide) (by decide) (by cases has_asr <;> decide)
  · exact key 2 ['3', '2', '7', '6', '8'] (by decide) (by decide)
      (by cases has_asr <;> decide)
  · exact key 4 ['2', '1', '4', '7', '4', '8', '3', '6', '4', '8'] (by decide) (by decide)
      (by cases has_asr <;> decide)
  · exact key 8 ['9', '2', '2', '3', '3', '7', '2', '0', '3', '6', '8', '5', '4', '7', '7',
      '5', '8', '0', '8'] (by decide) (by decide) (by cases has_asr <;> decide)

/-- Witness of C10: the 8-bit pattern 0x80 emits `-128`, here with the portable
arithmetic shift and a buffer of two bytes. -/
theorem signed_minimum_witness :
    ∃ wb1 sys1,
      printf_int false os_full 5 (writebuf_get ['z', 'z'] 2 1) (Sys.mk 0 []) ['d'] 0x80 1
        = some (wb1, sys1, 4) ∧
      emitted wb1 sys1
        = emitted (writebuf_get ['z', 'z'] 2 1) (Sys.mk 0 []) ++ on_fd 1 ['-', '1', '2', '8'] := by
  obtain ⟨wb1, sys1, hrun, hem⟩ := signed_minimum false os_full 1 5 (writebuf_get ['z', 'z'] 2 1)
    (Sys.mk 0 []) 1 os_full_raw_writer_full (by decide) (by decide) (by decide)
  exact ⟨wb1, sys1, hrun, hem⟩

/-! ## Zero, sign and sigil -/

/-- C11. Zero prints one digit: for every accepted specifier with unset
precision, whatever its conversion, flags and field width, and every value
width in 1, 2, 4, 8, rendering the value 0 uses no precision padding and the
digit sequence is exactly the one character `0`; on a system where the raw
writer always completes the call emits it between the head (sigil, sign, right
pad) and the tail (left pad). -/
theorem zero_is_one_digit (has_asr : Bool) (os : Os) (fuel0 fuel : Nat) (wb : ASSPF_WriteBuf)
    (sys : Sys) (format : List Char) (itemfmt : ItemFormat_Int) (value_size : Nat)
    (hos : raw_writer_full os fuel0) (hwf : writebuf_wf wb)
    (hscan : format_scan_int format = some itemfmt) (hsize : value_size ∈ [1, 2, 4, 8])
    (hprec : itemfmt.precision = FORMATPRECISION_UNSET)
    (hfuel : itemfmt.fieldwidth + itemfmt.precision + 3 + fuel0 ≤ fuel) :
    (printf_int_locals has_asr itemfmt 0 value_size).precision_pad = 0 ∧
    digit_bytes (printf_int_locals has_asr itemfmt 0 value_size) = ['0'] ∧
    ∃ wb1 sys1 n,
      printf_int has_asr os fuel wb sys format 0 value_size = some (wb1, sys1, n) ∧
      emitted wb1 sys1 = emitted wb sys ++ on_fd wb.fd
        (head_bytes itemfmt (printf_int_locals has_asr itemfmt 0 value_size) ++ ['0'] ++
          tail_bytes (printf_int_locals has_asr itemfmt 0 value_size)) := by
  obtain ⟨h1, h8⟩ := value_size_bounds value_size hsize
  have hconv := format_scan_int_convspec format itemfmt hscan
  obtain ⟨_, hn1, _, _, hdl, _⟩ := printf_int_locals_facts has_asr itemfmt 0 value_size
    hconv h1 h8
  obtain ⟨_, _, hprec1⟩ := printf_int_locals_digits has_asr itemfmt 0 value_size hconv h1 h8
  have hdp : digit_part (printf_int_locals has_asr itemfmt 0 value_size) = ['0'] := by
    rw [hprec1 (by rw [hprec]; decide), natural_digits_zero has_asr _ _ hconv hsize, hprec]
    rfl
  have hlen : (printf_int_locals has_asr itemfmt 0 value_size).precision_pad
      + (digit_bytes (printf_int_locals has_asr itemfmt 0 value_size)).length = 1 := by
    have := congrArg List.length hdp
    simpa [digit_part] using this
  have hpad : (printf_int_locals has_asr itemfmt 0 value_size).precision_pad = 0 := by omega
  have hdb : digit_bytes (printf_int_locals has_asr itemfmt 0 value_size) = ['0'] := by
    have h := hdp
    rw [digit_part, hpad] at h
    simpa using h
  obtain ⟨wb1, sys1, hrun, hem, _⟩ := printf_int_emits has_asr os fuel0 hos fuel wb sys format
    itemfmt 0 value_size hscan hwf hsize hfuel _ rfl
  rw [hdp] at hem
  exact ⟨hpad, hdb, wb1, sys1, _, hrun, hem⟩

/-- Witness of C11: format `$-+5d` on the 16-bit value 0 emits `#+0` and two spaces. -/
theorem zero_is_one_digit_witness :
    ∃ wb1 sys1,
      printf_int true os_full 10 (writebuf_get (List.replicate 16 'z') 16 1) (Sys.mk 0 [])
          ['$', '-', '+', '5', 'd'] 0 2 = some (wb1, sys1, 5) ∧
      emitted wb1 sys1
        = emitted (writebuf_get (List.replicate 16 'z') 16 1) (Sys.mk 0 []) ++
          on_fd 1 ['#', '+', '0', ' ', ' '] := by
  obtain ⟨_, _, wb1, sys1, n, hrun, hem⟩ := zero_is_one_digit true os_full 1 10
    (writebuf_get (List.replicate 16 'z') 16 1) (Sys.mk 0 []) ['$', '-', '+', '5', 'd']
    (itemformat_int_get 42 5 1 FormatConvSpec_Int.d) 2
    os_full_raw_writer_full (by decide) (by decide) (by decide) (by decide) (by decide)
  have hn : n = 5 := by
    have h : printf_int true os_full 10 (writebuf_get (List.replicate 16 'z') 16 1)
        (Sys.mk 0 []) ['$', '-', '+', '5', 'd'] 0 2
        = some (ASSPF_WriteBuf.mk (['#', '+', '0', ' ', ' '] ++ List.replicate 11 'z') 16 5 1,
            Sys.mk 0 [], 5) := by decide
    rw [h] at hrun
    simp only [Option.some.injEq, Prod.mk.injEq] at hrun
    exact hrun.2.2.symm
  subst hn
  refine ⟨wb1, sys1, hrun, ?_⟩
  rw [hem]
  decide

/-- C12. Sign glyph: for every specifier, every value width `s` in 1, 2, 4, 8
and every bit pattern below `2^(8s)`, the sign the call writes is the one the
specification words: under `d` exactly `-` for a negative value whatever the
flags, and for a non-negative one `+` with the force-sign flag, else a space
with the blank-sign flag, else nothing; under every other conversion nothing.
On a system where the raw writer always completes, `PRINTFINT_WRITE_SIGN`
emits exactly that, and the whole call `printf_int` on a format that scans to
the specifier returns the number of, and has emitted, exactly the bytes of the
layout with that sign in the one sign slot, after the leading pad spaces and
the sigil and before the pad zeros and the digits: the sign is written once,
by one of the two guarded writes of the head and never by both, so these
bytes hold as many `-` and as many `+` as the worded sign does. -/
theorem sign_glyph_law (has_asr : Bool) (os : Os) (fuel0 fuel : Nat)
    (itemfmt : ItemFormat_Int) (value value_size : Nat) (st : PrintState)
    (hos : raw_writer_full os fuel0) (hwf : writebuf_wf st.1)
    (hsize : value_size ∈ [1, 2, 4, 8]) (hvalue : value < 2 ^ (8 * value_size))
    (hfuel : fuel0 ≤ fuel) :
    sign_bytes itemfmt (printf_int_locals has_asr itemfmt value value_size)
      = spec_sign_glyph itemfmt value value_size ∧
    (∃ st1,
      printfint_write_sign os fuel itemfmt
          (printf_int_locals has_asr itemfmt value value_size) st = some st1 ∧
      emitted st1.1 st1.2.1
        = emitted st.1 st.2.1 ++ on_fd st.1.fd (spec_sign_glyph itemfmt value value_size) ∧
      st1.2.2 = st.2.2 + (spec_sign_glyph itemfmt value value_size).length) ∧
    (∀ format : List Char, format_scan_int format = some itemfmt →
      itemfmt.fieldwidth + itemfmt.precision + 3 + fuel0 ≤ fuel →
      ∃ wb1 sys1,
        printf_int has_asr os fuel st.1 st.2.1 format value value_size
          = some (wb1, sys1,
              (call_layout (printf_int_locals has_asr itemfmt value value_size)
                (printf_int_locals has_asr itemfmt value value_size).sigil_buf
                (spec_sign_glyph itemfmt value value_size)).length) ∧
        emitted wb1 sys1
          = emitted st.1 st.2.1 ++ on_fd st.1.fd
              (call_layout (printf_int_locals has_asr itemfmt value value_size)
                (printf_int_locals has_asr itemfmt value value_size).sigil_buf
                (spec_sign_glyph itemfmt value value_size)) ∧
        (call_layout (printf_int_locals has_asr itemfmt value value_size)
            (printf_int_locals has_asr itemfmt value value_size).sigil_buf
            (spec_sign_glyph itemfmt value value_size)).count '-'
          = (spec_sign_glyph itemfmt value value_size).count '-' ∧
        (call_layout (printf_int_locals has_asr itemfmt value value_size)
            (printf_int_locals has_asr itemfmt value value_size).sigil_buf
            (spec_sign_glyph itemfmt value value_size)).count '+'
          = (spec_sign_glyph itemfmt value value_size).count '+') := by
  have hs := sign_bytes_eq_spec has_asr itemfmt value value_size hsize hvalue
  obtain ⟨st1, hrun, _, _, _, hem, hret⟩ := printfint_write_sign_full os fuel0 hos fuel hfuel
    itemfmt (printf_int_locals has_asr itemfmt value value_size) st hwf
  rw [hs] at hem hret
  refine ⟨hs, ⟨st1, hrun, hem, hret⟩, ?_⟩
  intro format hscan hfuel2
  have hlay := rendered_layout has_asr itemfmt value value_size
  rw [hs] at hlay
  obtain ⟨wb1, sys1, hcall, hem1, _⟩ := printf_int_emits has_asr os fuel0 hos fuel st.1 st.2.1
    format itemfmt value value_size hscan hwf hsize hfuel2 _ hlay
  have hno := sign_chars_elsewhere has_asr itemfmt value value_size
  refine ⟨wb1, sys1, hcall, hem1, ?_, ?_⟩
  · exact call_layout_count _ _ _ '-' (by decide) (by decide)
      (fun h => (hno '-' (Or.inl h)).1 rfl) (fun h => (hno '-' (Or.inr h)).1 rfl)
  · exact call_layout_count _ _ _ '+' (by decide) (by decide)
      (fun h => (hno '+' (Or.inl h)).2 rfl) (fun h => (hno '+' (Or.inr h)).2 rfl)

/-- Witness of C12: the format `04d` on the 8-bit pattern `0xFB`, the value
-5, writes the one `-` before the pad zeros: four bytes, `-005`; the format
`+4d` on 5 writes the one `+` after the pad spaces. -/
theorem sign_glyph_law_witness :
    format_scan_int ['0', '4', 'd']
      = some (itemformat_int_get FORMATFLAG_ZERO_PAD 4 1 FormatConvSpec_Int.d) ∧
    sign_bytes (itemformat_int_get FORMATFLAG_ZERO_PAD 4 1 FormatConvSpec_Int.d)
        (printf_int_locals false
          (itemformat_int_get FORMATFLAG_ZERO_PAD 4 1 FormatConvSpec_Int.d) 0xFB 1) = ['-'] ∧
    (∃ st1,
      printfint_write_sign os_full 9
          (itemformat_int_get FORMATFLAG_ZERO_PAD 4 1 FormatConvSpec_Int.d)
          (printf_int_locals false
            (itemformat_int_get FORMATFLAG_ZERO_PAD 4 1 FormatConvSpec_Int.d) 0xFB 1)
          (writebuf_get (List.replicate 16 'z') 16 1, Sys.mk 0 [], 0) = some st1 ∧
      emitted st1.1 st1.2.1
        = emitted (writebuf_get (List.replicate 16 'z') 16 1) (Sys.mk 0 []) ++ on_fd 1 ['-'] ∧
      st1.2.2 = 1) ∧
    (∃ wb1 sys1,
      printf_int false os_full 9 (writebuf_get (List.replicate 16 'z') 16 1) (Sys.mk 0 [])
          ['0', '4', 'd'] 0xFB 1 = some (wb1, sys1, 4) ∧
      emitted wb1 sys1
        = emitted (writebuf_get (List.replicate 16 'z') 16 1) (Sys.mk 0 [])
            ++ on_fd 1 ['-', '0', '0', '5'] ∧
      ['-', '0', '0', '5'].count '-' = 1 ∧ ['-', '0', '0', '5'].count '+' = 0) ∧
    printf_int false os_full 9 (writebuf_get (List.replicate 16 'z') 16 1) (Sys.mk 0 [])
        ['0', '4', 'd'] 0xFB 1
      = some (ASSPF_WriteBuf.mk (['-', '0', '0', '5'] ++ List.replicate 12 'z') 16 4 1,
          Sys.mk 0 [], 4) ∧
    printf_int false os_full 9 (writebuf_get (List.replicate 16 'z') 16 1) (Sys.mk 0 [])
        ['+', '4', 'd'] 5 1
      = some (ASSPF_WriteBuf.mk ([' ', ' ', '+', '5'] ++ List.replicate 12 'z') 16 4 1,
          Sys.mk 0 [], 4) :=
  have h := sign_glyph_law false os_full 1 9
    (itemformat_int_get FORMATFLAG_ZERO_PAD 4 1 FormatConvSpec_Int.d) 0xFB 1
    (writebuf_get (List.replicate 16 'z') 16 1, Sys.mk 0 [], 0)
    os_full_raw_writer_full (by decide) (by decide) (by decide) (by decide)
  ⟨by decide, h.1, h.2.1, h.2.2 ['0', '4', 'd'] (by decide) (by decide), by decide,
    by decide⟩

/-- C13. Sigil table: for every specifier with a resolved conversion, the sigil
the call writes is the one the specification tables: with the `#` flag `0b`
for `b`, `0` for `o`, `0x` for `x` and `X`, nothing for `d` and `u`; with the
`$` flag and no `#` the one character `#` for `d` and `u`, `%` for `b`, `@`
for `o`, `$` for `x` and `X`; with neither flag nothing.  On a system where the
raw writer always completes, `PRINTFINT_WRITE_SIGIL` emits exactly that, and
the whole call `printf_int` on a format that scans to the specifier, for a
value width in 1, 2, 4, 8, returns the number of, and has emitted, exactly the
bytes of the layout with the tabled sigil in the one sigil slot, after the
leading pad spaces and before the sign, the pad zeros and the digits: the
sigil is written once, by one of the two guarded writes of the head and never
by both. -/
theorem sigil_table (has_asr : Bool) (os : Os) (fuel0 fuel : Nat)
    (itemfmt : ItemFormat_Int) (value value_size : Nat) (st : PrintState)
    (hos : raw_writer_full os fuel0) (hwf : writebuf_wf st.1)
    (hconv : itemfmt.convspec ≠ FormatConvSpec_Int.UNSET) (hfuel : fuel0 ≤ fuel) :
    (printf_int_locals has_asr itemfmt value value_size).sigil_buf = spec_sigil itemfmt ∧
    (∃ st1,
      printfint_write_sigil os fuel (printf_int_locals has_asr itemfmt value value_size) st
        = some st1 ∧
      emitted st1.1 st1.2.1 = emitted st.1 st.2.1 ++ on_fd st.1.fd (spec_sigil itemfmt) ∧
      st1.2.2 = st.2.2 + (spec_sigil itemfmt).length) ∧
    (∀ format : List Char, format_scan_int format = some itemfmt →
      value_size ∈ [1, 2, 4, 8] →
      itemfmt.fieldwidth + itemfmt.precision + 3 + fuel0 ≤ fuel →
      ∃ wb1 sys1,
        printf_int has_asr os fuel st.1 st.2.1 format value value_size
          = some (wb1, sys1,
              (call_layout (printf_int_locals has_asr itemfmt value value_size)
                (spec_sigil itemfmt)
                (sign_bytes itemfmt
                  (printf_int_locals has_asr itemfmt value value_size))).length) ∧
        emitted wb1 sys1
          = emitted st.1 st.2.1 ++ on_fd st.1.fd
              (call_layout (printf_int_locals has_asr itemfmt value value_size)
                (spec_sigil itemfmt)
                (sign_bytes itemfmt
                  (printf_int_locals has_asr itemfmt value value_size)))) := by
  have hs := sigil_buf_eq_spec has_asr itemfmt value value_size hconv
  obtain ⟨st1, hrun, _, _, _, hem, hret⟩ := printfint_write_sigil_full os fuel0 hos fuel hfuel
    (printf_int_locals has_asr itemfmt value value_size) st hwf
  rw [hs] at hem hret
  refine ⟨hs, ⟨st1, hrun, hem, hret⟩, ?_⟩
  intro format hscan hsize hfuel2
  have hlay := rendered_layout has_asr itemfmt value value_size
  rw [hs] at hlay
  obtain ⟨wb1, sys1, hcall, hem1, _⟩ := printf_int_emits has_asr os fuel0 hos fuel st.1 st.2.1
    format itemfmt value value_size hscan hwf hsize hfuel2 _ hlay
  exact ⟨wb1, sys1, hcall, hem1⟩

/-- Witness of C13: the format `$5o` on the 8-bit value 8 writes the marker
`@` once, after the pad spaces and before the digits: five bytes, two spaces
and `@10`; the format `$05o` writes it once before the pad zeros. -/
theorem sigil_table_witness :
    format_scan_int ['$', '5', 'o']
      = some (itemformat_int_get FORMATFLAG_ALTFORM_M 5 1 FormatConvSpec_Int.o) ∧
    (printf_int_locals true (itemformat_int_get FORMATFLAG_ALTFORM_M 5 1 FormatConvSpec_Int.o)
        8 1).sigil_buf = ['@'] ∧
    (∃ st1,
      printfint_write_sigil os_full 10
          (printf_int_locals true
            (itemformat_int_get FORMATFLAG_ALTFORM_M 5 1 FormatConvSpec_Int.o) 8 1)
          (writebuf_get (List.replicate 16 'z') 16 1, Sys.mk 0 [], 0) = some st1 ∧
      emitted st1.1 st1.2.1
        = emitted (writebuf_get (List.replicate 16 'z') 16 1) (Sys.mk 0 []) ++ on_fd 1 ['@'] ∧
      st1.2.2 = 1) ∧
    (∃ wb1 sys1,
      printf_int true os_full 10 (writebuf_get (List.replicate 16 'z') 16 1) (Sys.mk 0 [])
          ['$', '5', 'o'] 8 1 = some (wb1, sys1, 5) ∧
      emitted wb1 sys1
        = emitted (writebuf_get (List.replicate 16 'z') 16 1) (Sys.mk 0 [])
            ++ on_fd 1 [' ', ' ', '@', '1', '0']) ∧
    printf_int true os_full 10 (writebuf_get (List.replicate 16 'z') 16 1) (Sys.mk 0 [])
        ['$', '5', 'o'] 8 1
      = some (ASSPF_WriteBuf.mk ([' ', ' ', '@', '1', '0'] ++ List.replicate 11 'z') 16 5 1,
          Sys.mk 0 [], 5) ∧
    printf_int true os_full 10 (writebuf_get (List.replicate 16 'z') 16 1) (Sys.mk 0 [])
        ['$', '0', '5', 'o'] 8 1
      = some (ASSPF_WriteBuf.mk (['@', '0', '0', '1', '0'] ++ List.replicate 11 'z') 16 5 1,
          Sys.mk 0 [], 5) :=
  have h := sigil_table true os_full 1 10
    (itemformat_int_get FORMATFLAG_ALTFORM_M 5 1 FormatConvSpec_Int.o) 8 1
    (writebuf_get (List.replicate 16 'z') 16 1, Sys.mk 0 [], 0)
    os_full_raw_writer_full (by decide) (by decide) (by decide)
  ⟨by decide, h.1, h.2.1, h.2.2 ['$', '5', 'o'] (by decide) (by decide) (by decide),
    by decide, by decide⟩

/-! ## The format scanner -/

/-- C14. Scanner result: for pairwise distinct flag characters `F`, a width `W`
that is empty or a digit run not starting with `0` of value at most `INT_MAX`,
a precision `P` that is absent or `.` and a run of 1 to 10 digits of value at
most `INT_MAX`, and a conversion letter `c` naming the kind `k`, the scan of
`F ++ W ++ P ++ c` succeeds with the record whose flags are exactly the flags
of `F` (each of the six bits is set if and only if its character is in `F`,
and no other bit is set), whose field width is the value of `W` (0 when `W`
is empty), whose precision is the value of the digits of `P` (the unset
sentinel 1 when `P` is absent) and whose conversion is `k`. -/
theorem scanner_result (F W : List Char) (P : Option (List Char)) (c : Char)
    (k : FormatConvSpec_Int) (hF : ∀ f ∈ F, f ∈ flag_chars) (hnd : F.Nodup)
    (hW : ∀ x ∈ W, ascii_isdigit x = true) (h0 : W.head? ≠ some '0')
    (hWv : read_base 10 W ≤ INT_MAX)
    (hP : ∀ D, P = some D → digit_run D ∧ D.length ≤ 10 ∧ read_base 10 D ≤ INT_MAX)
    (hc : (c, k) ∈ conv_letters) :
    format_scan_int (F ++ W ++ precision_text P ++ [c])
      = some (itemformat_int_get (flags_of F) (read_base 10 W) (precision_value P) k) ∧
    flags_of F < 64 ∧
    (flags_of F &&& FORMATFLAG_ALTFORM_C ≠ 0 ↔ '#' ∈ F) ∧
    (flags_of F &&& FORMATFLAG_ALTFORM_M ≠ 0 ↔ '$' ∈ F) ∧
    (flags_of F &&& FORMATFLAG_ZERO_PAD ≠ 0 ↔ '0' ∈ F) ∧
    (flags_of F &&& FORMATFLAG_LEFT_ADJUST ≠ 0 ↔ '-' ∈ F) ∧
    (flags_of F &&& FORMATFLAG_BLANK_SIGN ≠ 0 ↔ ' ' ∈ F) ∧
    (flags_of F &&& FORMATFLAG_ALWAYS_SIGN ≠ 0 ↔ '+' ∈ F) ∧
    (W = [] → read_base 10 W = 0) ∧
    (P = none → precision_value P = 1) :=
  ⟨format_scan_int_parts F W P c k hF hnd hW h0 hWv hP hc,
   flags_of_lt F hF,
   flags_of_test F hF '#' (by decide),
   flags_of_test F hF '$' (by decide),
   flags_of_test F hF '0' (by decide),
   flags_of_test F hF '-' (by decide),
   flags_of_test F hF ' ' (by decide),
   flags_of_test F hF '+' (by decide),
   fun h => by rw [h]; rfl,
   fun h => by rw [h]; rfl⟩

/-- Witness of C14: the specifier `#0-12.5x`. -/
theorem scanner_result_witness :
    format_scan_int "#0-12.5x".toList
      = some (itemformat_int_get 13 12 5 FormatConvSpec_Int.x) := by
  have h := (scanner_result ['#', '0', '-'] ['1', '2'] (some ['5']) 'x' FormatConvSpec_Int.x
    (by decide) (by decide) (by decide) (by decide) (by decide)
    (by intro D h; cases h; decide) (by decide)).1
  exact h

/-- C15, counterexample: the string `2147483648d` matches the grammar (no flag,
a width run of 10 digits, no precision, conversion `d`) and the scan rejects
it, the width being above `INT_MAX`. -/
theorem grammar_string_rejected :
    spec_grammar [] "2147483648".toList none 'd' ∧
    format_scan_int ([] ++ "2147483648".toList ++ precision_text none ++ ['d']) = none :=
  ⟨⟨by decide, by decide, by decide, (fun D h => by cases h), by decide⟩, by decide⟩

/-- C15, amended: every string matching the grammar
`flags* width? ('.' digits)? conv` whose width does not start with `0` and
whose width and precision values are at most `INT_MAX` is accepted by
`format_scan_int`. -/
theorem grammar_string_accepted (F W : List Char) (P : Option (List Char)) (c : Char)
    (hg : spec_grammar F W P c) (h0 : W.head? ≠ some '0')
    (hWv : read_base 10 W ≤ INT_MAX)
    (hPv : ∀ D, P = some D → read_base 10 D ≤ INT_MAX) :
    ∃ itemfmt, format_scan_int (F ++ W ++ precision_text P ++ [c]) = some itemfmt := by
  obtain ⟨hF, hnd, hW, hP, hc⟩ := hg
  obtain ⟨p, hp, hpc⟩ := List.mem_map.mp hc
  have hck : (c, p.2) ∈ conv_letters := by rw [← hpc]; exact hp
  have hWd : ∀ x ∈ W, ascii_isdigit x = true := by
    rcases hW with h | h
    · rw [h]; intro x hx; simp at hx
    · exact h.1.2
  exact ⟨_, format_scan_int_parts F W P c p.2 hF hnd hWd h0 hWv
    (fun D hD => ⟨(hP D hD).1, (hP D hD).2, hPv D hD⟩) hck⟩

/-- Witness of C15, amended: the specifier `+ 2147483647.0000000009u`. -/
theorem grammar_string_accepted_witness :
    spec_grammar ['+', ' '] "2147483647".toList (some "0000000009".toList) 'u' ∧
    ∃ itemfmt, format_scan_int (['+', ' '] ++ "2147483647".toList
      ++ precision_text (some "0000000009".toList) ++ ['u']) = some itemfmt :=
  ⟨⟨by decide, by decide, by decide, (fun D h => by cases h; decide), by decide⟩,
   grammar_string_accepted ['+', ' '] "2147483647".toList (some "0000000009".toList) 'u'
    ⟨by decide, by decide, by decide, (fun D h => by cases h; decide), by decide⟩
    (by decide) (by decide) (by intro D h; cases h; decide)⟩

/-- C16. Repeated flag: a format string that starts with a run `F` of flag
characters in which the same character occurs twice is rejected by
`format_scan_int`, whatever follows the run. -/
theorem repeated_flag_fails (F rest : List Char) (hF : ∀ f ∈ F, f ∈ flag_chars)
    (hdup : ¬ F.Nodup) : format_scan_int (F ++ rest) = none := by
  have h := format_scan_flags_loop_repeat rest F 0 0 (by decide) hF (Or.inl hdup)
  unfold format_scan_int format_scan_flags
  simp only [FORMATFLAG_NONE, h]

/-- Witness of C16: the format `-0-5d`, where `-` is given twice. -/
theorem repeated_flag_fails_witness :
    format_scan_int (['-', '0', '-'] ++ ['5', 'd']) = none :=
  repeated_flag_fails ['-', '0', '-'] ['5', 'd'] (by decide) (by decide)

/-- C17. Bare dot: a format made of flag characters, then digits (possibly
none), then a `.` that is followed by the end of the string or by a character
that is not a decimal digit, is rejected by `format_scan_int`. -/
theorem bare_dot_fails (F W tail : List Char) (hF : ∀ f ∈ F, f ∈ flag_chars)
    (hW : ∀ c ∈ W, ascii_isdigit c = true)
    (htail : ∀ c, tail.head? = some c → ascii_isdigit c = false) :
    format_scan_int (F ++ W ++ '.' :: tail) = none :=
  format_scan_int_at_dot F W tail hF hW (format_scan_precision_bare tail htail)

/-- Witness of C17: the format `-08.xd`, and the format `+.` that ends at the
dot. -/
theorem bare_dot_fails_witness :
    format_scan_int (['-', '0'] ++ ['8'] ++ '.' :: ['x', 'd']) = none ∧
    format_scan_int (['+'] ++ [] ++ '.' :: []) = none :=
  ⟨bare_dot_fails ['-', '0'] ['8'] ['x', 'd'] (by decide) (by decide) (by decide),
   bare_dot_fails ['+'] [] [] (by decide) (by decide) (by decide)⟩

/-- C18. Conversion letter: when `format_scan_int` accepts a format, the flags,
field-width and precision phases succeed in turn and what is left of the format
after them is exactly one character, one of `d`, `u`, `b`, `o`, `x`, `X`,
which names the conversion stored.  Hence the empty string is rejected, a
format whose last character is no conversion letter is rejected, and an
accepted format followed by any further character is rejected. -/
theorem conversion_letter_required :
    (∀ (format : List Char) (itemfmt : ItemFormat_Int),
      format_scan_int format = some itemfmt →
      ∃ fl n1 w n2 p n3 c,
        format_scan_flags format = some (fl, n1) ∧
        format_scan_fieldwidth (format.drop n1) = some (w, n2) ∧
        format_scan_precision (format.drop (n1 + n2)) = some (p, n3) ∧
        format.drop (n1 + n2 + n3) = [c] ∧ (c, itemfmt.convspec) ∈ conv_letters) ∧
    format_scan_int [] = none ∧
    (∀ (body : List Char) (c : Char), c ∉ conv_letters.map Prod.fst →
      format_scan_int (body ++ [c]) = none) ∧
    (∀ (format extra : List Char) (itemfmt : ItemFormat_Int),
      format_scan_int format = some itemfmt → extra ≠ [] →
      format_scan_int (format ++ extra) = none) := by
  refine ⟨?_, by decide, ?_, format_scan_int_extend⟩
  · intro format itemfmt h
    obtain ⟨fl, n1, w, n2, p, n3, c, h1, h2, h3, h4, h5, _⟩ := format_scan_int_some _ _ h
    exact ⟨fl, n1, w, n2, p, n3, c, h1, h2, h3, h4, h5⟩
  · intro body c hc
    by_contra hne
    obtain ⟨itemfmt, hs⟩ := Option.ne_none_iff_exists'.mp hne
    obtain ⟨fl, n1, w, n2, p, n3, d, _, _, _, h4, h5, _, hlen⟩ := format_scan_int_some _ _ hs
    rw [List.length_append, List.length_singleton] at hlen
    have hb : n1 + n2 + n3 = body.length := by omega
    rw [hb, List.drop_left] at h4
    simp only [List.cons.injEq, and_true] at h4
    exact hc (List.mem_map.mpr ⟨(d, itemfmt.convspec), h5, h4.symm⟩)

/-- Witness of C18: the accepted format `08.3x` leaves the one character `x`
after its first five, the format `08.3q` is rejected, the format `08.3` without
a letter is rejected, and `08.3x` followed by `x` is rejected. -/
theorem conversion_letter_required_witness :
    (∃ fl n1 w n2 p n3 c,
      format_scan_flags "08.3x".toList = some (fl, n1) ∧
      format_scan_fieldwidth ("08.3x".toList.drop n1) = some (w, n2) ∧
      format_scan_precision ("08.3x".toList.drop (n1 + n2)) = some (p, n3) ∧
      "08.3x".toList.drop (n1 + n2 + n3) = [c] ∧
      (c, (itemformat_int_get 4 8 3 FormatConvSpec_Int.x).convspec) ∈ conv_letters) ∧
    format_scan_int ("08.3".toList ++ ['q']) = none ∧
    format_scan_int ("08.".toList ++ ['3']) = none ∧
    format_scan_int ("08.3x".toList ++ ['x']) = none :=
  ⟨conversion_letter_required.1 "08.3x".toList
      (itemformat_int_get 4 8 3 FormatConvSpec_Int.x) (by decide),
   conversion_letter_required.2.2.1 "08.3".toList 'q' (by decide),
   conversion_letter_required.2.2.1 "08.".toList '3' (by decide),
   conversion_letter_required.2.2.2 "08.3x".toList ['x']
      (itemformat_int_get 4 8 3 FormatConvSpec_Int.x) (by decide) (by decide)⟩

/-- C19. Long digit runs: a format whose field-width digit run (the digits at
the cursor of the field-width phase, that is after the leading flag
characters) has more than 10 digits is rejected, and so is a format in which,
after flag characters and digits, a `.` is followed by more than 10 digits,
whatever the value of the run (it may consist of zeros).  A `0` right before
the width is the zero-pad flag and no digit of the width: in `01234567890d`
the width run is the 10 digits `1234567890`, and the format is accepted. -/
theorem long_digit_run_fails :
    (∀ format : List Char,
      10 < ((format.dropWhile is_flag_char).takeWhile ascii_isdigit).length →
      format_scan_int format = none) ∧
    (∀ F W D rest : List Char, (∀ f ∈ F, f ∈ flag_chars) →
      (∀ c ∈ W, ascii_isdigit c = true) → (∀ c ∈ D, ascii_isdigit c = true) →
      10 < D.length → format_scan_int (F ++ W ++ '.' :: (D ++ rest)) = none) ∧
    format_scan_int "01234567890d".toList
      = some (itemformat_int_get FORMATFLAG_ZERO_PAD 1234567890 1 FormatConvSpec_Int.d) :=
  ⟨format_scan_int_long_width,
   fun F W D rest hF hW hD hlen =>
    format_scan_int_at_dot F W (D ++ rest) hF hW (format_scan_precision_long D rest hD hlen),
   by decide⟩

/-- Witness of C19: the width run of `-012345678901d` is `12345678901`, 11 digits
after the flags `-0`, and the precision run of `5.00000000001d` has 11 digits
of value 1. -/
theorem long_digit_run_fails_witness :
    format_scan_int "-012345678901d".toList = none ∧
    format_scan_int ([] ++ ['5'] ++ '.' :: ("00000000001".toList ++ ['d'])) = none :=
  ⟨long_digit_run_fails.1 "-012345678901d".toList (by decide),
   long_digit_run_fails.2.1 [] ['5'] "00000000001".toList ['d']
    (by decide) (by decide) (by decide) (by decide)⟩

/-- C20, failing input: the width run of the format `9000000000d` has the value
9000000000, above `UINT_MAX`; `ascii_a2uint` stores 410065408, which is
9000000000 modulo 2^32, and `format_scan_int` accepts the format with that
field width.  The same happens to the precision of `.9000000000d`. -/
theorem overflow_wraps :
    read_base 10 "9000000000".toList = 9000000000 ∧ UINT_MAX < 9000000000 ∧
    9000000000 % UINT_MOD = 410065408 ∧
    ascii_a2uint "9000000000d".toList = some (410065408, 10) ∧
    format_scan_int "9000000000d".toList
      = some (itemformat_int_get 0 410065408 1 FormatConvSpec_Int.d) ∧
    format_scan_int ".9000000000d".toList
      = some (itemformat_int_get 0 0 410065408 FormatConvSpec_Int.d) := by
  decide

/-! ## The output buffer -/

/-- C21. Buffered write: for every well-formed buffer (storage of `limit`
bytes, `nmemb <= limit`) and every source of `n <= limit - nmemb` bytes, on
every system and with any fuel, `asspf_write` returns `n` and leaves the
system untouched (no raw write); the new storage has the old bytes at
`[0, nmemb)`, the source at `[nmemb, nmemb + n)` and the old bytes behind it;
the buffered count is `nmemb + n`; `limit` and `fd` are unchanged. -/
theorem write_fits_is_buffered (os : Os) (fuel : Nat) (wb : ASSPF_WriteBuf) (sys : Sys)
    (src : List Char) (hwf : writebuf_wf wb) (hfit : src.length ≤ wb.limit - wb.nmemb) :
    ∃ wb1, asspf_write os fuel wb sys src = some (wb1, sys, src.length) ∧
      wb1.buf.take wb.nmemb = wb.buf.take wb.nmemb ∧
      (wb1.buf.drop wb.nmemb).take src.length = src ∧
      wb1.buf.drop (wb.nmemb + src.length) = wb.buf.drop (wb.nmemb + src.length) ∧
      wb1.nmemb = wb.nmemb + src.length ∧ wb1.limit = wb.limit ∧ wb1.fd = wb.fd := by
  have hoff : wb.nmemb ≤ wb.buf.length := by rw [hwf.1]; exact hwf.2.2
  refine ⟨_, asspf_write_fits os fuel wb sys src hwf hfit, ?_, ?_, ?_, rfl, rfl, rfl⟩
  · exact memcpy_at_take _ _ _ hoff
  · simp only
    rw [memcpy_at_drop _ _ _ hoff, List.take_left]
  · simp only
    rw [← List.drop_drop, memcpy_at_drop _ _ _ hoff, List.drop_left]

/-- Witness of C21: the source `cd` into a buffer of 4 bytes holding `ab`, on a
system that refuses every write and with no fuel. -/
theorem write_fits_is_buffered_witness :
    ∃ wb1, asspf_write (fun _ _ => WriteResult.error) 0 (ASSPF_WriteBuf.mk ['a', 'b', 'y', 'z'] 4 2 1)
        (Sys.mk 0 []) ['c', 'd'] = some (wb1, Sys.mk 0 [], 2) ∧
      wb1.buf = ['a', 'b', 'c', 'd'] ∧ wb1.nmemb = 4 := by
  obtain ⟨wb1, hrun, _⟩ := write_fits_is_buffered (fun _ _ => WriteResult.error) 0
    (ASSPF_WriteBuf.mk ['a', 'b', 'y', 'z'] 4 2 1) (Sys.mk 0 []) ['c', 'd']
    (by decide) (by decide)
  have h : asspf_write (fun _ _ => WriteResult.error) 0 (ASSPF_WriteBuf.mk ['a', 'b', 'y', 'z'] 4 2 1)
      (Sys.mk 0 []) ['c', 'd']
      = some (ASSPF_WriteBuf.mk ['a', 'b', 'c', 'd'] 4 4 1, Sys.mk 0 [], 2) := by decide
  rw [h] at hrun
  simp only [Option.some.injEq, Prod.mk.injEq] at hrun
  exact ⟨wb1, by rw [h, ← hrun.1], by rw [← hrun.1], by rw [← hrun.1]⟩

/-- C22. Failed flush: for every well-formed non-empty buffer and every source
of `n > limit - nmemb` bytes, if the flush that `asspf_write` triggers returns
a remainder `r > 0`, then `asspf_write` returns 0 in the very state the flush
left: the system has received only the first `nmemb - r` old bytes (nothing
of the source), and the buffer holds the `r` old bytes not yet written, in
order, with buffered count `r`; the emitted bytes are unchanged. -/
theorem flush_failure_aborts_write (os : Os) (fuel : Nat) (wb wbf : ASSPF_WriteBuf)
    (sys sysf : Sys) (src : List Char) (r : Nat) (hwf : writebuf_wf wb) (hne : wb.nmemb ≠ 0)
    (hbig : src.length > wb.limit - wb.nmemb)
    (hf : asspf_flush os fuel wb sys = some (wbf, sysf, r)) (hr : r > 0) :
    asspf_write os fuel wb sys src = some (wbf, sysf, 0) ∧
    wbf.nmemb = r ∧ r ≤ wb.nmemb ∧
    wbf.buf.take r = (wb.buf.drop (wb.nmemb - r)).take r ∧
    sysf.out = sys.out ++ on_fd wb.fd (wb.buf.take (wb.nmemb - r)) ∧
    emitted wbf sysf = emitted wb sys ∧
    wbf.limit = wb.limit ∧ wbf.fd = wb.fd := by
  obtain ⟨w, hwr, hnm, hl, hfd, _, _, hbuf, _, hout⟩ :=
    asspf_flush_some os fuel wb wbf sys sysf r hwf hf
  have hw : wb.nmemb - r = w := by omega
  refine ⟨asspf_write_flush_fails os fuel wb wbf sys sysf src r hwf hne hbig hf (by omega),
    hnm, by omega, by rw [hw]; exact hbuf, by rw [hw]; exact hout, ?_, hl, hfd⟩
  unfold emitted
  rw [hout, hnm, hbuf, hfd, List.append_assoc, ← on_fd_append, ← List.take_add, hwr]

/-- Witness of C22: the source `xy` into a buffer of 4 bytes holding `abc`, on a
system that accepts one byte and then fails. -/
theorem flush_failure_aborts_write_witness :
    asspf_write os_one_byte 5 (ASSPF_WriteBuf.mk ['a', 'b', 'c', 'z'] 4 3 1) (Sys.mk 0 [])
        ['x', 'y']
      = some (ASSPF_WriteBuf.mk ['b', 'c', 'c', 'z'] 4 2 1, Sys.mk 2 [(1, 'a')], 0) :=
  (flush_failure_aborts_write os_one_byte 5 (ASSPF_WriteBuf.mk ['a', 'b', 'c', 'z'] 4 3 1)
    (ASSPF_WriteBuf.mk ['b', 'c', 'c', 'z'] 4 2 1) (Sys.mk 0 []) (Sys.mk 2 [(1, 'a')])
    ['x', 'y'] 2 (by decide) (by decide) (by decide) (by decide) (by decide)).1

/-- C23. Bypass law: for a source of `n > limit` bytes, `asspf_write` is one
call of the raw writer on the whole source and nothing is copied into the
buffer.  On an empty buffer that call is all it does.  On a well-formed
non-empty buffer it flushes first and, when the flush returns 0, then makes
that one call: the system has received every buffered byte before the first
byte of the source.  The value returned is the count `k` the raw writer
returns, the bytes received of the source are its first `k`, and the buffer is
empty afterwards with its storage unchanged. -/
theorem bypass_law :
    (∀ (os : Os) (fuel : Nat) (wb : ASSPF_WriteBuf) (sys : Sys) (src : List Char),
      wb.nmemb = 0 → src.length > wb.limit →
      asspf_write os fuel wb sys src
        = (asspf_sys_write os fuel sys wb.fd src).map (fun res => (wb, res.1, res.2))) ∧
    (∀ (os : Os) (fuel : Nat) (wb wbf : ASSPF_WriteBuf) (sys sysf : Sys) (src : List Char),
      writebuf_wf wb → wb.nmemb ≠ 0 → src.length > wb.limit →
      asspf_flush os fuel wb sys = some (wbf, sysf, 0) →
      asspf_write os fuel wb sys src
        = (asspf_sys_write os fuel sysf wb.fd src).map (fun res => (wbf, res.1, res.2)) ∧
      wbf.nmemb = 0 ∧ wbf.buf = wb.buf ∧ wbf.limit = wb.limit ∧ wbf.fd = wb.fd ∧
      sysf.out = sys.out ++ on_fd wb.fd (wb.buf.take wb.nmemb)) ∧
    (∀ (os : Os) (fuel : Nat) (sys sys2 : Sys) (fd : Int) (src : List Char) (k : Nat),
      asspf_sys_write os fuel sys fd src = some (sys2, k) →
      k ≤ src.length ∧ sys2.out = sys.out ++ on_fd fd (src.take k)) := by
  refine ⟨asspf_write_bypass_empty, ?_, ?_⟩
  · intro os fuel wb wbf sys sysf src hwf hne hbig hf
    obtain ⟨w, hw0, hnm, hl, hfd, _, hbuf, _, _, hout⟩ :=
      asspf_flush_some os fuel wb wbf sys sysf 0 hwf hf
    have hw : w = wb.nmemb := by omega
    rw [hw] at hout
    exact ⟨asspf_write_bypass_flushed os fuel wb wbf sys sysf src hwf hne hbig hf,
      hnm, hbuf rfl, hl, hfd, hout⟩
  · intro os fuel sys sys2 fd src k h
    obtain ⟨j, hj, hk, hout⟩ := asspf_sys_write_loop_delivers os fd fuel sys src 0 sys2 k h
    rw [Nat.zero_add] at hk
    subst hk
    exact ⟨hj, hout⟩

/-- Witness of C23: the source `hello` into a buffer of 4 bytes holding `ab`, on
the system that accepts everything: `ab` is written, then `hello`. -/
theorem bypass_law_witness :
    asspf_write os_full 3 (ASSPF_WriteBuf.mk ['a', 'b', 'y', 'z'] 4 2 1) (Sys.mk 0 [])
        "hello".toList
      = some (ASSPF_WriteBuf.mk ['a', 'b', 'y', 'z'] 4 0 1,
          Sys.mk 2 (on_fd 1 "abhello".toList), 5) ∧
    asspf_write os_one_byte 3 (ASSPF_WriteBuf.mk ['a', 'b', 'y', 'z'] 4 0 1) (Sys.mk 0 [])
        "hello".toList
      = some (ASSPF_WriteBuf.mk ['a', 'b', 'y', 'z'] 4 0 1, Sys.mk 2 [(1, 'h')], 1) := by
  have h1 := (bypass_law.2.1 os_full 3 (ASSPF_WriteBuf.mk ['a', 'b', 'y', 'z'] 4 2 1)
    (ASSPF_WriteBuf.mk ['a', 'b', 'y', 'z'] 4 0 1) (Sys.mk 0 []) (Sys.mk 1 (on_fd 1 ['a', 'b']))
    "hello".toList (by decide) (by decide) (by decide) (by decide)).1
  have h2 := bypass_law.1 os_one_byte 3 (ASSPF_WriteBuf.mk ['a', 'b', 'y', 'z'] 4 0 1)
    (Sys.mk 0 []) "hello".toList (by decide) (by decide)
  refine ⟨?_, ?_⟩
  · rw [h1]; decide
  · rw [h2]; decide

/-- C24. Flush: for every well-formed buffer, if the raw writer returns `w` on
the buffered bytes, then `w <= nmemb`, `asspf_flush` returns `nmemb - w`, the
buffered count becomes `nmemb - w`, the first `nmemb - w` bytes of the storage
are the old bytes `[w, nmemb)` in order, and `limit` and `fd` are unchanged;
with `w = nmemb` it returns 0, the buffer is empty and the storage untouched. -/
theorem flush_compacts (os : Os) (fuel : Nat) (wb : ASSPF_WriteBuf) (sys sys1 : Sys) (w : Nat)
    (hwf : writebuf_wf wb)
    (hw : asspf_sys_write os fuel sys wb.fd (wb.buf.take wb.nmemb) = some (sys1, w)) :
    w ≤ wb.nmemb ∧
    ∃ wb1, asspf_flush os fuel wb sys = some (wb1, sys1, wb.nmemb - w) ∧
      wb1.nmemb = wb.nmemb - w ∧
      wb1.buf.take (wb.nmemb - w) = (wb.buf.drop w).take (wb.nmemb - w) ∧
      wb1.buf.length = wb.buf.length ∧ wb1.limit = wb.limit ∧ wb1.fd = wb.fd ∧
      (w = wb.nmemb → wb1.nmemb = 0 ∧ wb1.buf = wb.buf) := by
  obtain ⟨h1, _, heq, _⟩ := asspf_flush_eq os fuel wb sys sys1 w hwf.2.1 hwf.2.2 hw
  obtain ⟨v, hv, hnm, hl, hfd, hlen, hbuf0, hbuf, hw2, _⟩ :=
    asspf_flush_some os fuel wb _ sys sys1 (wb.nmemb - w) hwf heq
  have hvw : v = w := by omega
  rw [hvw] at hbuf
  exact ⟨h1, _, heq, hnm, hbuf, hlen, hl, hfd,
    fun h => ⟨by rw [hnm]; omega, hbuf0 (by omega)⟩⟩

/-- Witness of C24: a buffer of 4 bytes holding `abc` on a system that accepts
one byte and then fails: `bc` remains. -/
theorem flush_compacts_witness :
    1 ≤ 3 ∧
    ∃ wb1, asspf_flush os_one_byte 5 (ASSPF_WriteBuf.mk ['a', 'b', 'c', 'z'] 4 3 1) (Sys.mk 0 [])
        = some (wb1, Sys.mk 2 [(1, 'a')], 2) ∧
      wb1.nmemb = 2 ∧ wb1.buf.take 2 = ['b', 'c'] := by
  obtain ⟨h1, wb1, hrun, hnm, hbuf, _⟩ := flush_compacts os_one_byte 5
    (ASSPF_WriteBuf.mk ['a', 'b', 'c', 'z'] 4 3 1) (Sys.mk 0 []) (Sys.mk 2 [(1, 'a')]) 1
    (by decide) (by decide)
  exact ⟨h1, wb1, hrun, hnm, hbuf⟩

/-- C25. OutputBuffer invariant: the buffered count is within the capacity
after `asspf_writebuf_autoinit`, and every buffer that `asspf_write`,
`asspf_flush`, `asspf_puts`, `asspf_putc` or an `asspf_printf_int*` entry
point returns satisfies it when the buffer it was given does, on every
system, with any fuel, for every source, format and value.  (The raw writer of
the embedding never returns more than it was given.) -/
theorem buffer_invariant :
    (∀ (fd : Int) (buf : List Char) (limit : Nat), limit < USHRT_MOD →
      writebuf_inv (asspf_writebuf_autoinit fd buf limit).1) ∧
    (∀ (os : Os) (fuel : Nat) (wb wb1 : ASSPF_WriteBuf) (sys sys1 : Sys) (src : List Char)
      (n : Nat), writebuf_inv wb →
      asspf_write os fuel wb sys src = some (wb1, sys1, n) → writebuf_inv wb1) ∧
    (∀ (os : Os) (fuel : Nat) (wb wb1 : ASSPF_WriteBuf) (sys sys1 : Sys) (r : Nat),
      writebuf_inv wb →
      asspf_flush os fuel wb sys = some (wb1, sys1, r) → writebuf_inv wb1) ∧
    (∀ (os : Os) (fuel : Nat) (wb wb1 : ASSPF_WriteBuf) (sys sys1 : Sys) (s : List Char)
      (n : Nat), writebuf_inv wb →
      asspf_puts os fuel wb sys s = some (wb1, sys1, n) → writebuf_inv wb1) ∧
    (∀ (os : Os) (fuel : Nat) (wb wb1 : ASSPF_WriteBuf) (sys sys1 : Sys) (c : Char)
      (n : Nat), writebuf_inv wb →
      asspf_putc os fuel wb sys c = some (wb1, sys1, n) → writebuf_inv wb1) ∧
    (∀ (has_asr : Bool) (os : Os) (fuel : Nat) (wb wb1 : ASSPF_WriteBuf) (sys sys1 : Sys)
      (format : List Char) (value n : Nat), writebuf_inv wb →
      (asspf_printf_int8least has_asr os fuel wb sys format value = some (wb1, sys1, n) ∨
       asspf_printf_int16least has_asr os fuel wb sys format value = some (wb1, sys1, n) ∨
       asspf_printf_int32least has_asr os fuel wb sys format value = some (wb1, sys1, n) ∨
       asspf_printf_int64least has_asr os fuel wb sys format value = some (wb1, sys1, n)) →
      writebuf_inv wb1) := by
  refine ⟨?_, ?_, ?_, ?_, ?_, ?_⟩
  · intro fd buf limit h
    exact ⟨Nat.zero_le _, h⟩
  · intro os fuel wb wb1 sys sys1 src n hinv h
    exact asspf_write_keeps os fuel wb wb1 sys sys1 src n hinv h
  · intro os fuel wb wb1 sys sys1 r hinv h
    exact asspf_flush_keeps os fuel wb wb1 sys sys1 r hinv h
  · intro os fuel wb wb1 sys sys1 s n hinv h
    exact asspf_write_keeps os fuel wb wb1 sys sys1 s n hinv h
  · intro os fuel wb wb1 sys sys1 c n hinv h
    exact asspf_write_keeps os fuel wb wb1 sys sys1 [c] n hinv h
  · intro has_asr os fuel wb wb1 sys sys1 format value n hinv h
    rcases h with h | h | h | h <;>
      exact printf_int_keeps has_asr os fuel wb wb1 sys sys1 format _ _ n hinv h

/-- Witness of C25: `6d` on the value 7 into a buffer of 4 bytes holding `abc`,
on a system that accepts one byte and then fails: the pad run is lost in a
failed flush, and the buffer returned holds `bc7`. -/
theorem buffer_invariant_witness :
    writebuf_inv (ASSPF_WriteBuf.mk ['b', 'c', '7', 'z'] 4 3 1) ∧
    writebuf_inv (ASSPF_WriteBuf.mk ['b', 'c', 'c', 'z'] 4 2 1) :=
  ⟨buffer_invariant.2.2.2.2.2 true os_one_byte 20 (ASSPF_WriteBuf.mk ['a', 'b', 'c', 'z'] 4 3 1)
      (ASSPF_WriteBuf.mk ['b', 'c', '7', 'z'] 4 3 1) (Sys.mk 0 []) (Sys.mk 2 [(1, 'a')])
      ['6', 'd'] 7 1 (by decide) (Or.inl (by decide)),
   buffer_invariant.2.2.1 os_one_byte 5 (ASSPF_WriteBuf.mk ['a', 'b', 'c', 'z'] 4 3 1)
      (ASSPF_WriteBuf.mk ['b', 'c', 'c', 'z'] 4 2 1) (Sys.mk 0 []) (Sys.mk 2 [(1, 'a')]) 2
      (by decide) (by decide)⟩

/-- C26. Buffer coalescing: starting from a buffer freshly initialised on a
storage of `C` bytes, for every sequence of sources whose running total of
sizes never exceeds `C`, on every system and with any fuel, the sequence of
`asspf_write` calls leaves the system untouched (no raw write), every call
returns the size of its source, and the buffer holds the concatenation of the
sources in call order. -/
theorem buffer_coalescing (os : Os) (fuel : Nat) (fd : Int) (buf : List Char) (C : Nat)
    (sys : Sys) (srcs : List (List Char)) (hbuf : buf.length = C) (hC : C < USHRT_MOD)
    (hrun : ∀ k ≤ srcs.length, ((srcs.take k).map List.length).sum ≤ C) :
    ∃ wb1, asspf_write_seq os fuel (asspf_writebuf_autoinit fd buf C).1 sys srcs
        = some (wb1, sys, srcs.map List.length) ∧
      wb1.nmemb = (srcs.map List.length).sum ∧
      wb1.buf.take wb1.nmemb = srcs.flatten ∧
      wb1.limit = C ∧ wb1.fd = fd := by
  have htot := hrun srcs.length (Nat.le_refl _)
  rw [List.take_length] at htot
  obtain ⟨wb1, hseq, hn, hb, hl, hf⟩ := asspf_write_seq_fits os fuel sys srcs
    (asspf_writebuf_autoinit fd buf C).1 ⟨hbuf, hC, Nat.zero_le _⟩ htot
  refine ⟨wb1, hseq, ?_, ?_, hl, hf⟩
  · rw [hn]; exact Nat.zero_add _
  · rw [hb]; rfl

/-- Witness of C26: the sources `ab`, the empty one and `cde` into a fresh
buffer of 8 bytes, on a system that refuses every write and with no fuel. -/
theorem buffer_coalescing_witness :
    ∃ wb1, asspf_write_seq (fun _ _ => WriteResult.error) 0
        (asspf_writebuf_autoinit 1 (List.replicate 8 'z') 8).1 (Sys.mk 0 [])
        [['a', 'b'], [], ['c', 'd', 'e']] = some (wb1, Sys.mk 0 [], [2, 0, 3]) ∧
      wb1.nmemb = 5 ∧ wb1.buf.take wb1.nmemb = ['a', 'b', 'c', 'd', 'e'] := by
  obtain ⟨wb1, hseq, hn, hb, _⟩ := buffer_coalescing (fun _ _ => WriteResult.error) 0 1
    (List.replicate 8 'z') 8 (Sys.mk 0 []) [['a', 'b'], [], ['c', 'd', 'e']]
    (by decide) (by decide) (by decide)
  exact ⟨wb1, hseq, hn, hb⟩

/-! ## Hexadecimal case and emission order -/

/-- C27. Hexadecimal round trip: for every digit count `n` and every value `v`,
upper-casing each character that `printf_w2b_x` produces gives exactly the
characters that `printf_w2b_X` produces, and both return `n`, the number of
characters each has produced. -/
theorem hex_case_round_trip (n v : Nat) :
    (printf_w2b_x n v).1.map ascii_toupper = (printf_w2b_X n v).1 ∧
    (printf_w2b_x n v).2 = n ∧ (printf_w2b_X n v).2 = n ∧
    (printf_w2b_x n v).1.length = n ∧ (printf_w2b_X n v).1.length = n :=
  ⟨(printf_w2b_x_upper n v).1, (printf_w2b_x_upper n v).2.1, (printf_w2b_x_upper n v).2.2,
    printf_w2b_x_length n v, printf_w2b_X_length n v⟩

/-- C28, counterexample: for `#08x` on the 32-bit value 0xAB the call emits
`0x0000ab`, the sigil before the pad run, where the order of the specification
gives `00000xab`; for `#8x` it emits four spaces and `0xab`, the pad run before
the sigil, where the order of the specification gives `0x` and four spaces
and `ab`. -/
theorem spec_emission_order_refuted :
    (printf_int true os_full 13 (writebuf_get (List.replicate 16 'z') 16 1) (Sys.mk 0 [])
        "#08x".toList 0xAB 4).map (fun res => emitted res.1 res.2.1)
      = some (on_fd 1 "0x0000ab".toList) ∧
    spec_emission_order (itemformat_int_get 5 8 1 FormatConvSpec_Int.x)
        (printf_int_locals true (itemformat_int_get 5 8 1 FormatConvSpec_Int.x) 0xAB 4)
      = "00000xab".toList ∧
    (printf_int true os_full 13 (writebuf_get (List.replicate 16 'z') 16 1) (Sys.mk 0 [])
        "#8x".toList 0xAB 4).map (fun res => emitted res.1 res.2.1)
      = some (on_fd 1 "    0xab".toList) ∧
    spec_emission_order (itemformat_int_get 1 8 1 FormatConvSpec_Int.x)
        (printf_int_locals true (itemformat_int_get 1 8 1 FormatConvSpec_Int.x) 0xAB 4)
      = "0x    ab".toList := by
  decide

/-- C28, amended: on a system where the raw writer always completes, for every
accepted specifier without the left-adjust flag whose content length `L` is
below the field width `W`, `printf_int` returns `W` having emitted, with the
zero-pad flag, the sigil, then the sign, then the pad run of `W - L` zeros,
and without it the pad run of `W - L` spaces, then the sigil, then the sign;
after them the precision zeros, then the digits. -/
theorem emission_order (has_asr : Bool) (os : Os) (fuel0 fuel : Nat) (wb : ASSPF_WriteBuf)
    (sys : Sys) (format : List Char) (itemfmt : ItemFormat_Int) (value value_size : Nat)
    (hos : raw_writer_full os fuel0) (hwf : writebuf_wf wb)
    (hscan : format_scan_int format = some itemfmt) (hsize : value_size ∈ [1, 2, 4, 8])
    (hfuel : itemfmt.fieldwidth + itemfmt.precision + 3 + fuel0 ≤ fuel)
    (hleft : itemfmt.flags &&& FORMATFLAG_LEFT_ADJUST = 0)
    (hlt : content_length itemfmt (printf_int_locals has_asr itemfmt value value_size)
      < itemfmt.fieldwidth) :
    ∃ wb1 sys1,
      printf_int has_asr os fuel wb sys format value value_size
        = some (wb1, sys1, itemfmt.fieldwidth) ∧
      emitted wb1 sys1 = emitted wb sys ++ on_fd wb.fd
        ((if itemfmt.flags &&& FORMATFLAG_ZERO_PAD ≠ 0 then
            (printf_int_locals has_asr itemfmt value value_size).sigil_buf ++
            sign_bytes itemfmt (printf_int_locals has_asr itemfmt value value_size) ++
            List.replicate (itemfmt.fieldwidth
              - content_length itemfmt (printf_int_locals has_asr itemfmt value value_size)) '0'
          else
            List.replicate (itemfmt.fieldwidth
              - content_length itemfmt (printf_int_locals has_asr itemfmt value value_size)) ' ' ++
            (printf_int_locals has_asr itemfmt value value_size).sigil_buf ++
            sign_bytes itemfmt (printf_int_locals has_asr itemfmt value value_size)) ++
          List.replicate (printf_int_locals has_asr itemfmt value value_size).precision_pad '0' ++
          digit_bytes (printf_int_locals has_asr itemfmt value value_size)) := by
  obtain ⟨h1, h8⟩ := value_size_bounds value_size hsize
  obtain ⟨_, _, _, _, _, hL⟩ := printf_int_locals_facts has_asr itemfmt value value_size
    (format_scan_int_convspec format itemfmt hscan) h1 h8
  have hcl := hL
  unfold content_length at hcl
  by_cases hzero : itemfmt.flags &&& FORMATFLAG_ZERO_PAD ≠ 0
  · obtain ⟨wb1, sys1, hrun, hem, _⟩ := printf_int_emits has_asr os fuel0 hos fuel wb sys format
      itemfmt value value_size hscan hwf hsize hfuel _
      (rendered_right_zero has_asr itemfmt value value_size (by omega) hleft hzero)
    rw [← hL] at hrun hem
    refine ⟨wb1, sys1, ?_, ?_⟩
    · rw [hrun]
      simp only [List.length_append, List.length_replicate]
      congr 3
      omega
    · rw [hem, if_pos hzero]
  · obtain ⟨wb1, sys1, hrun, hem, _⟩ := printf_int_emits has_asr os fuel0 hos fuel wb sys format
      itemfmt value value_size hscan hwf hsize hfuel _
      (rendered_right_space has_asr itemfmt value value_size (by omega) hleft
        (by simpa using hzero))
    rw [← hL] at hrun hem
    refine ⟨wb1, sys1, ?_, ?_⟩
    · rw [hrun]
      simp only [List.length_append, List.length_replicate]
      congr 3
      omega
    · rw [hem, if_neg hzero]

/-- Witness of C28, amended: `#08x` and `#8x` on the 32-bit value 0xAB into an
empty buffer of 16 bytes. -/
theorem emission_order_witness :
    (∃ wb1 sys1,
      printf_int true os_full 13 (writebuf_get (List.replicate 16 'z') 16 1) (Sys.mk 0 [])
          "#08x".toList 0xAB 4 = some (wb1, sys1, 8) ∧
      emitted wb1 sys1 = on_fd 1 "0x0000ab".toList) ∧
    (∃ wb1 sys1,
      printf_int true os_full 13 (writebuf_get (List.replicate 16 'z') 16 1) (Sys.mk 0 [])
          "#8x".toList 0xAB 4 = some (wb1, sys1, 8) ∧
      emitted wb1 sys1 = on_fd 1 "    0xab".toList) := by
  constructor
  · obtain ⟨wb1, sys1, hrun, hem⟩ := emission_order true os_full 1 13
      (writebuf_get (List.replicate 16 'z') 16 1) (Sys.mk 0 []) "#08x".toList
      (itemformat_int_get 5 8 1 FormatConvSpec_Int.x) 0xAB 4
      os_full_raw_writer_full (by decide) (by decide) (by decide) (by decide) (by decide)
      (by decide)
    refine ⟨wb1, sys1, hrun, ?_⟩
    rw [hem]
    decide
  · obtain ⟨wb1, sys1, hrun, hem⟩ := emission_order true os_full 1 13
      (writebuf_get (List.replicate 16 'z') 16 1) (Sys.mk 0 []) "#8x".toList
      (itemformat_int_get 1 8 1 FormatConvSpec_Int.x) 0xAB 4
      os_full_raw_writer_full (by decide) (by decide) (by decide) (by decide) (by decide)
      (by decide)
    refine ⟨wb1, sys1, hrun, ?_⟩
    rw [hem]
    decide

/-! ## Sign extension, sigil style and digit counts -/

/-- C33. Signed reading: for every byte width `s` in 1..8 and every 64-bit
value `v`, `printf_read_raw_d` is the two's-complement reading of the low `8s`
bits of `v`: `v mod 2^(8s)`, minus `2^(8s)` when bit `8s - 1` is set.  The
portable branch of `asr_imax` and the native one give the same result, and
two values that agree on their low `8s` bits give the same result. -/
theorem signed_reading (has_asr : Bool) (v s : Nat) (h1 : 1 ≤ s) (h8 : s ≤ 8)
    (hv : v < 2 ^ 64) :
    printf_read_raw_d has_asr v s
      = (if v % 2 ^ (8 * s) < 2 ^ (8 * s - 1) then ((v % 2 ^ (8 * s) : Nat) : Int)
         else ((v % 2 ^ (8 * s) : Nat) : Int) - ((2 ^ (8 * s) : Nat) : Int)) ∧
    printf_read_raw_d false v s = printf_read_raw_d true v s ∧
    (∀ w, w < 2 ^ 64 → w % 2 ^ (8 * s) = v % 2 ^ (8 * s) →
      printf_read_raw_d has_asr w s = printf_read_raw_d has_asr v s) := by
  have h64 : (2 : Nat) ^ 64 = 18446744073709551616 := by norm_num
  rw [h64] at hv
  refine ⟨printf_read_raw_d_spec has_asr v s h1 h8 hv, ?_, ?_⟩
  · rw [printf_read_raw_d_spec false v s h1 h8 hv, printf_read_raw_d_spec true v s h1 h8 hv]
  · intro w hw hwv
    rw [h64] at hw
    rw [printf_read_raw_d_spec has_asr v s h1 h8 hv, printf_read_raw_d_spec has_asr w s h1 h8 hw,
      hwv]

/-- Witness of C33: the value 0x1FF read with width 1 is -1 on a target without
arithmetic right shift, and the value 0x7FFFFF read with width 3 is 8388607. -/
theorem signed_reading_witness :
    printf_read_raw_d false 511 1 = -1 ∧ printf_read_raw_d false 8388607 3 = 8388607 := by
  have h1 := (signed_reading false 511 1 (by decide) (by decide) (by decide)).1
  have h2 := (signed_reading false 8388607 3 (by decide) (by decide) (by decide)).1
  rw [h1, h2]
  decide

/-- C34. One alternate-form style: for every accepted specifier that carries
both the `#` and the `$` flag, the sigil of the call is the `#`-style one of
the conversion (`0b`, `0`, `0x`, nothing for `d` and `u`); on a system where
the raw writer always completes the call returns having emitted its head, digit
part and tail built with that sigil, and the `$`-style marker of the conversion
occurs nowhere in the bytes emitted. -/
theorem one_altform_style (has_asr : Bool) (os : Os) (fuel0 fuel : Nat) (wb : ASSPF_WriteBuf)
    (sys : Sys) (format : List Char) (itemfmt : ItemFormat_Int) (value value_size : Nat)
    (hos : raw_writer_full os fuel0) (hwf : writebuf_wf wb)
    (hscan : format_scan_int format = some itemfmt) (hsize : value_size ∈ [1, 2, 4, 8])
    (hfuel : itemfmt.fieldwidth + itemfmt.precision + 3 + fuel0 ≤ fuel)
    (hC : itemfmt.flags &&& FORMATFLAG_ALTFORM_C ≠ 0)
    (hM : itemfmt.flags &&& FORMATFLAG_ALTFORM_M ≠ 0) :
    (printf_int_locals has_asr itemfmt value value_size).sigil_buf
      = printf_flag_sigil_int_c itemfmt.convspec ∧
    ∃ wb1 sys1 bytes,
      printf_int has_asr os fuel wb sys format value value_size
        = some (wb1, sys1, bytes.length) ∧
      emitted wb1 sys1 = emitted wb sys ++ on_fd wb.fd bytes ∧
      bytes = head_bytes itemfmt (printf_int_locals has_asr itemfmt value value_size) ++
        digit_part (printf_int_locals has_asr itemfmt value value_size) ++
        tail_bytes (printf_int_locals has_asr itemfmt value value_size) ∧
      ∀ m ∈ printf_flag_sigil_int_m itemfmt.convspec, m ∉ bytes := by
  have hs := sigil_buf_c_style has_asr itemfmt value value_size hC
  refine ⟨hs, ?_⟩
  obtain ⟨wb1, sys1, hrun, hem, _⟩ := printf_int_emits has_asr os fuel0 hos fuel wb sys format
    itemfmt value value_size hscan hwf hsize hfuel _ rfl
  refine ⟨wb1, sys1, _, hrun, hem, rfl, ?_⟩
  intro m hm hmem
  obtain ⟨m1, m2, m3⟩ := marker_not_written itemfmt.convspec m hm
  rcases rendered_chars has_asr itemfmt value value_size m hmem with h | h | h
  · rw [hs] at h; exact m1 h
  · exact m2 h
  · exact m3 h

/-- Witness of C34: `#$x` on the 8-bit value 0xAB emits `0xab`. -/
theorem one_altform_style_witness :
    ∃ wb1 sys1,
      printf_int true os_full 5 (writebuf_get (List.replicate 16 'z') 16 1) (Sys.mk 0 [])
          "#$x".toList 0xAB 1 = some (wb1, sys1, 4) ∧
      emitted wb1 sys1 = on_fd 1 "0xab".toList := by
  obtain ⟨_, wb1, sys1, bytes, hrun, hem, hb, _⟩ := one_altform_style true os_full 1 5
    (writebuf_get (List.replicate 16 'z') 16 1) (Sys.mk 0 []) "#$x".toList
    (itemformat_int_get 3 0 1 FormatConvSpec_Int.x) 0xAB 1
    os_full_raw_writer_full (by decide) (by decide) (by decide) (by decide) (by decide)
    (by decide)
  have hbytes : bytes = "0xab".toList := by rw [hb]; decide
  subst hbytes
  exact ⟨wb1, sys1, hrun, by rw [hem]; decide⟩

/-- C35, counterexample: under `o` on a value of 4 bytes `printf_ndigits_max` is
12 where the largest value, `2^32 - 1`, has 11 octal digits, and on a value of
8 bytes it is 24 where `2^64 - 1` has 22 octal digits. -/
theorem octal_digit_count_exceeds :
    printf_ndigits_max 4 FormatConvSpec_Int.o = 12 ∧
    base_digit_count 8 (largest_magnitude 4 FormatConvSpec_Int.o) = 11 ∧
    printf_ndigits_max 8 FormatConvSpec_Int.o = 24 ∧
    base_digit_count 8 (largest_magnitude 8 FormatConvSpec_Int.o) = 22 := by
  decide

/-- C35, amended: for every value width `s` in 1, 2, 4, 8 bytes,
`printf_ndigits_max` equals the number of digits of the largest magnitude of
that width under `d`, `u`, `b`, `x`, `X`, and under `o` for the widths 1 and
2; under `o` it is 12 for the width 4 and 24 for the width 8, one and two more
than that number; and for every conversion and value the generator called with
`printf_ndigits_max` returns exactly `printf_ndigits_max`. -/
theorem digit_count_law (s : Nat) (convspec : FormatConvSpec_Int) (value : Nat)
    (hs : s ∈ [1, 2, 4, 8]) (hconv : convspec ≠ FormatConvSpec_Int.UNSET) :
    (convspec ≠ FormatConvSpec_Int.o ∨ s ≤ 2 →
      printf_ndigits_max s convspec
        = base_digit_count (conv_base convspec) (largest_magnitude s convspec)) ∧
    (convspec = FormatConvSpec_Int.o → s = 4 →
      printf_ndigits_max s convspec
        = base_digit_count (conv_base convspec) (largest_magnitude s convspec) + 1) ∧
    (convspec = FormatConvSpec_Int.o → s = 8 →
      printf_ndigits_max s convspec
        = base_digit_count (conv_base convspec) (largest_magnitude s convspec) + 2) ∧
    printf_int_base_result convspec (printf_ndigits_max s convspec) value
      = printf_ndigits_max s convspec := by
  refine ⟨?_, ?_, ?_, printf_int_base_result_eq convspec s value hconv⟩
  · simp only [List.mem_cons, List.mem_singleton, List.not_mem_nil, or_false] at hs
    intro h
    rcases hs with rfl | rfl | rfl | rfl <;> cases convspec <;>
      first
        | exact absurd rfl hconv
        | decide
        | (rcases h with h | h
           · exact absurd rfl h
           · omega)
  · intro hc h4
    subst hc h4
    decide
  · intro hc h8
    subst hc h8
    decide

/-- Witness of C35, amended: the width 4 under `x` (8 digits) and under `o`
(12 digits, one more than the 11 of `2^32 - 1`). -/
theorem digit_count_law_witness :
    printf_ndigits_max 4 FormatConvSpec_Int.x = 8 ∧
    printf_ndigits_max 4 FormatConvSpec_Int.o = 11 + 1 ∧
    printf_int_base_result FormatConvSpec_Int.o (printf_ndigits_max 4 FormatConvSpec_Int.o) 9
      = printf_ndigits_max 4 FormatConvSpec_Int.o :=
  ⟨((digit_count_law 4 FormatConvSpec_Int.x 0 (by decide) (by decide)).1
      (Or.inl (by decide))).trans (by decide),
   ((digit_count_law 4 FormatConvSpec_Int.o 0 (by decide) (by decide)).2.1 rfl rfl).trans
      (by decide),
   (digit_count_law 4 FormatConvSpec_Int.o 9 (by decide) (by decide)).2.2.2⟩

/-- C36. Digit workspace bound: for every specifier with a resolved conversion
(any flags, width and precision), every value and every value width `s` in 1..8
bytes, `printf_ndigits_max` is at least 1 and at most 64, the size of the
workspace; the generator fills exactly `digit_buf[0 .. ndigits_max)`; the digit
count chosen for emission is at least 1 and at most `ndigits_max`; so the range
`digit_buf[ndigits_max - ndigits .. ndigits_max)` read for emission lies inside
what the generator has written, and has `ndigits` characters. -/
theorem digit_workspace_bound (has_asr : Bool) (itemfmt : ItemFormat_Int) (value s : Nat)
    (hconv : itemfmt.convspec ≠ FormatConvSpec_Int.UNSET) (h1 : 1 ≤ s) (h8 : s ≤ 8) :
    1 ≤ printf_ndigits_max s itemfmt.convspec ∧ printf_ndigits_max s itemfmt.convspec ≤ 64 ∧
    (printf_int_locals has_asr itemfmt value s).ndigits_max
      = printf_ndigits_max s itemfmt.convspec ∧
    (printf_int_locals has_asr itemfmt value s).digit_buf.length
      = printf_ndigits_max s itemfmt.convspec ∧
    printf_int_base_result itemfmt.convspec (printf_ndigits_max s itemfmt.convspec) value
      = printf_ndigits_max s itemfmt.convspec ∧
    1 ≤ (printf_int_locals has_asr itemfmt value s).ndigits ∧
    (printf_int_locals has_asr itemfmt value s).ndigits
      ≤ printf_ndigits_max s itemfmt.convspec ∧
    (printf_int_locals has_asr itemfmt value s).ndigits_max
        - (printf_int_locals has_asr itemfmt value s).ndigits
        + (printf_int_locals has_asr itemfmt value s).ndigits
      ≤ (printf_int_locals has_asr itemfmt value s).digit_buf.length ∧
    (digit_bytes (printf_int_locals has_asr itemfmt value s)).length
      = (printf_int_locals has_asr itemfmt value s).ndigits := by
  obtain ⟨hm1, hm64⟩ := printf_ndigits_max_bounds s itemfmt.convspec hconv h1 h8
  obtain ⟨hlen, hn1, hn2, _, hdl, _⟩ := printf_int_locals_facts has_asr itemfmt value s hconv h1 h8
  have hmax : (printf_int_locals has_asr itemfmt value s).ndigits_max
      = printf_ndigits_max s itemfmt.convspec := rfl
  rw [hmax] at hlen hn2
  refine ⟨hm1, hm64, hmax, hlen, printf_int_base_result_eq _ s value hconv, hn1, hn2, ?_, hdl⟩
  rw [hmax, hlen]
  omega

/-- Witness of C36: `.99b` on a value of 8 bytes: 64 binary digits, all of them
emitted after 35 precision zeros. -/
theorem digit_workspace_bound_witness :
    printf_ndigits_max 8 FormatConvSpec_Int.b = 64 ∧
    (printf_int_locals true (itemformat_int_get 0 0 99 FormatConvSpec_Int.b) 5 8).ndigits
      ≤ 64 := by
  obtain ⟨_, h64, _, _, _, _, hn, _⟩ := digit_workspace_bound true
    (itemformat_int_get 0 0 99 FormatConvSpec_Int.b) 5 8 (by decide) (by decide) (by decide)
  exact ⟨by decide, le_trans hn h64⟩

/-! ## Stream order and pad runs -/

/-- C37. Stream order: for any sequence of `asspf_write` and `asspf_flush`
calls on one well-formed buffer that starts empty, on every system and with
any fuel, once the calls have returned the bytes delivered to the system
followed by the bytes still in the buffer are the bytes delivered before,
followed by the first `r_i` bytes of each written source in call order, `r_i`
being the value that `asspf_write` call returned (`r_i` never exceeds the size
of its source).  The raw writer of the embedding delivers, on every call, a
start of the bytes offered and returns its length. -/
theorem stream_order (os : Os) (fuel : Nat) (wb wb1 : ASSPF_WriteBuf) (sys sys1 : Sys)
    (calls : List BufferCall) (rets : List Nat) (hwf : writebuf_wf wb) (hempty : wb.nmemb = 0)
    (hrun : run_calls os fuel wb sys calls = some (wb1, sys1, rets)) :
    sys1.out ++ on_fd wb1.fd (wb1.buf.take wb1.nmemb)
      = sys.out ++ on_fd wb.fd (accepted_bytes calls rets) ∧
    rets.length = calls.length ∧ wb1.fd = wb.fd ∧ writebuf_wf wb1 := by
  obtain ⟨h1, _, h3, h4, h5⟩ := run_calls_emitted os fuel calls wb wb1 sys sys1 rets hwf hrun
  refine ⟨?_, h4, h3, h1⟩
  have h6 : emitted wb sys = sys.out := by simp [emitted, hempty, on_fd]
  rw [h6] at h5
  exact h5

/-- Witness of C37: on a system that accepts one byte and then fails, the
calls write `abc`, write `xy`, flush, write `hello`, write `q` on an empty
buffer of 4 bytes return 3, 0, 2, 0, 1; `a` is delivered and `bcq` is in the
buffer. -/
theorem stream_order_witness :
    [((1 : Int), 'a')] ++ on_fd 1 ((['b', 'c', 'q', 'z'] : List Char).take 3)
      = [] ++ on_fd 1 (accepted_bytes
          [BufferCall.write "abc".toList, BufferCall.write "xy".toList, BufferCall.flush,
            BufferCall.write "hello".toList, BufferCall.write "q".toList] [3, 0, 2, 0, 1]) :=
  (stream_order os_one_byte 5 (ASSPF_WriteBuf.mk ['z', 'z', 'z', 'z'] 4 0 1)
    (ASSPF_WriteBuf.mk ['b', 'c', 'q', 'z'] 4 3 1) (Sys.mk 0 []) (Sys.mk 4 [(1, 'a')])
    [BufferCall.write "abc".toList, BufferCall.write "xy".toList, BufferCall.flush,
      BufferCall.write "hello".toList, BufferCall.write "q".toList] [3, 0, 2, 0, 1]
    (by decide) (by decide) (by decide)).1

/-- C38. Pad-run termination: the counts that `printf_int_body` passes to
`printf_put_repchar` are at least 1 (the adjustment size whenever an
adjustment is made, the precision pad under its guard), and the body itself,
with its three guarded pad runs, returns for every specifier with a resolved
conversion, every value, every value width from 1 to 8 and enough fuel on a
system where the raw writer returns; on such a system, for every count of at
least 1 and enough fuel `printf_put_repchar` returns, and what it does is
exactly the buffered writes of the pad character in the sizes
`repchar_sizes count`, each between 1 and 64, whose sum is `count`; on the
count 0 it returns for no fuel at all, so that a body that returns has made
no pad run of count 0. -/
theorem pad_run_terminates :
    (∀ (has_asr : Bool) (itemfmt : ItemFormat_Int) (value value_size : Nat),
      ((printf_int_locals has_asr itemfmt value value_size).adjust_type ≠ 0 →
        1 ≤ (printf_int_locals has_asr itemfmt value value_size).adjust_size) ∧
      ((printf_int_locals has_asr itemfmt value value_size).precision_pad ≠ 0 →
        1 ≤ (printf_int_locals has_asr itemfmt value value_size).precision_pad)) ∧
    (∀ (has_asr : Bool) (os : Os) (fuel0 fuel : Nat) (wb : ASSPF_WriteBuf) (sys : Sys)
      (itemfmt : ItemFormat_Int) (value value_size : Nat),
      raw_writer_returns os fuel0 → itemfmt.convspec ≠ FormatConvSpec_Int.UNSET →
      1 ≤ value_size → value_size ≤ 8 →
      itemfmt.fieldwidth + itemfmt.precision + 3 + fuel0 ≤ fuel →
      ∃ res, printf_int_body has_asr os fuel wb sys itemfmt value value_size = some res) ∧
    (∀ (os : Os) (fuel0 fuel : Nat) (wb : ASSPF_WriteBuf) (sys : Sys) (c : Char)
      (count : Nat), raw_writer_returns os fuel0 → 1 ≤ count → count + 3 + fuel0 ≤ fuel →
      ∃ res, printf_put_repchar os fuel wb sys c count = some res ∧
        write_all os fuel c (repchar_sizes count) (wb, sys, 0) = some res ∧
        (∀ n ∈ repchar_sizes count, 1 ≤ n ∧ n ≤ 64) ∧ (repchar_sizes count).sum = count) ∧
    (∀ (os : Os) (fuel : Nat) (wb : ASSPF_WriteBuf) (sys : Sys) (c : Char),
      printf_put_repchar os fuel wb sys c 0 = none) := by
  refine ⟨?_, ?_, ?_, ?_⟩
  · intro has_asr itemfmt value value_size
    obtain ⟨hadj1, hadj0⟩ := printf_int_locals_adjust has_asr itemfmt value value_size
    refine ⟨fun hne => ?_, fun hne => by omega⟩
    by_cases hlt : (printf_int_locals has_asr itemfmt value value_size).printed_size
        < itemfmt.fieldwidth
    · obtain ⟨_, hsz, _⟩ := hadj1 hlt
      omega
    · exact absurd (hadj0 hlt).1 hne
  · intro has_asr os fuel0 fuel wb sys itemfmt value value_size hos hconv h1 h8 hfuel
    exact printf_int_body_returns has_asr os fuel0 hos fuel wb sys itemfmt value value_size
      hconv h1 h8 hfuel
  · intro os fuel0 fuel wb sys c count hos hcount hfuel
    have heq := printf_put_repchar_do_eq os fuel0 hos fuel c count hcount hfuel (wb, sys, 0)
    obtain ⟨res, hres⟩ := write_all_returns os fuel0 hos fuel (by omega) c (repchar_sizes count)
      (wb, sys, 0)
    obtain ⟨hs1, hs2⟩ := repchar_sizes_facts count
    refine ⟨res, ?_, hres, hs1, hs2⟩
    unfold printf_put_repchar
    rw [heq, hres]
  · intro os fuel wb sys c
    exact printf_put_repchar_do_zero os c fuel 64 (wb, sys, 0)

/-- Witness of C38: on the system that accepts everything the body returns
on the value 5 under `d` with no width, where it makes no pad run at all and
writes the one byte `5`, and with the left-adjusted width 6, where its one pad
run has the count 5; a pad run of 130 spaces is the writes of 64, 64 and 2
spaces. -/
theorem pad_run_terminates_witness :
    (∃ res, printf_int_body false os_full 5 (writebuf_get (List.replicate 16 'z') 16 1)
        (Sys.mk 0 []) (itemformat_int_get 0 0 1 FormatConvSpec_Int.d) 5 1 = some res) ∧
    printf_int_body false os_full 5 (writebuf_get (List.replicate 16 'z') 16 1)
        (Sys.mk 0 []) (itemformat_int_get 0 0 1 FormatConvSpec_Int.d) 5 1
      = some (ASSPF_WriteBuf.mk (['5'] ++ List.replicate 15 'z') 16 1 1, Sys.mk 0 [], 1) ∧
    (printf_int_locals false
        (itemformat_int_get FORMATFLAG_LEFT_ADJUST 6 1 FormatConvSpec_Int.d) 5 1).adjust_size
      = 5 ∧
    printf_int_body false os_full 11 (writebuf_get (List.replicate 16 'z') 16 1)
        (Sys.mk 0 []) (itemformat_int_get FORMATFLAG_LEFT_ADJUST 6 1 FormatConvSpec_Int.d) 5 1
      = some (ASSPF_WriteBuf.mk (['5', ' ', ' ', ' ', ' ', ' '] ++ List.replicate 10 'z') 16 6 1,
          Sys.mk 0 [], 6) ∧
    ∃ res, printf_put_repchar os_full 134 (writebuf_get (List.replicate 16 'z') 16 1)
        (Sys.mk 0 []) ' ' 130 = some res ∧
      write_all os_full 134 ' ' [64, 64, 2]
        (writebuf_get (List.replicate 16 'z') 16 1, Sys.mk 0 [], 0) = some res := by
  refine ⟨?_, by decide, by decide, by decide, ?_⟩
  · exact pad_run_terminates.2.1 false os_full 1 5
      (writebuf_get (List.replicate 16 'z') 16 1) (Sys.mk 0 [])
      (itemformat_int_get 0 0 1 FormatConvSpec_Int.d) 5 1
      (raw_writer_full_returns os_full 1 os_full_raw_writer_full)
      (by decide) (by decide) (by decide) (by decide)
  · obtain ⟨res, h1, h2, _⟩ := pad_run_terminates.2.2.1 os_full 1 134
      (writebuf_get (List.replicate 16 'z') 16 1) (Sys.mk 0 []) ' ' 130
      (raw_writer_full_returns os_full 1 os_full_raw_writer_full)
      (by decide) (by decide)
    exact ⟨res, h1, h2⟩

end Asspf

namespace Xoroshiro1024PlusPlus

/-! ## The zero check -/

theorem seed_loop_true_iff (buf : List Nat) :
    ∀ n i : Nat, xoroshiro1024plusplus_seed_loop buf n i = true ↔
      ∃ j, i ≤ j ∧ j < i + n ∧ buf.getD j 0 ≠ 0 := by
  intro n
  induction n with
  | zero =>
    intro i
    simp only [xoroshiro1024plusplus_seed_loop, Bool.false_eq_true, false_iff]
    rintro ⟨j, h1, h2, _⟩
    omega
  | succ n ih =>
    intro i
    unfold xoroshiro1024plusplus_seed_loop
    by_cases h : buf.getD i 0 ≠ 0
    · rw [if_pos h]
      exact ⟨fun _ => ⟨i, Nat.le_refl _, by omega, h⟩, fun _ => rfl⟩
    · rw [if_neg h, ih (i + 1)]
      constructor
      · rintro ⟨j, h1, h2, h3⟩
        exact ⟨j, by omega, by omega, h3⟩
      · rintro ⟨j, h1, h2, h3⟩
        have hji : j ≠ i := fun e => h (e ▸ h3)
        exact ⟨j, by omega, by omega, h3⟩

theorem seed_loop_false_iff (buf : List Nat) (hlen : buf.length = 128) :
    xoroshiro1024plusplus_seed_loop buf 128 0 = false ↔ ∀ b ∈ buf, b = 0 := by
  rw [← Bool.not_eq_true, seed_loop_true_iff]
  constructor
  · intro h b hb
    obtain ⟨j, hj, hbj⟩ := List.mem_iff_getElem.mp hb
    by_contra hne
    apply h
    refine ⟨j, Nat.zero_le _, by omega, ?_⟩
    rw [List.getD_eq_getElem _ _ hj, hbj]
    exact hne
  · rintro h ⟨j, _, hj, hne⟩
    have hjl : j < buf.length := by omega
    rw [List.getD_eq_getElem _ _ hjl] at hne
    exact hne (h _ (List.getElem_mem _))

/-! ## The object representation of a word -/

theorem list_of_length_8 (c : List Nat) (h : c.length = 8) :
    ∃ b0 b1 b2 b3 b4 b5 b6 b7, c = [b0, b1, b2, b3, b4, b5, b6, b7] := by
  match c, h with
  | [b0, b1, b2, b3, b4, b5, b6, b7], _ => exact ⟨b0, b1, b2, b3, b4, b5, b6, b7, rfl⟩

theorem uint64_bytes_of_bytes (big_endian : Bool) (c : List Nat) (hlen : c.length = 8)
    (hb : ∀ b ∈ c, b < 256) : uint64_bytes big_endian (uint64_of_bytes big_endian c) = c := by
  obtain ⟨b0, b1, b2, b3, b4, b5, b6, b7, rfl⟩ := list_of_length_8 c hlen
  have h0 := hb b0 (by simp)
  have h1 := hb b1 (by simp)
  have h2 := hb b2 (by simp)
  have h3 := hb b3 (by simp)
  have h4 := hb b4 (by simp)
  have h5 := hb b5 (by simp)
  have h6 := hb b6 (by simp)
  have h7 := hb b7 (by simp)
  have hr : List.range 8 = [0, 1, 2, 3, 4, 5, 6, 7] := by decide
  cases big_endian
  · simp only [uint64_bytes, uint64_of_bytes, hr, Bool.false_eq_true, if_false, List.foldr_cons,
      List.foldr_nil, List.map_cons, List.map_nil, List.cons.injEq, and_true]
    norm_num
    refine ⟨?_, ?_, ?_, ?_, ?_, ?_, ?_, ?_⟩ <;> omega
  · simp only [uint64_bytes, uint64_of_bytes, hr, if_true, List.foldr_cons,
      List.foldr_nil, List.map_cons, List.map_nil, List.reverse_cons, List.reverse_nil,
      List.nil_append, List.cons_append, List.cons.injEq, and_true]
    norm_num
    refine ⟨?_, ?_, ?_, ?_, ?_, ?_, ?_, ?_⟩ <;> omega

/-! ## The copy -/

theorem chunks_flatMap : ∀ (n : Nat) (l : List Nat), l.length = 8 * n →
    (List.range n).flatMap (fun i => (l.drop (8 * i)).take 8) = l := by
  intro n
  induction n with
  | zero =>
    intro l h
    have hl : l = [] := List.length_eq_zero.mp (by omega)
    subst hl
    rfl
  | succ n ih =>
    intro l h
    have ih1 := ih (l.drop 8) (by rw [List.length_drop]; omega)
    rw [List.range_succ_eq_map, List.flatMap_cons, List.flatMap_map]
    have hf : ∀ i ∈ List.range n, (l.drop (8 * Nat.succ i)).take 8
        = ((l.drop 8).drop (8 * i)).take 8 := by
      intro i _
      rw [List.drop_drop]
      congr 2
      omega
    rw [List.flatMap_congr hf, ih1]
    simp

theorem chunk_facts (buf : List Nat) (hlen : buf.length = 128) (hb : ∀ b ∈ buf, b < 256)
    (i : Nat) (hi : i < 16) :
    ((buf.drop (8 * i)).take 8).length = 8 ∧ ∀ b ∈ (buf.drop (8 * i)).take 8, b < 256 := by
  refine ⟨by rw [List.length_take, List.length_drop]; omega, ?_⟩
  intro b hbm
  exact hb b (List.mem_of_mem_drop (List.mem_of_mem_take hbm))

theorem memcpy_words_length (big_endian : Bool) (buf : List Nat) :
    (memcpy_words big_endian buf).length = 16 := by
  simp [memcpy_words]

theorem memcpy_words_getD (big_endian : Bool) (buf : List Nat) (i : Nat) (hi : i < 16) :
    (memcpy_words big_endian buf).getD i 0
      = uint64_of_bytes big_endian ((buf.drop (8 * i)).take 8) := by
  have hl : i < (memcpy_words big_endian buf).length := by
    rw [memcpy_words_length]; exact hi
  rw [List.getD_eq_getElem _ _ hl]
  simp [memcpy_words]

theorem memcpy_words_bytes (big_endian : Bool) (buf : List Nat) (hlen : buf.length = 128)
    (hb : ∀ b ∈ buf, b < 256) :
    (memcpy_words big_endian buf).flatMap (uint64_bytes big_endian) = buf := by
  unfold memcpy_words
  rw [List.flatMap_map]
  have hf : ∀ i ∈ List.range 16,
      uint64_bytes big_endian (uint64_of_bytes big_endian ((buf.drop (8 * i)).take 8))
        = (buf.drop (8 * i)).take 8 := by
    intro i hi
    obtain ⟨h1, h2⟩ := chunk_facts buf hlen hb i (List.mem_range.mp hi)
    exact uint64_bytes_of_bytes big_endian _ h1 h2
  rw [List.flatMap_congr hf]
  exact chunks_flatMap 16 buf (by omega)

theorem uint64_of_bytes_lt (big_endian : Bool) (c : List Nat) :
    uint64_of_bytes big_endian c < 2 ^ 64 :=
  Nat.mod_lt _ (by norm_num)

/-- C29. Seeding: for every source of 128 bytes, `xoroshiro1024plusplus_seed`
returns 1 with the destination unchanged if and only if all the bytes are
zero; for a source with a byte that is not zero it returns 0, sets `p` to 0
and sets the 16 words of `s` to the 128 source bytes copied verbatim: the
object representation of word `i` is `buf[8i .. 8i + 8)`, and that of the 16
words is `buf`. -/
theorem seed_law (big_endian : Bool) (dest : X_Xoroshiro1024PlusPlus_Seed)
    (src : X_Xoroshiro1024PlusPlus_SrcBuf) (hlen : src.buf.length = 128)
    (hb : ∀ b ∈ src.buf, b < 256) :
    ((xoroshiro1024plusplus_seed big_endian dest src = (dest, 1)) ↔ ∀ b ∈ src.buf, b = 0) ∧
    ((xoroshiro1024plusplus_seed big_endian dest src).2 = 1 ↔ ∀ b ∈ src.buf, b = 0) ∧
    ((∃ b ∈ src.buf, b ≠ 0) →
      (xoroshiro1024plusplus_seed big_endian dest src).2 = 0 ∧
      (xoroshiro1024plusplus_seed big_endian dest src).1.p = 0 ∧
      (xoroshiro1024plusplus_seed big_endian dest src).1.s.length = 16 ∧
      (∀ w ∈ (xoroshiro1024plusplus_seed big_endian dest src).1.s, w < 2 ^ 64) ∧
      (∀ i < 16, uint64_bytes big_endian
          ((xoroshiro1024plusplus_seed big_endian dest src).1.s.getD i 0)
        = (src.buf.drop (8 * i)).take 8) ∧
      seed_bytes big_endian (xoroshiro1024plusplus_seed big_endian dest src).1 = src.buf) := by
  have hz := seed_loop_false_iff src.buf hlen
  by_cases hall : ∀ b ∈ src.buf, b = 0
  · have hloop := hz.mpr hall
    have hres : xoroshiro1024plusplus_seed big_endian dest src = (dest, 1) := by
      unfold xoroshiro1024plusplus_seed
      rw [hloop]
      rfl
    refine ⟨⟨fun _ => hall, fun _ => hres⟩, ⟨fun _ => hall, fun _ => by rw [hres]⟩, ?_⟩
    rintro ⟨b, hbm, hne⟩
    exact absurd (hall b hbm) hne
  · have hloop : xoroshiro1024plusplus_seed_loop src.buf 128 0 = true := by
      cases h : xoroshiro1024plusplus_seed_loop src.buf 128 0
      · exact absurd (hz.mp h) hall
      · rfl
    have hres : xoroshiro1024plusplus_seed big_endian dest src
        = (X_Xoroshiro1024PlusPlus_Seed.mk (memcpy_words big_endian src.buf) 0, 0) := by
      unfold xoroshiro1024plusplus_seed
      rw [hloop]
      rfl
    refine ⟨⟨fun h => ?_, fun h => absurd h hall⟩, ⟨fun h => ?_, fun h => absurd h hall⟩, ?_⟩
    · rw [hres] at h
      simp only [Prod.mk.injEq] at h
      exact absurd h.2 (by decide)
    · rw [hres] at h
      have h0 : (0 : Int) = 1 := h
      exact absurd h0 (by decide)
    · intro _
      rw [hres]
      refine ⟨rfl, rfl, memcpy_words_length big_endian src.buf, ?_, ?_,
        memcpy_words_bytes big_endian src.buf hlen hb⟩
      · intro w hw
        simp only [memcpy_words, List.mem_map] at hw
        obtain ⟨i, _, hwi⟩ := hw
        rw [← hwi]
        exact uint64_of_bytes_lt big_endian _
      · intro i hi
        simp only
        rw [memcpy_words_getD big_endian src.buf i hi]
        obtain ⟨h1, h2⟩ := chunk_facts src.buf hlen hb i hi
        exact uint64_bytes_of_bytes big_endian _ h1 h2

/-- Witness of C29: the source of 128 zero bytes is refused and leaves the
destination as it was; the source whose first byte is 5 and whose other bytes
are zero is accepted with `p` set to 0. -/
theorem seed_law_witness :
    xoroshiro1024plusplus_seed false (X_Xoroshiro1024PlusPlus_Seed.mk (List.replicate 16 9) 7)
        (X_Xoroshiro1024PlusPlus_SrcBuf.mk (List.replicate 128 0))
      = (X_Xoroshiro1024PlusPlus_Seed.mk (List.replicate 16 9) 7, 1) ∧
    (xoroshiro1024plusplus_seed false (X_Xoroshiro1024PlusPlus_Seed.mk (List.replicate 16 9) 7)
        (X_Xoroshiro1024PlusPlus_SrcBuf.mk (5 :: List.replicate 127 0))).2 = 0 ∧
    (xoroshiro1024plusplus_seed false (X_Xoroshiro1024PlusPlus_Seed.mk (List.replicate 16 9) 7)
        (X_Xoroshiro1024PlusPlus_SrcBuf.mk (5 :: List.replicate 127 0))).1.p = 0 :=
  ⟨(seed_law false (X_Xoroshiro1024PlusPlus_Seed.mk (List.replicate 16 9) 7)
      (X_Xoroshiro1024PlusPlus_SrcBuf.mk (List.replicate 128 0)) (by simp) (by simp)).1.mpr
      (by simp),
   ((seed_law false (X_Xoroshiro1024PlusPlus_Seed.mk (List.replicate 16 9) 7)
      (X_Xoroshiro1024PlusPlus_SrcBuf.mk (5 :: List.replicate 127 0))
      (by simp) (by simp)).2.2 ⟨5, by simp, by simp⟩).1,
   ((seed_law false (X_Xoroshiro1024PlusPlus_Seed.mk (List.replicate 16 9) 7)
      (X_Xoroshiro1024PlusPlus_SrcBuf.mk (5 :: List.replicate 127 0))
      (by simp) (by simp)).2.2 ⟨5, by simp, by simp⟩).2.1⟩

/-! ## The step function and the jump -/

theorem and_15 (x : Nat) : x &&& 0xF = x % 16 := Nat.and_pow_two_sub_one_eq_mod x 4

theorem rotl64_eq (has_builtin : Bool) (x k : Nat) (hk : k < 64) :
    rotl64 has_builtin x k = original_rotl x k := by
  unfold rotl64 original_rotl
  rw [Nat.mod_eq_of_lt hk]
  simp

theorem next_p (has_builtin : Bool) (seed : X_Xoroshiro1024PlusPlus_Seed) :
    (xoroshiro1024plusplus_next has_builtin seed).1.p = (seed.p + 1) % 16 := by
  have h : (xoroshiro1024plusplus_next has_builtin seed).1.p
      = ((seed.p + 1) % 2 ^ 32) &&& 0xF := rfl
  rw [h, and_15]
  omega

theorem next_length (has_builtin : Bool) (seed : X_Xoroshiro1024PlusPlus_Seed) :
    (xoroshiro1024plusplus_next has_builtin seed).1.s.length = seed.s.length := by
  simp [xoroshiro1024plusplus_next]

theorem next_state_iterate (has_builtin : Bool) (n : Nat) :
    ∀ seed : X_Xoroshiro1024PlusPlus_Seed, seed.p ≤ 15 →
      ((next_state has_builtin)^[n] seed).p = (seed.p + n) % 16 ∧
      ((next_state has_builtin)^[n] seed).s.length = seed.s.length := by
  induction n with
  | zero =>
    intro seed hp
    exact ⟨by simp; omega, rfl⟩
  | succ n ih =>
    intro seed hp
    rw [Function.iterate_succ_apply]
    have h1 : (next_state has_builtin seed).p = (seed.p + 1) % 16 := next_p has_builtin seed
    have h2 : (next_state has_builtin seed).s.length = seed.s.length :=
      next_length has_builtin seed
    obtain ⟨h3, h4⟩ := ih (next_state has_builtin seed) (by omega)
    rw [h3, h4, h1, h2]
    exact ⟨by omega, rfl⟩

theorem jump_j_returns (s : List Nat) (p : Nat) (n : Nat) :
    ∀ (fuel j : Nat) (tmp : List Nat), j + n = 16 → n < fuel →
      ∃ tmp1, xoroshiro1024plusplus_jump_j s p fuel j tmp = some tmp1 ∧
        tmp1.length = tmp.length := by
  induction n with
  | zero =>
    intro fuel j tmp hj hf
    obtain ⟨f, rfl⟩ : ∃ f, fuel = f + 1 := ⟨fuel - 1, by omega⟩
    refine ⟨tmp, ?_, rfl⟩
    unfold xoroshiro1024plusplus_jump_j
    rw [if_neg (by omega)]
  | succ n ih =>
    intro fuel j tmp hj hf
    obtain ⟨f, rfl⟩ : ∃ f, fuel = f + 1 := ⟨fuel - 1, by omega⟩
    unfold xoroshiro1024plusplus_jump_j
    rw [if_pos (by omega)]
    have hj1 : (j + 1) % 2 ^ 32 = j + 1 := Nat.mod_eq_of_lt (by omega)
    rw [hj1]
    obtain ⟨tmp1, h1, h2⟩ := ih f (j + 1)
      (tmp.set j (tmp.getD j 0 ^^^ s.getD (((j + p) % 2 ^ 32) &&& 0xF) 0)) (by omega) (by omega)
    exact ⟨tmp1, h1, by rw [h2, List.length_set]⟩

theorem jump_store_returns (p : Nat) (tmp : List Nat) (n : Nat) :
    ∀ (fuel i : Nat) (s : List Nat), i + n = 16 → n < fuel →
      ∃ s1, xoroshiro1024plusplus_jump_store p tmp fuel i s = some s1 ∧
        s1.length = s.length := by
  induction n with
  | zero =>
    intro fuel i s hi hf
    obtain ⟨f, rfl⟩ : ∃ f, fuel = f + 1 := ⟨fuel - 1, by omega⟩
    refine ⟨s, ?_, rfl⟩
    unfold xoroshiro1024plusplus_jump_store
    rw [if_neg (by omega)]
  | succ n ih =>
    intro fuel i s hi hf
    obtain ⟨f, rfl⟩ : ∃ f, fuel = f + 1 := ⟨fuel - 1, by omega⟩
    unfold xoroshiro1024plusplus_jump_store
    rw [if_pos (by omega)]
    have hi1 : (i + 1) % 2 ^ 32 = i + 1 := Nat.mod_eq_of_lt (by omega)
    rw [hi1]
    obtain ⟨s1, h1, h2⟩ := ih f (i + 1)
      (s.set (((i + p) % 2 ^ 32) &&& 0xF) (tmp.getD i 0)) (by omega) (by omega)
    exact ⟨s1, h1, by rw [h2, List.length_set]⟩

theorem two_pow_mod_ne_zero (k : Nat) (hk : k < 64) : 2 ^ k % 2 ^ 64 ≠ 0 := by
  rw [Nat.mod_eq_of_lt (Nat.pow_lt_pow_right (by norm_num) hk)]
  exact Nat.pos_iff_ne_zero.mp (Nat.pos_pow_of_pos k (by norm_num))

theorem two_pow_shift (k : Nat) : ((2 ^ k % 2 ^ 64) <<< 1) % 2 ^ 64 = 2 ^ (k + 1) % 2 ^ 64 := by
  have h : (2 : Nat) ^ (k + 1) = 2 ^ k * 2 := pow_succ 2 k
  rw [h, Nat.shiftLeft_eq, pow_one, Nat.mul_mod, Nat.mod_mod, ← Nat.mul_mod]

theorem jump_bit_returns (has_builtin : Bool) (fuel0 word : Nat) (hfuel0 : 17 ≤ fuel0)
    (n : Nat) :
    ∀ (fuel k : Nat) (seed : X_Xoroshiro1024PlusPlus_Seed) (tmp : List Nat),
      k + n = 64 → n < fuel →
      ∃ tmp1, xoroshiro1024plusplus_jump_bit has_builtin fuel0 word fuel (2 ^ k % 2 ^ 64)
          (seed, tmp) = some ((next_state has_builtin)^[n] seed, tmp1) ∧
        tmp1.length = tmp.length := by
  induction n with
  | zero =>
    intro fuel k seed tmp hk hf
    obtain ⟨f, rfl⟩ : ∃ f, fuel = f + 1 := ⟨fuel - 1, by omega⟩
    have hk64 : k = 64 := by omega
    subst hk64
    refine ⟨tmp, ?_, rfl⟩
    unfold xoroshiro1024plusplus_jump_bit
    simp
  | succ n ih =>
    intro fuel k seed tmp hk hf
    obtain ⟨f, rfl⟩ : ∃ f, fuel = f + 1 := ⟨fuel - 1, by omega⟩
    unfold xoroshiro1024plusplus_jump_bit
    rw [if_pos (two_pow_mod_ne_zero k (by omega)), two_pow_shift]
    have hin : ∃ tmp0, (if word &&& (2 ^ k % 2 ^ 64) ≠ 0
        then xoroshiro1024plusplus_jump_j seed.s seed.p fuel0 0 tmp else some tmp) = some tmp0 ∧
        tmp0.length = tmp.length := by
      split_ifs
      · exact jump_j_returns seed.s seed.p 16 fuel0 0 tmp (by omega) (by omega)
      · exact ⟨tmp, rfl, rfl⟩
    obtain ⟨tmp0, h0, hl0⟩ := hin
    rw [h0, Option.some_bind]
    obtain ⟨tmp1, h1, hl1⟩ := ih f (k + 1) (xoroshiro1024plusplus_next has_builtin seed).1 tmp0
      (by omega) (by omega)
    refine ⟨tmp1, ?_, by rw [hl1, hl0]⟩
    rw [h1, Function.iterate_succ_apply]
    rfl

theorem jump_i_returns (has_builtin : Bool) (fuel0 : Nat) (hfuel0 : 65 ≤ fuel0) (n : Nat) :
    ∀ (fuel i : Nat) (seed : X_Xoroshiro1024PlusPlus_Seed) (tmp : List Nat),
      i + n = 16 → n < fuel →
      ∃ tmp1, xoroshiro1024plusplus_jump_i has_builtin fuel0 fuel i (seed, tmp)
          = some ((next_state has_builtin)^[64 * n] seed, tmp1) ∧
        tmp1.length = tmp.length := by
  induction n with
  | zero =>
    intro fuel i seed tmp hi hf
    obtain ⟨f, rfl⟩ : ∃ f, fuel = f + 1 := ⟨fuel - 1, by omega⟩
    refine ⟨tmp, ?_, rfl⟩
    unfold xoroshiro1024plusplus_jump_i
    rw [if_neg (by omega)]
    rfl
  | succ n ih =>
    intro fuel i seed tmp hi hf
    obtain ⟨f, rfl⟩ : ∃ f, fuel = f + 1 := ⟨fuel - 1, by omega⟩
    unfold xoroshiro1024plusplus_jump_i
    rw [if_pos (by omega)]
    obtain ⟨tmp0, h0, hl0⟩ := jump_bit_returns has_builtin fuel0 (jump.getD i 0) (by omega) 64
      fuel0 0 seed tmp (by omega) (by omega)
    have h01 : (2 : Nat) ^ 0 % 2 ^ 64 = 0x1 := by norm_num
    rw [h01] at h0
    rw [h0, Option.some_bind]
    have hi1 : (i + 1) % 2 ^ 32 = i + 1 := Nat.mod_eq_of_lt (by omega)
    rw [hi1]
    obtain ⟨tmp1, h1, hl1⟩ := ih f (i + 1) ((next_state has_builtin)^[64] seed) tmp0
      (by omega) (by omega)
    refine ⟨tmp1, ?_, by rw [hl1, hl0]⟩
    rw [h1, ← Function.iterate_add_apply]
    have e : 64 * n + 64 = 64 * (n + 1) := by ring
    rw [e]

theorem jump_returns (has_builtin : Bool) (fuel : Nat) (seed : X_Xoroshiro1024PlusPlus_Seed)
    (hfuel : 65 ≤ fuel) :
    ∃ seed1 tmp, xoroshiro1024plusplus_jump has_builtin fuel seed = some seed1 ∧
      xoroshiro1024plusplus_jump_i has_builtin fuel fuel 0 (seed, List.replicate 16 0)
        = some ((next_state has_builtin)^[1024] seed, tmp) ∧
      seed1.p = ((next_state has_builtin)^[1024] seed).p ∧
      seed1.s.length = ((next_state has_builtin)^[1024] seed).s.length := by
  obtain ⟨tmp, h1, _⟩ := jump_i_returns has_builtin fuel hfuel 16 fuel 0 seed
    (List.replicate 16 0) (by omega) (by omega)
  have e : 64 * 16 = 1024 := by norm_num
  rw [e] at h1
  generalize (next_state has_builtin)^[1024] seed = st at h1 ⊢
  obtain ⟨s1, h2, hl2⟩ := jump_store_returns st.p tmp 16 fuel 0 st.s (by omega) (by omega)
  refine ⟨X_Xoroshiro1024PlusPlus_Seed.mk s1 st.p, tmp, ?_, h1, rfl, hl2⟩
  unfold xoroshiro1024plusplus_jump
  rw [h1, Option.some_bind]
  simp only
  rw [h2, Option.some_bind]

theorem store_order (s : List Nat) (p a b : Nat) :
    p ≠ ((p + 1) % 2 ^ 32) &&& 0xF ∧
    (s.set p a).set (((p + 1) % 2 ^ 32) &&& 0xF) b
      = (s.set (((p + 1) % 2 ^ 32) &&& 0xF) b).set p a := by
  have hne : p ≠ ((p + 1) % 2 ^ 32) &&& 0xF := by
    rw [and_15]
    omega
  exact ⟨hne, List.set_comm a b s hne⟩

/-- C39. The step function and its reference: on every state with `p <= 15`,
whichever branch of `rotl64` is compiled, `xoroshiro1024plusplus_next` returns
the value and leaves the state (the words and `p`) of the original `next` of
`test_old.c`, and so does the modified `next` of that file, which stores the two
words in the other order; the two indices stored to, `p` and `(p + 1) & 0xF`,
differ. -/
theorem next_is_original (has_builtin : Bool) (seed : X_Xoroshiro1024PlusPlus_Seed)
    (hp : seed.p ≤ 15) :
    xoroshiro1024plusplus_next has_builtin seed = original_next seed ∧
    modified_next seed = original_next seed ∧
    seed.p ≠ ((seed.p + 1) % 2 ^ 32) &&& 0xF := by
  have hp1 : (seed.p + 1) % 2 ^ 32 = seed.p + 1 := Nat.mod_eq_of_lt (by omega)
  obtain ⟨hne, _⟩ := store_order seed.s seed.p 0 0
  have hx : seed.s.getD seed.p 0 ^^^ seed.s.getD ((seed.p + 1) &&& 15) 0
      = seed.s.getD ((seed.p + 1) &&& 15) 0 ^^^ seed.s.getD seed.p 0 := Nat.xor_comm _ _
  refine ⟨?_, ?_, hne⟩
  · unfold xoroshiro1024plusplus_next original_next
    simp only [hp1, rotl64_eq has_builtin _ 25 (by norm_num),
      rotl64_eq has_builtin _ 36 (by norm_num), rotl64_eq has_builtin _ 23 (by norm_num), hx]
  · unfold modified_next original_next modified_rotl original_rotl
    rw [hp1] at hne
    simp only [hp1, hx]
    rw [List.set_comm _ _ _ hne.symm]

/-- Witness of C39: the state with the words 1 to 16 and `p = 15`. -/
theorem next_is_original_witness :
    xoroshiro1024plusplus_next false (X_Xoroshiro1024PlusPlus_Seed.mk (List.range' 1 16) 15)
      = original_next (X_Xoroshiro1024PlusPlus_Seed.mk (List.range' 1 16) 15) :=
  (next_is_original false (X_Xoroshiro1024PlusPlus_Seed.mk (List.range' 1 16) 15)
    (by decide)).1

/-- C40. The state invariant: a successful `xoroshiro1024plusplus_seed` leaves
`p = 0` and 16 words; on a state with `p <= 15`, `xoroshiro1024plusplus_next`
leaves `p = (p + 1) mod 16`, at most 15, and as many words as before; on a state
with `p <= 15` and 16 words, `xoroshiro1024plusplus_jump` with fuel 65 or more
returns, its first loop leaves the state of 1024 calls of
`xoroshiro1024plusplus_next`, and the state it leaves has the `p` of before the
call and 16 words; every index computed as `x & 0xF` is below 16. -/
theorem state_invariant :
    (∀ (big_endian : Bool) (dest : X_Xoroshiro1024PlusPlus_Seed)
      (src : X_Xoroshiro1024PlusPlus_SrcBuf),
      (xoroshiro1024plusplus_seed big_endian dest src).2 = 0 →
      (xoroshiro1024plusplus_seed big_endian dest src).1.p = 0 ∧
      (xoroshiro1024plusplus_seed big_endian dest src).1.s.length = 16) ∧
    (∀ (has_builtin : Bool) (seed : X_Xoroshiro1024PlusPlus_Seed), seed.p ≤ 15 →
      (xoroshiro1024plusplus_next has_builtin seed).1.p = (seed.p + 1) % 16 ∧
      (xoroshiro1024plusplus_next has_builtin seed).1.p ≤ 15 ∧
      (xoroshiro1024plusplus_next has_builtin seed).1.s.length = seed.s.length) ∧
    (∀ (has_builtin : Bool) (fuel : Nat) (seed : X_Xoroshiro1024PlusPlus_Seed),
      seed.p ≤ 15 → seed.s.length = 16 → 65 ≤ fuel →
      ∃ seed1 tmp, xoroshiro1024plusplus_jump has_builtin fuel seed = some seed1 ∧
        xoroshiro1024plusplus_jump_i has_builtin fuel fuel 0 (seed, List.replicate 16 0)
          = some ((next_state has_builtin)^[1024] seed, tmp) ∧
        seed1.p = seed.p ∧ seed1.s.length = 16) ∧
    (∀ x : Nat, x &&& 0xF < 16) := by
  refine ⟨?_, ?_, ?_, ?_⟩
  · intro big_endian dest src h
    unfold xoroshiro1024plusplus_seed at h ⊢
    split_ifs at h ⊢ with hc
    · exact ⟨rfl, by simp [memcpy_words]⟩
    · have h0 : (1 : Int) = 0 := h
      exact absurd h0 (by decide)
  · intro has_builtin seed hp
    have h1 := next_p has_builtin seed
    exact ⟨h1, by omega, next_length has_builtin seed⟩
  · intro has_builtin fuel seed hp hlen hfuel
    obtain ⟨seed1, tmp, h1, h2, h3, h4⟩ := jump_returns has_builtin fuel seed hfuel
    obtain ⟨h5, h6⟩ := next_state_iterate has_builtin 1024 seed hp
    refine ⟨seed1, tmp, h1, h2, ?_, ?_⟩
    · rw [h3, h5]
      omega
    · rw [h4, h6, hlen]
  · intro x
    rw [and_15]
    omega

/-- Witness of C40: the jump from the state with the words 1 to 16 and `p = 3`
returns with fuel 65 and leaves `p = 3` and 16 words. -/
theorem state_invariant_witness :
    ∃ seed1 tmp,
      xoroshiro1024plusplus_jump false 65 (X_Xoroshiro1024PlusPlus_Seed.mk (List.range' 1 16) 3)
        = some seed1 ∧
      xoroshiro1024plusplus_jump_i false 65 65 0
          (X_Xoroshiro1024PlusPlus_Seed.mk (List.range' 1 16) 3, List.replicate 16 0)
        = some ((next_state false)^[1024]
            (X_Xoroshiro1024PlusPlus_Seed.mk (List.range' 1 16) 3), tmp) ∧
      seed1.p = 3 ∧ seed1.s.length = 16 :=
  state_invariant.2.2.1 false 65 (X_Xoroshiro1024PlusPlus_Seed.mk (List.range' 1 16) 3)
    (by decide) (by decide) (by decide)

/-! ## States side by side -/

theorem force_eq {α : Type} (x : Nat) (k : Nat → α) : force x k = k x := by
  cases x <;> rfl

theorem lane_xor {k X x Y y : Nat} (h1 : Lane k X x) (h2 : Lane k Y y) :
    Lane k (X ^^^ Y) (x ^^^ y) := by
  intro i
  rw [Nat.testBit_xor, Nat.testBit_xor, h1 i, h2 i]

theorem lane_and {k X x Y y : Nat} (h1 : Lane k X x) (h2 : Lane k Y y) :
    Lane k (X &&& Y) (x &&& y) := by
  intro i
  rw [Nat.testBit_and, Nat.testBit_and, h1 i, h2 i]

theorem lane_shr {k X x : Nat} (n : Nat) (h : Lane k X x) :
    Lane k (X >>> (n * 1024)) (x >>> (n * 1)) := by
  intro i
  rw [Nat.testBit_shiftRight, Nat.testBit_shiftRight, h (n * 1 + i)]
  congr 1
  ring

theorem lane_shl {k X x : Nat} (n : Nat) (hk : k < 1024) (h : Lane k X x) :
    Lane k (X <<< (n * 1024)) (x <<< (n * 1)) := by
  intro i
  rw [Nat.testBit_shiftLeft, Nat.testBit_shiftLeft]
  by_cases hi : n ≤ i
  · have h1 : i ≥ n * 1 := by omega
    have h2 : 1024 * i + k ≥ n * 1024 := by omega
    have e : 1024 * i + k - n * 1024 = 1024 * (i - n * 1) + k := by omega
    simp only [h1, h2, decide_True, Bool.true_and, e]
    exact h _
  · have h1 : ¬ i ≥ n * 1 := by omega
    have h2 : ¬ 1024 * i + k ≥ n * 1024 := by omega
    simp only [h1, h2, decide_False, Bool.false_and]

theorem lane_mask (k n : Nat) (hk : k < 1024) :
    Lane k (2 ^ (n * 1024) - 1) (2 ^ (n * 1) - 1) := by
  intro i
  rw [Nat.testBit_two_pow_sub_one, Nat.testBit_two_pow_sub_one]
  by_cases hi : i < n
  · have h1 : i < n * 1 := by omega
    have h2 : 1024 * i + k < n * 1024 := by omega
    simp only [h1, h2]
  · have h1 : ¬ i < n * 1 := by omega
    have h2 : ¬ 1024 * i + k < n * 1024 := by omega
    simp only [h1, h2]

theorem lane_stepL {k X x : Nat} (hk : k < 1024) (h : Lane k X x) :
    Lane k (stepL 1024 X) (stepL 1 x) := by
  unfold stepL
  simp only [force_eq]
  have m64 := lane_mask k 64 hk
  have m896 := lane_mask k 896 hk
  have s0 := lane_and (lane_shr 64 h) m64
  have sF := lane_and h m64
  have sX := lane_xor s0 sF
  have w15 := lane_xor (lane_xor (lane_xor (lane_and (lane_shl 25 hk s0) m64) (lane_shr 39 s0)) sX)
    (lane_and (lane_shl 27 hk sX) m64)
  have w0 := lane_xor (lane_and (lane_shl 36 hk sX) m64) (lane_shr 28 sX)
  have mid := lane_shl 64 hk (lane_and (lane_shr 128 h) m896)
  exact lane_xor (lane_xor mid w0) (lane_shl 960 hk w15)

theorem lane_evn {k : Nat} (hk : k < 1024) (n : Nat) :
    ∀ (c X x A a : Nat), Lane k X x → Lane k A a →
      Lane k (evn 1024 n c X A) (evn 1 n c x a) := by
  induction n with
  | zero =>
    intro c X x A a _ hA
    exact hA
  | succ n ih =>
    intro c X x A a hX hA
    unfold evn
    simp only [force_eq]
    apply ih _ _ _ _ _ (lane_stepL hk hX)
    split_ifs
    · exact lane_xor hA hX
    · exact hA

theorem testBit_basis (n m : Nat) :
    (basis n).testBit m = true ↔ ∃ j, j < n ∧ m = 1025 * j := by
  induction n with
  | zero => simp [basis]
  | succ n ih =>
    unfold basis
    rw [force_eq, Nat.testBit_or, Bool.or_eq_true, ih, Nat.testBit_two_pow]
    constructor
    · rintro (⟨j, hj, rfl⟩ | h)
      · exact ⟨j, by omega, rfl⟩
      · exact ⟨n, by omega, (of_decide_eq_true h).symm⟩
    · rintro ⟨j, hj, rfl⟩
      by_cases hjn : j = n
      · subst hjn
        exact Or.inr (by simp)
      · exact Or.inl ⟨j, by omega, rfl⟩

theorem lane_basis (k : Nat) (hk : k < 1024) : Lane k (basis 1024) (2 ^ k) := by
  intro i
  rw [Nat.testBit_two_pow]
  by_cases hik : k = i
  · subst hik
    have h : (basis 1024).testBit (1024 * k + k) = true :=
      (testBit_basis 1024 _).mpr ⟨k, hk, by ring⟩
    rw [h]
    simp
  · have h : ¬ (basis 1024).testBit (1024 * i + k) = true := by
      rw [testBit_basis]
      rintro ⟨j, hj, e⟩
      omega
    simp only [hik, decide_False]
    exact (Bool.not_eq_true _ ▸ h).symm

set_option maxRecDepth 1000000 in
theorem char_poly_check : evn 1024 1025 char_poly (basis 1024) 0 = 0 := by
  decide!

theorem char_poly_basis (k : Nat) (hk : k < 1024) : evn 1 1025 char_poly (2 ^ k) 0 = 0 := by
  have h := lane_evn hk 1025 char_poly (basis 1024) (2 ^ k) 0 0 (lane_basis k hk)
    (fun i => by simp)
  rw [char_poly_check] at h
  apply Nat.eq_of_testBit_eq
  intro i
  rw [h i]
  simp

/-! ## The state change is linear -/

theorem shl_xor (a b n : Nat) : (a ^^^ b) <<< n = a <<< n ^^^ b <<< n := by
  apply Nat.eq_of_testBit_eq
  intro i
  simp only [Nat.testBit_shiftLeft, Nat.testBit_xor]
  cases decide (i ≥ n) <;> simp

theorem shr_xor (a b n : Nat) : (a ^^^ b) >>> n = a >>> n ^^^ b >>> n := by
  apply Nat.eq_of_testBit_eq
  intro i
  simp only [Nat.testBit_shiftRight, Nat.testBit_xor]

theorem xor_xor_xor_comm (a b c d : Nat) : (a ^^^ b) ^^^ (c ^^^ d) = (a ^^^ c) ^^^ (b ^^^ d) := by
  rw [Nat.xor_assoc, Nat.xor_assoc, ← Nat.xor_assoc b c d, Nat.xor_comm b c, Nat.xor_assoc c b d]

theorem xorLinear_zero {f : Nat → Nat} (hf : XorLinear f) : f 0 = 0 := by
  have h := hf 0 0
  rw [Nat.xor_self] at h
  have h2 : f 0 ^^^ f 0 = 0 := Nat.xor_self _
  rw [← h] at h2
  exact h2

theorem lin_id : XorLinear (fun v : Nat => v) := fun _ _ => rfl

theorem lin_xor {f g : Nat → Nat} (hf : XorLinear f) (hg : XorLinear g) :
    XorLinear (fun v => f v ^^^ g v) := by
  intro a b
  simp only [hf a b, hg a b, xor_xor_xor_comm]

theorem lin_and {f : Nat → Nat} (m : Nat) (hf : XorLinear f) :
    XorLinear (fun v => f v &&& m) := by
  intro a b
  simp only [hf a b, Nat.and_xor_distrib_right]

theorem lin_shl {f : Nat → Nat} (n : Nat) (hf : XorLinear f) :
    XorLinear (fun v => f v <<< n) := by
  intro a b
  simp only [hf a b, shl_xor]

theorem lin_shr {f : Nat → Nat} (n : Nat) (hf : XorLinear f) :
    XorLinear (fun v => f v >>> n) := by
  intro a b
  simp only [hf a b, shr_xor]

theorem stepL_linear : XorLinear (stepL 1) := by
  have s0 := lin_and (2 ^ (64 * 1) - 1) (lin_shr (64 * 1) lin_id)
  have sF := lin_and (2 ^ (64 * 1) - 1) lin_id
  have sX := lin_xor s0 sF
  have w15 := lin_xor (lin_xor (lin_xor (lin_and (2 ^ (64 * 1) - 1) (lin_shl (25 * 1) s0))
    (lin_shr (39 * 1) s0)) sX) (lin_and (2 ^ (64 * 1) - 1) (lin_shl (27 * 1) sX))
  have w0 := lin_xor (lin_and (2 ^ (64 * 1) - 1) (lin_shl (36 * 1) sX)) (lin_shr (28 * 1) sX)
  have mid := lin_shl (64 * 1) (lin_and (2 ^ (896 * 1) - 1) (lin_shr (128 * 1) lin_id))
  have h := lin_xor (lin_xor mid w0) (lin_shl (960 * 1) w15)
  intro a b
  unfold stepL
  simp only [force_eq]
  exact h a b

theorem shiftLeft_lt (x a b : Nat) (h : x < 2 ^ a) : x <<< b < 2 ^ (a + b) := by
  rw [Nat.shiftLeft_eq, pow_add]
  exact Nat.mul_lt_mul_of_lt_of_le h (le_refl _) (Nat.pos_pow_of_pos b (by norm_num))

theorem two_pow_pred_lt (n : Nat) : 2 ^ n - 1 < 2 ^ n :=
  Nat.sub_lt (Nat.pos_pow_of_pos n (by norm_num)) (by norm_num)

theorem stepL_lt (v : Nat) : stepL 1 v < 2 ^ 1024 := by
  unfold stepL
  simp only [force_eq]
  have hm : 2 ^ (64 * 1) - 1 < 2 ^ (64 * 1) := two_pow_pred_lt _
  have hm2 : 2 ^ (896 * 1) - 1 < 2 ^ (896 * 1) := two_pow_pred_lt _
  have hs0 : (v >>> (64 * 1)) &&& (2 ^ (64 * 1) - 1) < 2 ^ (64 * 1) := Nat.and_lt_two_pow _ hm
  have hsF : v &&& (2 ^ (64 * 1) - 1) < 2 ^ (64 * 1) := Nat.and_lt_two_pow _ hm
  have hsX := Nat.xor_lt_two_pow hs0 hsF
  have hshr : ∀ x n : Nat, x < 2 ^ (64 * 1) → x >>> n < 2 ^ (64 * 1) := fun x n hx => by
    rw [Nat.shiftRight_eq_div_pow]
    exact lt_of_le_of_lt (Nat.div_le_self _ _) hx
  have hw15 := Nat.xor_lt_two_pow (Nat.xor_lt_two_pow (Nat.xor_lt_two_pow
    (Nat.and_lt_two_pow (((v >>> (64 * 1)) &&& (2 ^ (64 * 1) - 1)) <<< (25 * 1)) hm)
    (hshr _ (39 * 1) hs0)) hsX)
    (Nat.and_lt_two_pow ((((v >>> (64 * 1)) &&& (2 ^ (64 * 1) - 1)) ^^^
      (v &&& (2 ^ (64 * 1) - 1))) <<< (27 * 1)) hm)
  have hw0 := Nat.xor_lt_two_pow
    (Nat.and_lt_two_pow ((((v >>> (64 * 1)) &&& (2 ^ (64 * 1) - 1)) ^^^
      (v &&& (2 ^ (64 * 1) - 1))) <<< (36 * 1)) hm)
    (hshr _ (28 * 1) hsX)
  have hmid := shiftLeft_lt _ (896 * 1) (64 * 1)
    (Nat.and_lt_two_pow (v >>> (128 * 1)) hm2)
  have h15 := shiftLeft_lt _ (64 * 1) (960 * 1) hw15
  have e1 : (2 : Nat) ^ (64 * 1) ≤ 2 ^ 1024 :=
    Nat.pow_le_pow_right (by norm_num) (by norm_num)
  have e2 : (2 : Nat) ^ (896 * 1 + 64 * 1) ≤ 2 ^ 1024 :=
    Nat.pow_le_pow_right (by norm_num) (by norm_num)
  have e3 : 64 * 1 + 960 * 1 = 1024 := by norm_num
  rw [e3] at h15
  exact Nat.xor_lt_two_pow (Nat.xor_lt_two_pow (lt_of_lt_of_le hmid e2)
    (lt_of_lt_of_le hw0 e1)) h15

/-! ## Sums of iterates -/

theorem evL_xor {f : Nat → Nat} (hf : XorLinear f) (l : List Nat) :
    ∀ a b, evL f l (a ^^^ b) = evL f l a ^^^ evL f l b := by
  induction l with
  | nil =>
    intro a b
    simp [evL]
  | cons x l ih =>
    intro a b
    unfold evL
    rw [hf a b, ih]
    split_ifs
    · rw [xor_xor_xor_comm]
    · simp

theorem evL_zero {f : Nat → Nat} (hf : XorLinear f) (l : List Nat) : evL f l 0 = 0 :=
  xorLinear_zero (evL_xor hf l)

theorem evL_comm {f : Nat → Nat} (hf : XorLinear f) (l : List Nat) :
    ∀ v, evL f l (f v) = f (evL f l v) := by
  induction l with
  | nil =>
    intro v
    exact (xorLinear_zero hf).symm
  | cons x l ih =>
    intro v
    unfold evL
    rw [hf, ih (f v)]
    split_ifs
    · rfl
    · rw [xorLinear_zero hf]

theorem evn_eq (L n : Nat) :
    ∀ c v acc, evn L n c v acc = acc ^^^ evL (stepL L) (bitsL n c) v := by
  induction n with
  | zero =>
    intro c v acc
    simp [evn, bitsL, evL]
  | succ n ih =>
    intro c v acc
    unfold evn bitsL evL
    simp only [force_eq]
    rw [ih]
    have h2 : c % 2 % 2 = c % 2 := Nat.mod_mod _ _
    rw [h2]
    split_ifs
    · rw [Nat.xor_assoc]
    · simp

theorem split_top_bit (v n : Nat) (hv : v < 2 ^ (n + 1)) :
    v = (v % 2 ^ n) ^^^ (if v.testBit n then 2 ^ n else 0) := by
  apply Nat.eq_of_testBit_eq
  intro i
  rw [Nat.testBit_xor, Nat.testBit_mod_two_pow]
  by_cases hi : i < n
  · have hne : ¬ n = i := by omega
    split_ifs <;> simp [hi, Nat.testBit_two_pow, hne]
  · by_cases hin : i = n
    · subst hin
      split_ifs with hb <;> simp [Nat.testBit_two_pow, hb]
    · have hlt : v < 2 ^ i :=
        lt_of_lt_of_le hv (Nat.pow_le_pow_right (by norm_num) (by omega))
      have hne : ¬ n = i := fun e => hin e.symm
      rw [Nat.testBit_lt_two_pow hlt]
      split_ifs <;> simp [hi, Nat.testBit_two_pow, hne]

/-- The characteristic polynomial annihilates the state change (Cayley and
Hamilton): the sum of the iterates of a state over its coefficients is 0. -/
theorem char_poly_annihilates (v : Nat) (hv : v < 2 ^ 1024) :
    evL (stepL 1) (bitsL 1025 char_poly) v = 0 := by
  have key : ∀ n, n ≤ 1024 → ∀ v, v < 2 ^ n →
      evL (stepL 1) (bitsL 1025 char_poly) v = 0 := by
    intro n
    induction n with
    | zero =>
      intro _ v hv
      have h0 : v = 0 := by simpa using hv
      rw [h0]
      exact evL_zero stepL_linear _
    | succ n ih =>
      intro hn v hv
      rw [split_top_bit v n hv, evL_xor stepL_linear,
        ih (by omega) _ (Nat.mod_lt _ (Nat.pos_pow_of_pos n (by norm_num)))]
      split_ifs
      · have h := char_poly_basis n (by omega)
        rw [evn_eq] at h
        exact h
      · rw [evL_zero stepL_linear]
        rfl
  exact key 1024 (le_refl _) v hv

/-! ## Polynomials with one coefficient in each slot -/

theorem ofD_cons (a : Nat) (l : List Nat) : ofD (a :: l) = a + 65536 * ofD l := by
  rw [ofD, force_eq]

theorem ofD_ladd : ∀ x y : List Nat, ofD (ladd x y) = ofD x + ofD y := by
  intro x
  induction x with
  | nil =>
    intro y
    simp [ladd, ofD]
  | cons a x ih =>
    intro y
    cases y with
    | nil => simp [ladd, ofD]
    | cons b y =>
      simp only [ladd, ofD_cons, ih y]
      ring

theorem ofD_map_mul (a : Nat) (l : List Nat) : ofD (l.map (fun b => a * b)) = a * ofD l := by
  induction l with
  | nil => simp [ofD]
  | cons b l ih =>
    simp only [List.map_cons, ofD_cons, ih]
    ring

theorem ofD_conv : ∀ x y : List Nat, ofD (conv x y) = ofD x * ofD y := by
  intro x
  induction x with
  | nil =>
    intro y
    simp [conv, ofD]
  | cons a x ih =>
    intro y
    simp only [conv, ofD_ladd, ofD_map_mul, ofD_cons, ih y]
    ring

theorem ofD_eq_zero (l : List Nat) (h : ofD l = 0) : ∀ a ∈ l, a = 0 := by
  induction l with
  | nil =>
    intro a ha
    cases ha
  | cons b l ih =>
    rw [ofD_cons] at h
    intro a ha
    rcases List.mem_cons.mp ha with e | e
    · omega
    · exact ih (by omega) a e

theorem ite_add_parity (a b v : Nat) :
    (if (a + b) % 2 = 1 then v else 0)
      = (if a % 2 = 1 then v else 0) ^^^ (if b % 2 = 1 then v else 0) := by
  rcases Nat.mod_two_eq_zero_or_one a with ha | ha <;>
    rcases Nat.mod_two_eq_zero_or_one b with hb | hb
  · have h : (a + b) % 2 = 0 := by omega
    simp [ha, hb, h]
  · have h : (a + b) % 2 = 1 := by omega
    simp [ha, hb, h]
  · have h : (a + b) % 2 = 1 := by omega
    simp [ha, hb, h]
  · have h : (a + b) % 2 = 0 := by omega
    simp [ha, hb, h]

theorem evL_ladd (f : Nat → Nat) :
    ∀ (x y : List Nat) (v : Nat), evL f (ladd x y) v = evL f x v ^^^ evL f y v := by
  intro x
  induction x with
  | nil =>
    intro y v
    simp [ladd, evL]
  | cons a x ih =>
    intro y v
    cases y with
    | nil => simp [ladd, evL]
    | cons b y =>
      simp only [ladd, evL, ih y (f v), ite_add_parity]
      rw [xor_xor_xor_comm]

theorem evL_even (f : Nat → Nat) :
    ∀ (l : List Nat) (v : Nat), (∀ a ∈ l, a % 2 = 0) → evL f l v = 0 := by
  intro l
  induction l with
  | nil =>
    intro v _
    rfl
  | cons a l ih =>
    intro v h
    have ha : a % 2 = 0 := h a (List.mem_cons_self _ _)
    simp only [evL, ha]
    rw [ih (f v) (fun b hb => h b (List.mem_cons_of_mem _ hb))]
    simp

theorem evL_map_mul (f : Nat → Nat) (a : Nat) :
    ∀ (l : List Nat) (v : Nat),
      evL f (l.map (fun b => a * b)) v = if a % 2 = 1 then evL f l v else 0 := by
  intro l
  induction l with
  | nil =>
    intro v
    simp [evL]
  | cons b l ih =>
    intro v
    simp only [List.map_cons, evL, ih (f v)]
    rcases Nat.mod_two_eq_zero_or_one a with ha | ha <;>
      rcases Nat.mod_two_eq_zero_or_one b with hb | hb
    · have h : (a * b) % 2 = 0 := by rw [Nat.mul_mod, ha]; simp
      simp [ha, hb, h]
    · have h : (a * b) % 2 = 0 := by rw [Nat.mul_mod, ha]; simp
      simp [ha, hb, h]
    · have h : (a * b) % 2 = 0 := by rw [Nat.mul_mod, hb]; simp
      simp [ha, hb, h]
    · have h : (a * b) % 2 = 1 := by rw [Nat.mul_mod, ha, hb]
      simp [ha, hb, h]

theorem evL_conv {f : Nat → Nat} (hf : XorLinear f) :
    ∀ (x y : List Nat) (v : Nat), evL f (conv x y) v = evL f x (evL f y v) := by
  intro x
  induction x with
  | nil =>
    intro y v
    simp [conv, evL]
  | cons a x ih =>
    intro y v
    have h0 : evL f (0 :: conv x y) v = evL f x (f (evL f y v)) := by
      simp only [evL]
      rw [ih y (f v), evL_comm hf y v]
      simp
    simp only [conv, evL_ladd, evL_map_mul, h0]
    simp only [evL]

theorem evL_map_mod (f : Nat → Nat) :
    ∀ (l : List Nat) (v : Nat), evL f (l.map (fun a => a % 2)) v = evL f l v := by
  intro l
  induction l with
  | nil =>
    intro v
    rfl
  | cons a l ih =>
    intro v
    simp only [List.map_cons, evL, ih (f v), Nat.mod_mod]

theorem evL_take (f : Nat → Nat) (n : Nat) :
    ∀ (l : List Nat) (v : Nat), (∀ a ∈ l.drop n, a % 2 = 0) →
      evL f (l.take n) v = evL f l v := by
  induction n with
  | zero =>
    intro l v h
    rw [List.take_zero, evL_even f l v (by simpa using h)]
    rfl
  | succ n ih =>
    intro l v h
    cases l with
    | nil => rfl
    | cons a l =>
      simp only [List.take_succ_cons, evL]
      rw [ih l (f v) (by simpa using h)]

theorem ladd_le (m k : Nat) :
    ∀ x y : List Nat, (∀ a ∈ x, a ≤ m) → (∀ b ∈ y, b ≤ k) → ∀ c ∈ ladd x y, c ≤ m + k := by
  intro x
  induction x with
  | nil =>
    intro y _ hy c hc
    simp only [ladd] at hc
    exact le_trans (hy c hc) (Nat.le_add_left _ _)
  | cons a x ih =>
    intro y hx hy c hc
    cases y with
    | nil =>
      simp only [ladd] at hc
      exact le_trans (hx c hc) (Nat.le_add_right _ _)
    | cons b y =>
      simp only [ladd] at hc
      rcases List.mem_cons.mp hc with e | e
      · have h1 := hx a (List.mem_cons_self _ _)
        have h2 := hy b (List.mem_cons_self _ _)
        omega
      · exact ih y (fun a ha => hx a (List.mem_cons_of_mem _ ha))
          (fun b hb => hy b (List.mem_cons_of_mem _ hb)) c e

theorem ladd_length : ∀ x y : List Nat, (ladd x y).length = max x.length y.length := by
  intro x
  induction x with
  | nil =>
    intro y
    simp [ladd]
  | cons a x ih =>
    intro y
    cases y with
    | nil => simp [ladd]
    | cons b y =>
      simp only [ladd, List.length_cons, ih y]
      omega

theorem conv_le : ∀ x y : List Nat, (∀ a ∈ x, a ≤ 1) → (∀ b ∈ y, b ≤ 1) →
    ∀ c ∈ conv x y, c ≤ x.length := by
  intro x
  induction x with
  | nil =>
    intro y _ _ c hc
    simp [conv] at hc
  | cons a x ih =>
    intro y hx hy c hc
    simp only [conv] at hc
    have ha := hx a (List.mem_cons_self _ _)
    have h1 : ∀ z ∈ y.map (fun b => a * b), z ≤ 1 := by
      intro z hz
      obtain ⟨b, hb, rfl⟩ := List.mem_map.mp hz
      have h2 := hy b hb
      exact Nat.mul_le_mul ha h2
    have h2 : ∀ z ∈ (0 :: conv x y), z ≤ x.length := by
      intro z hz
      rcases List.mem_cons.mp hz with e | e
      · omega
      · exact ih y (fun a ha => hx a (List.mem_cons_of_mem _ ha)) hy z e
    have h3 := ladd_le 1 x.length _ _ h1 h2 c hc
    simp only [List.length_cons]
    omega

theorem conv_length : ∀ x y : List Nat, (conv x y).length ≤ x.length + y.length := by
  intro x
  induction x with
  | nil =>
    intro y
    simp [conv]
  | cons a x ih =>
    intro y
    simp only [conv, ladd_length, List.length_map, List.length_cons]
    have h := ih y
    omega

theorem mask_succ (n : Nat) : mask (n + 1) = 1 + 65536 * mask n := by
  have h : ∀ k, mask k = ∑ i ∈ Finset.range k, 65536 ^ i := fun k =>
    (Nat.geomSum_eq (by norm_num) k).symm
  rw [h, h, Finset.sum_range_succ', Finset.mul_sum]
  simp only [pow_succ, pow_zero]
  rw [Nat.add_comm]
  congr 1
  apply Finset.sum_congr rfl
  intro i _
  ring

theorem mask_zero : mask 0 = 0 := by
  simp [mask]

theorem and_slot (X m : Nat) :
    X &&& (1 + 65536 * m) = X % 2 + 65536 * ((X / 65536) &&& m) := by
  have e1 : 1 + 65536 * m = 2 ^ 16 * m + 1 := by norm_num; ring
  have e2 : X % 2 + 65536 * ((X / 65536) &&& m) = 2 ^ 16 * ((X / 65536) &&& m) + X % 2 := by
    norm_num
    ring
  have h1 : (1 : Nat) < 2 ^ 16 := by norm_num
  have h2 : X % 2 < 2 ^ 16 := lt_of_lt_of_le (Nat.mod_lt _ (by norm_num)) (by norm_num)
  apply Nat.eq_of_testBit_eq
  intro i
  rw [Nat.testBit_and, e1, e2, Nat.testBit_mul_pow_two_add m h1,
    Nat.testBit_mul_pow_two_add _ h2]
  by_cases hi : i < 16
  · rw [if_pos hi, if_pos hi]
    have e3 : X % 2 = X % 2 ^ 1 := by norm_num
    have e4 : (1 : Nat) = 2 ^ 0 := by norm_num
    rw [e3, Nat.testBit_mod_two_pow]
    nth_rewrite 1 [e4]
    rw [Nat.testBit_two_pow]
    by_cases h0 : i = 0
    · subst h0
      simp
    · have h5 : ¬ i < 1 := by omega
      have h6 : ¬ 0 = i := fun e => h0 e.symm
      simp [h5, h6]
  · rw [if_neg hi, if_neg hi, Nat.testBit_and]
    have e5 : X / 65536 = X >>> 16 := by
      rw [Nat.shiftRight_eq_div_pow]
    rw [e5, Nat.testBit_shiftRight]
    have e6 : 16 + (i - 16) = i := by omega
    rw [e6]

theorem ofD_and_mask : ∀ (S : List Nat), (∀ a ∈ S, a < 65536) →
    ∀ n, ofD S &&& mask n = ofD ((S.take n).map (fun a => a % 2)) := by
  intro S
  induction S with
  | nil =>
    intro _ n
    simp [ofD]
  | cons a S ih =>
    intro hS n
    cases n with
    | zero => simp [mask_zero, ofD]
    | succ n =>
      have ha := hS a (List.mem_cons_self _ _)
      rw [mask_succ, and_slot, List.take_succ_cons, List.map_cons, ofD_cons, ofD_cons,
        ← ih (fun b hb => hS b (List.mem_cons_of_mem _ hb)) n]
      have h1 : (a + 65536 * ofD S) % 2 = a % 2 := by omega
      have h2 : (a + 65536 * ofD S) / 65536 = ofD S := by omega
      rw [h1, h2]

theorem ofD_shiftRight : ∀ (k : Nat) (S : List Nat), (∀ a ∈ S, a < 65536) →
    ofD S >>> (16 * k) = ofD (S.drop k) := by
  intro k
  induction k with
  | zero =>
    intro S _
    simp
  | succ k ih =>
    intro S hS
    cases S with
    | nil => simp [ofD]
    | cons a S =>
      have ha := hS a (List.mem_cons_self _ _)
      have e : 16 * (k + 1) = 16 + 16 * k := by ring
      rw [e, Nat.shiftRight_add, List.drop_succ_cons,
        ← ih S (fun b hb => hS b (List.mem_cons_of_mem _ hb)), ofD_cons]
      congr 1
      rw [Nat.shiftRight_eq_div_pow]
      omega

theorem and_mask_clean (n : Nat) :
    ∀ X : Nat, ∃ L : List Nat, L.length = n ∧ (∀ a ∈ L, a ≤ 1) ∧ X &&& mask n = ofD L := by
  induction n with
  | zero =>
    intro X
    exact ⟨[], rfl, (fun a ha => by cases ha), by simp [mask_zero, ofD]⟩
  | succ n ih =>
    intro X
    obtain ⟨L, h1, h2, h3⟩ := ih (X / 65536)
    refine ⟨X % 2 :: L, by simp [h1], ?_, ?_⟩
    · intro a ha
      rcases List.mem_cons.mp ha with e | e
      · omega
      · exact h2 a e
    · rw [mask_succ, and_slot, h3, ofD_cons]

theorem evL_of_ofD_eq (f : Nat → Nat) :
    ∀ (x y : List Nat), (∀ a ∈ x, a < 65536) → (∀ b ∈ y, b < 65536) → ofD x = ofD y →
      ∀ v, evL f x v = evL f y v := by
  intro x
  induction x with
  | nil =>
    intro y _ _ h v
    have h0 := ofD_eq_zero y h.symm
    rw [evL_even f y v (fun b hb => by rw [h0 b hb])]
    rfl
  | cons a x ih =>
    intro y hx hy h v
    cases y with
    | nil =>
      have h0 := ofD_eq_zero (a :: x) h
      rw [evL_even f (a :: x) v (fun b hb => by rw [h0 b hb])]
      rfl
    | cons b y =>
      rw [ofD_cons, ofD_cons] at h
      have ha := hx a (List.mem_cons_self _ _)
      have hb := hy b (List.mem_cons_self _ _)
      have e1 : a = b := by omega
      have e2 : ofD x = ofD y := by omega
      simp only [evL, e1]
      rw [ih y (fun c hc => hx c (List.mem_cons_of_mem _ hc))
        (fun c hc => hy c (List.mem_cons_of_mem _ hc)) e2 (f v)]

/-! ## Squaring modulo the characteristic polynomial -/

theorem sqmodS_sound {f : Nat → Nat} (hf : XorLinear f) (LP : List Nat) (MUS : Nat)
    (hLP : ∀ x ∈ LP, x ≤ 1) (hLPlen : LP.length ≤ 1025)
    (L : List Nat) (hL : ∀ x ∈ L, x ≤ 1) (hLlen : L.length ≤ 1024) (r : Nat)
    (h : sqmodS (ofD LP) MUS (ofD L) = some r) :
    ∃ R : List Nat, (∀ x ∈ R, x ≤ 1) ∧ R.length ≤ 1024 ∧ r = ofD R ∧
      ∀ v, evL f LP v = 0 → evL f R v = evL f L (evL f L v) := by
  unfold sqmodS at h
  simp only [force_eq] at h
  -- the square
  have hC : ∀ c ∈ conv L L, c < 65536 := fun c hc => by
    have h1 := conv_le L L hL hL c hc
    omega
  have hClen : (conv L L).length ≤ 2048 := by
    have h1 := conv_length L L
    omega
  have e1 : (ofD L * ofD L) &&& mask 2048 = ofD ((conv L L).map (fun a => a % 2)) := by
    rw [← ofD_conv, ofD_and_mask _ hC, List.take_of_length_le hClen]
  rw [e1] at h
  -- the quotient
  obtain ⟨Q, hQlen, hQ, e2⟩ := and_mask_clean 1023
    (((ofD ((conv L L).map (fun a => a % 2)) >>> (16 * 1024)) * MUS) >>> (16 * 1022))
  rw [e2] at h
  -- the sum
  have hS : ∀ c ∈ ladd ((conv L L).map (fun a => a % 2)) (conv Q LP), c < 65536 := by
    intro c hc
    have h1 : ∀ a ∈ (conv L L).map (fun a => a % 2), a ≤ 1 := by
      intro a ha
      obtain ⟨b, _, rfl⟩ := List.mem_map.mp ha
      omega
    have h2 : ∀ a ∈ conv Q LP, a ≤ 1023 := by
      intro a ha
      have h3 := conv_le Q LP hQ hLP a ha
      omega
    have h4 := ladd_le 1 1023 _ _ h1 h2 c hc
    omega
  have hSlen : (ladd ((conv L L).map (fun a => a % 2)) (conv Q LP)).length ≤ 2048 := by
    have h1 := conv_length Q LP
    rw [ladd_length, List.length_map]
    omega
  have e3 : ofD ((conv L L).map (fun a => a % 2)) + ofD Q * ofD LP
      = ofD (ladd ((conv L L).map (fun a => a % 2)) (conv Q LP)) := by
    rw [ofD_ladd, ofD_conv]
  rw [e3] at h
  generalize hSdef : ladd ((conv L L).map (fun a => a % 2)) (conv Q LP) = S at h hS hSlen
  have hdrop : ∀ c ∈ S.drop 1024, c < 65536 := fun c hc => hS c (List.mem_of_mem_drop hc)
  rw [ofD_shiftRight 1024 S hS, ofD_and_mask _ hdrop, ofD_and_mask _ hS] at h
  split_ifs at h with hz
  have hr : ofD ((S.take 1024).map (fun a => a % 2)) = r := Option.some.inj h
  refine ⟨(S.take 1024).map (fun a => a % 2), ?_, ?_, hr.symm, ?_⟩
  · intro x hx
    obtain ⟨b, _, rfl⟩ := List.mem_map.mp hx
    omega
  · rw [List.length_map, List.length_take]
    omega
  · intro v hv
    have hdlen : (S.drop 1024).length ≤ 1024 := by
      rw [List.length_drop]
      omega
    rw [List.take_of_length_le hdlen] at hz
    have heven : ∀ a ∈ S.drop 1024, a % 2 = 0 := by
      intro a ha
      exact ofD_eq_zero _ hz (a % 2) (List.mem_map.mpr ⟨a, ha, rfl⟩)
    rw [evL_map_mod, evL_take f 1024 S v heven, ← hSdef, evL_ladd, evL_map_mod,
      evL_conv hf, evL_conv hf, hv, evL_zero hf]
    simp

theorem iterate_lt {f : Nat → Nat} (hlt : ∀ v, f v < 2 ^ 1024) (m v : Nat)
    (hv : v < 2 ^ 1024) : f^[m] v < 2 ^ 1024 := by
  cases m with
  | zero => exact hv
  | succ m =>
    rw [Function.iterate_succ_apply']
    exact hlt _

theorem chain_sound {f : Nat → Nat} (hf : XorLinear f) (hlt : ∀ v, f v < 2 ^ 1024)
    (LP : List Nat) (MUS : Nat) (hLP : ∀ x ∈ LP, x ≤ 1) (hLPlen : LP.length ≤ 1025)
    (hann : ∀ v, v < 2 ^ 1024 → evL f LP v = 0) (k : Nat) :
    ∀ (n : Nat) (L : List Nat) (r : Nat), (∀ x ∈ L, x ≤ 1) → L.length ≤ 1024 →
      (∀ v, v < 2 ^ 1024 → evL f L v = f^[2 ^ n] v) →
      chain (ofD LP) MUS k (ofD L) = some r →
      ∃ R : List Nat, (∀ x ∈ R, x ≤ 1) ∧ R.length ≤ 1024 ∧ r = ofD R ∧
        ∀ v, v < 2 ^ 1024 → evL f R v = f^[2 ^ (n + k)] v := by
  induction k with
  | zero =>
    intro n L r hL hLlen hsem h
    simp only [chain] at h
    exact ⟨L, hL, hLlen, (Option.some.inj h).symm, hsem⟩
  | succ k ih =>
    intro n L r hL hLlen hsem h
    simp only [chain] at h
    cases hsq : sqmodS (ofD LP) MUS (ofD L) with
    | none =>
      rw [hsq] at h
      cases h
    | some r1 =>
      rw [hsq] at h
      simp only at h
      obtain ⟨R1, hR1, hR1len, e1, hsem1⟩ :=
        sqmodS_sound hf LP MUS hLP hLPlen L hL hLlen r1 hsq
      rw [e1] at h
      have hsem2 : ∀ v, v < 2 ^ 1024 → evL f R1 v = f^[2 ^ (n + 1)] v := by
        intro v hv
        rw [hsem1 v (hann v hv), hsem v hv, hsem _ (iterate_lt hlt _ v hv),
          ← Function.iterate_add_apply]
        congr 1
        rw [pow_succ]
        ring
      obtain ⟨R, hR, hRlen, e2, hsem3⟩ := ih (n + 1) R1 r hR1 hR1len hsem2 h
      refine ⟨R, hR, hRlen, e2, ?_⟩
      intro v hv
      rw [hsem3 v hv]
      congr 2
      ring

theorem bitsL_le_one (n : Nat) : ∀ c, ∀ x ∈ bitsL n c, x ≤ 1 := by
  induction n with
  | zero =>
    intro c x hx
    cases hx
  | succ n ih =>
    intro c x hx
    simp only [bitsL] at hx
    rcases List.mem_cons.mp hx with e | e
    · omega
    · exact ih _ x e

theorem bitsL_length (n : Nat) : ∀ c, (bitsL n c).length = n := by
  induction n with
  | zero =>
    intro c
    rfl
  | succ n ih =>
    intro c
    simp [bitsL, ih]

theorem jump_bits_le_one : ∀ x ∈ jump_bits, x ≤ 1 := by
  intro x hx
  unfold jump_bits at hx
  obtain ⟨w, _, hw⟩ := List.mem_flatMap.mp hx
  exact bitsL_le_one 64 w x hw

set_option maxRecDepth 1000000 in
theorem jump_check_true : jump_check = true := by
  decide!

/-- The polynomial of the array `jump` is `x^(2^512)` modulo the characteristic
polynomial: the sum of the iterates of a state over the set bits of `jump` is
the iterate `2^512` of the state. -/
theorem jump_bits_iterate (v : Nat) (hv : v < 2 ^ 1024) :
    evL (stepL 1) jump_bits v = (stepL 1)^[2 ^ 512] v := by
  have hc := jump_check_true
  unfold jump_check at hc
  simp only [force_eq, beq_iff_eq] at hc
  have e0 : (65536 : Nat) = ofD [0, 1] := by
    simp [ofD, force_eq]
  rw [e0] at hc
  have hx : ∀ v, v < 2 ^ 1024 → evL (stepL 1) [0, 1] v = (stepL 1)^[2 ^ 0] v := by
    intro v _
    simp [evL]
  obtain ⟨R, hR, _, e1, hsem⟩ := chain_sound stepL_linear stepL_lt (bitsL 1025 char_poly)
    (ofD (bitsL 1023 barrett_mu)) (bitsL_le_one 1025 char_poly)
    (le_of_eq (bitsL_length 1025 char_poly)) char_poly_annihilates 512 0 [0, 1]
    (ofD jump_bits) (by decide) (by decide) hx hc
  have h1 := evL_of_ofD_eq (stepL 1) jump_bits R
    (fun a ha => lt_of_le_of_lt (jump_bits_le_one a ha) (by norm_num))
    (fun a ha => lt_of_le_of_lt (hR a ha) (by norm_num)) e1 v
  rw [h1, hsem v hv]

/-! ## The generator on packed states -/

theorem list_of_length_16 (c : List Nat) (h : c.length = 16) :
    ∃ a0 a1 a2 a3 a4 a5 a6 a7 a8 a9 a10 a11 a12 a13 a14 a15,
      c = [a0, a1, a2, a3, a4, a5, a6, a7, a8, a9, a10, a11, a12, a13, a14, a15] := by
  match c, h with
  | [a0, a1, a2, a3, a4, a5, a6, a7, a8, a9, a10, a11, a12, a13, a14, a15], _ =>
    exact ⟨a0, a1, a2, a3, a4, a5, a6, a7, a8, a9, a10, a11, a12, a13, a14, a15, rfl⟩

theorem next_state_logical (has_builtin : Bool) (s : List Nat) (p : Nat) (hp : p ≤ 15)
    (hlen : s.length = 16) :
    logical_words (next_state has_builtin (X_Xoroshiro1024PlusPlus_Seed.mk s p))
      = step_words (logical_words (X_Xoroshiro1024PlusPlus_Seed.mk s p)) := by
  obtain ⟨a0, a1, a2, a3, a4, a5, a6, a7, a8, a9, a10, a11, a12, a13, a14, a15, rfl⟩ :=
    list_of_length_16 s hlen
  simp only [next_state, xoroshiro1024plusplus_next, logical_words,
    rotl64_eq has_builtin _ 25 (by norm_num), rotl64_eq has_builtin _ 36 (by norm_num)]
  interval_cases p <;> rfl

theorem rotl_lt (x k : Nat) (hx : x < 2 ^ 64) : original_rotl x k < 2 ^ 64 := by
  unfold original_rotl
  apply Nat.or_lt_two_pow (Nat.mod_lt _ (by norm_num))
  rw [Nat.shiftRight_eq_div_pow]
  exact lt_of_le_of_lt (Nat.div_le_self _ _) hx

theorem step_words_cons (r0 r1 : Nat) (rest : List Nat) :
    step_words (r0 :: r1 :: rest)
      = original_rotl (r1 ^^^ r0) 36 ::
        (rest ++ [original_rotl r1 25 ^^^ (r1 ^^^ r0) ^^^ (((r1 ^^^ r0) <<< 27) % 2 ^ 64)]) :=
  rfl

theorem step_words_lt (r : List Nat) (hr : ∀ x ∈ r, x < 2 ^ 64) :
    ∀ x ∈ step_words r, x < 2 ^ 64 := by
  match r, hr with
  | [], hr => exact hr
  | [_], hr => exact hr
  | r0 :: r1 :: rest, hr =>
    have h0 := hr r0 (by simp)
    have h1 := hr r1 (by simp)
    have hX : r1 ^^^ r0 < 2 ^ 64 := Nat.xor_lt_two_pow h1 h0
    intro x hx
    rw [step_words_cons] at hx
    rcases List.mem_cons.mp hx with e | e
    · rw [e]
      exact rotl_lt _ _ hX
    · rcases List.mem_append.mp e with e | e
      · exact hr x (by simp [e])
      · rw [List.mem_singleton.mp e]
        exact Nat.xor_lt_two_pow (Nat.xor_lt_two_pow (rotl_lt _ _ h1) hX)
          (Nat.mod_lt _ (by norm_num))

theorem step_words_length (r : List Nat) : (step_words r).length = r.length := by
  match r with
  | [] => rfl
  | [_] => rfl
  | r0 :: r1 :: rest => simp [step_words_cons]

theorem pack_cons (w : Nat) (l : List Nat) : pack (w :: l) = w + 2 ^ 64 * pack l := rfl

theorem pack_append : ∀ (x y : List Nat),
    pack (x ++ y) = pack x + 2 ^ (64 * x.length) * pack y := by
  intro x
  induction x with
  | nil =>
    intro y
    simp [pack]
  | cons a x ih =>
    intro y
    rw [List.cons_append, pack_cons, pack_cons, ih, List.length_cons]
    have e : 64 * (x.length + 1) = 64 + 64 * x.length := by ring
    rw [e, pow_add]
    ring

theorem pack_lt : ∀ (l : List Nat), (∀ x ∈ l, x < 2 ^ 64) → pack l < 2 ^ (64 * l.length) := by
  intro l
  induction l with
  | nil =>
    intro _
    simp [pack]
  | cons a l ih =>
    intro h
    have ha := h a (List.mem_cons_self _ _)
    have hl := ih (fun x hx => h x (List.mem_cons_of_mem _ hx))
    rw [pack_cons, List.length_cons]
    have e : 64 * (l.length + 1) = 64 + 64 * l.length := by ring
    rw [e, pow_add]
    generalize 2 ^ (64 * l.length) = N at hl
    generalize pack l = y at hl
    have h1 : 2 ^ 64 * (y + 1) ≤ 2 ^ 64 * N := Nat.mul_le_mul_left _ hl
    have h2 : 2 ^ 64 * (y + 1) = 2 ^ 64 * y + 2 ^ 64 := by ring
    omega

theorem xor_disjoint (a b n : Nat) (hb : b < 2 ^ n) : (a <<< n) ^^^ b = 2 ^ n * a + b := by
  apply Nat.eq_of_testBit_eq
  intro i
  rw [Nat.testBit_xor, Nat.testBit_shiftLeft, Nat.testBit_mul_pow_two_add a hb]
  by_cases hi : i < n
  · have h1 : ¬ i ≥ n := by omega
    simp [hi, h1]
  · have h1 : i ≥ n := by omega
    have h2 : b < 2 ^ i := lt_of_lt_of_le hb (Nat.pow_le_pow_right (by norm_num) h1)
    rw [Nat.testBit_lt_two_pow h2]
    simp [hi, h1]

theorem rotl_as_xor (x k : Nat) (hk : k < 64) (hx : x < 2 ^ 64) :
    original_rotl x k = ((x <<< k) &&& (2 ^ 64 - 1)) ^^^ (x >>> (64 - k)) := by
  unfold original_rotl
  rw [Nat.and_pow_two_sub_one_eq_mod]
  apply Nat.eq_of_testBit_eq
  intro i
  rw [Nat.testBit_or, Nat.testBit_xor, Nat.testBit_mod_two_pow, Nat.testBit_shiftLeft,
    Nat.testBit_shiftRight]
  by_cases hi : i ≥ k
  · have h1 : x < 2 ^ (64 - k + i) :=
      lt_of_lt_of_le hx (Nat.pow_le_pow_right (by norm_num) (by omega))
    rw [Nat.testBit_lt_two_pow h1]
    simp
  · simp [hi]

theorem pack_head (r0 : Nat) (y : Nat) (h0 : r0 < 2 ^ 64) :
    (r0 + 2 ^ 64 * y) &&& (2 ^ 64 - 1) = r0 ∧ (r0 + 2 ^ 64 * y) >>> 64 = y := by
  rw [Nat.and_pow_two_sub_one_eq_mod, Nat.shiftRight_eq_div_pow]
  generalize (2 : Nat) ^ 64 = N at h0
  have hN : 0 < N := by omega
  constructor
  · rw [Nat.add_mul_mod_self_left, Nat.mod_eq_of_lt h0]
  · rw [Nat.add_mul_div_left _ _ hN, Nat.div_eq_of_lt h0]
    omega

theorem pack_step_words (r : List Nat) (hlen : r.length = 16) (hr : ∀ x ∈ r, x < 2 ^ 64) :
    pack (step_words r) = stepL 1 (pack r) := by
  match r, hlen, hr with
  | r0 :: r1 :: rest, hlen, hr =>
    have h0 := hr r0 (by simp)
    have h1 := hr r1 (by simp)
    have hrest : ∀ x ∈ rest, x < 2 ^ 64 := fun x hx => hr x (by simp [hx])
    have hrlen : rest.length = 14 := by simpa using hlen
    have hR := pack_lt rest hrest
    rw [hrlen] at hR
    have hX : r1 ^^^ r0 < 2 ^ 64 := Nat.xor_lt_two_pow h1 h0
    have hw0 := rotl_lt (r1 ^^^ r0) 36 hX
    have hw15 : original_rotl r1 25 ^^^ (r1 ^^^ r0) ^^^ (((r1 ^^^ r0) <<< 27) % 2 ^ 64) < 2 ^ 64 :=
      Nat.xor_lt_two_pow (Nat.xor_lt_two_pow (rotl_lt _ _ h1) hX) (Nat.mod_lt _ (by norm_num))
    obtain ⟨e1, e2⟩ := pack_head r0 (r1 + 2 ^ 64 * pack rest) h0
    obtain ⟨e3, e4⟩ := pack_head r1 (pack rest) h1
    have e5 : pack rest &&& (2 ^ 896 - 1) = pack rest := by
      rw [Nat.and_pow_two_sub_one_eq_mod]
      exact Nat.mod_eq_of_lt hR
    have e128 : (r0 + 2 ^ 64 * (r1 + 2 ^ 64 * pack rest)) >>> 128 = pack rest := by
      have e : (128 : Nat) = 64 + 64 := rfl
      rw [e, Nat.shiftRight_add, e2, e4]
    have r36 : ((r1 ^^^ r0) <<< 36 &&& (2 ^ 64 - 1)) ^^^ (r1 ^^^ r0) >>> 28
        = original_rotl (r1 ^^^ r0) 36 := (rotl_as_xor _ 36 (by norm_num) hX).symm
    have r25 : (r1 <<< 25 &&& (2 ^ 64 - 1)) ^^^ r1 >>> 39 = original_rotl r1 25 :=
      (rotl_as_xor _ 25 (by norm_num) h1).symm
    have m27 : (r1 ^^^ r0) <<< 27 &&& (2 ^ 64 - 1) = ((r1 ^^^ r0) <<< 27) % 2 ^ 64 :=
      Nat.and_pow_two_sub_one_eq_mod _ 64
    have hpk : pack (step_words (r0 :: r1 :: rest))
        = original_rotl (r1 ^^^ r0) 36 + 2 ^ 64 * (pack rest + 2 ^ 896 *
          (original_rotl r1 25 ^^^ (r1 ^^^ r0) ^^^ (((r1 ^^^ r0) <<< 27) % 2 ^ 64))) := by
      rw [step_words_cons, pack_cons, pack_append, hrlen, pack_cons]
      simp [pack]
    have hst : stepL 1 (pack (r0 :: r1 :: rest))
        = ((pack rest <<< 64) ^^^ original_rotl (r1 ^^^ r0) 36) ^^^
          ((original_rotl r1 25 ^^^ (r1 ^^^ r0) ^^^ (((r1 ^^^ r0) <<< 27) % 2 ^ 64)) <<< 960) := by
      unfold stepL
      simp only [force_eq, Nat.mul_one, pack_cons, e1, e2, e3, e128, e5, r36, r25, m27]
    rw [hpk, hst]
    generalize original_rotl (r1 ^^^ r0) 36 = w0 at hw0 ⊢
    generalize original_rotl r1 25 ^^^ (r1 ^^^ r0) ^^^ (((r1 ^^^ r0) <<< 27) % 2 ^ 64) = w15
      at hw15 ⊢
    generalize pack rest = R at hR ⊢
    rw [xor_disjoint R w0 64 hw0]
    have e : (2 : Nat) ^ 960 = 2 ^ 64 * 2 ^ 896 := by rw [← pow_add]
    have e7 : (2 : Nat) ^ (64 * 14) = 2 ^ 896 := by norm_num
    rw [e7] at hR
    have hY : 2 ^ 64 * R + w0 < 2 ^ 960 := by
      rw [e]
      generalize (2 : Nat) ^ 896 = M at hR
      generalize (2 : Nat) ^ 64 = N at hw0
      have h2 : N * (R + 1) ≤ N * M := Nat.mul_le_mul_left _ hR
      have h3 : N * (R + 1) = N * R + N := by ring
      omega
    rw [Nat.xor_comm, xor_disjoint w15 _ 960 hY, e]
    ring

/-! ## Iterating the generator -/

theorem next_state_valid (has_builtin : Bool) (seed : X_Xoroshiro1024PlusPlus_Seed)
    (hp : seed.p ≤ 15) (hlen : seed.s.length = 16) (hw : ∀ x ∈ seed.s, x < 2 ^ 64) :
    (next_state has_builtin seed).p ≤ 15 ∧ (next_state has_builtin seed).s.length = 16 ∧
    (∀ x ∈ (next_state has_builtin seed).s, x < 2 ^ 64) ∧
    pack (logical_words (next_state has_builtin seed)) = stepL 1 (pack (logical_words seed)) := by
  have h1 : (next_state has_builtin seed).p = (seed.p + 1) % 16 := next_p has_builtin seed
  have h2 : (next_state has_builtin seed).s.length = seed.s.length :=
    next_length has_builtin seed
  have h3 : logical_words (next_state has_builtin seed) = step_words (logical_words seed) := by
    cases seed with
    | mk s p => exact next_state_logical has_builtin s p hp hlen
  have hlw : ∀ x ∈ logical_words seed, x < 2 ^ 64 := fun x hx =>
    hw x (List.mem_rotate.mp hx)
  have hll : (logical_words seed).length = 16 := by
    unfold logical_words
    rw [List.length_rotate, hlen]
  refine ⟨by omega, by rw [h2, hlen], ?_, ?_⟩
  · intro x hx
    have hx2 : x ∈ logical_words (next_state has_builtin seed) := List.mem_rotate.mpr hx
    rw [h3] at hx2
    exact step_words_lt _ hlw x hx2
  · rw [h3, pack_step_words _ hll hlw]

theorem next_state_iterate_valid (has_builtin : Bool) (n : Nat) :
    ∀ seed : X_Xoroshiro1024PlusPlus_Seed, seed.p ≤ 15 → seed.s.length = 16 →
      (∀ x ∈ seed.s, x < 2 ^ 64) →
      ((next_state has_builtin)^[n] seed).p ≤ 15 ∧
      ((next_state has_builtin)^[n] seed).s.length = 16 ∧
      (∀ x ∈ ((next_state has_builtin)^[n] seed).s, x < 2 ^ 64) ∧
      pack (logical_words ((next_state has_builtin)^[n] seed))
        = (stepL 1)^[n] (pack (logical_words seed)) := by
  induction n with
  | zero =>
    intro seed hp hlen hw
    exact ⟨hp, hlen, hw, rfl⟩
  | succ n ih =>
    intro seed hp hlen hw
    obtain ⟨h1, h2, h3, h4⟩ := next_state_valid has_builtin seed hp hlen hw
    obtain ⟨g1, g2, g3, g4⟩ := ih (next_state has_builtin seed) h1 h2 h3
    rw [Function.iterate_succ_apply, Function.iterate_succ_apply]
    exact ⟨g1, g2, g3, by rw [g4, h4]⟩

theorem logical_words_facts (seed : X_Xoroshiro1024PlusPlus_Seed) (hlen : seed.s.length = 16)
    (hw : ∀ x ∈ seed.s, x < 2 ^ 64) :
    (logical_words seed).length = 16 ∧ (∀ x ∈ logical_words seed, x < 2 ^ 64) ∧
    pack (logical_words seed) < 2 ^ 1024 ∧
    ∀ i, i < 16 → (logical_words seed).getD i 0 = seed.s.getD ((i + seed.p) % 16) 0 := by
  have hll : (logical_words seed).length = 16 := by
    unfold logical_words
    rw [List.length_rotate, hlen]
  have hlw : ∀ x ∈ logical_words seed, x < 2 ^ 64 := fun x hx =>
    hw x (List.mem_rotate.mp hx)
  refine ⟨hll, hlw, ?_, ?_⟩
  · have h := pack_lt _ hlw
    rw [hll] at h
    exact h
  · intro i hi
    unfold logical_words
    rw [List.getD_eq_getElem?_getD, List.getD_eq_getElem?_getD,
      List.getElem?_rotate (by omega), hlen]

/-! ## The loops of the jump -/

theorem words_getD_set (l : List Nat) (n m y : Nat) (hn : n < l.length) :
    (l.set n y).getD m 0 = if m = n then y else l.getD m 0 := by
  rw [List.getD_eq_getElem?_getD, List.getD_eq_getElem?_getD, List.getElem?_set]
  by_cases h : n = m
  · subst h
    simp [hn]
  · have h2 : ¬ m = n := fun e => h e.symm
    simp [h, h2]

theorem jump_j_run (s : List Nat) (p : Nat) (n : Nat) :
    ∀ (fuel j : Nat) (tmp : List Nat), j + n = 16 → n < fuel → tmp.length = 16 →
      ∃ tmp1, xoroshiro1024plusplus_jump_j s p fuel j tmp = some tmp1 ∧ tmp1.length = 16 ∧
        ∀ i, tmp1.getD i 0
          = if j ≤ i ∧ i < 16 then tmp.getD i 0 ^^^ s.getD (((i + p) % 2 ^ 32) &&& 0xF) 0
            else tmp.getD i 0 := by
  induction n with
  | zero =>
    intro fuel j tmp hj hf hlen
    obtain ⟨f, rfl⟩ : ∃ f, fuel = f + 1 := ⟨fuel - 1, by omega⟩
    refine ⟨tmp, ?_, hlen, ?_⟩
    · unfold xoroshiro1024plusplus_jump_j
      rw [if_neg (by omega)]
    · intro i
      rw [if_neg (by omega)]
  | succ n ih =>
    intro fuel j tmp hj hf hlen
    obtain ⟨f, rfl⟩ : ∃ f, fuel = f + 1 := ⟨fuel - 1, by omega⟩
    unfold xoroshiro1024plusplus_jump_j
    rw [if_pos (by omega)]
    have hj1 : (j + 1) % 2 ^ 32 = j + 1 := Nat.mod_eq_of_lt (by omega)
    rw [hj1]
    obtain ⟨tmp1, h1, h2, h3⟩ := ih f (j + 1)
      (tmp.set j (tmp.getD j 0 ^^^ s.getD (((j + p) % 2 ^ 32) &&& 0xF) 0)) (by omega) (by omega)
      (by rw [List.length_set, hlen])
    refine ⟨tmp1, h1, h2, ?_⟩
    intro i
    rw [h3 i, words_getD_set _ _ _ _ (by omega)]
    by_cases hij : i = j
    · subst hij
      rw [if_neg (by omega), if_pos rfl, if_pos (by omega)]
    · rw [if_neg hij]
      by_cases hc : j + 1 ≤ i ∧ i < 16
      · rw [if_pos hc, if_pos (by omega)]
      · rw [if_neg hc, if_neg (by omega)]

theorem pack_cons_xor (a0 b0 A B : Nat) (ha : a0 < 2 ^ 64) (hb : b0 < 2 ^ 64) :
    (a0 ^^^ b0) + 2 ^ 64 * (A ^^^ B) = (a0 + 2 ^ 64 * A) ^^^ (b0 + 2 ^ 64 * B) := by
  have hab := Nat.xor_lt_two_pow ha hb
  apply Nat.eq_of_testBit_eq
  intro i
  rw [Nat.testBit_xor, Nat.add_comm (a0 ^^^ b0), Nat.add_comm a0, Nat.add_comm b0,
    Nat.testBit_mul_pow_two_add _ hab, Nat.testBit_mul_pow_two_add _ ha,
    Nat.testBit_mul_pow_two_add _ hb]
  by_cases hi : i < 64
  · simp only [hi, if_true, Nat.testBit_xor]
  · simp only [hi, if_false, Nat.testBit_xor]

theorem pack_xor : ∀ (a b c : List Nat), a.length = b.length → a.length = c.length →
    (∀ x ∈ a, x < 2 ^ 64) → (∀ x ∈ b, x < 2 ^ 64) →
    (∀ i, i < a.length → c.getD i 0 = a.getD i 0 ^^^ b.getD i 0) →
    pack c = pack a ^^^ pack b ∧ ∀ x ∈ c, x < 2 ^ 64 := by
  intro a
  induction a with
  | nil =>
    intro b c hb hc _ _ _
    have eb : b = [] := List.length_eq_zero.mp hb.symm
    have ec : c = [] := List.length_eq_zero.mp hc.symm
    subst eb ec
    exact ⟨by simp [pack], fun x hx => by cases hx⟩
  | cons a0 a ih =>
    intro b c hb hc ha hbb hpt
    cases b with
    | nil => simp at hb
    | cons b0 b =>
      cases c with
      | nil => simp at hc
      | cons c0 c =>
        have h0 := hpt 0 (by simp)
        simp only [List.getD_cons_zero] at h0
        have ha0 := ha a0 (List.mem_cons_self _ _)
        have hb0 := hbb b0 (List.mem_cons_self _ _)
        obtain ⟨g1, g2⟩ := ih b c (by simpa using hb) (by simpa using hc)
          (fun x hx => ha x (List.mem_cons_of_mem _ hx))
          (fun x hx => hbb x (List.mem_cons_of_mem _ hx))
          (fun i hi => by
            have h := hpt (i + 1) (by simp; omega)
            simpa using h)
        refine ⟨?_, ?_⟩
        · rw [pack_cons, pack_cons, pack_cons, g1, h0, pack_cons_xor _ _ _ _ ha0 hb0]
        · intro x hx
          rcases List.mem_cons.mp hx with e | e
          · rw [e, h0]
            exact Nat.xor_lt_two_pow ha0 hb0
          · exact g2 x e

theorem jump_j_pack (seed : X_Xoroshiro1024PlusPlus_Seed) (fuel0 : Nat) (tmp : List Nat)
    (hlen : seed.s.length = 16) (hw : ∀ x ∈ seed.s, x < 2 ^ 64) (hfuel0 : 17 ≤ fuel0)
    (htlen : tmp.length = 16) (htw : ∀ x ∈ tmp, x < 2 ^ 64) :
    ∃ tmp1, xoroshiro1024plusplus_jump_j seed.s seed.p fuel0 0 tmp = some tmp1 ∧
      tmp1.length = 16 ∧ (∀ x ∈ tmp1, x < 2 ^ 64) ∧
      pack tmp1 = pack tmp ^^^ pack (logical_words seed) := by
  obtain ⟨tmp1, h1, h2, h3⟩ := jump_j_run seed.s seed.p 16 fuel0 0 tmp (by omega) (by omega) htlen
  obtain ⟨g1, g2, _, g4⟩ := logical_words_facts seed hlen hw
  obtain ⟨k1, k2⟩ := pack_xor tmp (logical_words seed) tmp1 (by rw [htlen, g1])
    (by rw [htlen, h2]) htw g2 (fun i hi => by
      rw [htlen] at hi
      rw [h3 i, if_pos ⟨by omega, hi⟩, g4 i hi, and_15]
      congr 2
      omega)
  exact ⟨tmp1, h1, h2, k2, k1⟩

theorem evL_append (f : Nat → Nat) :
    ∀ (x y : List Nat) (v : Nat),
      evL f (x ++ y) v = evL f x v ^^^ evL f y (f^[x.length] v) := by
  intro x
  induction x with
  | nil =>
    intro y v
    simp [evL]
  | cons a x ih =>
    intro y v
    have e : (a :: x) ++ y = a :: (x ++ y) := rfl
    rw [e, evL, evL, ih y (f v), List.length_cons, Function.iterate_succ_apply, Nat.xor_assoc]

theorem jump_bit_test (word k : Nat) (hk : k < 64) :
    word &&& (2 ^ k % 2 ^ 64) ≠ 0 ↔ (word >>> k) % 2 = 1 := by
  rw [Nat.mod_eq_of_lt (Nat.pow_lt_pow_right (by norm_num) hk), Nat.and_two_pow,
    Nat.shiftRight_eq_div_pow]
  have hpos : 0 < 2 ^ k := Nat.pos_pow_of_pos k (by norm_num)
  cases h : word.testBit k
  · have h2 : ¬ word / 2 ^ k % 2 = 1 := by
      rw [Nat.testBit_to_div_mod] at h
      simpa using h
    simp [h2]
  · have h2 : word / 2 ^ k % 2 = 1 := by
      rw [Nat.testBit_to_div_mod] at h
      simpa using h
    simp [h2]

theorem jump_bit_spec (has_builtin : Bool) (fuel0 word : Nat) (hfuel0 : 17 ≤ fuel0)
    (n : Nat) :
    ∀ (fuel k : Nat) (seed : X_Xoroshiro1024PlusPlus_Seed) (tmp : List Nat),
      k + n = 64 → n < fuel → seed.p ≤ 15 → seed.s.length = 16 →
      (∀ x ∈ seed.s, x < 2 ^ 64) → tmp.length = 16 → (∀ x ∈ tmp, x < 2 ^ 64) →
      ∃ tmp1, xoroshiro1024plusplus_jump_bit has_builtin fuel0 word fuel (2 ^ k % 2 ^ 64)
          (seed, tmp) = some ((next_state has_builtin)^[n] seed, tmp1) ∧
        tmp1.length = 16 ∧ (∀ x ∈ tmp1, x < 2 ^ 64) ∧
        pack tmp1 = pack tmp ^^^
          evL (stepL 1) (bitsL n (word >>> k)) (pack (logical_words seed)) := by
  induction n with
  | zero =>
    intro fuel k seed tmp hk hf _ _ _ htlen htw
    obtain ⟨f, rfl⟩ : ∃ f, fuel = f + 1 := ⟨fuel - 1, by omega⟩
    have hk64 : k = 64 := by omega
    subst hk64
    refine ⟨tmp, ?_, htlen, htw, ?_⟩
    · unfold xoroshiro1024plusplus_jump_bit
      simp
    · simp [bitsL, evL]
  | succ n ih =>
    intro fuel k seed tmp hk hf hp hlen hw htlen htw
    obtain ⟨f, rfl⟩ : ∃ f, fuel = f + 1 := ⟨fuel - 1, by omega⟩
    unfold xoroshiro1024plusplus_jump_bit
    rw [if_pos (two_pow_mod_ne_zero k (by omega)), two_pow_shift]
    have hin : ∃ tmp0, (if word &&& (2 ^ k % 2 ^ 64) ≠ 0
        then xoroshiro1024plusplus_jump_j seed.s seed.p fuel0 0 tmp else some tmp) = some tmp0 ∧
        tmp0.length = 16 ∧ (∀ x ∈ tmp0, x < 2 ^ 64) ∧
        pack tmp0 = pack tmp ^^^
          (if (word >>> k) % 2 = 1 then pack (logical_words seed) else 0) := by
      by_cases hc : word &&& (2 ^ k % 2 ^ 64) ≠ 0
      · rw [if_pos hc, if_pos ((jump_bit_test word k (by omega)).mp hc)]
        exact jump_j_pack seed fuel0 tmp hlen hw hfuel0 htlen htw
      · rw [if_neg hc, if_neg (fun h => hc ((jump_bit_test word k (by omega)).mpr h))]
        exact ⟨tmp, rfl, htlen, htw, by simp⟩
    obtain ⟨tmp0, h0, hl0, hw0, hp0⟩ := hin
    rw [h0, Option.some_bind]
    obtain ⟨v1, v2, v3, v4⟩ := next_state_valid has_builtin seed hp hlen hw
    obtain ⟨tmp1, h1, hl1, hw1, hp1⟩ := ih f (k + 1) (next_state has_builtin seed) tmp0
      (by omega) (by omega) v1 v2 v3 hl0 hw0
    refine ⟨tmp1, ?_, hl1, hw1, ?_⟩
    · rw [Function.iterate_succ_apply]
      exact h1
    · rw [hp1, hp0, v4, Nat.shiftRight_succ]
      simp only [bitsL, evL, Nat.mod_mod, Nat.xor_assoc]

theorem jump_drop (i : Nat) (hi : i < 16) : jump.drop i = jump.getD i 0 :: jump.drop (i + 1) := by
  interval_cases i <;> rfl

theorem jump_i_spec (has_builtin : Bool) (fuel0 : Nat) (hfuel0 : 65 ≤ fuel0) (n : Nat) :
    ∀ (fuel i : Nat) (seed : X_Xoroshiro1024PlusPlus_Seed) (tmp : List Nat),
      i + n = 16 → n < fuel → seed.p ≤ 15 → seed.s.length = 16 →
      (∀ x ∈ seed.s, x < 2 ^ 64) → tmp.length = 16 → (∀ x ∈ tmp, x < 2 ^ 64) →
      ∃ tmp1, xoroshiro1024plusplus_jump_i has_builtin fuel0 fuel i (seed, tmp)
          = some ((next_state has_builtin)^[64 * n] seed, tmp1) ∧
        tmp1.length = 16 ∧ (∀ x ∈ tmp1, x < 2 ^ 64) ∧
        pack tmp1 = pack tmp ^^^
          evL (stepL 1) ((jump.drop i).flatMap (bitsL 64)) (pack (logical_words seed)) := by
  induction n with
  | zero =>
    intro fuel i seed tmp hi hf _ _ _ htlen htw
    obtain ⟨f, rfl⟩ : ∃ f, fuel = f + 1 := ⟨fuel - 1, by omega⟩
    have hi16 : i = 16 := by omega
    subst hi16
    refine ⟨tmp, ?_, htlen, htw, ?_⟩
    · unfold xoroshiro1024plusplus_jump_i
      rw [if_neg (by omega)]
      rfl
    · have e : jump.drop 16 = [] := rfl
      rw [e]
      simp [evL]
  | succ n ih =>
    intro fuel i seed tmp hi hf hp hlen hw htlen htw
    obtain ⟨f, rfl⟩ : ∃ f, fuel = f + 1 := ⟨fuel - 1, by omega⟩
    unfold xoroshiro1024plusplus_jump_i
    rw [if_pos (by omega)]
    obtain ⟨tmp0, h0, hl0, hw0, hp0⟩ := jump_bit_spec has_builtin fuel0 (jump.getD i 0)
      (by omega) 64 fuel0 0 seed tmp (by omega) (by omega) hp hlen hw htlen htw
    have h01 : (2 : Nat) ^ 0 % 2 ^ 64 = 0x1 := by norm_num
    rw [h01] at h0
    rw [h0, Option.some_bind]
    have hi1 : (i + 1) % 2 ^ 32 = i + 1 := Nat.mod_eq_of_lt (by omega)
    rw [hi1]
    obtain ⟨v1, v2, v3, v4⟩ := next_state_iterate_valid has_builtin 64 seed hp hlen hw
    obtain ⟨tmp1, h1, hl1, hw1, hp1⟩ := ih f (i + 1) ((next_state has_builtin)^[64] seed) tmp0
      (by omega) (by omega) v1 v2 v3 hl0 hw0
    refine ⟨tmp1, ?_, hl1, hw1, ?_⟩
    · rw [h1, ← Function.iterate_add_apply]
      have e : 64 * n + 64 = 64 * (n + 1) := by ring
      rw [e]
    · rw [hp1, hp0, v4, jump_drop i (by omega), List.flatMap_cons, evL_append, bitsL_length,
        Nat.shiftRight_zero, Nat.xor_assoc]

theorem jump_store_run (p : Nat) (tmp : List Nat) (hp : p ≤ 15) (n : Nat) :
    ∀ (fuel i : Nat) (s : List Nat), i + n = 16 → n < fuel → s.length = 16 →
      ∃ s1, xoroshiro1024plusplus_jump_store p tmp fuel i s = some s1 ∧ s1.length = 16 ∧
        ∀ m, m < 16 → s1.getD m 0
          = if i ≤ (m + 16 - p) % 16 then tmp.getD ((m + 16 - p) % 16) 0 else s.getD m 0 := by
  induction n with
  | zero =>
    intro fuel i s hi hf hlen
    obtain ⟨f, rfl⟩ : ∃ f, fuel = f + 1 := ⟨fuel - 1, by omega⟩
    refine ⟨s, ?_, hlen, ?_⟩
    · unfold xoroshiro1024plusplus_jump_store
      rw [if_neg (by omega)]
    · intro m hm
      rw [if_neg (by omega)]
  | succ n ih =>
    intro fuel i s hi hf hlen
    obtain ⟨f, rfl⟩ : ∃ f, fuel = f + 1 := ⟨fuel - 1, by omega⟩
    unfold xoroshiro1024plusplus_jump_store
    rw [if_pos (by omega)]
    have hi1 : (i + 1) % 2 ^ 32 = i + 1 := Nat.mod_eq_of_lt (by omega)
    have hidx : ((i + p) % 2 ^ 32) &&& 0xF = (i + p) % 16 := by
      rw [and_15]
      omega
    rw [hi1, hidx]
    obtain ⟨s1, h1, h2, h3⟩ := ih f (i + 1) (s.set ((i + p) % 16) (tmp.getD i 0)) (by omega)
      (by omega) (by rw [List.length_set, hlen])
    refine ⟨s1, h1, h2, ?_⟩
    intro m hm
    rw [h3 m hm, words_getD_set _ _ _ _ (by omega)]
    by_cases hc : i + 1 ≤ (m + 16 - p) % 16
    · rw [if_pos hc, if_pos (by omega)]
    · rw [if_neg hc]
      by_cases hm2 : m = (i + p) % 16
      · have e : (m + 16 - p) % 16 = i := by omega
        rw [if_pos hm2, if_pos (by omega), e]
      · rw [if_neg hm2, if_neg (by omega)]

theorem pack_inj : ∀ (a b : List Nat), a.length = b.length → (∀ x ∈ a, x < 2 ^ 64) →
    (∀ x ∈ b, x < 2 ^ 64) → pack a = pack b → a = b := by
  intro a
  induction a with
  | nil =>
    intro b hb _ _ _
    exact (List.length_eq_zero.mp hb.symm).symm
  | cons a0 a ih =>
    intro b hb ha hbb h
    cases b with
    | nil => simp at hb
    | cons b0 b =>
      have ha0 := ha a0 (List.mem_cons_self _ _)
      have hb0 := hbb b0 (List.mem_cons_self _ _)
      rw [pack_cons, pack_cons] at h
      have e64 : (2 : Nat) ^ 64 = 18446744073709551616 := by norm_num
      rw [e64] at h ha0 hb0
      have e1 : a0 = b0 := by omega
      have e2 : pack a = pack b := by omega
      rw [e1, ih b (by simpa using hb) (fun x hx => ha x (List.mem_cons_of_mem _ hx))
        (fun x hx => hbb x (List.mem_cons_of_mem _ hx)) e2]

theorem getD_ext_16 (a b : List Nat) (ha : a.length = 16) (hb : b.length = 16)
    (h : ∀ i, i < 16 → a.getD i 0 = b.getD i 0) : a = b := by
  apply List.ext_getElem (by rw [ha, hb])
  intro i h1 h2
  have e := h i (by omega)
  rw [List.getD_eq_getElem a 0 h1, List.getD_eq_getElem b 0 h2] at e
  exact e

theorem pack_zeros : pack (List.replicate 16 0) = 0 := by
  decide

/-- C32. The jump is `2^512` steps: on every state with `p <= 15` (16 words of 64
bits), `xoroshiro1024plusplus_jump` with fuel 65 or more returns, and the state
it leaves (the 16 words and `p`) is the state reached by `2^512` successive
calls of `xoroshiro1024plusplus_next` from the same state, whichever branch of
`rotl64` is compiled. -/
theorem jump_is_two_pow_512_steps (has_builtin : Bool) (fuel : Nat)
    (seed : X_Xoroshiro1024PlusPlus_Seed) (hp : seed.p ≤ 15) (hlen : seed.s.length = 16)
    (hwords : ∀ x ∈ seed.s, x < 2 ^ 64) (hfuel : 65 ≤ fuel) :
    xoroshiro1024plusplus_jump has_builtin fuel seed
      = some ((next_state has_builtin)^[2 ^ 512] seed) := by
  have hidx : ∀ m p : Nat, m < 16 → p ≤ 15 → ((m + 16 - p) % 16 + p) % 16 = m := by
    intro m p h1 h2
    omega
  -- the first loop
  obtain ⟨tmp1, h1, hl1, hw1, hp1⟩ := jump_i_spec has_builtin fuel hfuel 16 fuel 0 seed
    (List.replicate 16 0) (by omega) (by omega) hp hlen hwords (by simp)
    (fun x hx => by rw [List.eq_of_mem_replicate hx]; norm_num)
  have e1024 : 64 * 16 = 1024 := by norm_num
  rw [e1024] at h1
  obtain ⟨a1, a2, _, _⟩ := next_state_iterate_valid has_builtin 1024 seed hp hlen hwords
  obtain ⟨a5, _⟩ := next_state_iterate has_builtin 1024 seed hp
  have hpJ : ((next_state has_builtin)^[1024] seed).p = seed.p := by
    rw [a5]
    omega
  generalize (next_state has_builtin)^[1024] seed = st at h1 a1 a2 hpJ
  -- the last loop
  obtain ⟨s1, h2, hl2, hs2⟩ := jump_store_run st.p tmp1 a1 16 fuel 0 st.s (by omega)
    (by omega) a2
  have hjump : xoroshiro1024plusplus_jump has_builtin fuel seed
      = some (X_Xoroshiro1024PlusPlus_Seed.mk s1 st.p) := by
    unfold xoroshiro1024plusplus_jump
    rw [h1, Option.some_bind]
    simp only
    rw [h2, Option.some_bind]
  -- the words accumulated are the iterate
  obtain ⟨b1, b2, b3, b4⟩ := logical_words_facts seed hlen hwords
  have e0 : (jump.drop 0).flatMap (bitsL 64) = jump_bits := rfl
  rw [e0, pack_zeros, Nat.zero_xor, jump_bits_iterate _ b3] at hp1
  -- the state after the steps
  obtain ⟨c1, c2, c3, c4⟩ := next_state_iterate_valid has_builtin (2 ^ 512) seed hp hlen hwords
  have hpN : ((next_state has_builtin)^[2 ^ 512] seed).p = seed.p := by
    have h16 : (2 : Nat) ^ 512 % 16 = 0 := by norm_num
    rw [(next_state_iterate has_builtin (2 ^ 512) seed hp).1, Nat.add_mod, h16]
    omega
  generalize (next_state has_builtin)^[2 ^ 512] seed = sN at c1 c2 c3 c4 hpN ⊢
  obtain ⟨d1, d2, _, d4⟩ := logical_words_facts sN c2 c3
  rw [← hp1] at c4
  have hlw : logical_words sN = tmp1 := pack_inj _ _ (by rw [d1, hl1]) d2 hw1 c4
  rw [hjump, hpJ]
  have hs : sN.s = s1 := by
    apply getD_ext_16 _ _ c2 hl2
    intro m hm
    rw [hs2 m hm, if_pos (Nat.zero_le _), ← hlw, d4 _ (Nat.mod_lt _ (by norm_num)), hpJ, hpN,
      hidx m seed.p hm hp]
  cases sN with
  | mk s p =>
    simp only at hs hpN
    rw [hs, hpN]

/-- Witness of C32: the jump from the state with the words 1 to 16 and `p = 3`. -/
theorem jump_is_two_pow_512_steps_witness :
    xoroshiro1024plusplus_jump false 65 (X_Xoroshiro1024PlusPlus_Seed.mk (List.range' 1 16) 3)
      = some ((next_state false)^[2 ^ 512]
          (X_Xoroshiro1024PlusPlus_Seed.mk (List.range' 1 16) 3)) :=
  jump_is_two_pow_512_steps false 65 (X_Xoroshiro1024PlusPlus_Seed.mk (List.range' 1 16) 3)
    (by decide) (by decide)
    (fun x hx => lt_of_lt_of_le (show x < 17 by simp at hx; omega) (by norm_num)) (by decide)

end Xoroshiro1024PlusPlus

namespace Bitset

/-! ## Bits of a byte -/

theorem index_split (index : Nat) :
    index >>> 3 = index / 8 ∧ (index &&& 0x7) % 256 = index % 8 := by
  have h1 : index >>> 3 = index / 8 := by rw [Nat.shiftRight_eq_div_pow]
  have h2 : index &&& 0x7 = index % 8 := Nat.and_pow_two_sub_one_eq_mod index 3
  refine ⟨h1, ?_⟩
  rw [h2]
  omega

theorem mask_eq (k : Nat) (hk : k < 8) : (0x1 <<< k) % 256 = 2 ^ k := by
  rw [Nat.one_shiftLeft]
  interval_cases k <;> rfl

theorem and_mask_ne_zero (x k : Nat) : x &&& 2 ^ k ≠ 0 ↔ x.testBit k = true := by
  rw [Nat.and_two_pow]
  cases h : x.testBit k
  · simp
  · simp

theorem two_pow_lt (k : Nat) (hk : k < 8) : 2 ^ k < 256 := by
  interval_cases k <;> norm_num

theorem clear_testBit (x k m : Nat) (hk : k < 8) (hm : m < 8) :
    ((x &&& int_not (2 ^ k)) % 256).testBit m = (x.testBit m && decide (m ≠ k)) := by
  have h8 := two_pow_lt k hk
  have h32 : (2 : Nat) ^ 32 = 4294967296 := by norm_num
  have hlt : 2 ^ k < 2 ^ 32 := by omega
  have hnot : int_not (2 ^ k) = 2 ^ 32 - (2 ^ k + 1) := by
    unfold int_not
    omega
  have h256 : (256 : Nat) = 2 ^ 8 := by norm_num
  have hm32 : m < 32 := by omega
  rw [h256, Nat.testBit_mod_two_pow, Nat.testBit_and, hnot, Nat.testBit_two_pow_sub_succ hlt,
    Nat.testBit_two_pow]
  by_cases hmk : m = k
  · subst hmk; simp
  · have hkm : ¬ k = m := fun h => hmk h.symm
    simp [hm, hm32, hmk, hkm]

theorem set_testBit (x k m : Nat) (hm : m < 8) :
    ((x ||| 2 ^ k) % 256).testBit m = (x.testBit m || decide (m = k)) := by
  have h256 : (256 : Nat) = 2 ^ 8 := by norm_num
  rw [h256, Nat.testBit_mod_two_pow, Nat.testBit_or, Nat.testBit_two_pow]
  by_cases hmk : m = k
  · subst hmk; simp [hm]
  · have hkm : ¬ k = m := fun h => hmk h.symm
    simp [hm, hmk, hkm]

/-! ## Reading and writing a bit -/

theorem bitset_get_eq (bitset : List Nat) (index : Nat) :
    bitset_get bitset index = bit_of bitset (index / 8) (index % 8) := by
  obtain ⟨h1, h2⟩ := index_split index
  have hk : index % 8 < 8 := Nat.mod_lt _ (by norm_num)
  unfold bitset_get bit_of
  simp only [h1, h2, mask_eq _ hk]
  by_cases h : (bitset.getD (index / 8) 0).testBit (index % 8) = true
  · rw [if_pos ((and_mask_ne_zero _ _).mpr h), if_pos h]
  · rw [if_neg (fun hc => h ((and_mask_ne_zero _ _).mp hc)), if_neg h]

theorem bitset_set_0_eq (bitset : List Nat) (index : Nat) :
    bitset_set_0 bitset index
      = (bitset.set (index / 8)
          ((bitset.getD (index / 8) 0 &&& int_not (2 ^ (index % 8))) % 256), 0) := by
  obtain ⟨h1, h2⟩ := index_split index
  have hk : index % 8 < 8 := Nat.mod_lt _ (by norm_num)
  unfold bitset_set_0
  simp only [h1, h2, mask_eq _ hk]

theorem bitset_set_1_eq (bitset : List Nat) (index : Nat) :
    bitset_set_1 bitset index
      = (bitset.set (index / 8) ((bitset.getD (index / 8) 0 ||| 2 ^ (index % 8)) % 256), 1) := by
  obtain ⟨h1, h2⟩ := index_split index
  have hk : index % 8 < 8 := Nat.mod_lt _ (by norm_num)
  unfold bitset_set_1
  simp only [h1, h2, mask_eq _ hk]

theorem getD_set (l : List Nat) (n m y : Nat) (hn : n < l.length) :
    (l.set n y).getD m 0 = if m = n then y else l.getD m 0 := by
  rw [List.getD_eq_getElem?_getD, List.getD_eq_getElem?_getD, List.getElem?_set]
  by_cases h : n = m
  · subst h; simp [hn]
  · have h2 : ¬ m = n := fun e => h e.symm
    simp [h, h2]

/-- The bits of the bit set that `bitset_set` returns: bit `i` is the value
returned, every other bit is the old one. -/
theorem bitset_set_bits (bitset : List Nat) (i : Nat) (v : Int) (hi : i / 8 < bitset.length)
    (n k : Nat) (hk : k < 8) :
    bit_of (bitset_set bitset i v).1 n k
      = if n = i / 8 ∧ k = i % 8 then (if v = 0 then 0 else 1) else bit_of bitset n k := by
  have hik : i % 8 < 8 := Nat.mod_lt _ (by norm_num)
  unfold bitset_set
  by_cases hv : v = 0
  · rw [if_pos hv, bitset_set_0_eq]
    simp only [bit_of, getD_set _ _ _ _ hi, hv, if_true]
    by_cases hn : n = i / 8
    · subst hn
      simp only [if_true, true_and, clear_testBit _ _ _ hik hk]
      by_cases hkk : k = i % 8
      · simp [hkk]
      · simp [hkk]
    · simp [hn]
  · rw [if_neg hv, bitset_set_1_eq]
    simp only [bit_of, getD_set _ _ _ _ hi, hv, if_false]
    by_cases hn : n = i / 8
    · subst hn
      simp only [if_true, true_and, set_testBit _ _ _ hk]
      by_cases hkk : k = i % 8
      · simp [hkk]
      · simp [hkk]
    · simp [hn]

theorem bitset_set_length (bitset : List Nat) (i : Nat) (v : Int) :
    (bitset_set bitset i v).1.length = bitset.length := by
  unfold bitset_set
  split_ifs
  · rw [bitset_set_0_eq]; simp
  · rw [bitset_set_1_eq]; simp

theorem bitset_set_bytes (bitset : List Nat) (i : Nat) (v : Int)
    (hb : ∀ x ∈ bitset, x < 256) : ∀ x ∈ (bitset_set bitset i v).1, x < 256 := by
  intro x hx
  unfold bitset_set at hx
  split_ifs at hx
  · rw [bitset_set_0_eq] at hx
    rcases List.mem_or_eq_of_mem_set hx with h | h
    · exact hb x h
    · rw [h]; exact Nat.mod_lt _ (by norm_num)
  · rw [bitset_set_1_eq] at hx
    rcases List.mem_or_eq_of_mem_set hx with h | h
    · exact hb x h
    · rw [h]; exact Nat.mod_lt _ (by norm_num)

/-- C30. Set and get: for every bit set of bytes, every index `i` inside it and
every value `v`, `bitset_set` returns 1 if `v != 0` and 0 if `v == 0`;
afterwards `bitset_get` at `i` is the value returned and `bitset_get` at every
other index `j` inside the bit set is what it was; `bitset_get` reads bit
`i mod 8` of byte `i div 8`.  The number of bytes does not change. -/
theorem bitset_set_then_get (bitset : List Nat) (i : Nat) (v : Int)
    (hbytes : ∀ x ∈ bitset, x < 256) (hi : i / 8 < bitset.length) :
    (bitset_set bitset i v).2 = (if v = 0 then 0 else 1) ∧
    bitset_get (bitset_set bitset i v).1 i = (bitset_set bitset i v).2 ∧
    (∀ j, j ≠ i → j / 8 < bitset.length →
      bitset_get (bitset_set bitset i v).1 j = bitset_get bitset j) ∧
    bitset_get bitset i = (if (bitset.getD (i / 8) 0).testBit (i % 8) then 1 else 0) ∧
    (bitset_set bitset i v).1.length = bitset.length ∧
    (∀ x ∈ (bitset_set bitset i v).1, x < 256) := by
  have hret : (bitset_set bitset i v).2 = (if v = 0 then 0 else 1) := by
    unfold bitset_set
    split_ifs
    · rw [bitset_set_0_eq]
    · rw [bitset_set_1_eq]
  refine ⟨hret, ?_, ?_, ?_, bitset_set_length bitset i v, bitset_set_bytes bitset i v hbytes⟩
  · rw [bitset_get_eq, bitset_set_bits bitset i v hi _ _ (Nat.mod_lt _ (by norm_num)), hret]
    simp
  · intro j hj _
    rw [bitset_get_eq, bitset_get_eq,
      bitset_set_bits bitset i v hi _ _ (Nat.mod_lt _ (by norm_num))]
    rw [if_neg]
    rintro ⟨h1, h2⟩
    exact hj (by omega)
  · rw [bitset_get_eq]; rfl

/-- Witness of C30: setting bit 10 of the two bytes 0xFF, 0x00 to 1 and bit 3 of
them to 0. -/
theorem bitset_set_then_get_witness :
    bitset_set [255, 0] 10 1 = ([255, 4], 1) ∧ bitset_get [255, 4] 10 = 1 ∧
    bitset_set [255, 0] 3 0 = ([247, 0], 0) ∧ bitset_get [247, 0] 3 = 0 := by
  have h1 := bitset_set_then_get [255, 0] 10 1 (by decide) (by decide)
  have h2 := bitset_set_then_get [255, 0] 3 0 (by decide) (by decide)
  have e1 : bitset_set [255, 0] 10 1 = ([255, 4], 1) := by decide
  have e2 : bitset_set [255, 0] 3 0 = ([247, 0], 0) := by decide
  rw [e1] at h1
  rw [e2] at h2
  exact ⟨e1, h1.2.1, e2, h2.2.1⟩

/-! ## Searching for a bit -/

theorem builtin_ctz_loop_first : ∀ (fuel x acc n : Nat), n < fuel → x.testBit n = true →
    (∀ j, j < n → x.testBit j = false) → builtin_ctz_loop fuel x acc = acc + n := by
  intro fuel
  induction fuel with
  | zero =>
    intro x acc n h
    omega
  | succ f ih =>
    intro x acc n hn h1 h0
    unfold builtin_ctz_loop
    cases n with
    | zero =>
      have hx : x % 2 = 1 := by
        rw [Nat.testBit_zero] at h1
        simpa using h1
      rw [if_pos hx]
      rfl
    | succ m =>
      have hx0 := h0 0 (by omega)
      have hx : ¬ x % 2 = 1 := by
        rw [Nat.testBit_zero] at hx0
        simpa using hx0
      rw [if_neg hx, ih (x / 2) (acc + 1) m (by omega)
        (by rw [← Nat.testBit_succ]; exact h1)
        (fun j hj => by rw [← Nat.testBit_succ]; exact h0 (j + 1) (by omega))]
      omega

theorem builtin_ctz_first (x n : Nat) (hn : n < 32) (h1 : x.testBit n = true)
    (h0 : ∀ j, j < n → x.testBit j = false) : builtin_ctz x = some n := by
  have hb : ∀ j, j < 32 → (x % 2 ^ 32).testBit j = x.testBit j := by
    intro j hj
    rw [Nat.testBit_mod_two_pow]
    simp [hj]
  have hne : x % 2 ^ 32 ≠ 0 := by
    intro h
    have h2 := hb n hn
    rw [h, h1] at h2
    simp at h2
  unfold builtin_ctz
  rw [if_neg hne, builtin_ctz_loop_first 32 (x % 2 ^ 32) 0 n hn (by rw [hb n hn]; exact h1)
    (fun j hj => by rw [hb j (by omega)]; exact h0 j hj)]
  simp

theorem testBit_ff00 (m : Nat) :
    (0xFF00 : Nat).testBit m = (decide (8 ≤ m) && decide (m < 16)) := by
  by_cases h : m < 16
  · interval_cases m <;> rfl
  · have hlt : (0xFF00 : Nat) < 2 ^ m :=
      lt_of_lt_of_le (by norm_num : (0xFF00 : Nat) < 2 ^ 16)
        (Nat.pow_le_pow_right (by norm_num) (by omega))
    rw [Nat.testBit_lt_two_pow hlt]
    simp [h]

theorem in_byte_ctz (y k n : Nat) (hk : k ≤ n) (hn : n ≤ 8)
    (h1 : n < 8 → y.testBit n = true) (h0 : ∀ j, k ≤ j → j < n → y.testBit j = false) :
    builtin_ctz ((0xFF00 ||| y) >>> k) = some (n - k) := by
  apply builtin_ctz_first _ _ (by omega)
  · rw [Nat.testBit_shiftRight, Nat.testBit_or, testBit_ff00]
    have e : k + (n - k) = n := by omega
    rw [e]
    by_cases h8 : n < 8
    · rw [h1 h8]
      simp
    · have e8 : n = 8 := by omega
      subst e8
      simp
  · intro j hj
    rw [Nat.testBit_shiftRight, Nat.testBit_or, testBit_ff00, h0 (k + j) (by omega) (by omega)]
    have h8 : ¬ 8 ≤ k + j := by omega
    simp [h8]

theorem int_not_testBit (b j : Nat) (hb : b < 256) (hj : j < 32) :
    (int_not b).testBit j = !b.testBit j := by
  have h32 : (2 : Nat) ^ 32 = 4294967296 := by norm_num
  have hlt : b < 2 ^ 32 := by omega
  have hnot : int_not b = 2 ^ 32 - (b + 1) := by
    unfold int_not
    omega
  rw [hnot, Nat.testBit_two_pow_sub_succ hlt]
  simp [hj]

theorem byte_at (bitset : List Nat) (m : Nat) (hbytes : ∀ x ∈ bitset, x < 256)
    (hm : m < bitset.length) : bitset[m]? = some (bitset.getD m 0) ∧ bitset.getD m 0 < 256 := by
  have h1 : bitset[m]? = some bitset[m] := List.getElem?_eq_getElem hm
  have h2 : bitset.getD m 0 = bitset[m] := by
    rw [List.getD_eq_getElem?_getD, h1]
    rfl
  rw [h2]
  exact ⟨h1, hbytes _ (List.getElem_mem hm)⟩

theorem byte_all_ones (b : Nat) (hb : b < 256) (h : ∀ j, j < 8 → b.testBit j = true) :
    b = 255 := by
  apply Nat.eq_of_testBit_eq
  intro i
  by_cases hi : i < 8
  · rw [h i hi]
    interval_cases i <;> rfl
  · have h1 : b < 2 ^ i :=
      lt_of_lt_of_le (by omega : b < 2 ^ 8) (Nat.pow_le_pow_right (by norm_num) (by omega))
    have h2 : 255 < 2 ^ i :=
      lt_of_lt_of_le (by norm_num : 255 < 2 ^ 8) (Nat.pow_le_pow_right (by norm_num) (by omega))
    rw [Nat.testBit_lt_two_pow h1, Nat.testBit_lt_two_pow h2]

theorem byte_all_zeros (b : Nat) (hb : b < 256) (h : ∀ j, j < 8 → b.testBit j = false) :
    b = 0 := by
  apply Nat.eq_of_testBit_eq
  intro i
  by_cases hi : i < 8
  · rw [h i hi]
    simp
  · have h1 : b < 2 ^ i :=
      lt_of_lt_of_le (by omega : b < 2 ^ 8) (Nat.pow_le_pow_right (by norm_num) (by omega))
    rw [Nat.testBit_lt_two_pow h1]
    simp

theorem index_join (a r : Nat) (ha : 8 * a + r < 2 ^ 64) (hr : r < 8) :
    ((a <<< 3) % 2 ^ 64) ||| (r % 256) = 8 * a + r := by
  have h1 : a <<< 3 = 2 ^ 3 * a := by
    rw [Nat.shiftLeft_eq, Nat.mul_comm]
  have h2 : (2 ^ 3 * a) % 2 ^ 64 = 2 ^ 3 * a := Nat.mod_eq_of_lt (by omega)
  have h3 : r % 256 = r := Nat.mod_eq_of_lt (by omega)
  rw [h1, h2, h3, ← Nat.mul_add_lt_is_or (by omega : r < 2 ^ 3) a]

theorem nextish_raw_0_loop_run (bitset : List Nat) (target : Nat) (htarget : target < 2 ^ 64)
    (hlast : ∃ b, bitset[target]? = some b ∧ b ≠ 255) (d : Nat) :
    ∀ (fuel byte_index : Nat), byte_index + d = target → d < fuel →
      (∀ m, byte_index ≤ m → m < target → bitset[m]? = some 255) →
      bitset_nextish_raw_0_loop bitset fuel byte_index = some target := by
  induction d with
  | zero =>
    intro fuel byte_index hd hf _
    obtain ⟨f, rfl⟩ : ∃ f, fuel = f + 1 := ⟨fuel - 1, by omega⟩
    obtain ⟨b, hb1, hb2⟩ := hlast
    have e : byte_index = target := by omega
    subst e
    unfold bitset_nextish_raw_0_loop
    rw [hb1, Option.some_bind, if_neg hb2]
  | succ d ih =>
    intro fuel byte_index hd hf hall
    obtain ⟨f, rfl⟩ : ∃ f, fuel = f + 1 := ⟨fuel - 1, by omega⟩
    unfold bitset_nextish_raw_0_loop
    rw [hall byte_index (le_refl _) (by omega), Option.some_bind, if_pos rfl,
      Nat.mod_eq_of_lt (by omega : byte_index + 1 < 2 ^ 64)]
    exact ih f (byte_index + 1) (by omega) (by omega)
      (fun m h1 h2 => hall m (by omega) h2)

theorem nextish_raw_1_loop_run (bitset : List Nat) (target : Nat) (htarget : target < 2 ^ 64)
    (hlast : ∃ b, bitset[target]? = some b ∧ b ≠ 0) (d : Nat) :
    ∀ (fuel byte_index : Nat), byte_index + d = target → d < fuel →
      (∀ m, byte_index ≤ m → m < target → bitset[m]? = some 0) →
      bitset_nextish_raw_1_loop bitset fuel byte_index = some target := by
  induction d with
  | zero =>
    intro fuel byte_index hd hf _
    obtain ⟨f, rfl⟩ : ∃ f, fuel = f + 1 := ⟨fuel - 1, by omega⟩
    obtain ⟨b, hb1, hb2⟩ := hlast
    have e : byte_index = target := by omega
    subst e
    unfold bitset_nextish_raw_1_loop
    rw [hb1, Option.some_bind, if_neg hb2]
  | succ d ih =>
    intro fuel byte_index hd hf hall
    obtain ⟨f, rfl⟩ : ∃ f, fuel = f + 1 := ⟨fuel - 1, by omega⟩
    unfold bitset_nextish_raw_1_loop
    rw [hall byte_index (le_refl _) (by omega), Option.some_bind, if_pos rfl,
      Nat.mod_eq_of_lt (by omega : byte_index + 1 < 2 ^ 64)]
    exact ih f (byte_index + 1) (by omega) (by omega)
      (fun m h1 h2 => hall m (by omega) h2)

/-- The first clear bit from the start of a byte on: `bitset_nextish_raw_0`
returns the index `i` when bit `i` is clear and every bit from the start of the
byte of `start` up to `i` is set. -/
theorem nextish_raw_0_first (fuel : Nat) (bitset : List Nat) (start i : Nat)
    (hbytes : ∀ x ∈ bitset, x < 256) (hsize : 8 * bitset.length ≤ 2 ^ 64)
    (hfuel : bitset.length ≤ fuel) (hstart : start / 8 ≤ i / 8) (hi : i < 8 * bitset.length)
    (hbit : (bitset.getD (i / 8) 0).testBit (i % 8) = false)
    (hbefore : ∀ j, 8 * (start / 8) ≤ j → j < i →
      (bitset.getD (j / 8) 0).testBit (j % 8) = true) :
    bitset_nextish_raw_0 fuel bitset start = some i := by
  have hlen : i / 8 < bitset.length := by omega
  obtain ⟨hb1, hb2⟩ := byte_at bitset (i / 8) hbytes hlen
  have hne : bitset.getD (i / 8) 0 ≠ 255 := by
    intro h
    rw [h] at hbit
    have h8 : i % 8 < 8 := Nat.mod_lt _ (by norm_num)
    revert hbit
    generalize i % 8 = r at h8
    interval_cases r <;> decide
  have hloop : bitset_nextish_raw_0_loop bitset fuel (start / 8) = some (i / 8) := by
    apply nextish_raw_0_loop_run bitset (i / 8) (by omega) ⟨_, hb1, hne⟩ (i / 8 - start / 8)
      fuel (start / 8) (by omega) (by omega)
    intro m hm1 hm2
    obtain ⟨hc1, hc2⟩ := byte_at bitset m hbytes (by omega)
    rw [hc1, byte_all_ones _ hc2]
    intro j hj
    have h := hbefore (8 * m + j) (by omega) (by omega)
    have e1 : (8 * m + j) / 8 = m := by omega
    have e2 : (8 * m + j) % 8 = j := by omega
    rw [e1, e2] at h
    exact h
  have hctz : builtin_ctz (int_not (bitset.getD (i / 8) 0)) = some (i % 8) := by
    apply builtin_ctz_first _ _ (by omega)
    · rw [int_not_testBit _ _ hb2 (by omega), hbit]
      rfl
    · intro j hj
      have h := hbefore (8 * (i / 8) + j) (by omega) (by omega)
      have e1 : (8 * (i / 8) + j) / 8 = i / 8 := by omega
      have e2 : (8 * (i / 8) + j) % 8 = j := by omega
      rw [e1, e2] at h
      rw [int_not_testBit _ _ hb2 (by omega), h]
      rfl
  unfold bitset_nextish_raw_0
  rw [(index_split start).1, hloop, Option.some_bind, hb1, Option.some_bind, hctz,
    Option.some_bind]
  simp only
  rw [index_join (i / 8) (i % 8) (by omega) (Nat.mod_lt _ (by norm_num))]
  congr 1
  omega

/-- The first set bit from the start of a byte on: `bitset_nextish_raw_1`
returns the index `i` when bit `i` is set and every bit from the start of the
byte of `start` up to `i` is clear. -/
theorem nextish_raw_1_first (fuel : Nat) (bitset : List Nat) (start i : Nat)
    (hbytes : ∀ x ∈ bitset, x < 256) (hsize : 8 * bitset.length ≤ 2 ^ 64)
    (hfuel : bitset.length ≤ fuel) (hstart : start / 8 ≤ i / 8) (hi : i < 8 * bitset.length)
    (hbit : (bitset.getD (i / 8) 0).testBit (i % 8) = true)
    (hbefore : ∀ j, 8 * (start / 8) ≤ j → j < i →
      (bitset.getD (j / 8) 0).testBit (j % 8) = false) :
    bitset_nextish_raw_1 fuel bitset start = some i := by
  have hlen : i / 8 < bitset.length := by omega
  obtain ⟨hb1, hb2⟩ := byte_at bitset (i / 8) hbytes hlen
  have hne : bitset.getD (i / 8) 0 ≠ 0 := by
    intro h
    rw [h] at hbit
    simp at hbit
  have hloop : bitset_nextish_raw_1_loop bitset fuel (start / 8) = some (i / 8) := by
    apply nextish_raw_1_loop_run bitset (i / 8) (by omega) ⟨_, hb1, hne⟩ (i / 8 - start / 8)
      fuel (start / 8) (by omega) (by omega)
    intro m hm1 hm2
    obtain ⟨hc1, hc2⟩ := byte_at bitset m hbytes (by omega)
    rw [hc1, byte_all_zeros _ hc2]
    intro j hj
    have h := hbefore (8 * m + j) (by omega) (by omega)
    have e1 : (8 * m + j) / 8 = m := by omega
    have e2 : (8 * m + j) % 8 = j := by omega
    rw [e1, e2] at h
    exact h
  have hctz : builtin_ctz (bitset.getD (i / 8) 0) = some (i % 8) := by
    apply builtin_ctz_first _ _ (by omega) hbit
    intro j hj
    have h := hbefore (8 * (i / 8) + j) (by omega) (by omega)
    have e1 : (8 * (i / 8) + j) / 8 = i / 8 := by omega
    have e2 : (8 * (i / 8) + j) % 8 = j := by omega
    rw [e1, e2] at h
    exact h
  unfold bitset_nextish_raw_1
  rw [(index_split start).1, hloop, Option.some_bind, hb1, Option.some_bind, hctz,
    Option.some_bind]
  simp only
  rw [index_join (i / 8) (i % 8) (by omega) (Nat.mod_lt _ (by norm_num))]
  congr 1
  omega

/-- The first clear bit from `start` on: `bitset_next_raw_0` returns the index
`i` when bit `i` is clear and every bit from `start` up to `i` is set. -/
theorem next_raw_0_first (fuel : Nat) (bitset : List Nat) (start i : Nat)
    (hbytes : ∀ x ∈ bitset, x < 256) (hsize : 8 * bitset.length ≤ 2 ^ 64)
    (hfuel : bitset.length ≤ fuel) (hstart : start ≤ i) (hi : i < 8 * bitset.length)
    (hbit : (bitset.getD (i / 8) 0).testBit (i % 8) = false)
    (hbefore : ∀ j, start ≤ j → j < i → (bitset.getD (j / 8) 0).testBit (j % 8) = true) :
    bitset_next_raw_0 fuel bitset start = some i := by
  obtain ⟨hs1, hs2⟩ := index_split start
  obtain ⟨hb1, hb2⟩ := byte_at bitset (start / 8) hbytes (by omega)
  have hk : start % 8 < 8 := Nat.mod_lt _ (by norm_num)
  unfold bitset_next_raw_0
  simp only [hs1, hs2]
  rw [hb1, Option.some_bind]
  by_cases hsame : i / 8 = start / 8
  · have hctz := in_byte_ctz (int_not (bitset.getD (start / 8) 0)) (start % 8) (i % 8)
      (by omega) (by omega)
      (fun _ => by
        rw [int_not_testBit _ _ hb2 (by omega), ← hsame, hbit]
        rfl)
      (fun j hj1 hj2 => by
        have h := hbefore (8 * (start / 8) + j) (by omega) (by omega)
        have e1 : (8 * (start / 8) + j) / 8 = start / 8 := by omega
        have e2 : (8 * (start / 8) + j) % 8 = j := by omega
        rw [e1, e2] at h
        rw [int_not_testBit _ _ hb2 (by omega), h]
        rfl)
    rw [hctz, Option.some_bind]
    rw [Nat.mod_eq_of_lt (by omega : i % 8 - start % 8 < 256), if_pos (by omega)]
    congr 1
    omega
  · have hctz := in_byte_ctz (int_not (bitset.getD (start / 8) 0)) (start % 8) 8
      (by omega) (le_refl _) (fun h => absurd h (by omega))
      (fun j hj1 hj2 => by
        have h := hbefore (8 * (start / 8) + j) (by omega) (by omega)
        have e1 : (8 * (start / 8) + j) / 8 = start / 8 := by omega
        have e2 : (8 * (start / 8) + j) % 8 = j := by omega
        rw [e1, e2] at h
        rw [int_not_testBit _ _ hb2 (by omega), h]
        rfl)
    rw [hctz, Option.some_bind]
    rw [Nat.mod_eq_of_lt (by omega : 8 - start % 8 < 256), if_neg (by omega),
      Nat.mod_eq_of_lt (by omega : start + 8 < 2 ^ 64)]
    exact nextish_raw_0_first fuel bitset (start + 8) i hbytes hsize hfuel (by omega) hi hbit
      (fun j hj1 hj2 => hbefore j (by omega) hj2)

/-- The first set bit from `start` on: `bitset_next_raw_1` returns the index
`i` when bit `i` is set and every bit from `start` up to `i` is clear. -/
theorem next_raw_1_first (fuel : Nat) (bitset : List Nat) (start i : Nat)
    (hbytes : ∀ x ∈ bitset, x < 256) (hsize : 8 * bitset.length ≤ 2 ^ 64)
    (hfuel : bitset.length ≤ fuel) (hstart : start ≤ i) (hi : i < 8 * bitset.length)
    (hbit : (bitset.getD (i / 8) 0).testBit (i % 8) = true)
    (hbefore : ∀ j, start ≤ j → j < i → (bitset.getD (j / 8) 0).testBit (j % 8) = false) :
    bitset_next_raw_1 fuel bitset start = some i := by
  obtain ⟨hs1, hs2⟩ := index_split start
  obtain ⟨hb1, hb2⟩ := byte_at bitset (start / 8) hbytes (by omega)
  have hk : start % 8 < 8 := Nat.mod_lt _ (by norm_num)
  unfold bitset_next_raw_1
  simp only [hs1, hs2]
  rw [hb1, Option.some_bind]
  by_cases hsame : i / 8 = start / 8
  · have hctz := in_byte_ctz (bitset.getD (start / 8) 0) (start % 8) (i % 8)
      (by omega) (by omega)
      (fun _ => by
        rw [← hsame, hbit])
      (fun j hj1 hj2 => by
        have h := hbefore (8 * (start / 8) + j) (by omega) (by omega)
        have e1 : (8 * (start / 8) + j) / 8 = start / 8 := by omega
        have e2 : (8 * (start / 8) + j) % 8 = j := by omega
        rw [e1, e2] at h
        exact h)
    rw [hctz, Option.some_bind]
    rw [Nat.mod_eq_of_lt (by omega : i % 8 - start % 8 < 256), if_pos (by omega)]
    congr 1
    omega
  · have hctz := in_byte_ctz (bitset.getD (start / 8) 0) (start % 8) 8
      (by omega) (le_refl _) (fun h => absurd h (by omega))
      (fun j hj1 hj2 => by
        have h := hbefore (8 * (start / 8) + j) (by omega) (by omega)
        have e1 : (8 * (start / 8) + j) / 8 = start / 8 := by omega
        have e2 : (8 * (start / 8) + j) % 8 = j := by omega
        rw [e1, e2] at h
        exact h)
    rw [hctz, Option.some_bind]
    rw [Nat.mod_eq_of_lt (by omega : 8 - start % 8 < 256), if_neg (by omega),
      Nat.mod_eq_of_lt (by omega : start + 8 < 2 ^ 64)]
    exact nextish_raw_1_first fuel bitset (start + 8) i hbytes hsize hfuel (by omega) hi hbit
      (fun j hj1 hj2 => hbefore j (by omega) hj2)

theorem bitset_get_bit (bitset : List Nat) (j : Nat) :
    (bitset_get bitset j = 0 ↔ (bitset.getD (j / 8) 0).testBit (j % 8) = false) ∧
    (bitset_get bitset j = 1 ↔ (bitset.getD (j / 8) 0).testBit (j % 8) = true) := by
  rw [bitset_get_eq]
  unfold bit_of
  cases h : (bitset.getD (j / 8) 0).testBit (j % 8) <;> simp

/-- C31. Search for a bit: for every bit set of bytes (of at most `2^64` bits),
every start index and every value `v` of 0 or 1 such that some index of the bit
set from `start` on holds bit `v`, `bitset_next_raw` with fuel of at least the
number of bytes returns, and it returns the least index `i >= start` with
`bitset_get(b, i) = v`. -/
theorem bitset_next_raw_least (fuel : Nat) (bitset : List Nat) (start : Nat) (v : Int)
    (hbytes : ∀ x ∈ bitset, x < 256) (hsize : 8 * bitset.length ≤ 2 ^ 64)
    (hv : v = 0 ∨ v = 1) (hfuel : bitset.length ≤ fuel)
    (hex : ∃ j, start ≤ j ∧ j < 8 * bitset.length ∧ bitset_get bitset j = v) :
    ∃ i, bitset_next_raw fuel bitset start v = some i ∧ start ≤ i ∧
      i < 8 * bitset.length ∧ bitset_get bitset i = v ∧
      ∀ j, start ≤ j → j < i → bitset_get bitset j ≠ v := by
  classical
  obtain ⟨h1, h2, h3⟩ := Nat.find_spec hex
  have hmin : ∀ j, start ≤ j → j < Nat.find hex → bitset_get bitset j ≠ v :=
    fun j hj1 hj2 hj3 => Nat.find_min hex hj2 ⟨hj1, by omega, hj3⟩
  refine ⟨Nat.find hex, ?_, h1, h2, h3, hmin⟩
  have hbits : ∀ j, bitset_get bitset j = 0 ∨ bitset_get bitset j = 1 := by
    intro j
    rw [bitset_get_eq]
    unfold bit_of
    split_ifs
    · exact Or.inr rfl
    · exact Or.inl rfl
  unfold bitset_next_raw
  rcases hv with hv | hv
  · subst hv
    rw [if_pos rfl]
    apply next_raw_0_first fuel bitset start _ hbytes hsize hfuel h1 h2
      ((bitset_get_bit bitset _).1.mp h3)
    intro j hj1 hj2
    rcases hbits j with h | h
    · exact absurd h (hmin j hj1 hj2)
    · exact (bitset_get_bit bitset j).2.mp h
  · subst hv
    rw [if_neg (by decide)]
    apply next_raw_1_first fuel bitset start _ hbytes hsize hfuel h1 h2
      ((bitset_get_bit bitset _).2.mp h3)
    intro j hj1 hj2
    rcases hbits j with h | h
    · exact (bitset_get_bit bitset j).1.mp h
    · exact absurd h (hmin j hj1 hj2)

/-- Witness of C31: in the bytes 0xFF, 0xF7, 0x00 the first clear bit from index
2 on is bit 11, found by `bitset_next_raw` with fuel 3. -/
theorem bitset_next_raw_least_witness :
    ∃ i, bitset_next_raw 3 [255, 247, 0] 2 0 = some i ∧ 2 ≤ i ∧ i < 8 * 3 ∧
      bitset_get [255, 247, 0] i = 0 ∧ ∀ j, 2 ≤ j → j < i → bitset_get [255, 247, 0] j ≠ 0 :=
  bitset_next_raw_least 3 [255, 247, 0] 2 0 (by decide) (by decide) (Or.inl rfl) (by decide)
    ⟨11, by decide, by decide, by decide⟩

end Bitset
